import Mathlib

/-! Verification development for `codegenerator`: a shallow embedding of `pkg/placeholder`
(protected-region grammar, extraction and merge) and of the header parser, the template
loader and the render pass of `pkg/templating`.

Text buffers are modelled as lists of Unicode code points (`List Char`), the form in which
Go's `regexp` and `runes.Remove` read UTF-8 text, one rune at a time. A byte buffer that
need not be valid UTF-8 is modelled as the list of what `utf8.DecodeRune` reads from it, a
rune or a byte that is not valid UTF-8 (`placeholder.Buffer`): `crRemover.Bytes` turns it
into text, and the functions of `pkg/placeholder` are given on both. The files and the
rendered contents of the render pass are texts. The pattern of
`findRegexp` is embedded as a term of a small regular-expression syntax, run by a
backtracking matcher with the leftmost-first priorities of Go's `regexp`; so is the pattern
of `headerRegexp`. The expression evaluator of Go's template package is a parameter of the
header parser and of the template stages; the file system and the path functions of the
operating system are parameters of the render pass.
-/

namespace regexp

/-- Regular expressions: the fragment of Go `regexp` syntax that the repository uses.
`str s` is a literal (what `regexp.QuoteMeta` produces), `cls p` a one-character class,
`bol`/`eol` are `^`/`$` under the `m` flag, `bot`/`eot` are `^`/`$` without it,
`star p greedy` is `[p]*` or `[p]*?`, `opt r greedy` is `r?` or `r??`,
`grp i r` is the capturing group number `i`. -/
inductive Re where
  | str (s : List Char)
  | cls (p : Char → Bool)
  | bol
  | eol
  | bot
  | eot
  | cat (a b : Re)
  | star (p : Char → Bool) (greedy : Bool)
  | opt (r : Re) (greedy : Bool)
  | grp (i : Nat) (r : Re)

/-- Capture table: the most recent `(group, (start, end))` entry of a group comes first. -/
abbrev Caps := List (Nat × (Nat × Nat))

/-- Sequence of regular expressions. -/
def Re.seq : List Re → Re
  | [] => .str []
  | [r] => r
  | r :: rs => .cat r (Re.seq rs)

/-- One or more characters of a class: `[p]+` (greedy) or `[p]+?` (lazy). -/
def Re.plus (p : Char → Bool) (greedy : Bool) : Re := .cat (.cls p) (.star p greedy)

/-- Is the cursor at the beginning of a line? `pre` is the text before the cursor, reversed. -/
def atBol : List Char → Bool
  | [] => true
  | c :: _ => c == '\n'

/-- Is the cursor at the end of a line? `rest` is the text from the cursor on. -/
def atEol : List Char → Bool
  | [] => true
  | c :: _ => c == '\n'

/-- Literal match: consumes `s` from the front of the input, or fails. -/
def matchStr {α : Type} (k : List Char → List Char → Option α) :
    List Char → List Char → List Char → Option α
  | [], pre, rest => k pre rest
  | _ :: _, _, [] => none
  | c :: s, pre, x :: rest => if x = c then matchStr k s (x :: pre) rest else none

/-- Greedy repetition of a class: prefers to consume one more character, and gives
characters back one at a time when the continuation fails. -/
def starGreedy {α : Type} (p : Char → Bool) (k : List Char → List Char → Option α) :
    List Char → List Char → Option α
  | pre, [] => k pre []
  | pre, c :: cs =>
    if p c then
      match starGreedy p k (c :: pre) cs with
      | some r => some r
      | none => k pre (c :: cs)
    else k pre (c :: cs)

/-- Lazy repetition of a class: prefers to stop, and consumes one more character
each time the continuation fails. -/
def starLazy {α : Type} (p : Char → Bool) (k : List Char → List Char → Option α) :
    List Char → List Char → Option α
  | pre, [] => k pre []
  | pre, c :: cs =>
    match k pre (c :: cs) with
    | some r => some r
    | none => if p c then starLazy p k (c :: pre) cs else none

/-- Backtracking matcher with leftmost-first priorities, in continuation-passing style.
`pre` is the consumed text reversed, `rest` the remaining input. -/
def Re.run {α : Type} : Re → (List Char → List Char → Caps → Option α) →
    List Char → List Char → Caps → Option α
  | .str s, k, pre, rest, caps => matchStr (fun a b => k a b caps) s pre rest
  | .cls p, k, pre, rest, caps =>
    match rest with
    | [] => none
    | c :: cs => if p c then k (c :: pre) cs caps else none
  | .bol, k, pre, rest, caps => if atBol pre then k pre rest caps else none
  | .eol, k, pre, rest, caps => if atEol rest then k pre rest caps else none
  | .bot, k, pre, rest, caps => if pre.isEmpty then k pre rest caps else none
  | .eot, k, pre, rest, caps => if rest.isEmpty then k pre rest caps else none
  | .cat a b, k, pre, rest, caps => a.run (fun p1 r1 c1 => b.run k p1 r1 c1) pre rest caps
  | .star p true, k, pre, rest, caps => starGreedy p (fun a b => k a b caps) pre rest
  | .star p false, k, pre, rest, caps => starLazy p (fun a b => k a b caps) pre rest
  | .opt r true, k, pre, rest, caps =>
    match r.run k pre rest caps with
    | some x => some x
    | none => k pre rest caps
  | .opt r false, k, pre, rest, caps =>
    match k pre rest caps with
    | some x => some x
    | none => r.run k pre rest caps
  | .grp i r, k, pre, rest, caps =>
    r.run (fun p1 r1 c1 => k p1 r1 ((i, (pre.length, p1.length)) :: c1)) pre rest caps

/-- Anchored attempt at the cursor: the end offset and capture table of the preferred
match that starts exactly here. Group 0 is the whole match. -/
def Re.matchAt (re : Re) (pre rest : List Char) : Option (Nat × Caps) :=
  (Re.grp 0 re).run (fun p1 _ c1 => some (p1.length, c1)) pre rest []

/-- Successive non-overlapping matches, as `Regexp.FindAllSubmatchIndex(data, -1)` delivers
them. The cursor walks over the input; `skip` counts the characters still covered by the
last match, `prevEnd` tells that a match ended exactly at the cursor (an empty match there
is then not delivered). -/
def Re.allMatchesAux (re : Re) : List Char → Nat → Bool → List Char → List Caps
  | [], skip, prevEnd, pre =>
    if skip = 0 then
      match re.matchAt pre [] with
      | some (_, caps) => if prevEnd then [] else [caps]
      | none => []
    else []
  | c :: cs, 0, prevEnd, pre =>
    match re.matchAt pre (c :: cs) with
    | none => re.allMatchesAux cs 0 false (c :: pre)
    | some (e, caps) =>
      if e = pre.length then
        if prevEnd then re.allMatchesAux cs 0 false (c :: pre)
        else caps :: re.allMatchesAux cs 0 false (c :: pre)
      else caps :: re.allMatchesAux cs (e - pre.length - 1) true (c :: pre)
  | c :: cs, skip + 1, prevEnd, pre => re.allMatchesAux cs skip prevEnd (c :: pre)

/-- All matches of `re` in `data`, each as its capture table. -/
def Re.allMatches (re : Re) (data : List Char) : List Caps :=
  re.allMatchesAux data 0 false []

/-- The slice `data[s:e]`. -/
def slice (data : List Char) (s e : Nat) : List Char := (data.drop s).take (e - s)

/-- Text of capture group `i` of a match (empty when the group did not take part). -/
def submatch (data : List Char) (caps : Caps) (i : Nat) : List Char :=
  match caps.lookup i with
  | some (s, e) => slice data s e
  | none => []

/-- Declarative reading of a regular expression: `r.Den pre w post c0 c1` says that `r`
can consume `w` between the reversed left context `pre` and the right context `post`,
turning the capture table `c0` into `c1`. -/
def Re.Den : Re → List Char → List Char → List Char → Caps → Caps → Prop
  | .str s, _, w, _, c0, c1 => w = s ∧ c1 = c0
  | .cls p, _, w, _, c0, c1 => (∃ x, p x = true ∧ w = [x]) ∧ c1 = c0
  | .bol, pre, w, _, c0, c1 => atBol pre = true ∧ w = [] ∧ c1 = c0
  | .eol, _, w, post, c0, c1 => atEol post = true ∧ w = [] ∧ c1 = c0
  | .bot, pre, w, _, c0, c1 => pre = [] ∧ w = [] ∧ c1 = c0
  | .eot, _, w, post, c0, c1 => post = [] ∧ w = [] ∧ c1 = c0
  | .cat a b, pre, w, post, c0, c1 =>
    ∃ w1 w2 cm, w = w1 ++ w2 ∧ a.Den pre w1 (w2 ++ post) c0 cm ∧
      b.Den (w1.reverse ++ pre) w2 post cm c1
  | .star p _, _, w, _, c0, c1 => (∀ x ∈ w, p x = true) ∧ c1 = c0
  | .opt r _, pre, w, post, c0, c1 => (w = [] ∧ c1 = c0) ∨ r.Den pre w post c0 c1
  | .grp i r, pre, w, post, c0, c1 =>
    ∃ cm, r.Den pre w post c0 cm ∧ c1 = (i, (pre.length, pre.length + w.length)) :: cm

/-- Leftmost search: the capture table of the preferred match at the first offset, from the
cursor on, at which the pattern matches. -/
def Re.findAux (re : Re) : List Char → List Char → Option Caps
  | [], pre => (re.matchAt pre []).map Prod.snd
  | c :: cs, pre =>
    match re.matchAt pre (c :: cs) with
    | some (_, caps) => some caps
    | none => re.findAux cs (c :: pre)

/-- The leftmost match of `re` in `data`, as `Regexp.FindStringSubmatchIndex` delivers it. -/
def Re.FindSubmatch (re : Re) (data : List Char) : Option Caps := re.findAux data []

/-- The span of a match: the start and end offsets of its group 0. -/
def spanOf (caps : Caps) : Nat × Nat := (caps.lookup 0).getD (0, 0)

end regexp

namespace utf8

/-- Mirror of `utf8.RuneError`: the replacement character U+FFFD. -/
def RuneError : Char := Char.ofNat 0xFFFD

/-- What a reader of UTF-8 gets at one position of a byte buffer, as `utf8.DecodeRune`
delivers it: a rune in its valid encoding, or one byte that does not start a valid
encoding. -/
inductive Decoded where
  | rune (r : Char)
  | invalid (byte : Nat)
  deriving DecidableEq, Repr

/-- The rune that the reader takes the item for: `RuneError` for a byte that is not valid
UTF-8. -/
def Decoded.read : Decoded → Char
  | .rune r => r
  | .invalid _ => RuneError

end utf8

namespace placeholder

open regexp

/-- A pair of code section markers is named by its comment mark. -/
abbrev CodeSectionMark := List Char

/-- Mirror of `isCR`. -/
def isCR (r : Char) : Bool := r == '\r'

/-- A byte buffer, which may hold bytes that are not valid UTF-8, given as the sequence of
items that a reader of UTF-8 goes through. -/
abbrev Buffer := List utf8.Decoded

/-- The byte buffer of a valid UTF-8 text. -/
def Buffer.ofText (s : List Char) : Buffer := s.map utf8.Decoded.rune

/-- Mirror of `crRemover.Bytes`, the loop of the transformer `runes.Remove` over a byte
buffer: a byte that is not valid UTF-8 is replaced by `RuneError` (unless the predicate
holds of `RuneError`), a rune of which the predicate holds is dropped, and every other rune
is copied. The result is valid UTF-8 and is given as its runes. -/
def crRemover.Bytes : Buffer → List Char
  | [] => []
  | .invalid _ :: rest =>
    if isCR utf8.RuneError then crRemover.Bytes rest
    else utf8.RuneError :: crRemover.Bytes rest
  | .rune r :: rest => if isCR r then crRemover.Bytes rest else r :: crRemover.Bytes rest

/-- The transformer `crRemover` on a text, that is on a buffer of valid UTF-8 given as its
runes: `crRemover.Bytes` of the buffer of the text, which removes every carriage return. -/
def crRemover (data : List Char) : List Char := crRemover.Bytes (Buffer.ofText data)

/-- The class `[\t ]`. -/
def blank (c : Char) : Bool := c == '\t' || c == ' '

/-- The class `[^\n\)]`. -/
def identChar (c : Char) : Bool := !(c == '\n' || c == ')')

/-- The class `.` under the `s` flag. -/
def anyChar (_ : Char) : Bool := true

/-- The begin marker line of the pattern, the body of its group 1:
`[\t ]*Q[\t ]*region CODE_REGION\([\t ]*([^\n\)]+?)[\t ]*\)[\t ]*\n`. -/
def beginLine (m : CodeSectionMark) : Re :=
  Re.seq [
    .star blank true, .str m, .star blank true, .str "region CODE_REGION(".toList,
    .star blank true, .grp 2 (Re.plus identChar false), .star blank true,
    .str [')'], .star blank true, .str ['\n']]

/-- The content of the pattern, the body of its group 3: `.*?\n?`. -/
def contentRe : Re := Re.seq [.star anyChar false, .opt (.str ['\n']) true]

/-- The end marker line of the pattern, the body of its group 4:
`[\t ]*Q[\t ]*endregion[\t ]*`. -/
def endLine (m : CodeSectionMark) : Re :=
  Re.seq [
    .star blank true, .str m, .star blank true, .str "endregion".toList,
    .star blank true]

/-- Mirror of `CodeSectionMark.findRegexp`:
`(?ms)^([\t ]*Q[\t ]*region CODE_REGION\([\t ]*([^\n\)]+?)[\t ]*\)[\t ]*\n)(.*?\n?)([\t ]*Q[\t ]*endregion[\t ]*)$`
with `Q` the quoted mark. -/
def findRegexp (m : CodeSectionMark) : Re :=
  Re.seq [.bol, .grp 1 (beginLine m), .grp 3 contentRe, .grp 4 (endLine m), .eol]

/-- A run of blanks: every character is a tab or a space. -/
def Blank (s : List Char) : Prop := ∀ x ∈ s, blank x = true

/-- The text `b` is a begin marker line for the mark `m` whose identifier group is `ident`,
and `k` is the offset of the identifier in `b`. -/
def IsBegin (m ident b : List Char) (k : Nat) : Prop :=
  ∃ s0 s1 s2 s3 s4, Blank s0 ∧ Blank s1 ∧ Blank s2 ∧ Blank s3 ∧ Blank s4 ∧
    ident ≠ [] ∧ (∀ x ∈ ident, identChar x = true) ∧
    k = (s0 ++ (m ++ (s1 ++ ("region CODE_REGION(".toList ++ s2)))).length ∧
    b = (s0 ++ (m ++ (s1 ++ ("region CODE_REGION(".toList ++ s2)))) ++
      (ident ++ (s3 ++ (')' :: (s4 ++ ['\n']))))

/-- The text `e` is an end marker line for the mark `m`. -/
def IsEnd (m e : List Char) : Prop :=
  ∃ s0 s1 s2, Blank s0 ∧ Blank s1 ∧ Blank s2 ∧
    e = s0 ++ (m ++ (s1 ++ ("endregion".toList ++ s2)))

/-- The text of a begin marker line: indentation, mark, blanks, `region CODE_REGION(`,
blanks, identifier, blanks, `)`, blanks and the newline. -/
def beginText (m s0 s1 s2 ident s3 s4 : List Char) : List Char :=
  s0 ++ (m ++ (s1 ++ ("region CODE_REGION(".toList ++ (s2 ++ (ident ++ (s3 ++
    (')' :: (s4 ++ ['\n']))))))))

/-- The text of an end marker line: indentation, mark, blanks, `endregion`, blanks. -/
def endText (m e0 e1 e2 : List Char) : List Char :=
  e0 ++ (m ++ (e1 ++ ("endregion".toList ++ e2)))

/-- A mark that starts with a character other than a blank and holds no newline, as the
default marks do. -/
def GoodMark (m : List Char) : Prop :=
  (∃ a t, m = a :: t ∧ blank a = false) ∧ '\n' ∉ m

/-- A trimmed identifier: it is not empty, holds neither a newline nor a closing
parenthesis, and neither starts nor ends with a blank. -/
def Trimmed (ident : List Char) : Prop :=
  (∀ x ∈ ident, identChar x = true) ∧ (∃ c t, ident = c :: t ∧ blank c = false) ∧
    (∃ t c, ident = t ++ [c] ∧ blank c = false)

/-- The text `s` without its leading and trailing blanks (spaces and tabs). -/
def trimBlanks (s : List Char) : List Char :=
  ((s.dropWhile blank).reverse.dropWhile blank).reverse

/-- Mirror of the `Placeholder` struct. -/
structure Placeholder where
  Raw : List Char
  Begin : List Char
  Identifier : List Char
  Content : List Char
  End : List Char
  Mark : CodeSectionMark
  deriving DecidableEq, Repr

/-- The placeholder that the loop of `parsePlaceholders` builds from one submatch. -/
def toPlaceholder (m : CodeSectionMark) (data : List Char) (caps : Caps) : Placeholder :=
  { Raw := submatch data caps 0
    Begin := submatch data caps 1
    Identifier := submatch data caps 2
    Content := submatch data caps 3
    End := submatch data caps 4
    Mark := m }

/-- Mirror of `CodeSectionMark.parsePlaceholders` on a buffer of valid UTF-8, given as its
runes; `Buffer.parsePlaceholders` is the function on any byte buffer. -/
def parsePlaceholders (m : CodeSectionMark) (data : List Char) : List Placeholder :=
  let data := crRemover data
  let submatches := (findRegexp m).allMatches data
  submatches.map (toPlaceholder m data)

/-- Mirror of `DefaultCodeSectionMarks`. -/
def DefaultCodeSectionMarks : List CodeSectionMark :=
  ["//".toList, "#".toList, "#pragma ".toList]

/-- The placeholder `t` comes from a match of the region pattern of a default mark that
spans the offsets `s` to `e` of the buffer (its carriage returns removed). -/
def MatchedAt (data : List Char) (t : Placeholder) (s e : Nat) : Prop :=
  ∃ m ∈ DefaultCodeSectionMarks, ∃ caps ∈ (findRegexp m).allMatches (crRemover data),
    caps.lookup 0 = some (s, e) ∧ toPlaceholder m (crRemover data) caps = t

/-- Mirror of `Placeholder.WithContent`. -/
def Placeholder.WithContent (p : Placeholder) (content : List Char) : Placeholder :=
  let newRaw := [] ++ p.Begin
  let newRaw := newRaw ++ content
  let newRaw := newRaw ++ p.End
  { Raw := newRaw
    Begin := p.Begin
    Identifier := p.Identifier
    Content := content
    End := p.End
    Mark := p.Mark }

/-- The text `w` occurs at most once in `s`. -/
def AtMostOnce (w s : List Char) : Prop :=
  ∀ a b a1 b1, s = a ++ (w ++ b) → s = a1 ++ (w ++ b1) → a = a1

/-- The number of occurrences of the text `w` in `s`. -/
def countOcc (w : List Char) : List Char → Nat
  | [] => if w = [] then 1 else 0
  | c :: cs => (if w.isPrefixOf (c :: cs) then 1 else 0) + countOcc w cs

/-- Regions and the gaps after them in a row: each region `t` of `segs` is written as
`f t` and followed by its gap. -/
def weave (f : Placeholder → List Char) : List (Placeholder × List Char) → List Char
  | [] => []
  | (t, g) :: rest => f t ++ (g ++ weave f rest)

/-- What the merge over the state `f` writes for the region `t` of the destination: its
markers around the content of the source placeholder with its identifier, or `f t` when
the source has no such placeholder. -/
def mergedOver (src : List Placeholder) (f : Placeholder → List Char) (t : Placeholder) :
    List Char :=
  match src.find? (fun p => p.Identifier = t.Identifier) with
  | some p => t.Begin ++ p.Content ++ t.End
  | none => f t

/-- What the merge is meant to write for the region `t` of the destination: its markers
around the content of the source placeholder with its identifier, or its own raw text when
the source has no such placeholder. -/
def merged (src : List Placeholder) (t : Placeholder) : List Char :=
  mergedOver src (fun t => t.Raw) t

/-- A placeholder with well-formed marker lines: a begin marker line and an end marker line
of a mark that starts with a character other than a blank and holds no newline, around
its content. -/
def Shaped (t : Placeholder) : Prop :=
  ∃ m ident k, GoodMark m ∧ IsBegin m ident t.Begin k ∧ IsEnd m t.End ∧
    t.Raw = t.Begin ++ (t.Content ++ t.End)

/-- Mirror of `FindAll` on a buffer of valid UTF-8, given as its runes; `Buffer.FindAll` is
the function on any byte buffer. -/
def FindAll (data : List Char) : List Placeholder :=
  DefaultCodeSectionMarks.foldl (fun placeholders mark => placeholders ++ parsePlaceholders mark data) []

/-- Mirror of `bytes.Replace(s, old, new, 1)`: the first occurrence of `old` in `s` is
replaced by `new`; an empty `old` matches at the very beginning. -/
def bytesReplace1 (old new : List Char) : List Char → List Char
  | [] => if old = [] then new else []
  | c :: cs =>
    if old.isPrefixOf (c :: cs) then new ++ (c :: cs).drop old.length
    else c :: bytesReplace1 old new cs

/-- One round of the outer loop of `ReplaceAll`: the inner loop stops at the first
target with the identifier of `placeholder`. -/
def replaceOne (targetPlaceholders : List Placeholder) (data : List Char)
    (placeholder : Placeholder) : List Char :=
  match targetPlaceholders.find? (fun t => t.Identifier = placeholder.Identifier) with
  | some targetPlaceholder =>
    let newPlaceholder := targetPlaceholder.WithContent placeholder.Content
    bytesReplace1 targetPlaceholder.Raw newPlaceholder.Raw data
  | none => data

/-- Mirror of `ReplaceAll` on a buffer of valid UTF-8, given as its runes;
`Buffer.ReplaceAll` is the function on any byte buffer. -/
def ReplaceAll (data : List Char) (placeholders : List Placeholder) : List Char :=
  let data := crRemover data
  let targetPlaceholders := FindAll data
  placeholders.foldl (replaceOne targetPlaceholders) data

/-- The text `data` with every `"\r\n"` replaced by `"\n"` and every other character kept,
a carriage return that no newline follows included. -/
def crlfToLf : List Char → List Char
  | [] => []
  | c :: rest =>
    if c = '\r' ∧ rest.head? = some '\n' then crlfToLf rest else c :: crlfToLf rest

/-- Does the text hold a carriage return that no newline follows? -/
def loneCR : List Char → Bool
  | [] => false
  | c :: rest => (c == '\r' && rest.head? != some '\n') || loneCR rest

/-- The text `data` with every `"\n"` replaced by `"\r\n"`, as `TestFindAndReplaceAllCrLf`
builds its input with `strings.Replace(data, "\n", "\r\n", -1)`. -/
def crlf : List Char → List Char
  | [] => []
  | c :: rest => if c = '\n' then '\r' :: '\n' :: crlf rest else c :: crlf rest

/-- Mirror of `FindAndReplaceAll` on buffers of valid UTF-8, given as their runes;
`Buffer.FindAndReplaceAll` is the function on any byte buffers. -/
def FindAndReplaceAll (src dest : List Char) : List Char :=
  let placeholders := FindAll src
  ReplaceAll dest placeholders

/-- Mirror of `CodeSectionMark.parsePlaceholders`. -/
def Buffer.parsePlaceholders (m : CodeSectionMark) (data : Buffer) : List Placeholder :=
  let data := crRemover.Bytes data
  let submatches := (findRegexp m).allMatches data
  submatches.map (toPlaceholder m data)

/-- Mirror of `FindAll`. -/
def Buffer.FindAll (data : Buffer) : List Placeholder :=
  DefaultCodeSectionMarks.foldl
    (fun placeholders mark => placeholders ++ Buffer.parsePlaceholders mark data) []

/-- Mirror of `ReplaceAll`. After the first statement the buffer is valid UTF-8 without
carriage return, on which `FindAll` is called. The returned buffer is given as its runes. -/
def Buffer.ReplaceAll (data : Buffer) (placeholders : List Placeholder) : List Char :=
  let data := crRemover.Bytes data
  let targetPlaceholders := placeholder.FindAll data
  placeholders.foldl (replaceOne targetPlaceholders) data

/-- Mirror of `FindAndReplaceAll`. -/
def Buffer.FindAndReplaceAll (src dest : Buffer) : List Char :=
  let placeholders := Buffer.FindAll src
  Buffer.ReplaceAll dest placeholders

end placeholder

namespace strings

/-- Mirror of `unicode.IsSpace`: the Latin-1 white space and the other code points with the
property `White_Space`. -/
def isSpace (r : Char) : Bool :=
  r == '\t' || r == '\n' || r.toNat == 0x0B || r.toNat == 0x0C || r == '\r' || r == ' ' ||
    r.toNat == 0x85 || r.toNat == 0xA0 || r.toNat == 0x1680 ||
    (0x2000 ≤ r.toNat && r.toNat ≤ 0x200A) || r.toNat == 0x2028 || r.toNat == 0x2029 ||
    r.toNat == 0x202F || r.toNat == 0x205F || r.toNat == 0x3000

/-- Mirror of `strings.TrimSpace`: the text without its leading and trailing white space. -/
def TrimSpace (s : List Char) : List Char :=
  ((s.dropWhile isSpace).reverse.dropWhile isSpace).reverse

/-- Mirror of `strings.Cut` for a separator of one character: the text before and the text
after the first separator. -/
def Cut (sep : Char) : List Char → Option (List Char × List Char)
  | [] => none
  | c :: cs => if c = sep then some ([], cs) else (Cut sep cs).map (fun ab => (c :: ab.1, ab.2))

/-- Mirror of `strings.SplitN(s, sep, n)` for a separator of one character and `n ≥ 0`: at
most `n` pieces, the last one being the unsplit remainder. -/
def SplitN (sep : Char) : Nat → List Char → List (List Char)
  | 0, _ => []
  | 1, s => [s]
  | n + 2, s =>
    match Cut sep s with
    | none => [s]
    | some (a, b) => a :: SplitN sep (n + 1) b

/-- Mirror of `strings.Fields`: the maximal runs of characters other than white space.
`cur` is the run being read, reversed. -/
def fieldsAux : List Char → List Char → List (List Char)
  | [], cur => if cur = [] then [] else [cur.reverse]
  | c :: cs, cur =>
    if isSpace c then (if cur = [] then fieldsAux cs [] else cur.reverse :: fieldsAux cs [])
    else fieldsAux cs (c :: cur)

/-- Mirror of `strings.Fields`: the white-space-separated tokens of a text. -/
def Fields (s : List Char) : List (List Char) := fieldsAux s []

end strings

namespace strings

/-- The loop of `strings.ReplaceAll` for a non-empty `old`: the cursor walks over the text,
`skip` counts the characters still covered by the last occurrence replaced. -/
def replaceAllAux (old new : List Char) : List Char → Nat → List Char
  | [], _ => []
  | c :: cs, 0 =>
    if old.isPrefixOf (c :: cs) then new ++ replaceAllAux old new cs (old.length - 1)
    else c :: replaceAllAux old new cs 0
  | _ :: cs, skip + 1 => replaceAllAux old new cs skip

/-- Mirror of `strings.ReplaceAll(s, old, new)`: the non-overlapping occurrences of `old` are
replaced from left to right; an empty `old` matches before each character and at the end. -/
def ReplaceAll (s old new : List Char) : List Char :=
  if old = [] then new ++ (s.map (fun c => c :: new)).flatten
  else replaceAllAux old new s 0

end strings

namespace filepath

/-- The loop of `filepath.Ext` over the path read from its end: `ext` is what has been
read. -/
def extAux : List Char → List Char → List Char
  | [], _ => []
  | c :: cs, ext => if c = '/' then [] else if c = '.' then c :: ext else extAux cs (c :: ext)

/-- Mirror of `filepath.Ext` with the separator `/`: the suffix that starts at the last dot
of the last element of the path, or nothing. -/
def Ext (path : List Char) : List Char := extAux path.reverse []

/-- Mirror of `filepath.Split` with the separator `/`: the path up to and with its last
separator, and what follows. -/
def Split (path : List Char) : List Char × List Char :=
  ((path.reverse.dropWhile (fun c => c != '/')).reverse,
    (path.reverse.takeWhile (fun c => c != '/')).reverse)

end filepath

namespace templating

open placeholder

/-- Mirror of the `pathReplace` struct. -/
structure pathReplace where
  old : List Char
  new : List Char
  deriving DecidableEq, Repr

/-- A render gate: the Go function returns a boolean together with an optional error. -/
abbrev Gate (Ctx : Type) := Ctx → Bool × Option String

/-- Mirror of the `Header` struct. -/
structure Header (Ctx : Type) where
  Filename : List Char
  PathReplace : List pathReplace
  Delimiters : List Char × List Char
  IfNotExists : Bool
  If : Option (Gate Ctx)
  /-- Modelled from the spec: the disjunctive gate `IfOr`, which `Render` calls and the
  tests read, but which the struct declaration in `header.go` does not list. -/
  IfOr : Option (Gate Ctx)
  GeneratorCommands : List (List Char)
  RemoveIfEmpty : Bool
  NoGoGenerate : Bool

/-- A parsed template of the expression evaluator (`html/template`): executing it against a
context writes some output to the buffer and may return an error. -/
abbrev Tmpl (Ctx : Type) := Ctx → List Char × Option String

/-- The expression evaluator, `template.New("").Parse(source)`: an external collaborator of
the header parser. -/
abbrev Evaluator (Ctx : Type) := List Char → Except String (Tmpl Ctx)

/-- The class `[a-z-_]`: a lower-case letter, a hyphen or an underscore. -/
def keywordChar (c : Char) : Bool :=
  ('a'.toNat ≤ c.toNat && c.toNat ≤ 'z'.toNat) || c == '-' || c == '_'

/-- The class `.` without the `s` flag: every character but the newline. -/
def notNewline (c : Char) : Bool := c != '\n'

/-- Mirror of `headerRegexp`: `^!!([a-z-_]+)(?:(?:[ \t]+)(.*))?$`, without flags. -/
def headerRegexp : regexp.Re :=
  regexp.Re.seq [.bot, .str "!!".toList, .grp 1 (regexp.Re.plus keywordChar true),
    .opt (regexp.Re.seq [regexp.Re.plus blank true, .grp 2 (.star notNewline true)]) true, .eot]

/-- The errors `ParseHeaders` returns, by the place that builds them. -/
inductive HeaderError where
  | pathreplace
  | ifCondition (err : String)
  | unknown (keyword : List Char) (lineNumber : Nat)
  deriving DecidableEq, Repr

/-- The message of an error of `ParseHeaders`, as `fmt.Errorf` formats it. -/
def HeaderError.message : HeaderError → List Char
  | .pathreplace => "failed to parse `pathreplace` header: it requires 2 valuers".toList
  | .ifCondition err => "failed to parse conditional `if` header: ".toList ++ err.toList
  | .unknown keyword lineNumber =>
    "unknown template meta-header `".toList ++ keyword ++ "` on line ".toList ++
      Nat.toDigits 10 lineNumber

/-- The keyword and the value of a line, when it is a directive:
`headerRegexp.FindStringSubmatch(strings.TrimSpace(line))` and its groups 1 and 2. -/
def matchHeader (line : List Char) : Option (List Char × List Char) :=
  let trimmed := strings.TrimSpace line
  (headerRegexp.FindSubmatch trimmed).map
    (fun caps => (regexp.submatch trimmed caps 1, regexp.submatch trimmed caps 2))

/-- The `switch keyword` of `ParseHeaders`: what one directive does to the header, or the
error it stops the parser with. -/
def applyDirective {Ctx : Type} (ev : Evaluator Ctx) (keyword value : List Char)
    (lineNumber : Nat) (header : Header Ctx) : Except HeaderError (Header Ctx) :=
  if keyword = "filename".toList then .ok { header with Filename := value }
  else if keyword = "pathreplace".toList then
    match strings.SplitN ' ' 2 value with
    | [old, new] =>
      .ok { header with PathReplace := header.PathReplace ++ [{ old := old, new := new }] }
    | _ => .error .pathreplace
  else if keyword = "delimiters".toList then
    match strings.SplitN ' ' 2 value with
    | [] => .ok header
    | [left] => .ok { header with Delimiters := (left, header.Delimiters.2) }
    | left :: right :: _ => .ok { header with Delimiters := (left, right) }
  else if keyword = "if".toList then
    let condition := "\x7b\x7b if ".toList ++ value ++ " \x7d\x7dX\x7b\x7b end \x7d\x7d".toList
    match ev condition with
    | .error err => .error (.ifCondition err)
    | .ok tmpl =>
      .ok { header with
            If := some (fun ctx => (decide ((tmpl ctx).1.length > 0), (tmpl ctx).2)) }
  else if keyword = "if-not-exists".toList then .ok { header with IfNotExists := true }
  else if keyword = "generator-command".toList then
    .ok { header with GeneratorCommands := header.GeneratorCommands ++ [value] }
  else if keyword = "remove-if-empty".toList then .ok { header with RemoveIfEmpty := true }
  else if keyword = "no-go-generate".toList then .ok { header with NoGoGenerate := true }
  else .error (.unknown keyword lineNumber)

/-- The loop of `ParseHeaders` over the unread input. `line` holds, reversed, what
`reader.ReadString('\n')` has read of the current line; at the end of the input the incomplete
line is returned as the body. The result is the header as the parser leaves it, with the
error or the text of the body reader. -/
def parseHeadersLoop {Ctx : Type} (ev : Evaluator Ctx) :
    List Char → List Char → Nat → Header Ctx → Header Ctx × Except HeaderError (List Char)
  | [], line, _, header => (header, .ok line.reverse)
  | c :: rest, line, lineNumber, header =>
    if c = '\n' then
      let line := (c :: line).reverse
      let lineNumber := lineNumber + 1
      match matchHeader line with
      | none => (header, .ok (line ++ rest))
      | some (keyword, value) =>
        match applyDirective ev keyword value lineNumber header with
        | .error err => (header, .error err)
        | .ok header => parseHeadersLoop ev rest [] lineNumber header
    else parseHeadersLoop ev rest (c :: line) lineNumber header

/-- Mirror of `ParseHeaders`: the header after the call, with the error or the text that
the returned body reader delivers. -/
def ParseHeaders {Ctx : Type} (ev : Evaluator Ctx) (r : List Char) (header : Header Ctx) :
    Header Ctx × Except HeaderError (List Char) :=
  parseHeadersLoop ev r [] 0 header

/-- The text of a block of lines, each given without its newline and written with it. -/
def unlines : List (List Char) → List Char
  | [] => []
  | l :: ls => l ++ '\n' :: unlines ls

/-- The header that a block of valid directive lines leaves, the lines being numbered from
`lineNumber + 1` on: each line is a directive that `applyDirective` accepts. There is no
such header when a line of the block is not a directive or is refused. -/
def applyLines {Ctx : Type} (ev : Evaluator Ctx) :
    List (List Char) → Nat → Header Ctx → Option (Header Ctx)
  | [], _, header => some header
  | l :: ls, lineNumber, header =>
    match matchHeader (l ++ ['\n']) with
    | none => none
    | some (keyword, value) =>
      match applyDirective ev keyword value (lineNumber + 1) header with
      | .error _ => none
      | .ok header => applyLines ev ls (lineNumber + 1) header

/-- The keywords that the `switch` of `ParseHeaders` has a case for. -/
def recognisedKeywords : List (List Char) :=
  ["filename".toList, "pathreplace".toList, "delimiters".toList, "if".toList,
    "if-not-exists".toList, "generator-command".toList, "remove-if-empty".toList,
    "no-go-generate".toList]

/-- A keyword in shape: a non-empty run of lower-case letters, hyphens and underscores. -/
def Keyword (kw : List Char) : Prop := kw ≠ [] ∧ ∀ c ∈ kw, keywordChar c = true

/-- White space that stays within a line: no newline. -/
def Spaces (s : List Char) : Prop := ∀ c ∈ s, strings.isSpace c = true ∧ c ≠ '\n'

/-- The blanks `sep` and the argument `value` after the keyword of a directive-shaped line:
both are empty, or the blanks are not and the argument is a text without newline that does
not start with a blank and does not end with white space. -/
def Argument (sep value : List Char) : Prop :=
  (sep = [] ∧ value = []) ∨
    (sep ≠ [] ∧ (∀ c ∈ sep, blank c = true) ∧ '\n' ∉ value ∧
      value.head?.map blank = some false ∧
      value.getLast?.map strings.isSpace = some false)

instance (kw : List Char) : Decidable (Keyword kw) := by
  unfold Keyword; infer_instance

instance (s : List Char) : Decidable (Spaces s) := by
  unfold Spaces; infer_instance

instance (sep value : List Char) : Decidable (Argument sep value) := by
  unfold Argument; infer_instance

/-- The text of a directive-shaped line, without its newline: indentation, `!!`, keyword,
blanks, argument and trailing white space. -/
def directiveLine (indent kw sep value trail : List Char) : List Char :=
  indent ++ ("!!".toList ++ (kw ++ (sep ++ (value ++ trail))))

/-- The zero value of `Header`, as `var header Header` declares it. -/
def Header.zero {Ctx : Type} : Header Ctx :=
  { Filename := [], PathReplace := [], Delimiters := ([], []), IfNotExists := false,
    If := none, IfOr := none, GeneratorCommands := [], RemoveIfEmpty := false,
    NoGoGenerate := false }

/-- The directives that set a field of the header without the expression evaluator, each
with its argument. -/
inductive Directive where
  | filename (value : List Char)
  | pathreplace (old new : List Char)
  | delimiters (left right : List Char)
  | ifNotExists
  | removeIfEmpty
  | noGoGenerate
  | generatorCommand (value : List Char)
  deriving DecidableEq, Repr

/-- The keyword of a directive. -/
def Directive.keyword : Directive → List Char
  | .filename _ => "filename".toList
  | .pathreplace _ _ => "pathreplace".toList
  | .delimiters _ _ => "delimiters".toList
  | .ifNotExists => "if-not-exists".toList
  | .removeIfEmpty => "remove-if-empty".toList
  | .noGoGenerate => "no-go-generate".toList
  | .generatorCommand _ => "generator-command".toList

/-- The argument of a directive as its line writes it: two tokens are separated by one
space. -/
def Directive.argument : Directive → List Char
  | .filename value => value
  | .pathreplace old new => old ++ ' ' :: new
  | .delimiters left right => left ++ ' ' :: right
  | .generatorCommand value => value
  | _ => []

/-- The first token of a directive with two tokens. -/
def Directive.firstToken : Directive → List Char
  | .pathreplace old _ => old
  | .delimiters left _ => left
  | _ => []

/-- What the spec's table says a directive does to the header. -/
def Directive.apply {Ctx : Type} (header : Header Ctx) : Directive → Header Ctx
  | .filename value => { header with Filename := value }
  | .pathreplace old new =>
    { header with PathReplace := header.PathReplace ++ [{ old := old, new := new }] }
  | .delimiters left right => { header with Delimiters := (left, right) }
  | .ifNotExists => { header with IfNotExists := true }
  | .removeIfEmpty => { header with RemoveIfEmpty := true }
  | .noGoGenerate => { header with NoGoGenerate := true }
  | .generatorCommand value =>
    { header with GeneratorCommands := header.GeneratorCommands ++ [value] }

/-- A directive line: a directive with the white space of its line. -/
structure HeaderLine where
  indent : List Char
  sep : List Char
  trail : List Char
  directive : Directive
  deriving DecidableEq, Repr

/-- The text of a directive line, without its newline. -/
def HeaderLine.text (x : HeaderLine) : List Char :=
  directiveLine x.indent x.directive.keyword x.sep x.directive.argument x.trail

/-- A well-formed directive line: white space without newline around it, blanks between the
keyword and the argument, an argument without newline that neither starts with a blank nor
ends with white space, and no space within the first of two tokens. -/
def HeaderLine.WellFormed (x : HeaderLine) : Prop :=
  Spaces x.indent ∧ Spaces x.trail ∧ Argument x.sep x.directive.argument ∧
    ' ' ∉ x.directive.firstToken

instance (x : HeaderLine) : Decidable x.WellFormed := by
  unfold HeaderLine.WellFormed; infer_instance

/-- The arguments of the `filename` directives of a block, in order. -/
def filenamesOf (ds : List Directive) : List (List Char) :=
  ds.filterMap (fun d => match d with | .filename value => some value | _ => none)

/-- The pairs of the `pathreplace` directives of a block, in order. -/
def pathReplacesOf (ds : List Directive) : List pathReplace :=
  ds.filterMap (fun d =>
    match d with | .pathreplace old new => some { old := old, new := new } | _ => none)

/-- The token pairs of the `delimiters` directives of a block, in order. -/
def delimitersOf (ds : List Directive) : List (List Char × List Char) :=
  ds.filterMap (fun d => match d with | .delimiters left right => some (left, right) | _ => none)

/-- The arguments of the `generator-command` directives of a block, in order. -/
def generatorCommandsOf (ds : List Directive) : List (List Char) :=
  ds.filterMap (fun d => match d with | .generatorCommand value => some value | _ => none)

/-- Mirror of the `Template` interface, each method applied to the render context. -/
structure Template (Ctx : Type) where
  GetPath : List Char
  /-- The result of `GetName().Render(ctx)`. -/
  GetName : Ctx → Except String (List Char)
  /-- The result of `GetContent().Render(output, ctx)`: the bytes written to `output`. -/
  GetContent : Ctx → Except String (List Char)
  GetHeader : Header Ctx
  RenderGeneratorCommands : Ctx → Except String (List (List (List Char)))

/-- The operating system as the render pass sees it: path functions, glob matching and
the failures of the file operations. -/
structure Os where
  /-- The function `filepath.Match`. -/
  Match : List Char → List Char → Except String Bool
  /-- The function `filepath.Join`, for two elements. -/
  Join : List Char → List Char → List Char
  /-- The composition `filepath.ToSlash(filepath.Dir(path))`. -/
  Dir : List Char → List Char
  /-- The function `filepath.Rel`, its error dropped. -/
  Rel : List Char → List Char → List Char
  /-- The error of `os.MkdirAll`, when it fails. -/
  MkdirAll : List Char → Option String
  /-- The error of `os.ReadFile` other than "does not exist", when it fails so. -/
  ReadFileErr : List Char → Option String
  /-- The error of `os.WriteFile`, when it fails. -/
  WriteFileErr : List Char → Option String

/-- Regular files of the file system: the content by path. -/
abbrev Files := List Char → Option (List Char)

/-- The file system after `os.WriteFile(path, data)`. -/
def Files.write (fs : Files) (path data : List Char) : Files :=
  fun q => if q = path then some data else fs q

/-- The file system after `os.Remove(path)`. -/
def Files.remove (fs : Files) (path : List Char) : Files :=
  fun q => if q = path then none else fs q

/-- The errors `Render` returns, by the place that builds them. -/
inductive RenderError where
  | name (path : List Char) (err : String)
  | pattern (pattern : List Char) (err : String)
  | ifCondition (path : List Char) (err : String)
  | iforCondition (path : List Char) (err : String)
  | mkdir (err : String)
  | read (err : String)
  | content (path : List Char) (err : String)
  | write (err : String)
  | generatorCommands (err : String)
  deriving DecidableEq, Repr

/-- The named results of `Render` together with the file system. -/
structure RenderState where
  files : Files
  generated : List (List Char)
  cmds : List (List (List Char))

/-- What the body of the loop of `Render` does for one template. -/
inductive Flow where
  | next (s : RenderState)
  | ret (files : Files) (generated : List (List Char)) (cmds : List (List (List Char)))
      (err : RenderError)
  | panic (files : Files)

/-- The inner loop over the patterns: the first pattern that fails to compile aborts,
the first that matches ends the loop. -/
def matchPatterns (os : Os) (relPath : List Char) :
    List (List Char) → Except RenderError Bool
  | [] => .ok false
  | pattern :: rest =>
    match os.Match pattern relPath with
    | .error err => .error (.pattern pattern err)
    | .ok true => .ok true
    | .ok false => matchPatterns os relPath rest

/-- Byte-wise order of strings, as `sort.Strings` uses it. -/
def strLe : List Char → List Char → Bool
  | [], _ => true
  | _ :: _, [] => false
  | a :: as, b :: bs => if a.val < b.val then true else if b.val < a.val then false else strLe as bs

/-- Mirror of `sort.Strings`. -/
def sortStrings (l : List (List Char)) : List (List Char) :=
  l.insertionSort (fun a b => strLe a b = true)

/-- The part of the loop body of `Render` after the gates: directory creation, reading
the existing file, rendering, merging, writing and queuing the commands. -/
def renderWrite {Ctx : Type} (os : Os) (root : List Char) (ctx : Ctx) (tmpl : Template Ctx)
    (relPath : List Char) (s : RenderState) : Flow :=
  let path := os.Join root relPath
  let dirPath := os.Dir path
  match os.MkdirAll dirPath with
  | some err => .ret s.files s.generated s.cmds (.mkdir err)
  | none =>
    match os.ReadFileErr path with
    | some err => .ret s.files s.generated s.cmds (.read err)
    | none =>
      let existingData := s.files path
      if existingData.isSome && tmpl.GetHeader.IfNotExists then
        .next { s with generated := s.generated ++ [path] }
      else
        match tmpl.GetContent ctx with
        | .error err => .ret s.files s.generated s.cmds (.content tmpl.GetPath err)
        | .ok rendered =>
          let output :=
            match existingData with
            | some existing => ReplaceAll existing (FindAll rendered)
            | none => rendered
          if output.length = 0 && tmpl.GetHeader.RemoveIfEmpty then
            .next { s with files := s.files.remove path }
          else
            match os.WriteFileErr path with
            | some err => .ret s.files s.generated s.cmds (.write err)
            | none =>
              let files := s.files.write path output
              let generated := s.generated ++ [path]
              match tmpl.RenderGeneratorCommands ctx with
              | .error err => .ret files generated s.cmds (.generatorCommands err)
              | .ok generatorCmds =>
                let cmds := s.cmds ++ generatorCmds
                let p := os.Rel root path
                let cmds :=
                  if ".go".toList.isSuffixOf p then
                    let cmds := cmds ++ [["goimports".toList, "-l".toList, "-w".toList, "./".toList ++ p]]
                    if !tmpl.GetHeader.NoGoGenerate then
                      cmds ++ [["go".toList, "generate".toList, "./".toList ++ p]]
                    else cmds
                  else cmds
                .next { files := files, generated := generated, cmds := cmds }

/-- The gating part of the loop body of `Render`. Both tests read `If`; the second one
calls `IfOr`, and calling a nil function panics. -/
def renderGates {Ctx : Type} (os : Os) (root : List Char) (ctx : Ctx) (tmpl : Template Ctx)
    (relPath : List Char) (s : RenderState) : Flow :=
  let afterIfOr : Flow :=
    match tmpl.GetHeader.If with
    | none => renderWrite os root ctx tmpl relPath s
    | some _ =>
      match tmpl.GetHeader.IfOr with
      | none => .panic s.files
      | some ifor =>
        match ifor ctx with
        | (_, some err) => .ret s.files [] [] (.iforCondition tmpl.GetPath err)
        | (ok, none) => if !ok then .next s else renderWrite os root ctx tmpl relPath s
  match tmpl.GetHeader.If with
  | none => afterIfOr
  | some cond =>
    match cond ctx with
    | (_, some err) => .ret s.files [] [] (.ifCondition tmpl.GetPath err)
    | (ok, none) => if !ok then .next s else afterIfOr

/-- The body of the loop of `Render` for one template. -/
def renderTemplate {Ctx : Type} (os : Os) (root : List Char) (ctx : Ctx)
    (patterns : List (List Char)) (tmpl : Template Ctx) (s : RenderState) : Flow :=
  match tmpl.GetName ctx with
  | .error err => .ret s.files s.generated s.cmds (.name tmpl.GetPath err)
  | .ok relPath =>
    if patterns.length > 0 then
      match matchPatterns os relPath patterns with
      | .error e => .ret s.files [] [] e
      | .ok false => .next s
      | .ok true => renderGates os root ctx tmpl relPath s
    else renderGates os root ctx tmpl relPath s

/-- The file system that one round of the loop leaves behind. -/
def Flow.files : Flow → Files
  | .next s => s.files
  | .ret files _ _ _ => files
  | .panic files => files

/-- What a call of `Render` ends with. -/
inductive Outcome where
  | returned (files : Files) (generated : List (List Char)) (cmds : List (List (List Char)))
      (err : Option RenderError)
  | panicked (files : Files)

/-- The loop of `Render` over the templates, from a given state. -/
def renderLoop {Ctx : Type} (os : Os) (root : List Char) (ctx : Ctx)
    (patterns : List (List Char)) : List (Template Ctx) → RenderState → Outcome
  | [], s => .returned s.files (sortStrings s.generated) s.cmds none
  | tmpl :: rest, s =>
    match renderTemplate os root ctx patterns tmpl s with
    | .next s1 => renderLoop os root ctx patterns rest s1
    | .ret files generated cmds err => .returned files generated cmds (some err)
    | .panic files => .panicked files

/-- Mirror of `Render`, started on the file system `files`. -/
def Render {Ctx : Type} (os : Os) (files : Files) (templates : List (Template Ctx))
    (root : List Char) (ctx : Ctx) (patterns : List (List Char)) : Outcome :=
  renderLoop os root ctx patterns templates { files := files, generated := [], cmds := [] }

/-- The state that the loop of `Render` reaches after the templates when none of them ends
the pass: the file system, the paths recorded and the commands queued, before the final
sort. -/
def renderSteps {Ctx : Type} (os : Os) (root : List Char) (ctx : Ctx)
    (patterns : List (List Char)) : List (Template Ctx) → RenderState → Option RenderState
  | [], s => some s
  | tmpl :: rest, s =>
    match renderTemplate os root ctx patterns tmpl s with
    | .next s1 => renderSteps os root ctx patterns rest s1
    | _ => none

/-- The text evaluator (`text/template` with the function library of the package), by the
delimiters set with `Delims`: empty delimiters stand for the default ones. -/
abbrev DelimEvaluator (Ctx : Type) := List Char → List Char → Evaluator Ctx

/-- Mirror of `rawTemplateName`. -/
structure rawTemplateName where
  RelPath : List Char
  deriving DecidableEq, Repr

/-- Mirror of `rawTemplateName.Render`. -/
def rawTemplateName.Render {Ctx : Type} (n : rawTemplateName) (_ : Ctx) :
    Except String (List Char) := .ok n.RelPath

/-- Mirror of `templatedTemplateName`. -/
structure templatedTemplateName where
  RelPath : List Char
  Source : List Char
  PathReplace : List pathReplace
  deriving DecidableEq, Repr

/-- Mirror of `templatedTemplateName.Render`. -/
def templatedTemplateName.Render {Ctx : Type} (os : Os) (tv : DelimEvaluator Ctx)
    (n : templatedTemplateName) (ctx : Ctx) : Except String (List Char) :=
  let split := filepath.Split n.RelPath
  let relDir := split.1
  let filename : Except String (List Char) :=
    if n.Source.length > 0 then
      match tv [] [] n.Source with
      | .error err => .error err
      | .ok tmpl =>
        match tmpl ctx with
        | (_, some err) => .error err
        | (name, none) => .ok name
    else .ok split.2
  match filename with
  | .error err => .error err
  | .ok filename =>
    let relDir := n.PathReplace.foldl (fun relDir r => strings.ReplaceAll relDir r.old r.new) relDir
    match tv [] [] relDir with
    | .error err => .error err
    | .ok tmpl =>
      match tmpl ctx with
      | (_, some err) => .error err
      | (newPath, none) => .ok (os.Join newPath filename)

/-- Mirror of the `TemplateName` interface with its two implementations. -/
inductive TemplateName where
  | raw (n : rawTemplateName)
  | templated (n : templatedTemplateName)
  deriving DecidableEq, Repr

/-- The method `Render` of a `TemplateName`. -/
def TemplateName.Render {Ctx : Type} (os : Os) (tv : DelimEvaluator Ctx) :
    TemplateName → Ctx → Except String (List Char)
  | .raw n, ctx => n.Render ctx
  | .templated n, ctx => n.Render os tv ctx

/-- Mirror of the `TemplateContent` interface with its two implementations:
`rawTemplateContent`, whose `Source` is a reader, given by the bytes it has still to deliver,
and `templatedTemplateContent` around another content. -/
inductive TemplateContent where
  | raw (Source : List Char)
  | templated (inner : TemplateContent) (LeftDelimiter RightDelimiter : List Char)
  deriving DecidableEq, Repr

/-- Mirror of `rawTemplateContent.Render` and `templatedTemplateContent.Render`: what is
written to `w`, or the error, together with the content after the call. `io.Copy` reads the
source to its end, so a reader that has been rendered has nothing left. -/
def TemplateContent.Render {Ctx : Type} (tv : DelimEvaluator Ctx) :
    TemplateContent → Ctx → Except String (List Char) × TemplateContent
  | .raw source, _ => (.ok source, .raw [])
  | .templated inner left right, ctx =>
    match inner.Render tv ctx with
    | (.error err, inner) => (.error err, .templated inner left right)
    | (.ok source, inner) =>
      match tv left right source with
      | .error err => (.error err, .templated inner left right)
      | .ok tmpl =>
        match tmpl ctx with
        | (_, some err) => (.error err, .templated inner left right)
        | (output, none) => (.ok output, .templated inner left right)

/-- Mirror of `templateImpl`. -/
structure templateImpl (Ctx : Type) where
  Path : List Char
  Name : TemplateName
  Content : TemplateContent
  Header : Header Ctx

/-- The errors of `templateImpl.RenderGeneratorCommands`, by the place that builds them. -/
inductive GeneratorError where
  | parse (cmd : List Char) (err : String)
  | render (cmd : List Char) (err : String)
  deriving DecidableEq, Repr

/-- The message of an error of `RenderGeneratorCommands`, as `fmt.Errorf` formats it. -/
def GeneratorError.message : GeneratorError → List Char
  | .parse cmd err =>
    "failed to initialize rendering of generator command (".toList ++ cmd ++ "): ".toList ++
      err.toList
  | .render cmd err =>
    "failed to render generator command (".toList ++ cmd ++ "): ".toList ++ err.toList

/-- The loop of `RenderGeneratorCommands` over the generator commands: each command is
parsed and executed into a buffer that is dropped; `commands` is never appended to. -/
def renderGeneratorCommandsLoop {Ctx : Type} (tv : DelimEvaluator Ctx) (ctx : Ctx)
    (commands : List (List (List Char))) :
    List (List Char) → Except GeneratorError (List (List (List Char)))
  | [] => .ok commands
  | cmd :: rest =>
    match tv [] [] cmd with
    | .error err => .error (.parse cmd err)
    | .ok tmpl =>
      match tmpl ctx with
      | (_, some err) => .error (.render cmd err)
      | (_, none) => renderGeneratorCommandsLoop tv ctx commands rest

/-- Mirror of `templateImpl.RenderGeneratorCommands`: the named result `commands` starts as
nil. -/
def templateImpl.RenderGeneratorCommands {Ctx : Type} (tv : DelimEvaluator Ctx)
    (t : templateImpl Ctx) (ctx : Ctx) : Except GeneratorError (List (List (List Char))) :=
  renderGeneratorCommandsLoop tv ctx [] t.Header.GeneratorCommands

/-- The error of `LoadTemplate`: the deferred function wraps the error of `ParseHeaders`
with the path. -/
structure LoadError where
  path : List Char
  err : HeaderError
  deriving DecidableEq, Repr

/-- The message of an error of `LoadTemplate`, as `fmt.Errorf` formats it. -/
def LoadError.message (e : LoadError) : List Char :=
  "loading template from ".toList ++ e.path ++ ": ".toList ++ e.err.message

/-- Mirror of `LoadTemplate`, the reader `r` being given by its bytes. -/
def LoadTemplate {Ctx : Type} (ev : Evaluator Ctx) (path r : List Char) :
    Except LoadError (templateImpl Ctx) :=
  let data := r
  if filepath.Ext path = ".template".toList then
    let stripped := path.take (path.length - 9)
    match ParseHeaders ev data Header.zero with
    | (_, .error err) => .error { path := path, err := err }
    | (header, .ok reader) =>
      let templateName : TemplateName :=
        if header.Filename ≠ [] ∨ header.PathReplace.length > 0 then
          .templated
            { RelPath := stripped, Source := header.Filename, PathReplace := header.PathReplace }
        else .raw { RelPath := stripped }
      let templateContent : TemplateContent :=
        .templated (.raw reader) header.Delimiters.1 header.Delimiters.2
      .ok { Path := path, Name := templateName, Content := templateContent, Header := header }
  else
    .ok { Path := path, Name := .raw { RelPath := path }, Content := .raw data,
          Header := Header.zero }

end templating

/-! ## Sample inputs -/

namespace samples

open placeholder

/-- The buffer of `TestIdentifierParsing` for the identifier `Foo`. -/
def fooRegion : List Char := "// region CODE_REGION(Foo)\nSome data here\n// endregion".toList

/-- The placeholder that `FindAll` finds in `fooRegion`. -/
def fooPlaceholder : Placeholder :=
  { Raw := "// region CODE_REGION(Foo)\nSome data here\n// endregion".toList
    Begin := "// region CODE_REGION(Foo)\n".toList
    Identifier := "Foo".toList
    Content := "Some data here\n".toList
    End := "// endregion".toList
    Mark := "//".toList }

/-- The region `fooRegion` with DOS line endings, between two other lines. -/
def fooCrLf : List Char :=
  "a\r\n// region CODE_REGION(Foo)\r\nSome data here\r\n// endregion\r\nb".toList

/-- An input placeholder with the identifier `Bar`. -/
def barInput : Placeholder :=
  { Raw := [], Begin := [], Identifier := "Bar".toList, Content := "x\n".toList, End := [],
    Mark := [] }

/-- An operating system on which no file operation fails and every pattern matches. -/
def plainOs : templating.Os :=
  { Match := fun _ _ => .ok true
    Join := fun root rel => root ++ '/' :: rel
    Dir := fun path => path
    Rel := fun _ path => path
    MkdirAll := fun _ => none
    ReadFileErr := fun _ => none
    WriteFileErr := fun _ => none }

/-- A header with no directive. -/
def zeroHeader : templating.Header Unit :=
  { Filename := [], PathReplace := [], Delimiters := ([], []), IfNotExists := false,
    If := none, IfOr := none, GeneratorCommands := [], RemoveIfEmpty := false,
    NoGoGenerate := false }

/-- The content of an output file written by an earlier pass and edited since. -/
def existingD : List Char :=
  "Updated text.\n// region CODE_REGION(Foo)\nOLD\n// endregion\nThere too.\n".toList

/-- What the template of that file renders to now. -/
def renderedD : List Char :=
  "Fresh text.\n// region CODE_REGION(Foo)\nNEW\n// endregion\n".toList

/-- A template named `d.txt` that renders to `renderedD`. -/
def templateD : templating.Template Unit :=
  { GetPath := "d.txt".toList
    GetName := fun _ => .ok "d.txt".toList
    GetContent := fun _ => .ok renderedD
    GetHeader := zeroHeader
    RenderGeneratorCommands := fun _ => .ok [] }

/-- A file system that holds `out/d.txt` only. -/
def filesD : templating.Files := fun q => if q = "out/d.txt".toList then some existingD else none

/-- The state of a render pass that starts on `filesD`. -/
def stateD : templating.RenderState := { files := filesD, generated := [], cmds := [] }

/-- A buffer in which the text of a region occurs twice: first after an `x`, where no
region starts, then at the start of a line. -/
def shadowed : List Char :=
  ("x// region CODE_REGION(A)\nfoo\n// endregion\n" ++
    "// region CODE_REGION(A)\nfoo\n// endregion").toList

/-- The placeholder that `FindAll` finds in `shadowed`. -/
def shadowedTarget : Placeholder :=
  { Raw := "// region CODE_REGION(A)\nfoo\n// endregion".toList
    Begin := "// region CODE_REGION(A)\n".toList
    Identifier := "A".toList
    Content := "foo\n".toList
    End := "// endregion".toList
    Mark := "//".toList }

/-- An input placeholder with the identifier `A`. -/
def inputA : Placeholder :=
  { Raw := [], Begin := [], Identifier := "A".toList, Content := "NEW\n".toList, End := [],
    Mark := [] }

/-- A buffer with two regions of the identifier `X`: the first one under `#`, the second
one under `//`. -/
def twoMarks : List Char :=
  ("# region CODE_REGION(X)\na\n# endregion\n" ++
    "// region CODE_REGION(X)\nb\n// endregion\n").toList

/-- An input placeholder with the identifier `X`. -/
def inputX : Placeholder :=
  { Raw := [], Begin := [], Identifier := "X".toList, Content := "NEW\n".toList, End := [],
    Mark := [] }

/-- A fresh render with two regions of the identifier `X` and different contents. -/
def dupR : List Char :=
  ("// region CODE_REGION(X)\na\n// endregion\n" ++
    "// region CODE_REGION(X)\nb\n// endregion\n").toList

/-- An existing file with one region of the identifier `X`. -/
def existingX : List Char := "// region CODE_REGION(X)\nold\n// endregion\n".toList

/-- A fresh render with one region of the identifier `A`. -/
def renderedA : List Char := "// region CODE_REGION(A)\nNEW\n// endregion".toList

/-- A destination with a region `A` under `//` and a region `B` under `#`. -/
def destAB : List Char :=
  ("head\n// region CODE_REGION(A)\nold a\n// endregion\nmid\n" ++
    "# region CODE_REGION(B)\nold b\n# endregion\ntail\n").toList

/-- A source with the regions `B` and `A` and a region `C` that the destination lacks. -/
def srcAB : List Char :=
  ("# region CODE_REGION(B)\nnew b\n# endregion\n" ++
    "// region CODE_REGION(A)\nnew a\n// endregion\n" ++
    "// region CODE_REGION(C)\nunused\n// endregion\n").toList

/-- The region `A` of `destAB`. -/
def regionA : Placeholder :=
  { Raw := "// region CODE_REGION(A)\nold a\n// endregion".toList
    Begin := "// region CODE_REGION(A)\n".toList
    Identifier := "A".toList
    Content := "old a\n".toList
    End := "// endregion".toList
    Mark := "//".toList }

/-- The region `B` of `destAB`. -/
def regionB : Placeholder :=
  { Raw := "# region CODE_REGION(B)\nold b\n# endregion".toList
    Begin := "# region CODE_REGION(B)\n".toList
    Identifier := "B".toList
    Content := "old b\n".toList
    End := "# endregion".toList
    Mark := "#".toList }

/-- The regions of `destAB` in document order, each with the gap after it. -/
def segsAB : List (Placeholder × List Char) :=
  [(regionA, "\nmid\n".toList), (regionB, "\ntail\n".toList)]

/-- A destination with a region `A` under `//` followed by a region `B` under `#`. -/
def destNest : List Char :=
  ("// region CODE_REGION(A)\nold\n// endregion\n" ++
    "# region CODE_REGION(B)\nfoo\n# endregion").toList

/-- A source whose region `A` holds, after an `x`, the text of the region `B` of
`destNest`, and whose region `B` has a new content. -/
def srcNest : List Char :=
  ("// region CODE_REGION(A)\nx# region CODE_REGION(B)\nfoo\n# endregion\n// endregion\n" ++
    "# region CODE_REGION(B)\nNEWB\n# endregion").toList

/-- The regions of `destNest` in document order, each with the gap after it. -/
def segsNest : List (Placeholder × List Char) :=
  [({ Raw := "// region CODE_REGION(A)\nold\n// endregion".toList
      Begin := "// region CODE_REGION(A)\n".toList
      Identifier := "A".toList
      Content := "old\n".toList
      End := "// endregion".toList
      Mark := "//".toList }, "\n".toList),
   ({ Raw := "# region CODE_REGION(B)\nfoo\n# endregion".toList
      Begin := "# region CODE_REGION(B)\n".toList
      Identifier := "B".toList
      Content := "foo\n".toList
      End := "# endregion".toList
      Mark := "#".toList }, [])]

/-- The regions of `srcNest` in document order, each with the gap after it. -/
def srcSegsNest : List (Placeholder × List Char) :=
  [({ Raw := ("// region CODE_REGION(A)\nx# region CODE_REGION(B)\nfoo\n# endregion\n" ++
        "// endregion").toList
      Begin := "// region CODE_REGION(A)\n".toList
      Identifier := "A".toList
      Content := "x# region CODE_REGION(B)\nfoo\n# endregion\n".toList
      End := "// endregion".toList
      Mark := "//".toList }, "\n".toList),
   ({ Raw := "# region CODE_REGION(B)\nNEWB\n# endregion".toList
      Begin := "# region CODE_REGION(B)\n".toList
      Identifier := "B".toList
      Content := "NEWB\n".toList
      End := "# endregion".toList
      Mark := "#".toList }, [])]

/-- An evaluator for the context `Unit`: every source parses, and every template renders to
`X` without error. -/
def unitEvaluator : templating.Evaluator Unit := fun _ => .ok (fun _ => (['X'], none))

/-- The input of `TestParseHeaders`: eight directive lines and a body of two lines. -/
def headersInput : List Char :=
  ("!!filename coucou.txt\n!!delimiters <<< >>>\n!!if-not-exists\n!!remove-if-empty\n" ++
    "!!if 1\n!!no-go-generate\n!!pathreplace oldValue newValue\n" ++
    "!!pathreplace oldValue2 newValue2\nHello\nWorld").toList

/-- The directive lines of `headersInput`, without their newlines. -/
def headersLines : List (List Char) :=
  ["!!filename coucou.txt".toList, "!!delimiters <<< >>>".toList, "!!if-not-exists".toList,
    "!!remove-if-empty".toList, "!!if 1".toList, "!!no-go-generate".toList,
    "!!pathreplace oldValue newValue".toList, "!!pathreplace oldValue2 newValue2".toList]

/-- The directive lines of `TestParseHeaders` other than the `if` line, the first one
indented and the second one with DOS line ending. -/
def headersBlock : List templating.HeaderLine :=
  [{ indent := "  ".toList, sep := " ".toList, trail := [],
     directive := .filename "coucou.txt".toList },
   { indent := [], sep := " \t".toList, trail := "\r".toList,
     directive := .delimiters "<<<".toList ">>>".toList },
   { indent := [], sep := [], trail := [], directive := .ifNotExists },
   { indent := [], sep := [], trail := [], directive := .removeIfEmpty },
   { indent := [], sep := [], trail := [], directive := .noGoGenerate },
   { indent := [], sep := " ".toList, trail := [],
     directive := .pathreplace "oldValue".toList "newValue".toList },
   { indent := [], sep := " ".toList, trail := [],
     directive := .pathreplace "oldValue2".toList "newValue2".toList }]

/-- A context with or without a field `Foo`, a string. -/
abbrev FooCtx := Option (List Char)

/-- The condition of `!!if .Foo` as the evaluator runs it: it renders to `X` when `Foo` is
not empty, to nothing when it is empty, and fails when the context has no field `Foo`. -/
def fooTemplate : templating.Tmpl FooCtx := fun ctx =>
  match ctx with
  | none => ([], some "cannot evaluate field Foo")
  | some [] => ([], none)
  | some (_ :: _) => (['X'], none)

/-- An evaluator for `FooCtx` that knows one source, the condition of `!!if .Foo`. -/
def fooEvaluator : templating.Evaluator FooCtx := fun source =>
  if source = "\x7b\x7b if .Foo \x7d\x7dX\x7b\x7b end \x7d\x7d".toList then .ok fooTemplate
  else .error "unexpected source"

end samples

namespace templating
open placeholder

/-- The produced-path list that a call of `Render` returns (none when it panics). -/
def Outcome.generated : Outcome → List (List Char)
  | .returned _ generated _ _ => generated
  | .panicked _ => []

/-- The command queue that a call of `Render` returns (none when it panics). -/
def Outcome.cmds : Outcome → List (List (List Char))
  | .returned _ _ cmds _ => cmds
  | .panicked _ => []

/-- The error that a call of `Render` returns, if any. -/
def Outcome.err : Outcome → Option RenderError
  | .returned _ _ _ err => err
  | .panicked _ => none

/-- The file system that a call of `Render` leaves. -/
def Outcome.files : Outcome → Files
  | .returned files _ _ _ => files
  | .panicked files => files

/-- The final bytes of a template: the rendered content, or the existing file with the
rendered regions merged in when the output path holds a file. -/
def mergedOutput (existingData : Option (List Char)) (rendered : List Char) : List Char :=
  match existingData with
  | some existing => ReplaceAll existing (FindAll rendered)
  | none => rendered

/-- Does the call of `Render` end in a panic? -/
def Outcome.panics : Outcome → Bool
  | .returned _ _ _ _ => false
  | .panicked _ => true

end templating

namespace samples
open placeholder

/-- A file system without any file. -/
def noFiles : templating.Files := fun _ => none

/-- A state of a render pass on an empty file system. -/
def emptyState : templating.RenderState := { files := noFiles, generated := [], cmds := [] }

/-- A template named `d.txt` whose header has an `ifor` gate that returns false, and no `if`
gate. -/
def templateIfOrOnly : templating.Template Unit :=
  { GetPath := "d.txt".toList
    GetName := fun _ => .ok "d.txt".toList
    GetContent := fun _ => .ok renderedD
    GetHeader := { zeroHeader with IfOr := some (fun _ => (false, none)) }
    RenderGeneratorCommands := fun _ => .ok [] }

/-- A template named `d.txt` whose header has an `if` gate that returns true, and no `ifor`
gate. -/
def templateIfOnly : templating.Template Unit :=
  { GetPath := "d.txt".toList
    GetName := fun _ => .ok "d.txt".toList
    GetContent := fun _ => .ok renderedD
    GetHeader := { zeroHeader with If := some (fun _ => (true, none)) }
    RenderGeneratorCommands := fun _ => .ok [] }

end samples

namespace samples
open placeholder

/-- A template named `d.txt` whose header sets `if-not-exists` and whose content stage
fails. -/
def templateKeep : templating.Template Unit :=
  { GetPath := "d.txt".toList
    GetName := fun _ => .ok "d.txt".toList
    GetContent := fun _ => .error "content error"
    GetHeader := { zeroHeader with IfNotExists := true }
    RenderGeneratorCommands := fun _ => .ok [] }

/-- A template named `a.go` with one follow-up command of its own. -/
def templateGo : templating.Template Unit :=
  { GetPath := "a.go".toList
    GetName := fun _ => .ok "a.go".toList
    GetContent := fun _ => .ok "package a\n".toList
    GetHeader := zeroHeader
    RenderGeneratorCommands := fun _ => .ok [["echo".toList]] }

end samples

namespace samples
open placeholder

/-- A text evaluator that fails to parse the source `bad`, and renders any other source to
itself. -/
def cmdEvaluator : templating.DelimEvaluator Unit := fun _ _ source =>
  if source = "bad".toList then .error "parse error" else .ok (fun _ => (source, none))

/-- A loaded template whose header holds two generator commands that render. -/
def implTwoCommands : templating.templateImpl Unit :=
  { Path := "a.txt".toList
    Name := .raw { RelPath := "a.txt".toList }
    Content := .raw []
    Header := { zeroHeader with GeneratorCommands := ["echo a".toList, "echo b".toList] } }

/-- A loaded template whose second generator command does not parse. -/
def implBadCommand : templating.templateImpl Unit :=
  { Path := "a.txt".toList
    Name := .raw { RelPath := "a.txt".toList }
    Content := .raw []
    Header := { zeroHeader with
                GeneratorCommands := ["echo a".toList, "bad".toList, "echo b".toList] } }

end samples

namespace samples
open placeholder

/-- A template named `a.txt`. -/
def templateA : templating.Template Unit :=
  { GetPath := "a.txt".toList
    GetName := fun _ => .ok "a.txt".toList
    GetContent := fun _ => .ok "A\n".toList
    GetHeader := zeroHeader
    RenderGeneratorCommands := fun _ => .ok [] }

/-- A template named `b.txt`. -/
def templateB : templating.Template Unit :=
  { GetPath := "b.txt".toList
    GetName := fun _ => .ok "b.txt".toList
    GetContent := fun _ => .ok "B\n".toList
    GetHeader := zeroHeader
    RenderGeneratorCommands := fun _ => .ok [] }

end samples

namespace samples
open placeholder

/-- An operating system on which no file operation fails and a pattern matches the path
equal to it. -/
def exactOs : templating.Os :=
  { plainOs with Match := fun pattern relPath => .ok (decide (pattern = relPath)) }

/-- Three templates for a context that is a text: `a.txt`, `b.txt` and `c-` followed by the
context and `.txt`. -/
def packFoo : List (templating.Template (List Char)) :=
  [{ GetPath := "a.txt".toList
     GetName := fun _ => .ok "a.txt".toList
     GetContent := fun _ => .ok "A\n".toList
     GetHeader := templating.Header.zero
     RenderGeneratorCommands := fun _ => .ok [] },
   { GetPath := "b.txt".toList
     GetName := fun _ => .ok "b.txt".toList
     GetContent := fun _ => .ok "B\n".toList
     GetHeader := templating.Header.zero
     RenderGeneratorCommands := fun _ => .ok [] },
   { GetPath := "c.txt.template".toList
     GetName := fun ctx => .ok ("c-".toList ++ ctx ++ ".txt".toList)
     GetContent := fun ctx => .ok ctx
     GetHeader := templating.Header.zero
     RenderGeneratorCommands := fun _ => .ok [] }]

end samples

namespace samples
open placeholder

/-- A template whose name stage fails. -/
def templateNameErr : templating.Template Unit :=
  { GetPath := "n.txt".toList
    GetName := fun _ => .error "name error"
    GetContent := fun _ => .ok []
    GetHeader := zeroHeader
    RenderGeneratorCommands := fun _ => .ok [] }

/-- A template named `e.txt` whose `if` gate fails. -/
def templateGateErr : templating.Template Unit :=
  { GetPath := "e.txt".toList
    GetName := fun _ => .ok "e.txt".toList
    GetContent := fun _ => .ok []
    GetHeader := { zeroHeader with If := some (fun _ => (false, some "gate error")) }
    RenderGeneratorCommands := fun _ => .ok [] }

/-- A template named `g.txt` whose follow-up commands fail to render. -/
def templateCmdErr : templating.Template Unit :=
  { GetPath := "g.txt".toList
    GetName := fun _ => .ok "g.txt".toList
    GetContent := fun _ => .ok "G\n".toList
    GetHeader := zeroHeader
    RenderGeneratorCommands := fun _ => .error "command error" }

end samples

namespace samples

/-- A region whose end marker follows the text `foo` on the same line. -/
def endAfterText : List Char := "// region CODE_REGION(A)\nfoo// endregion".toList

/-- The placeholder that `FindAll` finds in `endAfterText`. -/
def endAfterTextPlaceholder : placeholder.Placeholder :=
  { Raw := "// region CODE_REGION(A)\nfoo// endregion".toList
    Begin := "// region CODE_REGION(A)\n".toList
    Identifier := "A".toList
    Content := "foo".toList
    End := "// endregion".toList
    Mark := "//".toList }

/-- A buffer with two regions of different identifiers, one under `//` and one under `#`. -/
def twoRegions : List Char :=
  ("// region CODE_REGION(A)\na\n// endregion\nmid\n" ++
    "# region CODE_REGION(B)\nb\n# endregion\n").toList

end samples

namespace samples

/-- An operating system like `plainOs` whose `Join` puts one separator between a directory
and a file name, also when the directory already ends with one, as `filepath.Join` does on
such paths. -/
def slashOs : templating.Os :=
  { plainOs with
    Join := fun dir name => if dir.getLast? = some '/' then dir ++ name else dir ++ '/' :: name }

/-- A templated name for the relative path `a/x/a.txt` with no file-name expression and the
rewrite pairs `a -> b` and `b -> c`. -/
def nameRewritten : templating.templatedTemplateName :=
  { RelPath := "a/x/a.txt".toList
    Source := []
    PathReplace := [{ old := "a".toList, new := "b".toList },
      { old := "b".toList, new := "c".toList }] }

end samples

namespace templating
open placeholder

/-- A line of the input of `ParseHeaders` with its layout: white space before the text and
white space after it, the newline not included. -/
structure PaddedLine where
  indent : List Char
  text : List Char
  trail : List Char
  deriving DecidableEq, Repr

/-- The line as it is written with its surrounding white space. -/
def PaddedLine.padded (l : PaddedLine) : List Char := l.indent ++ (l.text ++ l.trail)

/-- The surrounding white space stays within the line, and so does the text. -/
def PaddedLine.Admissible (l : PaddedLine) : Prop :=
  Spaces l.indent ∧ Spaces l.trail ∧ '\n' ∉ l.text

instance (l : PaddedLine) : Decidable l.Admissible := by
  unfold PaddedLine.Admissible; infer_instance

/-- Two results of `ParseHeaders` with the same header fields and the same error status:
both calls fail with the same error, or both return a body. -/
def SameOutcome {Ctx : Type} (a b : Header Ctx × Except HeaderError (List Char)) : Prop :=
  a.1 = b.1 ∧ (∀ err, a.2 = .error err ↔ b.2 = .error err) ∧
    ((∃ body, a.2 = .ok body) ↔ ∃ body, b.2 = .ok body)

end templating

namespace samples

/-- Two directive lines of `TestParseHeaders` and a body line, laid out with indentation,
trailing blanks and carriage returns. -/
def paddedLines : List templating.PaddedLine :=
  [{ indent := "  ".toList, text := "!!filename coucou.txt".toList, trail := "\r".toList },
   { indent := "\t".toList, text := "!!if-not-exists".toList, trail := " \t\r".toList },
   { indent := [], text := "Hello".toList, trail := "\r".toList }]

end samples

namespace samples

/-- A region whose parentheses hold one space and nothing else. -/
def blankIdentifier : List Char := "// region CODE_REGION( )\nx\n// endregion".toList

end samples

namespace samples
open placeholder

/-- The byte buffer `"a\xffb"`: the byte `0xff` is not valid UTF-8. -/
def invalidByte : Buffer := [.rune 'a', .invalid 0xFF, .rune 'b']

/-- The byte buffer `"\xff\n"`. -/
def invalidLine : Buffer := [.invalid 0xFF, .rune '\n']

end samples

namespace samples
open placeholder

/-- The byte buffer `"\xff\n"` followed by the text `existingD`: a byte that is not valid
UTF-8 stands before the region `Foo`. -/
def invalidHead : Buffer := [.invalid 0xFF, .rune '\n'] ++ Buffer.ofText existingD

/-- An input placeholder with the identifier `Foo`. -/
def inputFoo : Placeholder :=
  { Raw := [], Begin := [], Identifier := "Foo".toList, Content := "NEW\n".toList, End := [],
    Mark := [] }

/-- The placeholder that `FindAll` finds in `existingD` and in `invalidHead`. -/
def existingFoo : Placeholder :=
  { Raw := "// region CODE_REGION(Foo)\nOLD\n// endregion".toList
    Begin := "// region CODE_REGION(Foo)\n".toList
    Identifier := "Foo".toList
    Content := "OLD\n".toList
    End := "// endregion".toList
    Mark := "//".toList }

end samples

namespace samples

/-- A buffer with three regions: `A` under `//`, `B` under `#` and `C` under `//`. -/
def threeRegions : List Char :=
  ("// region CODE_REGION(A)\na\n// endregion\nmid\n" ++
    "# region CODE_REGION(B)\nb\n# endregion\n" ++
    "// region CODE_REGION(C)\nc\n// endregion\n").toList

end samples

namespace samples
open placeholder

/-- The region of `existingD` with the gap after it. -/
def segsD : List (Placeholder × List Char) := [(existingFoo, "\nThere too.\n".toList)]

end samples

namespace placeholder

/-- A region of a document, piece by piece: the mark, the blanks and the identifier of its
marker lines, and the content between the two marker lines. -/
structure Region where
  mark : CodeSectionMark
  s0 : List Char
  s1 : List Char
  s2 : List Char
  ident : List Char
  s3 : List Char
  s4 : List Char
  content : List Char
  e0 : List Char
  e1 : List Char
  e2 : List Char
  deriving DecidableEq, Repr

/-- The begin marker line of the region, with its newline. -/
def Region.Begin (r : Region) : List Char :=
  beginText r.mark r.s0 r.s1 r.s2 r.ident r.s3 r.s4

/-- The end marker line of the region. -/
def Region.End (r : Region) : List Char := endText r.mark r.e0 r.e1 r.e2

/-- The region as a placeholder. -/
def Region.toPlaceholder (r : Region) : Placeholder :=
  { Raw := r.Begin ++ (r.content ++ r.End)
    Begin := r.Begin
    Identifier := r.ident
    Content := r.content
    End := r.End
    Mark := r.mark }

/-- A content made of whole lines that holds no marker word: it is empty or ends with a
newline, and holds neither the text `region CODE_REGION(` nor the text `endregion`. -/
def PlainContent (c : List Char) : Prop :=
  (c = [] ∨ c.getLast? = some '\n') ∧ ¬ "region CODE_REGION(".toList <:+: c ∧
    ¬ "endregion".toList <:+: c

instance (s : List Char) : Decidable (Blank s) := by
  unfold Blank
  infer_instance

instance (c : List Char) : Decidable (PlainContent c) := by
  unfold PlainContent
  infer_instance

/-- A well-formed region: a default mark, blanks where the pattern takes blanks, a trimmed
identifier, and a content made of whole lines that holds no marker word. -/
def Region.WellFormed (r : Region) : Prop :=
  r.mark ∈ DefaultCodeSectionMarks ∧ Blank r.s0 ∧ Blank r.s1 ∧ Blank r.s2 ∧ Blank r.s3 ∧
    Blank r.s4 ∧ Trimmed r.ident ∧ Blank r.e0 ∧ Blank r.e1 ∧ Blank r.e2 ∧
    PlainContent r.content

/-- The regions of a document as placeholders, each with the gap after it. -/
def segments (segs : List (Region × List Char)) : List (Placeholder × List Char) :=
  segs.map (fun x => (x.1.toPlaceholder, x.2))

/-- The text of a document: a head, then each region followed by its gap. -/
def docText (g0 : List Char) (segs : List (Region × List Char)) : List Char :=
  g0 ++ weave (fun t => t.Raw) (segments segs)

/-- The gaps after the regions of a document: a gap does not hold the text
`region CODE_REGION(`, it starts with the newline that ends the end marker line (or is empty
at the end of the document), and it ends with a newline when a region follows. -/
def TailOk : List (Region × List Char) → Prop
  | [] => True
  | (_, g) :: rest =>
    ¬ "region CODE_REGION(".toList <:+: g ∧ ((g = [] ∧ rest = []) ∨ g.head? = some '\n') ∧
      (rest ≠ [] → g.getLast? = some '\n') ∧ TailOk rest

/-- The head of a document: it does not hold the text `region CODE_REGION(`, and it is empty
or ends with a newline when a region follows. -/
def HeadOk (g0 : List Char) (segs : List (Region × List Char)) : Prop :=
  ¬ "region CODE_REGION(".toList <:+: g0 ∧ (segs ≠ [] → g0 = [] ∨ g0.getLast? = some '\n')

/-- The region with the content of the first placeholder of `src` that has its identifier,
when there is one. -/
def Region.merge (src : List Placeholder) (r : Region) : Region :=
  match src.find? (fun p => p.Identifier = r.ident) with
  | some p => { r with content := p.Content }
  | none => r

/-- What the loop of `ReplaceAll` with the targets `T` writes for the region `t` of the
destination: the loop works on the first placeholder of `T` with a given identifier only, so
a region that is not the first of `T` with its identifier stays as `f t`. -/
def mergedFirst (T src : List Placeholder) (f : Placeholder → List Char) (t : Placeholder) :
    List Char :=
  if T.find? (fun u => u.Identifier = t.Identifier) = some t then mergedOver src f t else f t

/-- The region as the loop of `ReplaceAll` with the targets `T` leaves it: the first region
of `T` with its identifier takes the content of the placeholder of `src` with that
identifier, the other regions stay as they are. -/
def Region.mergeFirst (T src : List Placeholder) (r : Region) : Region :=
  if T.find? (fun u => u.Identifier = r.ident) = some r.toPlaceholder then r.merge src else r

/-- The regions of a document in the order in which `FindAll` lists them, mark by mark. -/
def byMark (segs : List (Region × List Char)) : List (Region × List Char) :=
  segs.filter (fun x => x.1.mark = "//".toList) ++
    (segs.filter (fun x => x.1.mark = "#".toList) ++
      segs.filter (fun x => x.1.mark = "#pragma ".toList))

end placeholder

namespace samples
open placeholder

/-- The region `A` under the mark `//`, with the content `old a`. -/
def oldA : Region :=
  { mark := "//".toList, s0 := [], s1 := [' '], s2 := [], ident := "A".toList, s3 := [],
    s4 := [], content := "old a\n".toList, e0 := [], e1 := [' '], e2 := [] }

/-- The region `B` under the mark `#`, indented, without content. -/
def emptyB : Region :=
  { mark := "#".toList, s0 := [' ', ' '], s1 := [' '], s2 := [], ident := "B".toList, s3 := [],
    s4 := [], content := [], e0 := [' ', ' '], e1 := [' '], e2 := [] }

/-- The region `A` under the mark `#`, with the content `k`. -/
def hashA : Region :=
  { mark := "#".toList, s0 := [], s1 := [' '], s2 := [], ident := "A".toList, s3 := [],
    s4 := [], content := "k\n".toList, e0 := [], e1 := [' '], e2 := [] }

/-- The region `A` under `#`, the region `A` under `//` and the region `B`, each with the gap
after it. -/
def segsE : List (Region × List Char) :=
  [(hashA, "\n".toList), (oldA, "\n\uFFFD\n".toList), (emptyB, "\nt".toList)]

/-- An existing file with DOS line endings and a byte that is not valid UTF-8: a head, a
region `A` under `#`, a region `A` under `//`, a gap that holds the byte, the region `B`
without content and a tail. -/
def existingE : Buffer :=
  Buffer.ofText ("h\r\n# region CODE_REGION(A)\r\nk\r\n# endregion\r\n" ++
      "// region CODE_REGION(A)\r\nold a\r\n// endregion\r\n").toList ++
    (utf8.Decoded.invalid 0xE9 ::
      Buffer.ofText "\r\n  # region CODE_REGION(B)\r\n  # endregion\r\nt".toList)

/-- A fresh render with the region `A`, with DOS line endings, and a region `C` without
content. -/
def renderedAC : Buffer :=
  Buffer.ofText ("// region CODE_REGION(A)\r\nnew a\r\nmore\r\n// endregion\r\n" ++
    "x\r\n// region CODE_REGION(C)\r\n// endregion\r\n").toList

/-- A fresh render in which the content of the region `A` holds a begin marker line of the
region `B`. -/
def nestedR : List Char :=
  ("// region CODE_REGION(A)\n# region CODE_REGION(B)\n// endregion\n" ++
    "# region CODE_REGION(B)\nz\n# endregion\n").toList

/-- An existing file with the regions `A` and `B`. -/
def existingAB : List Char :=
  ("// region CODE_REGION(A)\nold\n// endregion\n" ++
    "# region CODE_REGION(B)\ny\n# endregion\n").toList

/-- A fresh render in which the content of the region `A` holds an end marker line of the
mark `#`. -/
def endR : List Char := "// region CODE_REGION(A)\n# endregion\n// endregion\n".toList

/-- An existing file with the region `A` under the mark `#`. -/
def existingHashA : List Char := "# region CODE_REGION(A)\nold\n# endregion\n".toList

/-- An existing file with two regions: the identifier of the first one holds the begin marker
line of the second one, the region `A`, but for its newline. -/
def identE : List Char :=
  ("// region CODE_REGION(// region CODE_REGION(A)\nx\n// endregion\n" ++
    "// region CODE_REGION(A)\nx\n// endregion\n").toList

end samples

/-! ## Properties of the matcher -/

namespace regexp

theorem matchStr_some {α : Type} (k : List Char → List Char → Option α) (s : List Char) :
    ∀ (pre rest : List Char) (res : α), matchStr k s pre rest = some res →
      ∃ post, rest = s ++ post ∧ k (s.reverse ++ pre) post = some res := by
  induction s with
  | nil => intro pre rest res h; exact ⟨rest, rfl, by simpa [matchStr] using h⟩
  | cons c s ih =>
    intro pre rest res h
    cases rest with
    | nil => simp [matchStr] at h
    | cons x rest =>
      simp only [matchStr] at h
      split at h
      · next hx =>
        obtain ⟨post, h1, h2⟩ := ih _ _ _ h
        exact ⟨post, by simp [h1, hx], by simpa [hx] using h2⟩
      · simp at h

theorem starGreedy_some {α : Type} (p : Char → Bool) (k : List Char → List Char → Option α) :
    ∀ (rest pre : List Char) (res : α), starGreedy p k pre rest = some res →
      ∃ w post, rest = w ++ post ∧ (∀ x ∈ w, p x = true) ∧
        k (w.reverse ++ pre) post = some res := by
  intro rest
  induction rest with
  | nil => intro pre res h; exact ⟨[], [], rfl, by simp, by simpa [starGreedy] using h⟩
  | cons c cs ih =>
    intro pre res h
    simp only [starGreedy] at h
    split at h
    · next hp =>
      split at h
      · next r hr =>
        obtain ⟨w, post, h1, h2, h3⟩ := ih _ _ hr
        refine ⟨c :: w, post, by simp [h1], ?_, ?_⟩
        · intro x hx
          rcases List.mem_cons.1 hx with rfl | hx
          · exact hp
          · exact h2 x hx
        · simp only [Option.some.injEq] at h
          subst h
          simpa using h3
      · exact ⟨[], c :: cs, rfl, by simp, by simpa using h⟩
    · exact ⟨[], c :: cs, rfl, by simp, by simpa using h⟩

theorem starLazy_some {α : Type} (p : Char → Bool) (k : List Char → List Char → Option α) :
    ∀ (rest pre : List Char) (res : α), starLazy p k pre rest = some res →
      ∃ w post, rest = w ++ post ∧ (∀ x ∈ w, p x = true) ∧
        k (w.reverse ++ pre) post = some res := by
  intro rest
  induction rest with
  | nil => intro pre res h; exact ⟨[], [], rfl, by simp, by simpa [starLazy] using h⟩
  | cons c cs ih =>
    intro pre res h
    simp only [starLazy] at h
    split at h
    · next r hr =>
      simp only [Option.some.injEq] at h
      subst h
      exact ⟨[], c :: cs, rfl, by simp, by simpa using hr⟩
    · split at h
      · next hp =>
        obtain ⟨w, post, h1, h2, h3⟩ := ih _ _ h
        refine ⟨c :: w, post, by simp [h1], ?_, by simpa using h3⟩
        intro x hx
        rcases List.mem_cons.1 hx with rfl | hx
        · exact hp
        · exact h2 x hx
      · simp at h

/-- Soundness of the matcher: a successful run consumed a word that the expression
denotes, and handed the rest to its continuation. -/
theorem Re.run_sound {α : Type} (r : Re) :
    ∀ (k : List Char → List Char → Caps → Option α) (pre rest : List Char) (caps : Caps)
      (res : α), r.run k pre rest caps = some res →
      ∃ w post c1, rest = w ++ post ∧ r.Den pre w post caps c1 ∧
        k (w.reverse ++ pre) post c1 = some res := by
  induction r with
  | str s =>
    intro k pre rest caps res h
    obtain ⟨post, h1, h2⟩ := matchStr_some _ _ _ _ _ h
    exact ⟨s, post, caps, h1, ⟨rfl, rfl⟩, h2⟩
  | cls p =>
    intro k pre rest caps res h
    cases rest with
    | nil => simp [Re.run] at h
    | cons c cs =>
      simp only [Re.run] at h
      split at h
      · next hp => exact ⟨[c], cs, caps, rfl, ⟨⟨c, hp, rfl⟩, rfl⟩, by simpa using h⟩
      · simp at h
  | bol =>
    intro k pre rest caps res h
    simp only [Re.run] at h
    split at h
    · next hp => exact ⟨[], rest, caps, rfl, ⟨hp, rfl, rfl⟩, by simpa using h⟩
    · simp at h
  | eol =>
    intro k pre rest caps res h
    simp only [Re.run] at h
    split at h
    · next hp => exact ⟨[], rest, caps, rfl, ⟨hp, rfl, rfl⟩, by simpa using h⟩
    · simp at h
  | bot =>
    intro k pre rest caps res h
    simp only [Re.run] at h
    split at h
    · next hp =>
      exact ⟨[], rest, caps, rfl, ⟨by simpa using hp, rfl, rfl⟩, by simpa using h⟩
    · simp at h
  | eot =>
    intro k pre rest caps res h
    simp only [Re.run] at h
    split at h
    · next hp =>
      exact ⟨[], rest, caps, rfl, ⟨by simpa using hp, rfl, rfl⟩, by simpa using h⟩
    · simp at h
  | cat a b iha ihb =>
    intro k pre rest caps res h
    simp only [Re.run] at h
    obtain ⟨w1, post1, cm, h1, h2, h3⟩ := iha _ _ _ _ _ h
    obtain ⟨w2, post, c1, h4, h5, h6⟩ := ihb _ _ _ _ _ h3
    subst h4
    refine ⟨w1 ++ w2, post, c1, by simp [h1], ⟨w1, w2, cm, rfl, h2, h5⟩, by simpa using h6⟩
  | star p g =>
    intro k pre rest caps res h
    cases g with
    | true =>
      simp only [Re.run] at h
      obtain ⟨w, post, h1, h2, h3⟩ := starGreedy_some _ _ _ _ _ h
      exact ⟨w, post, caps, h1, ⟨h2, rfl⟩, h3⟩
    | false =>
      simp only [Re.run] at h
      obtain ⟨w, post, h1, h2, h3⟩ := starLazy_some _ _ _ _ _ h
      exact ⟨w, post, caps, h1, ⟨h2, rfl⟩, h3⟩
  | opt r g ih =>
    intro k pre rest caps res h
    cases g with
    | true =>
      simp only [Re.run] at h
      split at h
      · next x hx =>
        simp only [Option.some.injEq] at h
        subst h
        obtain ⟨w, post, c1, h1, h2, h3⟩ := ih _ _ _ _ _ hx
        exact ⟨w, post, c1, h1, Or.inr h2, h3⟩
      · exact ⟨[], rest, caps, rfl, Or.inl ⟨rfl, rfl⟩, by simpa using h⟩
    | false =>
      simp only [Re.run] at h
      split at h
      · next x hx =>
        simp only [Option.some.injEq] at h
        subst h
        exact ⟨[], rest, caps, rfl, Or.inl ⟨rfl, rfl⟩, by simpa using hx⟩
      · obtain ⟨w, post, c1, h1, h2, h3⟩ := ih _ _ _ _ _ h
        exact ⟨w, post, c1, h1, Or.inr h2, h3⟩
  | grp i r ih =>
    intro k pre rest caps res h
    simp only [Re.run] at h
    obtain ⟨w, post, c1, h1, h2, h3⟩ := ih _ _ _ _ _ h
    refine ⟨w, post, _, h1, ⟨c1, h2, rfl⟩, ?_⟩
    simpa [Nat.add_comm] using h3

end regexp

namespace regexp

theorem Re.matchAt_sound (re : Re) (pre rest : List Char) (e : Nat) (caps : Caps)
    (h : re.matchAt pre rest = some (e, caps)) :
    ∃ w post c1, rest = w ++ post ∧ re.Den pre w post [] c1 ∧
      caps = (0, (pre.length, pre.length + w.length)) :: c1 ∧ e = pre.length + w.length := by
  unfold Re.matchAt at h
  obtain ⟨w, post, c1, h1, ⟨cm, h2, h3⟩, h4⟩ := Re.run_sound _ _ _ _ _ _ h
  simp only [Option.some.injEq, Prod.mk.injEq] at h4
  refine ⟨w, post, cm, h1, h2, ?_, ?_⟩
  · rw [← h4.2, h3]
  · rw [← h4.1]; simp [Nat.add_comm]

theorem Re.allMatchesAux_mem (re : Re) (caps : Caps) :
    ∀ (rest : List Char) (skip : Nat) (pe : Bool) (pre : List Char),
      caps ∈ re.allMatchesAux rest skip pe pre →
      ∃ pre1 rest1 e, pre1.reverse ++ rest1 = pre.reverse ++ rest ∧
        re.matchAt pre1 rest1 = some (e, caps) := by
  intro rest
  induction rest with
  | nil =>
    intro skip pe pre h
    simp only [Re.allMatchesAux] at h
    split at h
    · split at h
      · next e c hm =>
        split at h
        · simp at h
        · simp only [List.mem_singleton] at h
          subst h
          exact ⟨pre, [], e, rfl, hm⟩
      · simp at h
    · simp at h
  | cons c cs ih =>
    intro skip pe pre h
    have step : ∀ sk b, caps ∈ re.allMatchesAux cs sk b (c :: pre) →
        ∃ pre1 rest1 e, pre1.reverse ++ rest1 = pre.reverse ++ c :: cs ∧
          re.matchAt pre1 rest1 = some (e, caps) := by
      intro sk b hh
      obtain ⟨p1, r1, e, h1, h2⟩ := ih sk b (c :: pre) hh
      exact ⟨p1, r1, e, by simpa using h1, h2⟩
    cases skip with
    | succ sk => exact step _ _ (by simpa [Re.allMatchesAux] using h)
    | zero =>
      simp only [Re.allMatchesAux] at h
      split at h
      · exact step _ _ h
      · next e c1 hm =>
        split at h
        · split at h
          · exact step _ _ h
          · rcases List.mem_cons.1 h with rfl | h
            · exact ⟨pre, c :: cs, e, rfl, hm⟩
            · exact step _ _ h
        · rcases List.mem_cons.1 h with rfl | h
          · exact ⟨pre, c :: cs, e, rfl, hm⟩
          · exact step _ _ h

theorem Re.den_cat (a b : Re) (pre w post : List Char) (c0 c1 : Caps) :
    (Re.cat a b).Den pre w post c0 c1 ↔
      ∃ w1 w2 cm, w = w1 ++ w2 ∧ a.Den pre w1 (w2 ++ post) c0 cm ∧
        b.Den (w1.reverse ++ pre) w2 post cm c1 := Iff.rfl

theorem Re.den_grp (i : Nat) (r : Re) (pre w post : List Char) (c0 c1 : Caps) :
    (Re.grp i r).Den pre w post c0 c1 ↔
      ∃ cm, r.Den pre w post c0 cm ∧ c1 = (i, (pre.length, pre.length + w.length)) :: cm :=
  Iff.rfl

theorem Re.den_bol (pre w post : List Char) (c0 c1 : Caps) :
    Re.bol.Den pre w post c0 c1 ↔ atBol pre = true ∧ w = [] ∧ c1 = c0 := Iff.rfl

theorem Re.den_eol (pre w post : List Char) (c0 c1 : Caps) :
    Re.eol.Den pre w post c0 c1 ↔ atEol post = true ∧ w = [] ∧ c1 = c0 := Iff.rfl

theorem slice_mid (a w z : List Char) (s e : Nat) (hs : s = a.length)
    (he : e = a.length + w.length) : slice (a ++ (w ++ z)) s e = w := by
  subst hs he
  simp [slice]

end regexp

namespace placeholder
open regexp

theorem beginLine_den (m pre w post : List Char) (c0 c1 : Caps)
    (h : (beginLine m).Den pre w post c0 c1) :
    ∃ ident k, IsBegin m ident w k ∧
      c1 = (2, (pre.length + k, pre.length + k + ident.length)) :: c0 := by
  simp only [beginLine, Re.seq, Re.plus, Re.Den] at h
  obtain ⟨s0, _, _, rfl, ⟨hs0, rfl⟩, _, _, _, rfl, ⟨rfl, rfl⟩, s1, _, _, rfl, ⟨hs1, rfl⟩,
    _, _, _, rfl, ⟨rfl, rfl⟩, s2, _, _, rfl, ⟨hs2, rfl⟩, ident, _, _, rfl,
    ⟨_, ⟨i1, i2, _, rfl, ⟨⟨x, hx, rfl⟩, rfl⟩, hi2, rfl⟩, rfl⟩, s3, _, _, rfl, ⟨hs3, rfl⟩,
    _, _, _, rfl, ⟨rfl, rfl⟩, s4, _, _, rfl, ⟨hs4, rfl⟩, rfl, rfl⟩ := h
  refine ⟨x :: i2, _, ⟨s0, s1, s2, s3, s4, hs0, hs1, hs2, hs3, hs4, by simp, ?_, rfl, ?_⟩, ?_⟩
  · intro y hy
    rcases List.mem_cons.1 hy with rfl | hy
    · exact hx
    · exact hi2 y hy
  · simp
  · simp [Nat.add_comm, Nat.add_left_comm, Nat.add_assoc]

theorem contentRe_den (pre w post : List Char) (c0 c1 : Caps)
    (h : contentRe.Den pre w post c0 c1) : c1 = c0 := by
  simp only [contentRe, Re.seq, Re.Den] at h
  obtain ⟨_, _, _, _, ⟨_, rfl⟩, h⟩ := h
  rcases h with ⟨_, h⟩ | ⟨_, h⟩ <;> exact h

theorem endLine_den (m pre w post : List Char) (c0 c1 : Caps)
    (h : (endLine m).Den pre w post c0 c1) : IsEnd m w ∧ c1 = c0 := by
  simp only [endLine, Re.seq, Re.Den] at h
  obtain ⟨s0, _, _, rfl, ⟨hs0, rfl⟩, _, _, _, rfl, ⟨rfl, rfl⟩, s1, _, _, rfl, ⟨hs1, rfl⟩,
    _, s2, _, rfl, ⟨rfl, rfl⟩, hs2, rfl⟩ := h
  exact ⟨⟨s0, s1, s2, hs0, hs1, hs2, rfl⟩, rfl⟩

/-- Shape of a match of the region pattern at the cursor: a begin marker line, a content,
an end marker line, between a line start and a line end, with the offsets of the groups. -/
theorem findRegexp_matchAt (m pre rest : List Char) (e : Nat) (caps : Caps)
    (h : (findRegexp m).matchAt pre rest = some (e, caps)) :
    ∃ b ident k c en post, rest = b ++ (c ++ (en ++ post)) ∧
      atBol pre = true ∧ atEol post = true ∧ IsBegin m ident b k ∧ IsEnd m en ∧
      e = pre.length + (b ++ (c ++ en)).length ∧
      caps = [(0, (pre.length, pre.length + (b ++ (c ++ en)).length)),
        (4, (pre.length + (b ++ c).length, pre.length + (b ++ c).length + en.length)),
        (3, (pre.length + b.length, pre.length + b.length + c.length)),
        (1, (pre.length, pre.length + b.length)),
        (2, (pre.length + k, pre.length + k + ident.length))] := by
  obtain ⟨w, post, c1, h1, h2, h3, h4⟩ := Re.matchAt_sound _ _ _ _ _ h
  simp only [findRegexp, Re.seq, Re.den_cat, Re.den_grp, Re.den_bol, Re.den_eol] at h2
  obtain ⟨_, _, _, rfl, ⟨hbol, rfl, rfl⟩, b, _, _, rfl, ⟨_, hb, rfl⟩, c, _, _, rfl,
    ⟨_, hc, rfl⟩, en, _, _, rfl, ⟨_, he, rfl⟩, heol, rfl, rfl⟩ := h2
  obtain ⟨ident, k, hB, rfl⟩ := beginLine_den _ _ _ _ _ _ hb
  have hc := contentRe_den _ _ _ _ _ hc
  obtain ⟨hE, he⟩ := endLine_den _ _ _ _ _ _ he
  subst hc he
  refine ⟨b, ident, k, c, en, post, by simp [h1], hbol, by simpa using heol, hB, hE,
    by simp [h4], ?_⟩
  simp only [h3, List.reverse_nil, List.nil_append, List.append_nil, List.length_append,
    List.length_reverse]
  refine congrArg₂ _ rfl (congrArg₂ _ ?_ (congrArg₂ _ ?_ rfl))
  · refine congrArg₂ _ rfl (congrArg₂ _ ?_ ?_) <;> omega
  · refine congrArg₂ _ rfl (congrArg₂ _ ?_ ?_) <;> omega

end placeholder

namespace placeholder
open regexp

theorem FindAll_eq (data : List Char) :
    FindAll data = parsePlaceholders "//".toList data ++
      (parsePlaceholders "#".toList data ++ parsePlaceholders "#pragma ".toList data) := by
  simp [FindAll, DefaultCodeSectionMarks]

theorem mem_FindAll (data : List Char) (p : Placeholder) :
    p ∈ FindAll data ↔ ∃ m ∈ DefaultCodeSectionMarks, p ∈ parsePlaceholders m data := by
  simp [FindAll_eq, DefaultCodeSectionMarks]

/-- Shape of a submatch of the region pattern in a buffer: the buffer splits around a begin
marker line, a content and an end marker line, group 0 spans the three, and the fields of
the placeholder built from the submatch are these pieces. -/
theorem toPlaceholder_shape (m data : List Char) (caps : Caps)
    (hcaps : caps ∈ (findRegexp m).allMatches data) :
    ∃ pre b ident k c en post, data = pre ++ (b ++ (c ++ (en ++ post))) ∧
      atBol pre.reverse = true ∧ atEol post = true ∧ IsBegin m ident b k ∧ IsEnd m en ∧
      caps.lookup 0 = some (pre.length, pre.length + (b ++ (c ++ en)).length) ∧
      toPlaceholder m data caps =
        { Raw := b ++ (c ++ en), Begin := b, Identifier := ident, Content := c, End := en,
          Mark := m } := by
  obtain ⟨pre1, rest1, e, hd, hm⟩ := Re.allMatchesAux_mem _ _ _ _ _ _ hcaps
  obtain ⟨b, ident, k, c, en, post, hrest, hbol, heol, hB, hE, -, hc⟩ :=
    findRegexp_matchAt _ _ _ _ _ hm
  simp only [List.reverse_nil, List.nil_append] at hd
  have hdata : data = pre1.reverse ++ (b ++ (c ++ (en ++ post))) := by
    rw [← hd, hrest]
  refine ⟨pre1.reverse, b, ident, k, c, en, post, hdata, by simpa using hbol, heol, hB, hE,
    by rw [hc]; simp [List.lookup], ?_⟩
  obtain ⟨s0, s1, s2, s3, s4, -, -, -, -, -, -, -, hk, hb⟩ := hB
  have e0 : submatch data caps 0 = b ++ (c ++ en) := by
    rw [hc, hdata]
    simp only [submatch, List.lookup, beq_self_eq_true]
    have := slice_mid pre1.reverse (b ++ (c ++ en)) post pre1.length
      (pre1.length + (b ++ (c ++ en)).length) (by simp) (by simp)
    simpa using this
  have e1 : submatch data caps 1 = b := by
    rw [hc, hdata]
    simp only [submatch, List.lookup]
    exact slice_mid pre1.reverse b _ _ _ (by simp) (by simp)
  have e3 : submatch data caps 3 = c := by
    rw [hc, hdata]
    simp only [submatch, List.lookup]
    have := slice_mid (pre1.reverse ++ b) c (en ++ post) (pre1.length + b.length)
      (pre1.length + b.length + c.length) (by simp) (by simp)
    simpa using this
  have e4 : submatch data caps 4 = en := by
    rw [hc, hdata]
    simp only [submatch, List.lookup]
    have := slice_mid (pre1.reverse ++ (b ++ c)) en post (pre1.length + (b ++ c).length)
      (pre1.length + (b ++ c).length + en.length) (by simp [Nat.add_assoc]) (by simp [Nat.add_assoc])
    simpa using this
  have e2 : submatch data caps 2 = ident := by
    rw [hc, hdata, hb]
    simp only [submatch, List.lookup]
    have := slice_mid (pre1.reverse ++ (s0 ++ (m ++ (s1 ++ ("region CODE_REGION(".toList ++ s2)))))
      ident (s3 ++ (')' :: (s4 ++ ['\n'])) ++ (c ++ (en ++ post))) (pre1.length + k)
      (pre1.length + k + ident.length) (by simp [hk]) (by simp [hk])
    simpa using this
  simp only [toPlaceholder, e0, e1, e2, e3, e4]

/-- Shape of a placeholder that `parsePlaceholders` returns: the buffer without its
carriage returns splits around a begin marker line, a content and an end marker line,
and the fields of the placeholder are these pieces. -/
theorem parsePlaceholders_shape (m data : List Char) (p : Placeholder)
    (h : p ∈ parsePlaceholders m data) :
    ∃ pre b ident k c en post, crRemover data = pre ++ (b ++ (c ++ (en ++ post))) ∧
      atBol pre.reverse = true ∧ atEol post = true ∧ IsBegin m ident b k ∧ IsEnd m en ∧
      p = { Raw := b ++ (c ++ en), Begin := b, Identifier := ident, Content := c,
            End := en, Mark := m } := by
  simp only [parsePlaceholders, List.mem_map] at h
  obtain ⟨caps, hcaps, rfl⟩ := h
  obtain ⟨pre, b, ident, k, c, en, post, h1, h2, h3, h4, h5, -, h7⟩ :=
    toPlaceholder_shape m (crRemover data) caps hcaps
  exact ⟨pre, b, ident, k, c, en, post, h1, h2, h3, h4, h5, h7⟩

end placeholder

/-! ## Placeholders -/

namespace placeholder
open regexp

/-- On a text the transformer keeps the runes other than the carriage return. -/
theorem crRemover_filter : ∀ data : List Char,
    crRemover data = data.filter (fun r => !isCR r) := by
  intro data
  induction data with
  | nil => rfl
  | cons c rest ih =>
    have e : crRemover (c :: rest) = if isCR c then crRemover rest else c :: crRemover rest :=
      rfl
    rw [e, ih]
    by_cases h : isCR c = true <;> simp [h, List.filter_cons]

theorem crRemover_idem (data : List Char) : crRemover (crRemover data) = crRemover data := by
  simp [crRemover_filter]

theorem crRemover_of_noCR (data : List Char) (h : '\r' ∉ data) : crRemover data = data := by
  rw [crRemover_filter]
  rw [List.filter_eq_self]
  intro a ha
  have : a ≠ '\r' := fun e => h (e ▸ ha)
  simpa [isCR] using this

theorem parsePlaceholders_crRemover (m data : List Char) :
    parsePlaceholders m (crRemover data) = parsePlaceholders m data := by
  simp [parsePlaceholders, crRemover_idem]

theorem FindAll_crRemover (data : List Char) : FindAll (crRemover data) = FindAll data := by
  simp [FindAll_eq, parsePlaceholders_crRemover]

/-- C8: `p.WithContent c` has content `c` and raw text `p.Begin ++ c ++ p.End`, and keeps
the begin marker, the end marker, the identifier and the mark of `p`. -/
theorem withContent_keeps_markers (p : Placeholder) (c : List Char) :
    (p.WithContent c).Content = c ∧ (p.WithContent c).Raw = p.Begin ++ c ++ p.End ∧
      (p.WithContent c).Begin = p.Begin ∧ (p.WithContent c).End = p.End ∧
      (p.WithContent c).Identifier = p.Identifier ∧ (p.WithContent c).Mark = p.Mark := by
  simp [Placeholder.WithContent]

/-- The raw text of a placeholder of `FindAll` is made of its three parts and stands in the
buffer without carriage returns. -/
theorem raw_of_mem_FindAll (data : List Char) (p : Placeholder) (h : p ∈ FindAll data) :
    p.Raw = p.Begin ++ p.Content ++ p.End ∧ p.Raw <:+: crRemover data := by
  obtain ⟨m, -, hm⟩ := (mem_FindAll data p).1 h
  obtain ⟨pre, b, ident, k, c, en, post, hd, -, -, -, -, rfl⟩ :=
    parsePlaceholders_shape m data p hm
  refine ⟨by simp, ?_⟩
  rw [hd]
  exact ⟨pre, post, by simp⟩

/-- C7: the raw text of every placeholder that `FindAll` returns is its begin marker,
content and end marker in a row, and occurs as one piece in the buffer without its
carriage returns. -/
theorem findAll_raw_is_begin_content_end (data : List Char) (p : Placeholder)
    (h : p ∈ FindAll data) :
    p.Raw = p.Begin ++ p.Content ++ p.End ∧ p.Raw <:+: crRemover data :=
  raw_of_mem_FindAll data p h

theorem findAll_raw_is_begin_content_end_witness :
    samples.fooPlaceholder ∈ FindAll samples.fooCrLf ∧
      (samples.fooPlaceholder.Raw = samples.fooPlaceholder.Begin ++
          samples.fooPlaceholder.Content ++ samples.fooPlaceholder.End ∧
        samples.fooPlaceholder.Raw <:+: crRemover samples.fooCrLf) :=
  ⟨by decide,
    findAll_raw_is_begin_content_end samples.fooCrLf samples.fooPlaceholder (by decide)⟩

theorem replaceOne_of_no_target (targets : List Placeholder) (data : List Char)
    (p : Placeholder) (h : ∀ t ∈ targets, t.Identifier ≠ p.Identifier) :
    replaceOne targets data p = data := by
  have : targets.find? (fun t => t.Identifier = p.Identifier) = none := by
    rw [List.find?_eq_none]
    intro t ht
    simpa using h t ht
  simp [replaceOne, this]

/-- On text: placeholders whose identifiers have no counterpart among the placeholders of
the destination leave the destination as `ReplaceAll` with no placeholder leaves it, which
is the destination itself when it holds no carriage return. -/
theorem replaceAll_unmatched_text (dest : List Char) (placeholders : List Placeholder)
    (h : ∀ p ∈ placeholders, ∀ t ∈ FindAll dest, t.Identifier ≠ p.Identifier) :
    ReplaceAll dest placeholders = ReplaceAll dest [] ∧
      ('\r' ∉ dest → ReplaceAll dest placeholders = dest) := by
  have key : ReplaceAll dest placeholders = crRemover dest := by
    unfold ReplaceAll
    simp only [FindAll_crRemover]
    generalize crRemover dest = d
    induction placeholders with
    | nil => rfl
    | cons p ps ih =>
      rw [List.foldl_cons, replaceOne_of_no_target _ _ _ (h p (List.mem_cons_self _ _))]
      exact ih (fun q hq => h q (List.mem_cons_of_mem _ hq))
  refine ⟨by rw [key]; rfl, fun hcr => by rw [key, crRemover_of_noCR _ hcr]⟩

end placeholder

/-! ## The render pass -/

namespace templating
open placeholder

theorem renderTemplate_of_pass {Ctx : Type} (os : Os) (root : List Char) (ctx : Ctx)
    (patterns : List (List Char)) (tmpl : Template Ctx) (s : RenderState) (relPath : List Char)
    (hname : tmpl.GetName ctx = .ok relPath)
    (hpat : patterns.length > 0 → matchPatterns os relPath patterns = .ok true)
    (hif : ∀ g, tmpl.GetHeader.If = some g → g ctx = (true, none))
    (hifor : tmpl.GetHeader.If ≠ none → ∃ g, tmpl.GetHeader.IfOr = some g ∧ g ctx = (true, none)) :
    renderTemplate os root ctx patterns tmpl s = renderWrite os root ctx tmpl relPath s := by
  have hg : renderGates os root ctx tmpl relPath s = renderWrite os root ctx tmpl relPath s := by
    unfold renderGates
    cases hI : tmpl.GetHeader.If with
    | none => rfl
    | some g =>
      obtain ⟨g2, h2, h3⟩ := hifor (by simp [hI])
      simp [hif g hI, h2, h3]
  unfold renderTemplate
  simp only [hname]
  split
  · next hp => simp [hpat hp, hg]
  · exact hg

theorem renderWrite_files_of_existing {Ctx : Type} (os : Os) (root : List Char) (ctx : Ctx)
    (tmpl : Template Ctx) (s : RenderState) (relPath existing rendered : List Char)
    (hmk : os.MkdirAll (os.Dir (os.Join root relPath)) = none)
    (hrd : os.ReadFileErr (os.Join root relPath) = none)
    (hwr : os.WriteFileErr (os.Join root relPath) = none)
    (hex : s.files (os.Join root relPath) = some existing)
    (hine : tmpl.GetHeader.IfNotExists = false)
    (hc : tmpl.GetContent ctx = .ok rendered)
    (hrm : ¬ ((ReplaceAll existing (FindAll rendered)).length = 0 ∧
      tmpl.GetHeader.RemoveIfEmpty = true)) :
    (renderWrite os root ctx tmpl relPath s).files (os.Join root relPath) =
      some (ReplaceAll existing (FindAll rendered)) := by
  unfold renderWrite
  simp only [hmk, hrd, hex, hine, hc, hwr, Option.isSome_some, Bool.and_false,
    Bool.false_eq_true, if_false]
  have hrm2 : ((ReplaceAll existing (FindAll rendered)).length = 0 &&
      tmpl.GetHeader.RemoveIfEmpty) = false := by
    cases h1 : tmpl.GetHeader.RemoveIfEmpty
    · simp
    · simp only [Bool.and_true, decide_eq_false_iff_not]
      exact fun h0 => hrm ⟨h0, h1⟩
  simp only [hrm2, Bool.false_eq_true, if_false]
  cases tmpl.RenderGeneratorCommands ctx <;> simp [Flow.files, Files.write]

/-- When the output path of a template already holds a file, the header does not set
if-not-exists and the file is written, the bytes written are
`FindAndReplaceAll(rendered, existing)`. -/
theorem renderTemplate_files_of_existing {Ctx : Type} (os : Os) (root : List Char)
    (ctx : Ctx) (patterns : List (List Char)) (tmpl : Template Ctx) (s : RenderState)
    (relPath existing rendered : List Char)
    (hname : tmpl.GetName ctx = .ok relPath)
    (hpat : patterns.length > 0 → matchPatterns os relPath patterns = .ok true)
    (hif : ∀ g, tmpl.GetHeader.If = some g → g ctx = (true, none))
    (hifor : tmpl.GetHeader.If ≠ none → ∃ g, tmpl.GetHeader.IfOr = some g ∧ g ctx = (true, none))
    (hmk : os.MkdirAll (os.Dir (os.Join root relPath)) = none)
    (hrd : os.ReadFileErr (os.Join root relPath) = none)
    (hwr : os.WriteFileErr (os.Join root relPath) = none)
    (hex : s.files (os.Join root relPath) = some existing)
    (hine : tmpl.GetHeader.IfNotExists = false)
    (hc : tmpl.GetContent ctx = .ok rendered)
    (hrm : ¬ ((FindAndReplaceAll rendered existing).length = 0 ∧
      tmpl.GetHeader.RemoveIfEmpty = true)) :
    (renderTemplate os root ctx patterns tmpl s).files (os.Join root relPath) =
      some (FindAndReplaceAll rendered existing) := by
  rw [renderTemplate_of_pass os root ctx patterns tmpl s relPath hname hpat hif hifor]
  exact renderWrite_files_of_existing os root ctx tmpl s relPath existing rendered
    hmk hrd hwr hex hine hc hrm

/-- C1 (counterexample): with `OLD` in the region of the existing file and `NEW` in the region
of the fresh render, the file written holds the text of the existing file around `NEW`,
which is not `FindAndReplaceAll(existing, rendered)`. -/
theorem render_written_is_not_rendered_with_existing_regions :
    (renderTemplate samples.plainOs "out".toList () [] samples.templateD samples.stateD).files
        "out/d.txt".toList =
      some "Updated text.\n// region CODE_REGION(Foo)\nNEW\n// endregion\nThere too.\n".toList ∧
    FindAndReplaceAll samples.existingD samples.renderedD =
      "Fresh text.\n// region CODE_REGION(Foo)\nOLD\n// endregion\n".toList ∧
    (renderTemplate samples.plainOs "out".toList () [] samples.templateD samples.stateD).files
        "out/d.txt".toList ≠
      some (FindAndReplaceAll samples.existingD samples.renderedD) := by
  decide

end templating

namespace regexp

theorem Re.matchAt_span (re : Re) (pre rest : List Char) (e : Nat) (caps : Caps)
    (h : re.matchAt pre rest = some (e, caps)) :
    spanOf caps = (pre.length, e) ∧ pre.length ≤ e := by
  obtain ⟨w, post, c1, -, -, h3, h4⟩ := Re.matchAt_sound re pre rest e caps h
  subst h3 h4
  exact ⟨by simp [spanOf, List.lookup], by omega⟩

/-- The matches that the walk over the buffer delivers start at or after the cursor plus the
characters to skip, do not overlap, and come by increasing offset. -/
theorem Re.allMatchesAux_ordered (re : Re) :
    ∀ (rest : List Char) (skip : Nat) (pe : Bool) (pre : List Char),
      (∀ c ∈ re.allMatchesAux rest skip pe pre, pre.length + skip ≤ (spanOf c).1) ∧
      (re.allMatchesAux rest skip pe pre).Pairwise
        (fun c1 c2 => (spanOf c1).2 ≤ (spanOf c2).1) := by
  intro rest
  induction rest with
  | nil =>
    intro skip pe pre
    simp only [Re.allMatchesAux]
    split
    · next hs =>
      subst hs
      split
      · next e caps hm =>
        have hsp := (Re.matchAt_span re pre [] e caps hm).1
        split
        · simp
        · simp [hsp]
      · simp
    · simp
  | cons x cs ih =>
    intro skip pe pre
    cases skip with
    | succ k =>
      simp only [Re.allMatchesAux]
      obtain ⟨h1, h2⟩ := ih k pe (x :: pre)
      refine ⟨fun c hc => ?_, h2⟩
      have := h1 c hc
      simp only [List.length_cons] at this
      omega
    | zero =>
      simp only [Re.allMatchesAux]
      split
      · obtain ⟨h1, h2⟩ := ih 0 false (x :: pre)
        refine ⟨fun c hc => ?_, h2⟩
        have := h1 c hc
        simp only [List.length_cons] at this
        omega
      · next e caps hm =>
        obtain ⟨hsp, hle⟩ := Re.matchAt_span re pre (x :: cs) e caps hm
        split
        · next he =>
          obtain ⟨h1, h2⟩ := ih 0 false (x :: pre)
          have hlater : ∀ c ∈ re.allMatchesAux cs 0 false (x :: pre),
              pre.length + 1 ≤ (spanOf c).1 := by
            intro c hc
            have := h1 c hc
            simpa using this
          split
          · refine ⟨fun c hc => ?_, h2⟩
            have := hlater c hc
            omega
          · refine ⟨?_, ?_⟩
            · intro c hc
              rcases List.mem_cons.1 hc with rfl | hc
              · rw [hsp]; simp
              · have := hlater c hc
                omega
            · rw [List.pairwise_cons]
              refine ⟨fun c hc => ?_, h2⟩
              have := hlater c hc
              rw [hsp]
              simp only
              omega
        · next he =>
          obtain ⟨h1, h2⟩ := ih (e - pre.length - 1) true (x :: pre)
          have hlater : ∀ c ∈ re.allMatchesAux cs (e - pre.length - 1) true (x :: pre),
              e ≤ (spanOf c).1 := by
            intro c hc
            have := h1 c hc
            simp only [List.length_cons] at this
            omega
          refine ⟨?_, ?_⟩
          · intro c hc
            rcases List.mem_cons.1 hc with rfl | hc
            · rw [hsp]; simp
            · have := hlater c hc
              omega
          · rw [List.pairwise_cons]
            refine ⟨fun c hc => ?_, h2⟩
            have := hlater c hc
            rw [hsp]
            exact this

/-- The matches of a pattern in a buffer do not overlap and are listed in document order. -/
theorem Re.allMatches_ordered (re : Re) (data : List Char) :
    (re.allMatches data).Pairwise (fun c1 c2 => (spanOf c1).2 ≤ (spanOf c2).1) :=
  (Re.allMatchesAux_ordered re data 0 false []).2

end regexp

/-! ## Priorities of the matcher -/

namespace regexp

theorem matchStr_append {α : Type} (k : List Char → List Char → Option α) (s : List Char) :
    ∀ (pre rest : List Char), matchStr k s pre (s ++ rest) = k (s.reverse ++ pre) rest := by
  induction s with
  | nil => intro pre rest; simp [matchStr]
  | cons c s ih => intro pre rest; simp [matchStr, ih]

theorem starGreedy_eq_none {α : Type} (p : Char → Bool) (k : List Char → List Char → Option α) :
    ∀ (rest pre : List Char),
      (∀ w post, rest = w ++ post → (∀ x ∈ w, p x = true) → k (w.reverse ++ pre) post = none) →
      starGreedy p k pre rest = none := by
  intro rest
  induction rest with
  | nil =>
    intro pre h
    simpa [starGreedy] using h [] [] rfl (by simp)
  | cons c cs ih =>
    intro pre h
    have h0 : k pre (c :: cs) = none := by simpa using h [] (c :: cs) rfl (by simp)
    simp only [starGreedy]
    split
    · next hp =>
      rw [ih (c :: pre)]
      · exact h0
      · intro w post hw hall
        have := h (c :: w) post (by simp [hw]) (by
          intro x hx
          rcases List.mem_cons.1 hx with rfl | hx
          · exact hp
          · exact hall x hx)
        simpa using this
    · exact h0

/-- A greedy repetition that can take the whole run `w`, and no more, hands over after `w`
when the continuation succeeds there. -/
theorem starGreedy_of_max {α : Type} (p : Char → Bool) (k : List Char → List Char → Option α)
    (post : List Char) (r : α) (hpost : ∀ c cs, post = c :: cs → p c = false) :
    ∀ (w pre : List Char), (∀ x ∈ w, p x = true) → k (w.reverse ++ pre) post = some r →
      starGreedy p k pre (w ++ post) = some r := by
  intro w
  induction w with
  | nil =>
    intro pre _ hk
    simp only [List.nil_append, List.reverse_nil] at hk ⊢
    cases post with
    | nil => simpa [starGreedy] using hk
    | cons c cs => simp [starGreedy, hpost c cs rfl, hk]
  | cons x w ih =>
    intro pre hall hk
    have hx : p x = true := hall x (List.mem_cons_self _ _)
    have := ih (x :: pre) (fun y hy => hall y (List.mem_cons_of_mem _ hy))
      (by simpa using hk)
    simp [starGreedy, hx, this]

theorem starLazy_here {α : Type} (p : Char → Bool) (k : List Char → List Char → Option α)
    (pre rest : List Char) (r : α) (h : k pre rest = some r) :
    starLazy p k pre rest = some r := by
  cases rest with
  | nil => simpa [starLazy] using h
  | cons c cs => simp [starLazy, h]

/-- A lazy repetition walks over the run `w` when the continuation fails before each of
its characters, and hands over after `w` when the continuation succeeds there. -/
theorem starLazy_first {α : Type} (p : Char → Bool) (k : List Char → List Char → Option α)
    (post : List Char) (r : α) :
    ∀ (w pre : List Char), (∀ x ∈ w, p x = true) →
      (∀ w1 w2, w = w1 ++ w2 → w2 ≠ [] → k (w1.reverse ++ pre) (w2 ++ post) = none) →
      k (w.reverse ++ pre) post = some r →
      starLazy p k pre (w ++ post) = some r := by
  intro w
  induction w with
  | nil =>
    intro pre _ _ hk
    exact starLazy_here p k _ _ r (by simpa using hk)
  | cons x w ih =>
    intro pre hall hfail hk
    have hx : p x = true := hall x (List.mem_cons_self _ _)
    have h0 : k pre (x :: (w ++ post)) = none := by
      simpa using hfail [] (x :: w) rfl (by simp)
    have := ih (x :: pre) (fun y hy => hall y (List.mem_cons_of_mem _ hy))
      (by
        intro w1 w2 hw hne
        have := hfail (x :: w1) w2 (by simp [hw]) hne
        simpa using this)
      (by simpa using hk)
    simp [starLazy, h0, hx, this]

theorem Re.run_cat {α : Type} (a b : Re) (k : List Char → List Char → Caps → Option α)
    (pre rest : List Char) (caps : Caps) :
    (Re.cat a b).run k pre rest caps = a.run (fun p1 r1 c1 => b.run k p1 r1 c1) pre rest caps :=
  rfl

theorem Re.run_str {α : Type} (s : List Char) (k : List Char → List Char → Caps → Option α)
    (pre rest : List Char) (caps : Caps) :
    (Re.str s).run k pre rest caps = matchStr (fun a b => k a b caps) s pre rest := rfl

theorem Re.run_star_greedy {α : Type} (p : Char → Bool)
    (k : List Char → List Char → Caps → Option α) (pre rest : List Char) (caps : Caps) :
    (Re.star p true).run k pre rest caps = starGreedy p (fun a b => k a b caps) pre rest := rfl

theorem Re.run_star_lazy {α : Type} (p : Char → Bool)
    (k : List Char → List Char → Caps → Option α) (pre rest : List Char) (caps : Caps) :
    (Re.star p false).run k pre rest caps = starLazy p (fun a b => k a b caps) pre rest := rfl

theorem Re.run_grp {α : Type} (i : Nat) (r : Re) (k : List Char → List Char → Caps → Option α)
    (pre rest : List Char) (caps : Caps) :
    (Re.grp i r).run k pre rest caps =
      r.run (fun p1 r1 c1 => k p1 r1 ((i, (pre.length, p1.length)) :: c1)) pre rest caps := rfl

/-- A literal after a greedy run of blanks succeeds when the run is followed by the literal
and the literal does not start with a character of the class. -/
theorem run_star_str {α : Type} (p : Char → Bool) (s : List Char)
    (k : List Char → List Char → Caps → Option α) (w pre rest : List Char) (caps : Caps)
    (r : α) (hw : ∀ x ∈ w, p x = true) (hs : ∀ c cs, s ++ rest = c :: cs → p c = false)
    (hk : k (s.reverse ++ (w.reverse ++ pre)) rest caps = some r) :
    (Re.cat (.star p true) (.str s)).run k pre (w ++ (s ++ rest)) caps = some r := by
  rw [Re.run_cat, Re.run_star_greedy]
  apply starGreedy_of_max p _ (s ++ rest) r hs w pre hw
  rw [Re.run_str, matchStr_append]
  exact hk

end regexp

namespace regexp

theorem matchStr_eq_none {α : Type} (k : List Char → List Char → Option α)
    (s pre rest : List Char) (h : ∀ post, rest ≠ s ++ post) : matchStr k s pre rest = none := by
  cases hm : matchStr k s pre rest with
  | none => rfl
  | some r =>
    obtain ⟨post, h1, -⟩ := matchStr_some k s pre rest r hm
    exact absurd h1 (h post)

/-- A greedy run followed by a literal and a remainder: when the input is the run, the
literal and a rest on which the remainder succeeds, the whole succeeds with that result. -/
theorem run_star_str_then {α : Type} (p : Char → Bool) (s : List Char) (R : Re)
    (k : List Char → List Char → Caps → Option α) (w pre rest : List Char) (caps : Caps)
    (r : α) (hw : ∀ x ∈ w, p x = true) (hs : ∀ c cs, s ++ rest = c :: cs → p c = false)
    (hk : R.run k (s.reverse ++ (w.reverse ++ pre)) rest caps = some r) :
    (Re.cat (.star p true) (.cat (.str s) R)).run k pre (w ++ (s ++ rest)) caps = some r := by
  rw [Re.run_cat, Re.run_star_greedy]
  apply starGreedy_of_max p _ (s ++ rest) r hs w pre hw
  rw [Re.run_cat, Re.run_str, matchStr_append]
  exact hk

theorem run_star_str_last {α : Type} (p : Char → Bool) (s : List Char)
    (k : List Char → List Char → Caps → Option α) (w pre rest : List Char) (caps : Caps)
    (r : α) (hw : ∀ x ∈ w, p x = true) (hs : ∀ c cs, s ++ rest = c :: cs → p c = false)
    (hk : k (s.reverse ++ (w.reverse ++ pre)) rest caps = some r) :
    (Re.cat (.star p true) (.str s)).run k pre (w ++ (s ++ rest)) caps = some r := by
  rw [Re.run_cat, Re.run_star_greedy]
  apply starGreedy_of_max p _ (s ++ rest) r hs w pre hw
  rw [Re.run_str, matchStr_append]
  exact hk

/-- The first occurrence of a character splits a list in one way only. -/
theorem split_at_first (c : Char) :
    ∀ (a a1 b b1 : List Char), c ∉ a → c ∉ a1 → a ++ c :: b = a1 ++ c :: b1 →
      a = a1 ∧ b = b1 := by
  intro a
  induction a with
  | nil =>
    intro a1 b b1 _ h1 h
    cases a1 with
    | nil => simpa using h
    | cons x a1 =>
      simp only [List.nil_append, List.cons_append, List.cons.injEq] at h
      exact absurd (h.1 ▸ List.mem_cons_self _ _) h1
  | cons y a ih =>
    intro a1 b b1 h0 h1 h
    cases a1 with
    | nil =>
      simp only [List.nil_append, List.cons_append, List.cons.injEq] at h
      exact absurd (h.1 ▸ List.mem_cons_self _ _) h0
    | cons x a1 =>
      simp only [List.cons_append, List.cons.injEq] at h
      obtain ⟨e1, e2⟩ := ih a1 b b1 (fun hh => h0 (List.mem_cons_of_mem _ hh))
        (fun hh => h1 (List.mem_cons_of_mem _ hh)) h.2
      exact ⟨by rw [h.1, e1], e2⟩

end regexp

namespace placeholder
open regexp

theorem blank_not_paren (w : List Char) (h : Blank w) : ')' ∉ w :=
  fun hm => by simpa [blank] using h _ hm

theorem blank_not_nl (w : List Char) (h : Blank w) : '\n' ∉ w :=
  fun hm => by simpa [blank] using h _ hm

theorem ident_not_paren (w : List Char) (h : ∀ x ∈ w, identChar x = true) : ')' ∉ w :=
  fun hm => by simpa [identChar] using h _ hm

theorem ident_not_nl (w : List Char) (h : ∀ x ∈ w, identChar x = true) : '\n' ∉ w :=
  fun hm => by simpa [identChar] using h _ hm

/-- The tail of the begin marker line after the identifier: `[\t ]*\)[\t ]*\n`. -/
theorem beginTail_run {α : Type} (k : List Char → List Char → Caps → Option α)
    (s3 s4 pre post : List Char) (caps : Caps) (r : α) (h3 : Blank s3) (h4 : Blank s4)
    (hk : ∀ pre1, pre1.reverse = pre.reverse ++ (s3 ++ (')' :: (s4 ++ ['\n']))) →
      k pre1 post caps = some r) :
    (Re.seq [.star blank true, .str [')'], .star blank true, .str ['\n']]).run k pre
      (s3 ++ (')' :: (s4 ++ ('\n' :: post)))) caps = some r := by
  simp only [Re.seq]
  apply run_star_str_then _ _ _ _ _ _ (s4 ++ ('\n' :: post)) _ _ h3
    (by intro a b h; simp at h; rw [← h.1]; rfl)
  apply run_star_str_last _ _ _ _ _ post _ _ h4 (by intro a b h; simp at h; rw [← h.1]; rfl)
  apply hk
  simp

/-- The tail of the begin marker line fails where the identifier is not over yet. -/
theorem beginTail_none {α : Type} (k : List Char → List Char → Caps → Option α)
    (w2 s3 pre rest : List Char) (caps : Caps) (hw2 : ∀ x ∈ w2, identChar x = true)
    (hnb : ¬ Blank w2) (h3 : Blank s3) :
    (Re.seq [.star blank true, .str [')'], .star blank true, .str ['\n']]).run k pre
      (w2 ++ (s3 ++ (')' :: rest))) caps = none := by
  simp only [Re.seq]
  rw [Re.run_cat, Re.run_star_greedy]
  apply starGreedy_eq_none
  intro w post hw hall
  rw [Re.run_cat, Re.run_str]
  apply matchStr_eq_none
  intro post1 hp
  subst hp
  have e : (w2 ++ s3) ++ ')' :: rest = w ++ ')' :: post1 := by simpa using hw
  have hw23 : ')' ∉ w2 ++ s3 := by
    intro hm
    rcases List.mem_append.1 hm with hm | hm
    · exact ident_not_paren _ hw2 hm
    · exact blank_not_paren _ h3 hm
  obtain ⟨e1, -⟩ := split_at_first ')' _ _ _ _ hw23 (blank_not_paren w hall) e
  exact hnb (fun x hx => hall x (e1 ▸ List.mem_append_left _ hx))

theorem trimmed_suffix_not_blank (ident : List Char) (h : Trimmed ident) (w1 w2 : List Char)
    (hw : ident = w1 ++ w2) (hne : w2 ≠ []) : ¬ Blank w2 := by
  obtain ⟨-, -, t, c, ht, hc⟩ := h
  intro hb
  have hmem : c ∈ w2 := by
    obtain ⟨u, v, rfl⟩ : ∃ u v, w2 = u ++ [v] := by
      rcases List.eq_nil_or_concat w2 with h | ⟨u, v, h⟩
      · exact absurd h hne
      · exact ⟨u, v, by simpa using h⟩
    have e : (w1 ++ u) ++ [v] = t ++ [c] := by rw [← ht, hw]; simp
    have := List.append_inj_right' e rfl
    simp only [List.cons.injEq, and_true] at this
    simp [this]
  rw [hb c hmem] at hc
  exact absurd hc (by simp)

/-- On a well-formed begin marker line with a trimmed identifier, the begin-line pattern
hands over after the line, with the identifier as group 2. -/
theorem beginLine_run {α : Type} (k : List Char → List Char → Caps → Option α)
    (m s0 s1 s2 ident s3 s4 pre post : List Char) (caps : Caps) (r : α)
    (hm : GoodMark m)
    (h0 : Blank s0) (h1 : Blank s1) (h2 : Blank s2) (h3 : Blank s3) (h4 : Blank s4)
    (hid : Trimmed ident)
    (hk : ∀ pre1 i j, pre1.reverse = pre.reverse ++ beginText m s0 s1 s2 ident s3 s4 →
      i = pre.length + (s0 ++ (m ++ (s1 ++ ("region CODE_REGION(".toList ++ s2)))).length →
      j = i + ident.length → k pre1 post ((2, (i, j)) :: caps) = some r) :
    (beginLine m).run k pre (beginText m s0 s1 s2 ident s3 s4 ++ post) caps = some r := by
  obtain ⟨⟨a, t, rfl, ha⟩, -⟩ := hm
  have hsuf := trimmed_suffix_not_blank ident hid
  obtain ⟨hall, ⟨c, core, rfl, hc⟩, -⟩ := hid
  simp only [beginLine, Re.seq, Re.plus, beginText, List.append_assoc, List.cons_append,
    List.nil_append]
  apply run_star_str_then _ _ _ _ _ _ _ _ _ h0 (by intro a b h; simp at h; rw [← h.1]; exact ha)
  apply run_star_str_then _ _ _ _ _ _ _ _ _ h1 (by intro a b h; simp at h; rw [← h.1]; rfl)
  rw [Re.run_cat, Re.run_star_greedy]
  apply starGreedy_of_max blank _ _ r (by intro a b h; simp at h; rw [← h.1]; exact hc) s2 _ h2
  rw [Re.run_cat, Re.run_grp, Re.run_cat]
  simp only [Re.run, hall c (List.mem_cons_self _ _), if_true]
  apply starLazy_first identChar _ _ r core _
    (fun y hy => hall y (List.mem_cons_of_mem _ hy))
  · intro w1 w2 hw hne
    exact beginTail_none _ w2 s3 _ _ _
      (fun y hy => hall y (by rw [hw]; simp [hy]))
      (hsuf (c :: w1) w2 (by simp [hw]) hne) h3
  · apply beginTail_run _ s3 s4 _ post _ r h3 h4
    intro pre1 hp
    apply hk pre1
    · rw [hp]; simp [beginText]
    · simp; omega
    · simp; omega

end placeholder

namespace placeholder
open regexp

theorem endText_no_nl (m e0 e1 e2 : List Char) (hm : '\n' ∉ m) (h0 : Blank e0)
    (h1 : Blank e1) (h2 : Blank e2) : '\n' ∉ endText m e0 e1 e2 := by
  intro h
  simp only [endText, List.mem_append] at h
  rcases h with h | h | h | h | h
  · exact blank_not_nl _ h0 h
  · exact hm h
  · exact blank_not_nl _ h1 h
  · revert h; decide
  · exact blank_not_nl _ h2 h

/-- On an end marker line the end-line pattern hands over after the line. -/
theorem endLine_run {α : Type} (k : List Char → List Char → Caps → Option α)
    (m e0 e1 e2 pre post : List Char) (caps : Caps) (r : α) (hm : GoodMark m)
    (h0 : Blank e0) (h1 : Blank e1) (h2 : Blank e2)
    (hpost : ∀ c cs, post = c :: cs → blank c = false)
    (hk : ∀ pre1, pre1.reverse = pre.reverse ++ endText m e0 e1 e2 →
      k pre1 post caps = some r) :
    (endLine m).run k pre (endText m e0 e1 e2 ++ post) caps = some r := by
  obtain ⟨⟨a, t, rfl, ha⟩, -⟩ := hm
  simp only [endLine, Re.seq, endText, List.append_assoc, List.cons_append]
  apply run_star_str_then _ _ _ _ _ _ _ _ _ h0 (by intro a b h; simp at h; rw [← h.1]; exact ha)
  apply run_star_str_then _ _ _ _ _ _ _ _ _ h1 (by intro a b h; simp at h; rw [← h.1]; rfl)
  rw [Re.run_star_greedy]
  apply starGreedy_of_max blank _ _ r hpost e2 _ h2
  apply hk
  simp [endText]

/-- The end-line pattern fails at the start of a line that does not hold `endregion`. -/
theorem endLine_none {α : Type} (k : List Char → List Char → Caps → Option α)
    (m w z pre : List Char) (caps : Caps) (hm : '\n' ∉ m)
    (hw : ¬ "endregion".toList <:+: w) :
    (endLine m).run k pre (w ++ '\n' :: z) caps = none := by
  cases hr : (endLine m).run k pre (w ++ '\n' :: z) caps with
  | none => rfl
  | some r =>
    exfalso
    obtain ⟨E, post, c1, h1, h2, -⟩ := Re.run_sound _ _ _ _ _ _ hr
    obtain ⟨⟨e0, e1, e2, b0, b1, b2, rfl⟩, -⟩ := endLine_den _ _ _ _ _ _ h2
    have hnl : '\n' ∉ endText m e0 e1 e2 := endText_no_nl m e0 e1 e2 hm b0 b1 b2
    change w ++ '\n' :: z = endText m e0 e1 e2 ++ post at h1
    rcases List.append_eq_append_iff.1 h1 with ⟨a, ha, hb⟩ | ⟨a, ha, -⟩
    · cases a with
      | nil =>
        apply hw
        rw [List.append_nil] at ha
        rw [← ha]
        exact ⟨e0 ++ (m ++ e1), e2, by simp [endText]⟩
      | cons x a =>
        simp only [List.cons_append, List.cons.injEq] at hb
        apply hnl
        rw [ha, ← hb.1]
        simp
    · apply hw
      rw [ha]
      exact ⟨e0 ++ (m ++ e1), e2 ++ a, by simp [endText]⟩

theorem run_opt_greedy {α : Type} (r : Re) (k : List Char → List Char → Caps → Option α)
    (pre rest : List Char) (caps : Caps) :
    (Re.opt r true).run k pre rest caps =
      match r.run k pre rest caps with
      | some x => some x
      | none => k pre rest caps := rfl

theorem run_nl_cons {α : Type} (k : List Char → List Char → Caps → Option α)
    (pre rest : List Char) (caps : Caps) :
    (Re.str ['\n']).run k pre ('\n' :: rest) caps = k ('\n' :: pre) rest caps := by
  simp [Re.run, matchStr]

theorem run_nl_ne {α : Type} (k : List Char → List Char → Caps → Option α)
    (pre rest : List Char) (caps : Caps) (x : Char) (hx : ¬ x = '\n') :
    (Re.str ['\n']).run k pre (x :: rest) caps = none := by
  simp [Re.run, matchStr, hx]

/-- The content pattern is lazy: it stops at the first place from which the rest of the
pattern succeeds, the newline before that place being part of the content. -/
theorem contentRe_run {α : Type} (k : List Char → List Char → Caps → Option α)
    (B pre rest : List Char) (caps : Caps) (r : α)
    (hfail : ∀ w1 w2, B ++ ['\n'] = w1 ++ w2 → w2 ≠ [] →
      k (w1.reverse ++ pre) (w2 ++ rest) caps = none)
    (hk : ∀ pre1, pre1.reverse = pre.reverse ++ (B ++ ['\n']) → k pre1 rest caps = some r) :
    contentRe.run k pre (B ++ '\n' :: rest) caps = some r := by
  simp only [contentRe, Re.seq]
  rw [Re.run_cat, Re.run_star_lazy]
  apply starLazy_first anyChar _ _ r B pre (fun _ _ => rfl)
  · intro w1 w2 hw hne
    have f1 : k (w1.reverse ++ pre) (w2 ++ '\n' :: rest) caps = none := by
      have := hfail w1 (w2 ++ ['\n']) (by simp [hw]) (by simp)
      simpa using this
    rw [run_opt_greedy]
    cases w2 with
    | nil => exact absurd rfl hne
    | cons x w2 =>
      by_cases hx : x = '\n'
      · subst hx
        have f2 : k ('\n' :: (w1.reverse ++ pre)) (w2 ++ '\n' :: rest) caps = none := by
          have := hfail (w1 ++ ['\n']) (w2 ++ ['\n']) (by simp [hw]) (by simp)
          simpa using this
        rw [List.cons_append, run_nl_cons, f2]
        exact f1
      · rw [List.cons_append, run_nl_ne _ _ _ _ _ hx]
        exact f1
  · have := hk ('\n' :: (B.reverse ++ pre)) (by simp)
    rw [run_opt_greedy, run_nl_cons, this]

end placeholder

namespace placeholder
open regexp

theorem length_of_reverse_eq (p a b : List Char) (h : p.reverse = a.reverse ++ b) :
    p.length = a.length + b.length := by
  have := congrArg List.length h
  simpa using this

theorem run_bol {α : Type} (k : List Char → List Char → Caps → Option α)
    (pre rest : List Char) (caps : Caps) :
    Re.bol.run k pre rest caps = if atBol pre = true then k pre rest caps else none := rfl

theorem run_eol {α : Type} (k : List Char → List Char → Caps → Option α)
    (pre rest : List Char) (caps : Caps) :
    Re.eol.run k pre rest caps = if atEol rest = true then k pre rest caps else none := rfl

/-- On a well-formed region (a begin marker line with a trimmed identifier, a body without
the word `endregion`, a newline and an end marker line, from a line start to a line end)
the region pattern matches the whole region: group 1 is the begin marker line, group 2 the
identifier, group 3 the body with its newline, group 4 the end marker line. -/
theorem findRegexp_matchAt_region (m s0 s1 s2 ident s3 s4 B e0 e1 e2 pre post : List Char)
    (hm : GoodMark m) (h0 : Blank s0) (h1 : Blank s1) (h2 : Blank s2) (h3 : Blank s3)
    (h4 : Blank s4) (hid : Trimmed ident) (g0 : Blank e0) (g1 : Blank e1) (g2 : Blank e2)
    (hB : ¬ "endregion".toList <:+: B) (hbol : atBol pre = true) (heol : atEol post = true) :
    (findRegexp m).matchAt pre (beginText m s0 s1 s2 ident s3 s4 ++
        (B ++ '\n' :: (endText m e0 e1 e2 ++ post))) =
      some (pre.length + (beginText m s0 s1 s2 ident s3 s4 ++
          ((B ++ ['\n']) ++ endText m e0 e1 e2)).length,
        [(0, (pre.length, pre.length + (beginText m s0 s1 s2 ident s3 s4 ++
            ((B ++ ['\n']) ++ endText m e0 e1 e2)).length)),
         (4, (pre.length + (beginText m s0 s1 s2 ident s3 s4 ++ (B ++ ['\n'])).length,
            pre.length + (beginText m s0 s1 s2 ident s3 s4 ++ (B ++ ['\n'])).length +
              (endText m e0 e1 e2).length)),
         (3, (pre.length + (beginText m s0 s1 s2 ident s3 s4).length,
            pre.length + (beginText m s0 s1 s2 ident s3 s4).length + (B ++ ['\n']).length)),
         (1, (pre.length, pre.length + (beginText m s0 s1 s2 ident s3 s4).length)),
         (2, (pre.length + (s0 ++ (m ++ (s1 ++ ("region CODE_REGION(".toList ++ s2)))).length,
            pre.length + (s0 ++ (m ++ (s1 ++ ("region CODE_REGION(".toList ++ s2)))).length +
              ident.length))]) := by
  have hpost : ∀ c cs, post = c :: cs → blank c = false := by
    intro c cs hc
    subst hc
    simp only [atEol, beq_iff_eq] at heol
    subst heol
    rfl
  unfold Re.matchAt
  rw [Re.run_grp]
  simp only [findRegexp, Re.seq]
  rw [Re.run_cat, run_bol, if_pos hbol, Re.run_cat, Re.run_grp]
  apply beginLine_run _ m s0 s1 s2 ident s3 s4 pre _ _ _ hm h0 h1 h2 h3 h4 hid
  intro pre1 i j hp1 hi hj
  have l1 := length_of_reverse_eq _ _ _ hp1
  rw [Re.run_cat, Re.run_grp]
  apply contentRe_run
  · intro w1 w2 hw hne
    obtain ⟨u, rfl⟩ : ∃ u, w2 = u ++ ['\n'] := by
      rcases List.eq_nil_or_concat w2 with h | ⟨u, v, h⟩
      · exact absurd h hne
      · have e : (w1 ++ u) ++ [v] = B ++ ['\n'] := by rw [hw, h]; simp
        have := List.append_inj_right' e rfl
        simp only [List.cons.injEq, and_true] at this
        exact ⟨u, by rw [h, this]; simp⟩
    have hu : ¬ "endregion".toList <:+: u := by
      intro hin
      apply hB
      have e : B = w1 ++ u := by
        have e2 : B ++ ['\n'] = (w1 ++ u) ++ ['\n'] := by rw [hw]; simp
        exact List.append_inj_left' e2 rfl
      rw [e]
      exact hin.trans (List.suffix_append w1 u).isInfix
    have := endLine_none (α := Nat × Caps) (fun p1 r1 c1 =>
        Re.eol.run (fun p1 x c1 => some (p1.length, (0, pre.length, p1.length) :: c1)) p1 r1
          ((4, (w1.reverse ++ pre1).length, p1.length) :: c1)) m u
      (endText m e0 e1 e2 ++ post) (w1.reverse ++ pre1)
      ((3, pre1.length, (w1.reverse ++ pre1).length) :: (1, pre.length, pre1.length) ::
        [(2, i, j)]) hm.2 hu
    rw [Re.run_cat, Re.run_grp]
    have e : u ++ ['\n'] ++ (endText m e0 e1 e2 ++ post) =
        u ++ '\n' :: (endText m e0 e1 e2 ++ post) := by simp
    rw [e]
    exact this
  · intro pre2 hp2
    have l2 := length_of_reverse_eq _ _ _ hp2
    rw [Re.run_cat, Re.run_grp]
    apply endLine_run _ m e0 e1 e2 pre2 post _ _ hm g0 g1 g2 hpost
    intro pre3 hp3
    have l3 := length_of_reverse_eq _ _ _ hp3
    rw [run_eol, if_pos heol]
    simp only [Option.some.injEq, Prod.mk.injEq, List.cons.injEq,
      and_true]
    simp only [List.length_append] at l1 l2 l3 hi hj ⊢
    refine ⟨?_, ⟨trivial, trivial, ?_⟩, ⟨trivial, ?_, ?_⟩, ⟨trivial, ?_, ?_⟩,
      ⟨trivial, trivial, ?_⟩, trivial, ?_, ?_⟩ <;> omega

end placeholder

namespace regexp

theorem Re.allMatchesAux_skip_all (re : Re) :
    ∀ (rest pre : List Char), re.allMatchesAux rest rest.length true pre = [] := by
  intro rest
  induction rest with
  | nil =>
    intro pre
    simp only [Re.allMatchesAux, List.length_nil, if_true]
    cases re.matchAt pre [] with
    | none => rfl
    | some x => rfl
  | cons c cs ih =>
    intro pre
    simp only [Re.allMatchesAux, List.length_cons]
    exact ih _

/-- A match that covers the whole buffer is the only match. -/
theorem Re.allMatches_of_whole (re : Re) (data : List Char) (caps : Caps)
    (hne : data ≠ []) (h : re.matchAt [] data = some (data.length, caps)) :
    re.allMatches data = [caps] := by
  cases data with
  | nil => exact absurd rfl hne
  | cons c cs =>
    simp only [Re.allMatches, Re.allMatchesAux, h, List.length_cons, List.length_nil]
    rw [if_neg (by omega)]
    have : cs.length + 1 - 0 - 1 = cs.length := by omega
    rw [this, Re.allMatchesAux_skip_all]

theorem Re.allMatchesAux_of_none (re : Re) :
    ∀ (rest pre : List Char) (pe : Bool),
      (∀ w1 w2, rest = w1 ++ w2 → re.matchAt (w1.reverse ++ pre) w2 = none) →
      re.allMatchesAux rest 0 pe pre = [] := by
  intro rest
  induction rest with
  | nil =>
    intro pre pe h
    have := h [] [] rfl
    simp only [List.reverse_nil, List.nil_append] at this
    simp [Re.allMatchesAux, this]
  | cons c cs ih =>
    intro pre pe h
    have h0 := h [] (c :: cs) rfl
    simp only [List.reverse_nil, List.nil_append] at h0
    simp only [Re.allMatchesAux, h0]
    apply ih
    intro w1 w2 hw
    have := h (c :: w1) w2 (by simp [hw])
    simpa using this

/-- A pattern that matches at no position of the buffer has no match. -/
theorem Re.allMatches_of_none (re : Re) (data : List Char)
    (h : ∀ pre rest, data = pre.reverse ++ rest → re.matchAt pre rest = none) :
    re.allMatches data = [] := by
  apply Re.allMatchesAux_of_none
  intro w1 w2 hw
  have := h w1.reverse w2 (by simpa using hw)
  simpa using this

end regexp

namespace placeholder
open regexp

theorem regionWord_eq : "region CODE_REGION(".toList =
    ['r', 'e', 'g', 'i', 'o', 'n', ' ', 'C', 'O', 'D', 'E', '_', 'R', 'E', 'G', 'I', 'O', 'N',
      '('] := rfl

theorem endWord_eq : "endregion".toList = ['e', 'n', 'd', 'r', 'e', 'g', 'i', 'o', 'n'] := rfl

theorem mem_defaultMarks (m : List Char) :
    m ∈ DefaultCodeSectionMarks ↔
      m = ['/', '/'] ∨ m = ['#'] ∨ m = ['#', 'p', 'r', 'a', 'g', 'm', 'a', ' '] := by
  have e : DefaultCodeSectionMarks =
      [['/', '/'], ['#'], ['#', 'p', 'r', 'a', 'g', 'm', 'a', ' ']] := rfl
  rw [e]
  simp

theorem goodMark_of_default (m : List Char) (hm : m ∈ DefaultCodeSectionMarks) : GoodMark m := by
  rcases (mem_defaultMarks m).1 hm with rfl | rfl | rfl
  · exact ⟨⟨'/', ['/'], rfl, rfl⟩, by decide⟩
  · exact ⟨⟨'#', [], rfl, rfl⟩, by decide⟩
  · exact ⟨⟨'#', ['p', 'r', 'a', 'g', 'm', 'a', ' '], rfl, rfl⟩, by decide⟩

/-- Blanks followed by a character that is not a blank split a text in one way only. -/
theorem blank_split_unique :
    ∀ (u u1 x x1 : List Char) (a a1 : Char), Blank u → Blank u1 → blank a = false →
      blank a1 = false → u ++ a :: x = u1 ++ a1 :: x1 → u = u1 ∧ a = a1 ∧ x = x1 := by
  intro u
  induction u with
  | nil =>
    intro u1 x x1 a a1 _ hu1 ha _ h
    cases u1 with
    | nil => simpa using h
    | cons y u1 =>
      simp only [List.nil_append, List.cons_append, List.cons.injEq] at h
      have := hu1 y (List.mem_cons_self _ _)
      rw [← h.1, ha] at this
      exact absurd this (by simp)
  | cons z u ih =>
    intro u1 x x1 a a1 hu hu1 ha ha1 h
    cases u1 with
    | nil =>
      simp only [List.nil_append, List.cons_append, List.cons.injEq] at h
      have := hu z (List.mem_cons_self _ _)
      rw [h.1, ha1] at this
      exact absurd this (by simp)
    | cons y u1 =>
      simp only [List.cons_append, List.cons.injEq] at h
      obtain ⟨e1, e2, e3⟩ := ih u1 x x1 a a1 (fun w hw => hu w (List.mem_cons_of_mem _ hw))
        (fun w hw => hu1 w (List.mem_cons_of_mem _ hw)) ha ha1 h.2
      exact ⟨by rw [h.1, e1], e2, e3⟩

/-- Two different default marks cannot open the same begin marker line. -/
theorem default_marks_clash (m m1 : List Char) (hm : m ∈ DefaultCodeSectionMarks)
    (hm1 : m1 ∈ DefaultCodeSectionMarks) (hne : m1 ≠ m) (s1 t1 Z Z1 : List Char)
    (h1 : Blank s1) (k1 : Blank t1) :
    m ++ (s1 ++ ("region CODE_REGION(".toList ++ Z)) ≠
      m1 ++ (t1 ++ ("region CODE_REGION(".toList ++ Z1)) := by
  have hb : ∀ (w : List Char) (x : Char), Blank (x :: w) → x ≠ 'p' := by
    intro w x hw hx
    have := hw x (List.mem_cons_self _ _)
    rw [hx] at this
    exact absurd this (by decide)
  intro h
  rw [regionWord_eq] at h
  rcases (mem_defaultMarks m).1 hm with rfl | rfl | rfl <;>
    rcases (mem_defaultMarks m1).1 hm1 with rfl | rfl | rfl
  · exact hne rfl
  · simp at h
  · simp at h
  · simp at h
  · exact hne rfl
  · cases s1 with
    | nil => simp at h
    | cons x s1 =>
      simp only [List.cons_append, List.nil_append, List.cons.injEq, true_and] at h
      exact hb _ _ h1 h.1
  · simp at h
  · cases t1 with
    | nil => simp at h
    | cons x t1 =>
      simp only [List.cons_append, List.nil_append, List.cons.injEq, true_and] at h
      exact hb _ _ k1 h.1.symm
  · exact hne rfl

theorem prefix_before_nl :
    ∀ (P X u z : List Char), '\n' ∉ P → P ++ X = u ++ '\n' :: z → ∃ v, u = P ++ v := by
  intro P
  induction P with
  | nil => intro X u z _ _; exact ⟨u, rfl⟩
  | cons p P ih =>
    intro X u z hP h
    cases u with
    | nil =>
      simp only [List.cons_append, List.nil_append, List.cons.injEq] at h
      exact absurd (h.1 ▸ List.mem_cons_self _ _) hP
    | cons y u =>
      simp only [List.cons_append, List.cons.injEq] at h
      obtain ⟨v, hv⟩ := ih X u z (fun hh => hP (List.mem_cons_of_mem _ hh)) h.2
      exact ⟨v, by rw [h.1, hv]; rfl⟩

/-- Where a line can start inside `B`, a newline and a last line `E`. -/
theorem line_start_cases :
    ∀ (B q rest E : List Char), '\n' ∉ E → q ++ '\n' :: rest = B ++ '\n' :: E →
      rest = E ∨ ∃ a u, B = a ++ u ∧ rest = u ++ '\n' :: E := by
  intro B
  induction B with
  | nil =>
    intro q rest E hE h
    cases q with
    | nil =>
      simp only [List.nil_append, List.cons.injEq, true_and] at h
      exact Or.inl h
    | cons x q =>
      simp only [List.cons_append, List.nil_append, List.cons.injEq] at h
      exfalso
      apply hE
      rw [← h.2]
      simp
  | cons b B ih =>
    intro q rest E hE h
    cases q with
    | nil =>
      simp only [List.nil_append, List.cons_append, List.cons.injEq] at h
      exact Or.inr ⟨[b], B, rfl, h.2⟩
    | cons x q =>
      simp only [List.cons_append, List.cons.injEq] at h
      rcases ih q rest E hE h.2 with h1 | ⟨a, u, h1, h2⟩
      · exact Or.inl h1
      · exact Or.inr ⟨b :: a, u, by rw [h1]; rfl, h2⟩

end placeholder

namespace placeholder
open regexp

theorem first_nl_cases :
    ∀ (b0 q rest V : List Char), '\n' ∉ b0 → q ++ '\n' :: rest = b0 ++ '\n' :: V →
      rest = V ∨ ∃ q1, V = q1 ++ '\n' :: rest := by
  intro b0
  induction b0 with
  | nil =>
    intro q rest V _ h
    cases q with
    | nil =>
      simp only [List.nil_append, List.cons.injEq, true_and] at h
      exact Or.inl h
    | cons x q =>
      simp only [List.cons_append, List.nil_append, List.cons.injEq] at h
      exact Or.inr ⟨q, h.2.symm⟩
  | cons b b0 ih =>
    intro q rest V hb h
    cases q with
    | nil =>
      simp only [List.nil_append, List.cons_append, List.cons.injEq] at h
      exact absurd (h.1 ▸ List.mem_cons_self _ _) hb
    | cons x q =>
      simp only [List.cons_append, List.cons.injEq] at h
      exact ih q rest V (fun hh => hb (List.mem_cons_of_mem _ hh)) h.2

theorem beginText_split (m s0 s1 s2 ident s3 s4 : List Char) (hm : '\n' ∉ m)
    (h0 : Blank s0) (h1 : Blank s1) (h2 : Blank s2) (h3 : Blank s3) (h4 : Blank s4)
    (hid : ∀ x ∈ ident, identChar x = true) :
    ∃ b0, beginText m s0 s1 s2 ident s3 s4 = b0 ++ ['\n'] ∧ '\n' ∉ b0 := by
  refine ⟨s0 ++ (m ++ (s1 ++ ("region CODE_REGION(".toList ++ (s2 ++ (ident ++ (s3 ++
    (')' :: s4))))))), by simp [beginText], ?_⟩
  intro h
  simp only [List.mem_append, List.mem_cons] at h
  rcases h with h | h | h | h | h | h | h | h | h
  · exact blank_not_nl _ h0 h
  · exact hm h
  · exact blank_not_nl _ h1 h
  · revert h; decide
  · exact blank_not_nl _ h2 h
  · exact ident_not_nl _ hid h
  · exact blank_not_nl _ h3 h
  · revert h; decide
  · exact blank_not_nl _ h4 h

/-- In a well-formed region whose body does not hold the text `region CODE_REGION(`, the
region pattern of another default mark matches at no position. -/
theorem findRegexp_other_mark_none (m m1 s0 s1 s2 ident s3 s4 B e0 e1 e2 : List Char)
    (hm : m ∈ DefaultCodeSectionMarks) (hm1 : m1 ∈ DefaultCodeSectionMarks) (hne : m1 ≠ m)
    (h0 : Blank s0) (h1 : Blank s1) (h2 : Blank s2) (h3 : Blank s3) (h4 : Blank s4)
    (hid : ∀ x ∈ ident, identChar x = true) (g0 : Blank e0) (g1 : Blank e1) (g2 : Blank e2)
    (hB : ¬ "region CODE_REGION(".toList <:+: B) (pre rest : List Char)
    (hd : beginText m s0 s1 s2 ident s3 s4 ++ (B ++ '\n' :: endText m e0 e1 e2) =
      pre.reverse ++ rest) :
    (findRegexp m1).matchAt pre rest = none := by
  cases hr : (findRegexp m1).matchAt pre rest with
  | none => rfl
  | some x =>
    exfalso
    obtain ⟨e, caps⟩ := x
    obtain ⟨b1, ident1, k1, c1, en1, post1, hrest, hbol, -, hB1, -, -, -⟩ :=
      findRegexp_matchAt _ _ _ _ _ hr
    obtain ⟨t0, t1, t2, t3, t4, k0, k1, k2, k3, k4, -, hid1, -, hb1⟩ := hB1
    have gm := goodMark_of_default m hm
    have gm1 := goodMark_of_default m1 hm1
    have hE := endText_no_nl m e0 e1 e2 gm.2 g0 g1 g2
    cases pre with
    | nil =>
      obtain ⟨⟨a, t, rfl, ha⟩, -⟩ := gm
      obtain ⟨⟨a1, u1, rfl, ha1⟩, -⟩ := gm1
      simp only [List.reverse_nil, List.nil_append] at hd
      rw [hrest, hb1] at hd
      have q1 : s0 ++ a :: (t ++ (s1 ++ ("region CODE_REGION(".toList ++ (s2 ++ (ident ++ (s3 ++
            (')' :: (s4 ++ ['\n']))) ++ (B ++ '\n' :: endText (a :: t) e0 e1 e2)))))) =
          t0 ++ a1 :: (u1 ++ (t1 ++ ("region CODE_REGION(".toList ++ (t2 ++ (ident1 ++ (t3 ++
            (')' :: (t4 ++ ['\n']))) ++ (c1 ++ (en1 ++ post1))))))) := by
        simpa [beginText] using hd
      obtain ⟨-, q2, q3⟩ := blank_split_unique _ _ _ _ _ _ h0 k0 ha ha1 q1
      subst q2
      refine default_marks_clash (a :: t) (a :: u1) hm hm1 hne s1 t1
        (s2 ++ (ident ++ (s3 ++ (')' :: (s4 ++ ['\n']))) ++
          (B ++ '\n' :: endText (a :: t) e0 e1 e2)))
        (t2 ++ (ident1 ++ (t3 ++ (')' :: (t4 ++ ['\n']))) ++ (c1 ++ (en1 ++ post1)))) h1 k1 ?_
      exact congrArg (List.cons a) q3
    | cons x pre =>
      simp only [atBol, beq_iff_eq] at hbol
      subst hbol
      obtain ⟨b0, hb0, hnl0⟩ := beginText_split m s0 s1 s2 ident s3 s4 gm.2 h0 h1 h2 h3 h4 hid
      have hd2 : pre.reverse ++ '\n' :: rest =
          b0 ++ '\n' :: (B ++ '\n' :: endText m e0 e1 e2) := by
        rw [hb0] at hd
        simpa using hd.symm
      have hP : '\n' ∉ t0 ++ (m1 ++ (t1 ++ "region CODE_REGION(".toList)) := by
        intro h
        simp only [List.mem_append] at h
        rcases h with h | h | h | h
        · exact blank_not_nl _ k0 h
        · exact gm1.2 h
        · exact blank_not_nl _ k1 h
        · revert h; decide
      have key : ∀ a u, B = a ++ u → rest = u ++ '\n' :: endText m e0 e1 e2 → False := by
        intro a u hBu hru
        have q1 : (t0 ++ (m1 ++ (t1 ++ "region CODE_REGION(".toList))) ++
            (t2 ++ (ident1 ++ (t3 ++ (')' :: (t4 ++ ['\n']))) ++ (c1 ++ (en1 ++ post1)))) =
            u ++ '\n' :: endText m e0 e1 e2 := by
          rw [← hru, hrest, hb1]
          simp
        obtain ⟨v, hv⟩ := prefix_before_nl _ _ _ _ hP q1
        apply hB
        rw [hBu, hv]
        exact ⟨a ++ (t0 ++ (m1 ++ t1)), v, by simp⟩
      have last : rest = endText m e0 e1 e2 → False := by
        intro hre
        apply hE
        rw [← hre, hrest, hb1]
        simp
      rcases first_nl_cases _ _ _ _ hnl0 hd2 with h | ⟨q1, h⟩
      · exact key [] B rfl h
      · rcases line_start_cases _ _ _ _ hE h.symm with h | ⟨a, u, ha, hu⟩
        · exact last h
        · exact key a u ha hu

end placeholder

namespace placeholder
open regexp

theorem parsePlaceholders_region_self (m s0 s1 s2 ident s3 s4 B e0 e1 e2 : List Char)
    (hm : GoodMark m) (h0 : Blank s0) (h1 : Blank s1) (h2 : Blank s2) (h3 : Blank s3)
    (h4 : Blank s4) (hid : Trimmed ident) (g0 : Blank e0) (g1 : Blank e1) (g2 : Blank e2)
    (hB : ¬ "endregion".toList <:+: B)
    (hcr : '\r' ∉ beginText m s0 s1 s2 ident s3 s4 ++ (B ++ '\n' :: endText m e0 e1 e2)) :
    parsePlaceholders m (beginText m s0 s1 s2 ident s3 s4 ++ (B ++ '\n' :: endText m e0 e1 e2)) =
      [{ Raw := beginText m s0 s1 s2 ident s3 s4 ++ (B ++ '\n' :: endText m e0 e1 e2)
         Begin := beginText m s0 s1 s2 ident s3 s4
         Identifier := ident
         Content := B ++ ['\n']
         End := endText m e0 e1 e2
         Mark := m }] := by
  have h := findRegexp_matchAt_region m s0 s1 s2 ident s3 s4 B e0 e1 e2 [] [] hm h0 h1 h2 h3 h4
    hid g0 g1 g2 hB rfl rfl
  simp only [List.append_nil, List.length_nil, Nat.zero_add] at h
  have hdata : beginText m s0 s1 s2 ident s3 s4 ++ (B ++ '\n' :: endText m e0 e1 e2) =
      beginText m s0 s1 s2 ident s3 s4 ++ ((B ++ ['\n']) ++ endText m e0 e1 e2) := by simp
  have hne : beginText m s0 s1 s2 ident s3 s4 ++ (B ++ '\n' :: endText m e0 e1 e2) ≠ [] := by
    simp [beginText]
  have hall := Re.allMatches_of_whole (findRegexp m) _ _ hne (by rw [h, hdata])
  unfold parsePlaceholders
  simp only [crRemover_of_noCR _ hcr, hall, List.map_cons, List.map_nil]
  have q0 : slice (beginText m s0 s1 s2 ident s3 s4 ++ (B ++ '\n' :: endText m e0 e1 e2)) 0
      (beginText m s0 s1 s2 ident s3 s4 ++ ((B ++ ['\n']) ++ endText m e0 e1 e2)).length =
      beginText m s0 s1 s2 ident s3 s4 ++ (B ++ '\n' :: endText m e0 e1 e2) := by
    have := slice_mid [] (beginText m s0 s1 s2 ident s3 s4 ++ (B ++ '\n' :: endText m e0 e1 e2))
      [] 0 (beginText m s0 s1 s2 ident s3 s4 ++ ((B ++ ['\n']) ++ endText m e0 e1 e2)).length
      rfl (by simp)
    simpa using this
  have q1 : slice (beginText m s0 s1 s2 ident s3 s4 ++ (B ++ '\n' :: endText m e0 e1 e2)) 0
      (beginText m s0 s1 s2 ident s3 s4).length = beginText m s0 s1 s2 ident s3 s4 := by
    have := slice_mid [] (beginText m s0 s1 s2 ident s3 s4) (B ++ '\n' :: endText m e0 e1 e2)
      0 (beginText m s0 s1 s2 ident s3 s4).length rfl (by simp)
    simpa using this
  have q3 : slice (beginText m s0 s1 s2 ident s3 s4 ++ (B ++ '\n' :: endText m e0 e1 e2))
      (beginText m s0 s1 s2 ident s3 s4).length
      ((beginText m s0 s1 s2 ident s3 s4).length + (B ++ ['\n']).length) = B ++ ['\n'] := by
    have := slice_mid (beginText m s0 s1 s2 ident s3 s4) (B ++ ['\n']) (endText m e0 e1 e2)
      (beginText m s0 s1 s2 ident s3 s4).length
      ((beginText m s0 s1 s2 ident s3 s4).length + (B ++ ['\n']).length) rfl rfl
    simpa using this
  have q4 : slice (beginText m s0 s1 s2 ident s3 s4 ++ (B ++ '\n' :: endText m e0 e1 e2))
      (beginText m s0 s1 s2 ident s3 s4 ++ (B ++ ['\n'])).length
      ((beginText m s0 s1 s2 ident s3 s4 ++ (B ++ ['\n'])).length + (endText m e0 e1 e2).length) =
      endText m e0 e1 e2 := by
    have := slice_mid (beginText m s0 s1 s2 ident s3 s4 ++ (B ++ ['\n'])) (endText m e0 e1 e2) []
      (beginText m s0 s1 s2 ident s3 s4 ++ (B ++ ['\n'])).length
      ((beginText m s0 s1 s2 ident s3 s4 ++ (B ++ ['\n'])).length + (endText m e0 e1 e2).length)
      rfl rfl
    simpa using this
  have q2 : slice (beginText m s0 s1 s2 ident s3 s4 ++ (B ++ '\n' :: endText m e0 e1 e2))
      (s0 ++ (m ++ (s1 ++ ("region CODE_REGION(".toList ++ s2)))).length
      ((s0 ++ (m ++ (s1 ++ ("region CODE_REGION(".toList ++ s2)))).length + ident.length) =
      ident := by
    have := slice_mid (s0 ++ (m ++ (s1 ++ ("region CODE_REGION(".toList ++ s2)))) ident
      ((s3 ++ (')' :: (s4 ++ ['\n']))) ++ (B ++ '\n' :: endText m e0 e1 e2))
      (s0 ++ (m ++ (s1 ++ ("region CODE_REGION(".toList ++ s2)))).length
      ((s0 ++ (m ++ (s1 ++ ("region CODE_REGION(".toList ++ s2)))).length + ident.length) rfl rfl
    simpa [beginText] using this
  refine congrArg₂ _ ?_ rfl
  unfold toPlaceholder
  exact Placeholder.mk.injEq .. ▸ ⟨q0, q1, q2, q3, q4, rfl⟩

end placeholder

namespace placeholder
open regexp

/-- A well-formed region under a default mark that makes up a whole buffer without carriage
return, with a body that holds neither `region CODE_REGION(` nor `endregion`, is found
by `FindAll` as one placeholder: the begin marker line, the identifier, the body with the
newline that follows it, and the end marker line. -/
theorem findAll_region (m s0 s1 s2 ident s3 s4 B e0 e1 e2 : List Char)
    (hm : m ∈ DefaultCodeSectionMarks) (h0 : Blank s0) (h1 : Blank s1) (h2 : Blank s2)
    (h3 : Blank s3) (h4 : Blank s4) (hid : Trimmed ident) (g0 : Blank e0) (g1 : Blank e1)
    (g2 : Blank e2) (hB1 : ¬ "region CODE_REGION(".toList <:+: B)
    (hB2 : ¬ "endregion".toList <:+: B)
    (hcr : '\r' ∉ beginText m s0 s1 s2 ident s3 s4 ++ (B ++ '\n' :: endText m e0 e1 e2)) :
    FindAll (beginText m s0 s1 s2 ident s3 s4 ++ (B ++ '\n' :: endText m e0 e1 e2)) =
      [{ Raw := beginText m s0 s1 s2 ident s3 s4 ++ (B ++ '\n' :: endText m e0 e1 e2)
         Begin := beginText m s0 s1 s2 ident s3 s4
         Identifier := ident
         Content := B ++ ['\n']
         End := endText m e0 e1 e2
         Mark := m }] := by
  have hself := parsePlaceholders_region_self m s0 s1 s2 ident s3 s4 B e0 e1 e2
    (goodMark_of_default m hm) h0 h1 h2 h3 h4 hid g0 g1 g2 hB2 hcr
  have hother : ∀ m1 ∈ DefaultCodeSectionMarks, m1 ≠ m →
      parsePlaceholders m1
        (beginText m s0 s1 s2 ident s3 s4 ++ (B ++ '\n' :: endText m e0 e1 e2)) = [] := by
    intro m1 hm1 hne
    unfold parsePlaceholders
    simp only [crRemover_of_noCR _ hcr]
    rw [Re.allMatches_of_none]
    · rfl
    · intro pre rest hd
      exact findRegexp_other_mark_none m m1 s0 s1 s2 ident s3 s4 B e0 e1 e2 hm hm1 hne
        h0 h1 h2 h3 h4 hid.1 g0 g1 g2 hB1 pre rest hd
  have d1 : "//".toList ∈ DefaultCodeSectionMarks := by decide
  have d2 : "#".toList ∈ DefaultCodeSectionMarks := by decide
  have d3 : "#pragma ".toList ∈ DefaultCodeSectionMarks := by decide
  rw [FindAll_eq]
  rcases (mem_defaultMarks m).1 hm with hmm | hmm | hmm
  · have e : m = "//".toList := hmm
    rw [hother _ d2 (by rw [hmm]; decide), hother _ d3 (by rw [hmm]; decide)]
    rw [← e, hself]
    rfl
  · have e : m = "#".toList := hmm
    rw [hother _ d1 (by rw [hmm]; decide), hother _ d3 (by rw [hmm]; decide)]
    rw [← e, hself]
    rfl
  · have e : m = "#pragma ".toList := hmm
    rw [hother _ d1 (by rw [hmm]; decide), hother _ d2 (by rw [hmm]; decide)]
    rw [← e, hself]
    rfl

end placeholder

namespace placeholder
open regexp

theorem dropWhile_head_not (p : Char → Bool) :
    ∀ (l : List Char) (c : Char) (t : List Char), l.dropWhile p = c :: t → p c = false := by
  intro l
  induction l with
  | nil => intro c t h; simp at h
  | cons x l ih =>
    intro c t h
    by_cases hx : p x = true
    · rw [List.dropWhile_cons_of_pos hx] at h
      exact ih c t h
    · rw [List.dropWhile_cons_of_neg hx] at h
      simp only [List.cons.injEq] at h
      rw [← h.1]
      simpa using hx

theorem mem_dropWhile_of_not (p : Char → Bool) (c : Char) (hc : p c = false) :
    ∀ (l : List Char), c ∈ l → c ∈ l.dropWhile p := by
  intro l
  induction l with
  | nil => intro h; exact h
  | cons x l ih =>
    intro h
    by_cases hx : p x = true
    · rw [List.dropWhile_cons_of_pos hx]
      rcases List.mem_cons.1 h with rfl | h
      · rw [hc] at hx; exact absurd hx (by simp)
      · exact ih h
    · rw [List.dropWhile_cons_of_neg hx]
      exact h

/-- A text with a character that is not a blank is its trimmed text between two runs of
blanks, and the trimmed text starts and ends with a character that is not a blank. -/
theorem trimBlanks_decomp (s : List Char) (hnb : ∃ c ∈ s, blank c = false) :
    ∃ l r, Blank l ∧ Blank r ∧ s = l ++ (trimBlanks s ++ r) ∧
      (∃ c t, trimBlanks s = c :: t ∧ blank c = false) ∧
      (∃ t c, trimBlanks s = t ++ [c] ∧ blank c = false) := by
  obtain ⟨c, hc, hcb⟩ := hnb
  have hd : c ∈ s.dropWhile blank := mem_dropWhile_of_not blank c hcb s hc
  have hd2 : c ∈ (s.dropWhile blank).reverse.dropWhile blank :=
    mem_dropWhile_of_not blank c hcb _ (List.mem_reverse.2 hd)
  have e1 : s = s.takeWhile blank ++ s.dropWhile blank :=
    (List.takeWhile_append_dropWhile blank s).symm
  have e2 : s.dropWhile blank = trimBlanks s ++
      ((s.dropWhile blank).reverse.takeWhile blank).reverse := by
    have := List.takeWhile_append_dropWhile blank (s.dropWhile blank).reverse
    have := congrArg List.reverse this
    simp only [List.reverse_append, List.reverse_reverse] at this
    rw [trimBlanks]
    exact this.symm
  have hlast : ∃ t x, trimBlanks s = t ++ [x] ∧ blank x = false := by
    cases h : (s.dropWhile blank).reverse.dropWhile blank with
    | nil => rw [h] at hd2; simp at hd2
    | cons x t =>
      refine ⟨t.reverse, x, by simp [trimBlanks, h], dropWhile_head_not blank _ x t h⟩
  have hfirst : ∃ x t, trimBlanks s = x :: t ∧ blank x = false := by
    cases h : s.dropWhile blank with
    | nil => rw [h] at hd; simp at hd
    | cons x t =>
      have hx := dropWhile_head_not blank _ x t h
      obtain ⟨u, y, hu, -⟩ := hlast
      cases ht : trimBlanks s with
      | nil => rw [ht] at hu; simp at hu
      | cons z w =>
        rw [h, ht] at e2
        simp only [List.cons_append, List.cons.injEq] at e2
        exact ⟨z, w, rfl, by rw [← e2.1]; exact hx⟩
  refine ⟨s.takeWhile blank, ((s.dropWhile blank).reverse.takeWhile blank).reverse, ?_, ?_, ?_,
    hfirst, hlast⟩
  · intro x hx
    exact List.mem_takeWhile_imp hx
  · intro x hx
    exact List.mem_takeWhile_imp (List.mem_reverse.1 hx)
  · rw [← e2]
    exact e1

end placeholder

namespace placeholder
open regexp

/-- C9: in the buffer of `TestIdentifierParsing`, for every identifier text `s` without
newline, carriage return and closing parenthesis that holds a character other than a
space or a tab, `FindAll` returns exactly one placeholder, and its identifier is `s`
without its leading and trailing spaces and tabs. -/
theorem findAll_identifier_is_trimmed (s : List Char) (hnl : '\n' ∉ s) (hcr : '\r' ∉ s)
    (hp : ')' ∉ s) (hnb : ∃ c ∈ s, blank c = false) :
    ∃ p, FindAll ("// region CODE_REGION(".toList ++ s ++
        ")\nSome data here\n// endregion".toList) = [p] ∧
      p.Identifier = trimBlanks s := by
  obtain ⟨l, r, hl, hr, hs, hfirst, hlast⟩ := trimBlanks_decomp s hnb
  have hmem : ∀ x ∈ trimBlanks s, x ∈ s := by
    intro x hx
    rw [hs]
    simp [hx]
  have hid : Trimmed (trimBlanks s) := by
    refine ⟨?_, hfirst, hlast⟩
    intro x hx
    have hxs := hmem x hx
    have h1 : x ≠ '\n' := fun e => hnl (e ▸ hxs)
    have h2 : x ≠ ')' := fun e => hp (e ▸ hxs)
    simp [identChar, h1, h2]
  have hb1 : Blank [' '] := by intro x hx; simp at hx; subst hx; rfl
  have hb0 : Blank [] := by intro x hx; simp at hx
  have hdata : "// region CODE_REGION(".toList ++ s ++ ")\nSome data here\n// endregion".toList =
      beginText "//".toList [] [' '] l (trimBlanks s) r [] ++
        ("Some data here".toList ++ '\n' :: endText "//".toList [] [' '] []) := by
    conv => lhs; rw [hs]
    simp [beginText, endText]
  have hcr2 : '\r' ∉ beginText "//".toList [] [' '] l (trimBlanks s) r [] ++
        ("Some data here".toList ++ '\n' :: endText "//".toList [] [' '] []) := by
    rw [← hdata]
    intro h
    simp only [List.mem_append] at h
    rcases h with (h | h) | h
    · revert h; decide
    · exact hcr h
    · revert h; decide
  have := findAll_region "//".toList [] [' '] l (trimBlanks s) r [] "Some data here".toList
    [] [' '] [] (by decide) hb0 hb1 hl hr hb0 hid hb0 hb1 hb0 (by decide) (by decide) hcr2
  rw [hdata, this]
  exact ⟨_, rfl, rfl⟩

theorem findAll_identifier_is_trimmed_witness :
    ∃ p, FindAll ("// region CODE_REGION(".toList ++ "  \tFoo.Bar   \t".toList ++
        ")\nSome data here\n// endregion".toList) = [p] ∧
      p.Identifier = trimBlanks "  \tFoo.Bar   \t".toList :=
  findAll_identifier_is_trimmed "  \tFoo.Bar   \t".toList (by decide) (by decide) (by decide)
    ⟨'F', by decide, rfl⟩

/-- C10 (as amended): for a well-formed region that makes up the buffer (a begin marker line
under a default mark with a trimmed identifier, a body `B` that holds neither
`region CODE_REGION(` nor `endregion`, one newline and an end marker line, without carriage
return), `FindAll` returns one placeholder whose content is `B` followed by the newline
that abuts the end marker line. -/
theorem findAll_content_is_body_with_newline (m s0 s1 s2 ident s3 s4 B e0 e1 e2 : List Char)
    (hm : m ∈ DefaultCodeSectionMarks) (h0 : Blank s0) (h1 : Blank s1) (h2 : Blank s2)
    (h3 : Blank s3) (h4 : Blank s4) (hid : Trimmed ident) (g0 : Blank e0) (g1 : Blank e1)
    (g2 : Blank e2) (hB1 : ¬ "region CODE_REGION(".toList <:+: B)
    (hB2 : ¬ "endregion".toList <:+: B)
    (hcr : '\r' ∉ beginText m s0 s1 s2 ident s3 s4 ++ (B ++ '\n' :: endText m e0 e1 e2)) :
    ∃ p, FindAll (beginText m s0 s1 s2 ident s3 s4 ++ (B ++ '\n' :: endText m e0 e1 e2)) = [p] ∧
      p.Content = B ++ ['\n'] ∧ p.Begin = beginText m s0 s1 s2 ident s3 s4 ∧
      p.End = endText m e0 e1 e2 := by
  rw [findAll_region m s0 s1 s2 ident s3 s4 B e0 e1 e2 hm h0 h1 h2 h3 h4 hid g0 g1 g2 hB1 hB2 hcr]
  exact ⟨_, rfl, rfl, rfl, rfl⟩

theorem findAll_content_is_body_with_newline_witness :
    ∃ p, FindAll (beginText "#".toList [' '] [' '] [] "Foo".toList [] [] ++
        ("\nSome data here\n".toList ++ '\n' :: endText "#".toList [' '] [' '] ['\t'])) = [p] ∧
      p.Content = "\nSome data here\n".toList ++ ['\n'] ∧
      p.Begin = beginText "#".toList [' '] [' '] [] "Foo".toList [] [] ∧
      p.End = endText "#".toList [' '] [' '] ['\t'] :=
  findAll_content_is_body_with_newline "#".toList [' '] [' '] [] "Foo".toList [] []
    "\nSome data here\n".toList [' '] [' '] ['\t'] (by decide) (by unfold Blank; decide)
    (by unfold Blank; decide) (by unfold Blank; decide) (by unfold Blank; decide)
    (by unfold Blank; decide)
    ⟨by decide, ⟨'F', "oo".toList, rfl, rfl⟩, ⟨"Fo".toList, 'o', rfl, rfl⟩⟩
    (by unfold Blank; decide) (by unfold Blank; decide) (by unfold Blank; decide)
    (by decide) (by decide) (by decide)

/-- C10 (counterexample): in the buffer of `TestIdentifierParsing` the body is
`Some data here`, and the content of the placeholder that `FindAll` returns is
`Some data here` followed by a newline. -/
theorem findAll_content_is_not_body :
    samples.fooRegion = "// region CODE_REGION(Foo)\n".toList ++
        ("Some data here".toList ++ "\n".toList ++ "// endregion".toList) ∧
      (FindAll samples.fooRegion).map (fun p => p.Content) = ["Some data here\n".toList] ∧
      ¬ ∃ p ∈ FindAll samples.fooRegion, p.Content = "Some data here".toList := by
  decide

end placeholder

/-! ## Textual replacement -/

namespace placeholder
open regexp

theorem bytesReplace1_cons (old new : List Char) (c : Char) (cs : List Char) :
    bytesReplace1 old new (c :: cs) =
      if old.isPrefixOf (c :: cs) then new ++ (c :: cs).drop old.length
      else c :: bytesReplace1 old new cs := rfl

theorem bytesReplace1_self (old : List Char) :
    ∀ s : List Char, bytesReplace1 old old s = s := by
  intro s
  induction s with
  | nil =>
    simp only [bytesReplace1]
    split
    · next h => exact h
    · rfl
  | cons c cs ih =>
    simp only [bytesReplace1]
    split
    · next h =>
      rw [List.isPrefixOf_iff_prefix] at h
      exact List.prefix_iff_eq_append.1 h
    · rw [ih]

theorem bytesReplace1_of_not_infix (old new : List Char) :
    ∀ s : List Char, ¬ old <:+: s → bytesReplace1 old new s = s := by
  intro s
  induction s with
  | nil =>
    intro h
    simp only [bytesReplace1]
    split
    · next e => exact absurd (e ▸ List.infix_refl []) h
    · rfl
  | cons c cs ih =>
    intro h
    simp only [bytesReplace1]
    split
    · next e =>
      rw [List.isPrefixOf_iff_prefix] at e
      exact absurd e.isInfix h
    · rw [ih (fun hh => h (hh.trans (List.suffix_cons c cs).isInfix))]

/-- The textual replacement acts on the first occurrence: when `s` is `pre`, `old` and
`post` in a row and `old` does not start before the end of `pre`, the result is `pre`,
`new` and `post`. -/
theorem bytesReplace1_first (old new : List Char) (hold : old ≠ []) :
    ∀ (pre post : List Char),
      (∀ a b, pre ++ (old ++ post) = a ++ (old ++ b) → pre.length ≤ a.length) →
      bytesReplace1 old new (pre ++ (old ++ post)) = pre ++ (new ++ post) := by
  intro pre
  induction pre with
  | nil =>
    intro post _
    obtain ⟨o, os, rfl⟩ := List.exists_cons_of_ne_nil hold
    rw [List.nil_append, List.cons_append, bytesReplace1_cons]
    have hp : (o :: os).isPrefixOf (o :: (os ++ post)) = true := by
      rw [List.isPrefixOf_iff_prefix]
      exact ⟨post, rfl⟩
    rw [if_pos hp]
    simp
  | cons x pre ih =>
    intro post hmin
    rw [List.cons_append, bytesReplace1_cons]
    have hp : ¬ old.isPrefixOf (x :: (pre ++ (old ++ post))) = true := by
      rw [List.isPrefixOf_iff_prefix]
      rintro ⟨b, hb⟩
      have := hmin [] b (by simpa using hb.symm)
      simp at this
    rw [if_neg hp, ih post, List.cons_append]
    intro a b hab
    have := hmin (x :: a) b (by simp [hab])
    simpa using this

/-- An occurrence of `old` in `s` has a first one. -/
theorem exists_first_occurrence (old : List Char) :
    ∀ s : List Char, old <:+: s →
      ∃ pre post, s = pre ++ (old ++ post) ∧
        ∀ a b, s = a ++ (old ++ b) → pre.length ≤ a.length := by
  intro s
  induction s with
  | nil =>
    intro h
    have := List.eq_nil_of_infix_nil h
    subst this
    exact ⟨[], [], rfl, fun a b _ => Nat.zero_le _⟩
  | cons c cs ih =>
    intro h
    by_cases hp : old <+: c :: cs
    · obtain ⟨post, hpost⟩ := hp
      exact ⟨[], post, by simpa using hpost.symm, fun a b _ => Nat.zero_le _⟩
    · have hcs : old <:+: cs := by
        obtain ⟨a, b, hab⟩ := h
        cases a with
        | nil => exact absurd ⟨b, by simpa using hab⟩ hp
        | cons y a =>
          simp only [List.cons_append, List.append_assoc, List.cons.injEq] at hab
          exact ⟨a, b, by simpa using hab.2⟩
      obtain ⟨pre, post, h1, h2⟩ := ih hcs
      refine ⟨c :: pre, post, by simp [h1], ?_⟩
      intro a b hab
      cases a with
      | nil => exact absurd ⟨b, by simpa using hab.symm⟩ hp
      | cons y a =>
        simp only [List.cons_append, List.cons.injEq] at hab
        have := h2 a b hab.2
        simpa using this

theorem raw_ne_nil_of_mem_FindAll (data : List Char) (t : Placeholder) (h : t ∈ FindAll data) :
    t.Raw ≠ [] := by
  obtain ⟨m, -, hm⟩ := (mem_FindAll data t).1 h
  obtain ⟨pre, b, ident, k, c, en, post, -, -, -, hB, -, rfl⟩ :=
    parsePlaceholders_shape m data t hm
  obtain ⟨s0, s1, s2, s3, s4, -, -, -, -, -, -, -, -, rfl⟩ := hB
  simp

/-- What `ReplaceAll` does with one input placeholder that has a counterpart `t` in a
buffer without carriage return: the first occurrence of the raw text of `t` is replaced. -/
theorem replaceAll_single (dest : List Char) (p t : Placeholder) (hcr : '\r' ∉ dest)
    (ht : (FindAll dest).find? (fun t => t.Identifier = p.Identifier) = some t) :
    ∃ pre post, dest = pre ++ (t.Raw ++ post) ∧
      (∀ a b, dest = a ++ (t.Raw ++ b) → pre.length ≤ a.length) ∧
      ReplaceAll dest [p] = pre ++ ((t.Begin ++ p.Content ++ t.End) ++ post) := by
  have hmem : t ∈ FindAll dest := List.mem_of_find?_eq_some ht
  have hinf : t.Raw <:+: dest := by
    have := (raw_of_mem_FindAll dest t hmem).2
    rwa [crRemover_of_noCR _ hcr] at this
  obtain ⟨pre, post, h1, h2⟩ := exists_first_occurrence t.Raw dest hinf
  refine ⟨pre, post, h1, h2, ?_⟩
  unfold ReplaceAll
  simp only [crRemover_of_noCR _ hcr, List.foldl_cons, List.foldl_nil, replaceOne, ht]
  have h3 := bytesReplace1_first t.Raw (t.WithContent p.Content).Raw
    (raw_ne_nil_of_mem_FindAll dest t hmem) pre post (by rw [← h1]; exact h2)
  rw [← h1] at h3
  rw [h3]
  simp [Placeholder.WithContent]

end placeholder

namespace placeholder
open regexp

/-- On text without carriage return: when the raw text of the first same-identifier
placeholder `t`, matched at the offsets `s` to `e`, does not occur before `s`,
`ReplaceAll` replaces exactly the span from `s` to `e`. -/
theorem replaceAll_matched_span_text (dest : List Char) (p t : Placeholder) (s e : Nat)
    (hcr : '\r' ∉ dest)
    (ht : (FindAll dest).find? (fun t => t.Identifier = p.Identifier) = some t)
    (hspan : MatchedAt dest t s e)
    (hfirst : ∀ a b, dest = a ++ (t.Raw ++ b) → s ≤ a.length) :
    ReplaceAll dest [p] = dest.take s ++ ((t.Begin ++ p.Content ++ t.End) ++ dest.drop e) := by
  obtain ⟨m, -, caps, hcaps, hlook, htp⟩ := hspan
  rw [crRemover_of_noCR _ hcr] at hcaps htp
  obtain ⟨pre, b, ident, k, c, en, post, hd, -, -, -, -, h0, hp⟩ :=
    toPlaceholder_shape m dest caps hcaps
  rw [htp] at hp
  rw [h0] at hlook
  simp only [Option.some.injEq, Prod.mk.injEq] at hlook
  obtain ⟨hs, he⟩ := hlook
  have hraw : t.Raw = b ++ (c ++ en) := by rw [hp]
  have hd2 : dest = pre ++ (t.Raw ++ post) := by rw [hraw, hd]; simp
  obtain ⟨pre1, post1, h1, h2, h3⟩ := replaceAll_single dest p t hcr ht
  have hlen : pre1.length = pre.length := by
    have a1 := h2 pre post hd2
    have a2 := hfirst pre1 post1 h1
    omega
  have heq : pre1 ++ (t.Raw ++ post1) = pre ++ (t.Raw ++ post) := by rw [← h1, ← hd2]
  have hpre : pre1 = pre := List.append_inj_left heq hlen
  have hpost : post1 = post := by
    have := List.append_inj_right heq hlen
    exact List.append_cancel_left this
  rw [h3, hpre, hpost]
  have t1 : dest.take s = pre := by rw [hd2, ← hs]; simp
  have t2 : dest.drop e = post := by
    have q : dest = (pre ++ (b ++ (c ++ en))) ++ post := by rw [hd]; simp
    rw [q]
    exact List.drop_left' (by rw [← he]; simp)
  rw [t1, t2]

/-- C2 (counterexample): in `shadowed` the placeholder is matched at the offsets 43 to 84,
its raw text occurs first at offset 1, and `ReplaceAll` changes that first occurrence and
leaves the matched span as it is. -/
theorem replaceAll_misses_matched_span :
    (FindAll samples.shadowed).find? (fun t => t.Identifier = samples.inputA.Identifier) =
        some samples.shadowedTarget ∧
      MatchedAt samples.shadowed samples.shadowedTarget 43 84 ∧
      ReplaceAll samples.shadowed [samples.inputA] =
        ("x// region CODE_REGION(A)\nNEW\n// endregion\n" ++
          "// region CODE_REGION(A)\nfoo\n// endregion").toList ∧
      ReplaceAll samples.shadowed [samples.inputA] ≠
        samples.shadowed.take 43 ++
          ((samples.shadowedTarget.Begin ++ samples.inputA.Content ++
            samples.shadowedTarget.End) ++ samples.shadowed.drop 84) :=
  ⟨by decide,
    ⟨"//".toList, by decide,
      [(0, (43, 84)), (4, (72, 84)), (3, (68, 72)), (1, (43, 68)), (2, (65, 66))],
      by decide, by decide, by decide⟩,
    by decide, by decide⟩

end placeholder

namespace placeholder
open regexp

/-- On text without carriage return: the region that `ReplaceAll` works on for one input
placeholder is the same-identifier placeholder that `FindAll` lists first, and the first
occurrence of its raw text is replaced. -/
theorem replaceAll_first_in_mark_order_text (dest : List Char) (p : Placeholder)
    (hcr : '\r' ∉ dest) :
    (FindAll dest).find? (fun t => t.Identifier = p.Identifier) =
        ((parsePlaceholders "//".toList dest).find? (fun t => t.Identifier = p.Identifier)).or
          (((parsePlaceholders "#".toList dest).find? (fun t => t.Identifier = p.Identifier)).or
            ((parsePlaceholders "#pragma ".toList dest).find?
              (fun t => t.Identifier = p.Identifier))) ∧
      (∀ m, parsePlaceholders m dest =
          ((findRegexp m).allMatches dest).map (toPlaceholder m dest) ∧
        ((findRegexp m).allMatches dest).Pairwise
          (fun c1 c2 => (spanOf c1).2 ≤ (spanOf c2).1)) ∧
      ∀ t, (FindAll dest).find? (fun t => t.Identifier = p.Identifier) = some t →
        ∃ pre post, dest = pre ++ (t.Raw ++ post) ∧
          (∀ a b, dest = a ++ (t.Raw ++ b) → pre.length ≤ a.length) ∧
          ReplaceAll dest [p] = pre ++ ((t.Begin ++ p.Content ++ t.End) ++ post) := by
  refine ⟨?_, fun m => ⟨?_, Re.allMatches_ordered _ _⟩,
    fun t ht => replaceAll_single dest p t hcr ht⟩
  · rw [FindAll_eq, List.find?_append, List.find?_append]
  · simp only [parsePlaceholders, crRemover_of_noCR _ hcr]

/-- C6 (counterexample): `twoMarks` holds two regions of the identifier `X`, under `#` from
offset 0 to 37 and under `//` from offset 38 to 77; `ReplaceAll` leaves the first one as it is and
changes the second one. -/
theorem replaceAll_changes_later_region :
    MatchedAt samples.twoMarks
        { Raw := "# region CODE_REGION(X)\na\n# endregion".toList,
          Begin := "# region CODE_REGION(X)\n".toList, Identifier := "X".toList,
          Content := "a\n".toList, End := "# endregion".toList, Mark := "#".toList } 0 37 ∧
      MatchedAt samples.twoMarks
        { Raw := "// region CODE_REGION(X)\nb\n// endregion".toList,
          Begin := "// region CODE_REGION(X)\n".toList, Identifier := "X".toList,
          Content := "b\n".toList, End := "// endregion".toList, Mark := "//".toList } 38 77 ∧
      ReplaceAll samples.twoMarks [samples.inputX] =
        ("# region CODE_REGION(X)\na\n# endregion\n" ++
          "// region CODE_REGION(X)\nNEW\n// endregion\n").toList ∧
      ReplaceAll samples.twoMarks [samples.inputX] ≠
        ("# region CODE_REGION(X)\nNEW\n# endregion\n" ++
          "// region CODE_REGION(X)\nb\n// endregion\n").toList :=
  ⟨⟨"#".toList, by decide,
      [(0, (0, 37)), (4, (26, 37)), (3, (24, 26)), (1, (0, 24)), (2, (21, 22))],
      by decide, by decide, by decide⟩,
    ⟨"//".toList, by decide,
      [(0, (38, 77)), (4, (65, 77)), (3, (63, 65)), (1, (38, 63)), (2, (60, 61))],
      by decide, by decide, by decide⟩,
    by decide, by decide⟩

end placeholder

namespace placeholder
open regexp

theorem mem_bytesReplace1 (old new : List Char) (x : Char) :
    ∀ s : List Char, x ∈ bytesReplace1 old new s → x ∈ s ∨ x ∈ new := by
  intro s
  induction s with
  | nil =>
    intro h
    simp only [bytesReplace1] at h
    split at h
    · exact Or.inr h
    · exact Or.inl h
  | cons c cs ih =>
    intro h
    rw [bytesReplace1_cons] at h
    split at h
    · rcases List.mem_append.1 h with h | h
      · exact Or.inr h
      · exact Or.inl (List.mem_of_mem_drop h)
    · rcases List.mem_cons.1 h with h | h
      · exact Or.inl (h ▸ List.mem_cons_self _ _)
      · rcases ih h with h | h
        · exact Or.inl (List.mem_cons_of_mem _ h)
        · exact Or.inr h

theorem noCR_crRemover (data : List Char) : '\r' ∉ crRemover data := by
  intro h
  simp [crRemover_filter, isCR] at h

theorem noCR_of_mem_FindAll (data : List Char) (t : Placeholder) (h : t ∈ FindAll data) :
    '\r' ∉ t.Begin ∧ '\r' ∉ t.Content ∧ '\r' ∉ t.End := by
  obtain ⟨m, -, hm⟩ := (mem_FindAll data t).1 h
  obtain ⟨pre, b, ident, k, c, en, post, hd, -, -, -, -, rfl⟩ :=
    parsePlaceholders_shape m data t hm
  have hno := noCR_crRemover data
  rw [hd] at hno
  simp only [List.mem_append, not_or] at hno
  exact ⟨hno.2.1, hno.2.2.1, hno.2.2.2.1⟩

theorem ReplaceAll_eq (data : List Char) (ps : List Placeholder) :
    ReplaceAll data ps = ps.foldl (replaceOne (FindAll (crRemover data))) (crRemover data) :=
  rfl

theorem noCR_replaceAll (E : List Char) (ps : List Placeholder)
    (hps : ∀ p ∈ ps, '\r' ∉ p.Content) : '\r' ∉ ReplaceAll E ps := by
  rw [ReplaceAll_eq]
  have h0 := noCR_crRemover E
  have hT : ∀ t ∈ FindAll (crRemover E), '\r' ∉ t.Begin ∧ '\r' ∉ t.End := fun t ht =>
    ⟨(noCR_of_mem_FindAll _ t ht).1, (noCR_of_mem_FindAll _ t ht).2.2⟩
  generalize FindAll (crRemover E) = T at hT
  generalize crRemover E = d at h0
  induction ps generalizing d with
  | nil => exact h0
  | cons p ps ih =>
    rw [List.foldl_cons]
    apply ih (fun q hq => hps q (List.mem_cons_of_mem _ hq))
    unfold replaceOne
    cases hf : T.find? (fun t => t.Identifier = p.Identifier) with
    | none => exact h0
    | some t =>
      intro hx
      rcases mem_bytesReplace1 _ _ _ _ hx with hx | hx
      · exact h0 hx
      · have ht := hT t (List.mem_of_find?_eq_some hf)
        simp only [Placeholder.WithContent, List.nil_append, List.mem_append] at hx
        rcases hx with (hx | hx) | hx
        · exact ht.1 hx
        · exact hps p (List.mem_cons_self _ _) hx
        · exact ht.2 hx

/-- A buffer is a fixed point of `ReplaceAll` when each input placeholder meets, as its
first same-identifier counterpart in the buffer, a placeholder with the same content. -/
theorem replaceAll_fixed (M : List Char) (ps : List Placeholder) (hcr : '\r' ∉ M)
    (h : ∀ p ∈ ps, ∀ t, (FindAll M).find? (fun t => t.Identifier = p.Identifier) = some t →
      t.Content = p.Content) :
    ReplaceAll M ps = M := by
  rw [ReplaceAll_eq, crRemover_of_noCR _ hcr]
  have hT : ∀ t ∈ FindAll M, t.Raw = t.Begin ++ t.Content ++ t.End := fun t ht =>
    (raw_of_mem_FindAll M t ht).1
  generalize FindAll M = T at h hT
  induction ps with
  | nil => rfl
  | cons p ps ih =>
    rw [List.foldl_cons]
    have : replaceOne T M p = M := by
      unfold replaceOne
      cases hf : T.find? (fun t => t.Identifier = p.Identifier) with
      | none => rfl
      | some t =>
        have hc := h p (List.mem_cons_self _ _) t hf
        have hr := hT t (List.mem_of_find?_eq_some hf)
        have : (t.WithContent p.Content).Raw = t.Raw := by
          rw [hr, ← hc]
          simp [Placeholder.WithContent]
        simp only [this]
        exact bytesReplace1_self _ _
    rw [this]
    exact ih (fun q hq => h q (List.mem_cons_of_mem _ hq))

theorem eq_of_pairwise_identifier :
    ∀ (l : List Placeholder), l.Pairwise (fun a b => a.Identifier ≠ b.Identifier) →
      ∀ a ∈ l, ∀ b ∈ l, a.Identifier = b.Identifier → a = b := by
  intro l
  induction l with
  | nil => intro _ a ha; simp at ha
  | cons x l ih =>
    intro hp a ha b hb hab
    rw [List.pairwise_cons] at hp
    rcases List.mem_cons.1 ha with ha1 | ha1
    · rcases List.mem_cons.1 hb with hb1 | hb1
      · rw [ha1, hb1]
      · exact absurd (ha1 ▸ hab) (hp.1 b hb1)
    · rcases List.mem_cons.1 hb with hb1 | hb1
      · exact absurd (hb1 ▸ hab.symm) (hp.1 a ha1)
      · exact ih hp.2 a ha1 b hb1 hab

/-- C4 (counterexample): with the two same-identifier regions of `dupR`, the first pass over
the existing file `existingX` writes the content `a` and the second pass the content `b`;
on an absent file the first pass writes `dupR` and the second pass changes it; with
the plain render `renderedA` over the existing file `shadowed`, the second pass changes
what the first pass wrote; so it does with the render `nestedR`, in which a content holds a
begin marker line, over `existingAB`, with the render `endR`, in which a content holds
an end marker line, over `existingHashA`, and with the render `renderedA` over `identE`, in
which the begin marker line of the region `A` occurs twice; and on an absent file the first
pass writes the bytes of `invalidLine`, of which the second pass replaces the byte that is
not valid UTF-8, or the bytes of `fooCrLf`, of which the second pass removes the carriage
returns. -/
theorem regeneration_not_idempotent :
    ReplaceAll (ReplaceAll samples.existingX (FindAll samples.dupR)) (FindAll samples.dupR) ≠
        ReplaceAll samples.existingX (FindAll samples.dupR) ∧
      ReplaceAll samples.dupR (FindAll samples.dupR) ≠ samples.dupR ∧
      ReplaceAll (ReplaceAll samples.shadowed (FindAll samples.renderedA))
          (FindAll samples.renderedA) ≠
        ReplaceAll samples.shadowed (FindAll samples.renderedA) ∧
      ReplaceAll (ReplaceAll samples.existingAB (FindAll samples.nestedR))
          (FindAll samples.nestedR) ≠
        ReplaceAll samples.existingAB (FindAll samples.nestedR) ∧
      ReplaceAll (ReplaceAll samples.existingHashA (FindAll samples.endR))
          (FindAll samples.endR) ≠
        ReplaceAll samples.existingHashA (FindAll samples.endR) ∧
      ReplaceAll (ReplaceAll samples.identE (FindAll samples.renderedA))
          (FindAll samples.renderedA) ≠
        ReplaceAll samples.identE (FindAll samples.renderedA) ∧
      Buffer.ofText (Buffer.ReplaceAll samples.invalidLine (Buffer.FindAll samples.invalidLine)) ≠
        samples.invalidLine ∧
      Buffer.ReplaceAll (Buffer.ofText samples.fooCrLf)
          (Buffer.FindAll (Buffer.ofText samples.fooCrLf)) ≠
        samples.fooCrLf := by
  decide

end placeholder

/-! ## Merging several regions -/

namespace placeholder
open regexp

/-- Two ways to split a text at a newline: at the same newline, or one before the other. -/
theorem nl_split_cases :
    ∀ (a1 b1 a2 b2 : List Char), a1 ++ '\n' :: b1 = a2 ++ '\n' :: b2 →
      (a1 = a2 ∧ b1 = b2) ∨ (∃ m, a2 = a1 ++ '\n' :: m ∧ b1 = m ++ '\n' :: b2) ∨
        (∃ m, a1 = a2 ++ '\n' :: m ∧ b2 = m ++ '\n' :: b1) := by
  intro a1
  induction a1 with
  | nil =>
    intro b1 a2 b2 h
    cases a2 with
    | nil =>
      simp only [List.nil_append, List.cons.injEq, true_and] at h
      exact Or.inl ⟨rfl, h⟩
    | cons x a2 =>
      simp only [List.nil_append, List.cons_append, List.cons.injEq] at h
      exact Or.inr (Or.inl ⟨a2, by rw [← h.1]; rfl, h.2⟩)
  | cons y a1 ih =>
    intro b1 a2 b2 h
    cases a2 with
    | nil =>
      simp only [List.nil_append, List.cons_append, List.cons.injEq] at h
      exact Or.inr (Or.inr ⟨a1, by rw [h.1]; rfl, h.2.symm⟩)
    | cons x a2 =>
      simp only [List.cons_append, List.cons.injEq] at h
      rcases ih b1 a2 b2 h.2 with ⟨e1, e2⟩ | ⟨m, e1, e2⟩ | ⟨m, e1, e2⟩
      · exact Or.inl ⟨by rw [h.1, e1], e2⟩
      · exact Or.inr (Or.inl ⟨m, by rw [h.1, e1]; rfl, e2⟩)
      · exact Or.inr (Or.inr ⟨m, by rw [h.1, e1]; rfl, e2⟩)

/-- A text without newline at the end of `u ++ '\n' :: m` lies in `m`. -/
theorem suffix_after_nl (w0 : List Char) (hw : '\n' ∉ w0) :
    ∀ (a u m : List Char), a ++ w0 = u ++ '\n' :: m → ∃ m1, m = m1 ++ w0 ∧ a = u ++ '\n' :: m1 := by
  intro a u m h
  rcases List.append_eq_append_iff.1 h with ⟨c, hc, hw0⟩ | ⟨c, hc, hm⟩
  · -- u = a ++ c, w0 = c ++ '\n' :: m
    exfalso
    apply hw
    rw [hw0]
    simp
  · -- a = u ++ c, '\n' :: m = c ++ w0
    cases c with
    | nil =>
      exfalso
      apply hw
      simp only [List.nil_append] at hm
      rw [← hm]
      simp
    | cons x c =>
      simp only [List.cons_append, List.cons.injEq] at hm
      exact ⟨c, hm.2, by rw [hc, ← hm.1]⟩

/-- The last character that is not a blank is the same in two texts of which one ends
with the other. -/
theorem last_nonblank_unique (u u1 x x1 : List Char) (a a1 : Char) (hx : Blank x)
    (hx1 : Blank x1) (ha : blank a = false) (ha1 : blank a1 = false)
    (h : u ++ a :: x = u1 ++ a1 :: x1) : a = a1 := by
  have h2 := congrArg List.reverse h
  simp only [List.reverse_append, List.reverse_cons, List.append_assoc, List.singleton_append]
    at h2
  exact (blank_split_unique x.reverse x1.reverse _ _ a a1
    (fun y hy => hx y (List.mem_reverse.1 hy)) (fun y hy => hx1 y (List.mem_reverse.1 hy))
    ha ha1 h2).2.1

/-- A begin marker line without its newline and an end marker line never end at the same
place: the one ends with `)` and blanks, the other with `n` and blanks. -/
theorem begin_end_clash (m m1 ident b w0 E : List Char) (k : Nat) (hb : IsBegin m ident b k)
    (hw : b = w0 ++ ['\n']) (hE : IsEnd m1 E) (x y : List Char) (h : x ++ E = y ++ w0) :
    False := by
  obtain ⟨s0, s1, s2, s3, s4, -, -, -, -, h4, -, -, -, rfl⟩ := hb
  obtain ⟨e0, e1, e2, -, -, g2, rfl⟩ := hE
  have hw0 : w0 = (s0 ++ (m ++ (s1 ++ ("region CODE_REGION(".toList ++ s2)))) ++
      (ident ++ (s3 ++ (')' :: s4))) := by
    have : ((s0 ++ (m ++ (s1 ++ ("region CODE_REGION(".toList ++ s2)))) ++
      (ident ++ (s3 ++ (')' :: s4)))) ++ ['\n'] = w0 ++ ['\n'] := by rw [← hw]; simp
    exact (List.append_inj_left' this rfl).symm
  rw [hw0, endWord_eq] at h
  have h2 : (x ++ (e0 ++ (m1 ++ (e1 ++ ['e', 'n', 'd', 'r', 'e', 'g', 'i', 'o'])))) ++ 'n' :: e2 =
      (y ++ ((s0 ++ (m ++ (s1 ++ ("region CODE_REGION(".toList ++ s2)))) ++ (ident ++ s3))) ++
        ')' :: s4 := by
    simpa using h
  have := last_nonblank_unique _ _ _ _ _ _ g2 h4 (by rfl) (by rfl) h2
  exact absurd this (by decide)

end placeholder

namespace placeholder
open regexp

/-- An occurrence of a begin marker line `w0 ++ "\n"` in a text made of `X0`, a newline, a
new content `c1`, an end marker line `E` and a rest `S` that is empty or starts a new line
lies before the content or after the end marker line, unless it lies in the content. -/
theorem no_straddle (w0 X0 c1 E S a b : List Char) (hw0 : '\n' ∉ w0) (hE : '\n' ∉ E)
    (hS : S = [] ∨ ∃ S1, S = '\n' :: S1) (hc : ¬ (w0 ++ ['\n']) <:+: c1)
    (hclash : ∀ x y, x ++ E = y ++ w0 → False)
    (h : X0 ++ '\n' :: (c1 ++ (E ++ S)) = a ++ (w0 ++ '\n' :: b)) :
    (∃ x1, X0 ++ ['\n'] = a ++ (w0 ++ '\n' :: x1)) ∨
      (∃ y1, a = X0 ++ '\n' :: (c1 ++ y1) ∧ E ++ S = y1 ++ (w0 ++ '\n' :: b)) := by
  have h1 : (a ++ w0) ++ '\n' :: b = X0 ++ '\n' :: (c1 ++ (E ++ S)) := by
    rw [h]; simp
  rcases nl_split_cases _ _ _ _ h1 with ⟨q1, -⟩ | ⟨m, q1, -⟩ | ⟨m, q1, q2⟩
  · exact Or.inl ⟨[], by rw [← q1]; simp⟩
  · exact Or.inl ⟨m ++ ['\n'], by rw [q1]; simp⟩
  · obtain ⟨m1, rfl, ha⟩ := suffix_after_nl w0 hw0 a X0 m q1
    have q3 : c1 ++ (E ++ S) = (m1 ++ w0) ++ '\n' :: b := q2
    rcases List.append_eq_append_iff.1 q3 with ⟨c2, hc2, hES⟩ | ⟨c2, hc2, hb⟩
    · -- the content ends inside `m1 ++ w0`
      rcases hS with rfl | ⟨S1, rfl⟩
      · exfalso
        apply hE
        simp only [List.append_nil] at hES
        rw [hES]
        simp
      · have hES2 : E ++ '\n' :: S1 = c2 ++ '\n' :: b := hES
        rcases nl_split_cases _ _ _ _ hES2 with ⟨r1, -⟩ | ⟨m2, r1, r2⟩ | ⟨m2, r1, -⟩
        · exfalso
          refine hclash c1 m1 ?_
          rw [hc2, r1]
        · have r3 : m1 ++ w0 = (c1 ++ E) ++ '\n' :: m2 := by rw [hc2, r1]; simp
          obtain ⟨m3, rfl, hm1⟩ := suffix_after_nl w0 hw0 m1 (c1 ++ E) m2 r3
          refine Or.inr ⟨E ++ '\n' :: m3, ?_, ?_⟩
          · rw [ha, hm1]; simp
          · rw [r2]; simp
        · exfalso
          apply hE
          rw [r1]
          simp
    · -- the content holds the occurrence up to its newline
      cases c2 with
      | nil =>
        exfalso
        simp only [List.nil_append] at hb
        cases E with
        | nil => exact hclash w0 [] (by simp)
        | cons e E =>
          simp only [List.cons_append, List.cons.injEq] at hb
          exact hE (hb.1 ▸ List.mem_cons_self _ _)
      | cons x c2 =>
        exfalso
        simp only [List.cons_append, List.cons.injEq] at hb
        apply hc
        rw [hc2, ← hb.1]
        exact ⟨m1, c2, by simp⟩

/-- Replacing the content between `X` and `Y` keeps a text at most once in the buffer when
the text cannot straddle the new content. -/
theorem atMostOnce_transfer (w X c0 c1 Y : List Char) (hw : w ≠ [])
    (hK : ∀ a b, X ++ (c1 ++ Y) = a ++ (w ++ b) →
      (∃ x1, X = a ++ (w ++ x1)) ∨ (∃ y1, a = X ++ (c1 ++ y1) ∧ Y = y1 ++ (w ++ b)))
    (hold : AtMostOnce w (X ++ (c0 ++ Y))) : AtMostOnce w (X ++ (c1 ++ Y)) := by
  intro a b a1 b1 h1 h2
  rcases hK a b h1 with ⟨x1, hx⟩ | ⟨y1, hy, hY⟩
  · have e1 : X ++ (c0 ++ Y) = a ++ (w ++ (x1 ++ (c0 ++ Y))) := by
      conv => lhs; rw [hx]
      simp
    rcases hK a1 b1 h2 with ⟨x2, hx2⟩ | ⟨y2, hy2, hY2⟩
    · have e2 : X ++ (c0 ++ Y) = a1 ++ (w ++ (x2 ++ (c0 ++ Y))) := by
        conv => lhs; rw [hx2]
        simp
      exact hold _ _ _ _ e1 e2
    · exfalso
      have e2 : X ++ (c0 ++ Y) = (X ++ (c0 ++ y2)) ++ (w ++ b1) := by
        conv => lhs; rw [hY2]
        simp
      have := hold _ _ _ _ e1 e2
      have hl := congrArg List.length hx
      rw [this] at hl
      simp only [List.length_append] at hl
      have : w.length = 0 := by omega
      exact hw (List.length_eq_zero.1 this)
  · have e1 : X ++ (c0 ++ Y) = (X ++ (c0 ++ y1)) ++ (w ++ b) := by
      conv => lhs; rw [hY]
      simp
    rcases hK a1 b1 h2 with ⟨x2, hx2⟩ | ⟨y2, hy2, hY2⟩
    · exfalso
      have e2 : X ++ (c0 ++ Y) = a1 ++ (w ++ (x2 ++ (c0 ++ Y))) := by
        conv => lhs; rw [hx2]
        simp
      have := hold _ _ _ _ e1 e2
      have hl := congrArg List.length hx2
      rw [← this] at hl
      simp only [List.length_append] at hl
      have : w.length = 0 := by omega
      exact hw (List.length_eq_zero.1 this)
    · have e2 : X ++ (c0 ++ Y) = (X ++ (c0 ++ y2)) ++ (w ++ b1) := by
        conv => lhs; rw [hY2]
        simp
      have := hold _ _ _ _ e1 e2
      have e : y1 = y2 := by
        have := List.append_cancel_left this
        exact List.append_cancel_left this
      rw [hy, hy2, e]

end placeholder

namespace placeholder
open regexp

theorem weave_append (f : Placeholder → List Char) :
    ∀ (l1 l2 : List (Placeholder × List Char)), weave f (l1 ++ l2) = weave f l1 ++ weave f l2 := by
  intro l1
  induction l1 with
  | nil => intro l2; rfl
  | cons x l1 ih =>
    intro l2
    obtain ⟨t, g⟩ := x
    simp [weave, ih]

theorem weave_congr (f f1 : Placeholder → List Char) :
    ∀ (l : List (Placeholder × List Char)), (∀ t ∈ l.map Prod.fst, f t = f1 t) →
      weave f l = weave f1 l := by
  intro l
  induction l with
  | nil => intro _; rfl
  | cons x l ih =>
    intro h
    obtain ⟨t, g⟩ := x
    simp only [weave]
    rw [h t (by simp), ih (fun u hu => h u (by simp only [List.map_cons, List.mem_cons]; exact Or.inr hu))]

theorem weave_split (f : Placeholder → List Char) (g0 : List Char)
    (l1 l2 : List (Placeholder × List Char)) (t : Placeholder) (g : List Char) :
    g0 ++ weave f (l1 ++ (t, g) :: l2) = (g0 ++ weave f l1) ++ (f t ++ (g ++ weave f l2)) := by
  rw [weave_append]
  simp [weave]

theorem shaped_of_mem_FindAll (data : List Char) (t : Placeholder) (h : t ∈ FindAll data) :
    Shaped t := by
  obtain ⟨m, hm, hp⟩ := (mem_FindAll data t).1 h
  obtain ⟨pre, b, ident, k, c, en, post, -, -, -, hB, hE, rfl⟩ :=
    parsePlaceholders_shape m data t hp
  exact ⟨m, ident, k, goodMark_of_default m hm, hB, hE, rfl⟩

theorem shaped_begin (t : Placeholder) (h : Shaped t) :
    ∃ w0, t.Begin = w0 ++ ['\n'] ∧ '\n' ∉ w0 := by
  obtain ⟨m, ident, k, hm, hB, -, -⟩ := h
  obtain ⟨s0, s1, s2, s3, s4, h0, h1, h2, h3, h4, -, hid, -, hb⟩ := hB
  obtain ⟨b0, hb0, hnl⟩ := beginText_split m s0 s1 s2 ident s3 s4 hm.2 h0 h1 h2 h3 h4 hid
  refine ⟨b0, ?_, hnl⟩
  rw [hb, ← hb0]
  simp [beginText]

theorem shaped_end (t : Placeholder) (h : Shaped t) : '\n' ∉ t.End := by
  obtain ⟨m, ident, k, hm, -, hE, -⟩ := h
  obtain ⟨e0, e1, e2, g0, g1, g2, he⟩ := hE
  rw [he]
  exact endText_no_nl m e0 e1 e2 hm.2 g0 g1 g2

theorem shaped_head (t : Placeholder) (h : Shaped t) :
    ∃ x rest, t.Raw = x :: rest ∧ x ≠ '\n' := by
  obtain ⟨m, ident, k, ⟨⟨a, u, rfl, -⟩, hnl⟩, hB, -, hraw⟩ := h
  obtain ⟨s0, s1, s2, s3, s4, h0, -, -, -, -, -, -, -, hb⟩ := hB
  rw [hraw, hb]
  cases s0 with
  | nil => exact ⟨a, _, by simp; rfl, fun e => hnl (e ▸ List.mem_cons_self _ _)⟩
  | cons y s0 =>
    refine ⟨y, _, by simp; rfl, fun e => ?_⟩
    have := h0 y (List.mem_cons_self _ _)
    rw [e] at this
    exact absurd this (by decide)

theorem shaped_clash (u t : Placeholder) (hu : Shaped u) (ht : Shaped t) (w0 : List Char)
    (hw : u.Begin = w0 ++ ['\n']) (x y : List Char) (h : x ++ t.End = y ++ w0) : False := by
  obtain ⟨m, ident, k, -, hB, -, -⟩ := hu
  obtain ⟨m1, ident1, k1, -, -, hE, -⟩ := ht
  exact begin_end_clash m m1 ident u.Begin w0 t.End k hB hw hE x y h

end placeholder

namespace placeholder
open regexp

theorem split_of_mem_nodup (segs : List (Placeholder × List Char)) (t : Placeholder)
    (h : t ∈ segs.map Prod.fst) (hnd : (segs.map Prod.fst).Nodup) :
    ∃ l1 g l2, segs = l1 ++ (t, g) :: l2 ∧ t ∉ l1.map Prod.fst ∧ t ∉ l2.map Prod.fst := by
  obtain ⟨⟨t1, g⟩, hx, ht⟩ := List.mem_map.1 h
  simp only at ht
  subst ht
  obtain ⟨l1, l2, rfl⟩ := List.append_of_mem hx
  refine ⟨l1, g, l2, rfl, ?_⟩
  simp only [List.map_append, List.map_cons] at hnd
  have := (List.nodup_cons.1 (List.nodup_middle.1 hnd)).1
  simp only [List.mem_append, not_or] at this
  exact this

/-- One round of the loop of `ReplaceAll` on a buffer of gaps and regions in which the
begin marker line of the target occurs once: the region of the target is rewritten with
the input content, the rest of the buffer is unchanged. -/
theorem replaceOne_weave (T : List Placeholder) (g0 : List Char)
    (segs : List (Placeholder × List Char)) (F : Placeholder → List Char) (p t : Placeholder)
    (hf : T.find? (fun t => t.Identifier = p.Identifier) = some t) (hsh : Shaped t)
    (hin : t ∈ segs.map Prod.fst) (hnd : (segs.map Prod.fst).Nodup)
    (hFt : F t = t.Raw) (hAM : AtMostOnce t.Begin (g0 ++ weave F segs)) :
    replaceOne T (g0 ++ weave F segs) p =
      g0 ++ weave (fun u => if u = t then t.Begin ++ p.Content ++ t.End else F u) segs := by
  obtain ⟨l1, g, l2, rfl, hn1, hn2⟩ := split_of_mem_nodup segs t hin hnd
  obtain ⟨m, ident, k, -, hB, -, hraw⟩ := hsh
  have hne : t.Raw ≠ [] := by
    obtain ⟨s0, s1, s2, s3, s4, -, -, -, -, -, -, -, -, hb⟩ := hB
    rw [hraw, hb]
    simp
  have c1 : weave (fun u => if u = t then t.Begin ++ p.Content ++ t.End else F u) l1 =
      weave F l1 := weave_congr _ _ l1 (fun u hu => by
    have : u ≠ t := fun e => hn1 (e ▸ hu)
    simp [this])
  have c2 : weave (fun u => if u = t then t.Begin ++ p.Content ++ t.End else F u) l2 =
      weave F l2 := weave_congr _ _ l2 (fun u hu => by
    have : u ≠ t := fun e => hn2 (e ▸ hu)
    simp [this])
  rw [weave_split, weave_split, c1, c2, hFt] at *
  simp only [replaceOne, hf, if_true]
  have hw : (t.WithContent p.Content).Raw = t.Begin ++ p.Content ++ t.End := by
    simp [Placeholder.WithContent]
  rw [hw]
  apply bytesReplace1_first _ _ hne
  intro a b hab
  have e1 : (g0 ++ weave F l1) ++ (t.Raw ++ (g ++ weave F l2)) =
      (g0 ++ weave F l1) ++ (t.Begin ++ ((t.Content ++ t.End) ++ (g ++ weave F l2))) := by
    rw [hraw]; simp
  have e2 : (g0 ++ weave F l1) ++ (t.Raw ++ (g ++ weave F l2)) =
      a ++ (t.Begin ++ ((t.Content ++ t.End) ++ b)) := by
    rw [hab, hraw]; simp
  rw [hAM _ _ _ _ e1 e2]

end placeholder

namespace placeholder
open regexp

/-- Rewriting the region `t` with a content that does not hold the begin marker line of `u`
keeps that line at most once in the buffer. -/
theorem atMostOnce_after_replace (g0 : List Char) (l1 l2 : List (Placeholder × List Char))
    (g : List Char) (F : Placeholder → List Char) (t u : Placeholder) (c1 : List Char)
    (hn1 : t ∉ l1.map Prod.fst) (hn2 : t ∉ l2.map Prod.fst)
    (ht : Shaped t) (hu : Shaped u) (hFt : F t = t.Raw)
    (hgap : (g = [] ∧ l2 = []) ∨ ∃ g1, g = '\n' :: g1)
    (hc : ¬ u.Begin <:+: c1)
    (hold : AtMostOnce u.Begin (g0 ++ weave F (l1 ++ (t, g) :: l2))) :
    AtMostOnce u.Begin
      (g0 ++ weave (fun v => if v = t then t.Begin ++ c1 ++ t.End else F v)
        (l1 ++ (t, g) :: l2)) := by
  have k1 : weave (fun v => if v = t then t.Begin ++ c1 ++ t.End else F v) l1 =
      weave F l1 := weave_congr _ _ l1 (fun v hv => by
    have : v ≠ t := fun e => hn1 (e ▸ hv)
    simp [this])
  have k2 : weave (fun v => if v = t then t.Begin ++ c1 ++ t.End else F v) l2 =
      weave F l2 := weave_congr _ _ l2 (fun v hv => by
    have : v ≠ t := fun e => hn2 (e ▸ hv)
    simp [this])
  obtain ⟨w0, hw0, hnl0⟩ := shaped_begin u hu
  obtain ⟨tb0, htb0, -⟩ := shaped_begin t ht
  have hE := shaped_end t ht
  have hraw : t.Raw = t.Begin ++ (t.Content ++ t.End) := by
    obtain ⟨_, _, _, _, _, _, h⟩ := ht
    exact h
  have hS : g ++ weave F l2 = [] ∨ ∃ S1, g ++ weave F l2 = '\n' :: S1 := by
    rcases hgap with ⟨rfl, rfl⟩ | ⟨g1, rfl⟩
    · exact Or.inl rfl
    · exact Or.inr ⟨g1 ++ weave F l2, rfl⟩
  have hwne : u.Begin ≠ [] := by rw [hw0]; simp
  rw [weave_split, k1, k2] 
  rw [weave_split, hFt, hraw] at hold
  simp only [if_true]
  have e0 : (g0 ++ weave F l1) ++ ((t.Begin ++ (t.Content ++ t.End)) ++ (g ++ weave F l2)) =
      ((g0 ++ weave F l1) ++ t.Begin) ++ (t.Content ++ (t.End ++ (g ++ weave F l2))) := by
    simp
  have e1 : (g0 ++ weave F l1) ++ ((t.Begin ++ c1 ++ t.End) ++ (g ++ weave F l2)) =
      ((g0 ++ weave F l1) ++ t.Begin) ++ (c1 ++ (t.End ++ (g ++ weave F l2))) := by
    simp
  rw [e0] at hold
  rw [e1]
  apply atMostOnce_transfer u.Begin _ t.Content c1 _ hwne _ hold
  intro a b hab
  have hab2 : ((g0 ++ weave F l1) ++ tb0) ++ '\n' :: (c1 ++ (t.End ++ (g ++ weave F l2))) =
      a ++ (w0 ++ '\n' :: b) := by
    rw [htb0, hw0] at hab
    simpa using hab
  rcases no_straddle w0 _ c1 t.End _ a b hnl0 hE hS (by rw [← hw0]; exact hc)
    (fun x y h => shaped_clash u t hu ht w0 hw0 x y h) hab2 with ⟨x1, hx⟩ | ⟨y1, hy, hY⟩
  · refine Or.inl ⟨x1, ?_⟩
    rw [htb0, hw0]
    simpa using hx
  · refine Or.inr ⟨y1, ?_, ?_⟩
    · rw [hy, htb0]; simp
    · rw [hY, hw0]; simp

end placeholder

namespace placeholder
open regexp

/-- The loop of `ReplaceAll` on a buffer of gaps and regions: when the identifiers are
pairwise distinct on both sides, the begin marker line of each region still to be merged
occurs once, and no input content holds a begin marker line of the destination, the loop
rewrites each region with the input content of its identifier and nothing else. -/
theorem merge_fold (T : List Placeholder) (g0 : List Char)
    (segs : List (Placeholder × List Char)) (hT : ∀ t ∈ T, Shaped t)
    (hTid : ∀ a ∈ T, ∀ b ∈ T, a.Identifier = b.Identifier → a = b)
    (hmem : ∀ t, t ∈ segs.map Prod.fst ↔ t ∈ T) (hnd : (segs.map Prod.fst).Nodup)
    (hgap : ∀ l1 t g l2, segs = l1 ++ (t, g) :: l2 → (g = [] ∧ l2 = []) ∨ ∃ g1, g = '\n' :: g1) :
    ∀ (ps : List Placeholder), ps.Pairwise (fun a b => a.Identifier ≠ b.Identifier) →
      (∀ p ∈ ps, ∀ u ∈ T, ¬ u.Begin <:+: p.Content) →
      ∀ (F : Placeholder → List Char),
        (∀ u ∈ T, (∃ p ∈ ps, p.Identifier = u.Identifier) →
          F u = u.Raw ∧ AtMostOnce u.Begin (g0 ++ weave F segs)) →
        ps.foldl (replaceOne T) (g0 ++ weave F segs) = g0 ++ weave (mergedOver ps F) segs := by
  intro ps
  induction ps with
  | nil =>
    intro _ _ F _
    rfl
  | cons p ps ih =>
    intro hpw hH2 F hV
    rw [List.pairwise_cons] at hpw
    rw [List.foldl_cons]
    have hH2' : ∀ q ∈ ps, ∀ u ∈ T, ¬ u.Begin <:+: q.Content :=
      fun q hq => hH2 q (List.mem_cons_of_mem _ hq)
    cases hf : T.find? (fun t => t.Identifier = p.Identifier) with
    | none =>
      have hstep : replaceOne T (g0 ++ weave F segs) p = g0 ++ weave F segs := by
        simp [replaceOne, hf]
      rw [hstep, ih hpw.2 hH2' F (fun u hu ⟨q, hq, hqu⟩ =>
        hV u hu ⟨q, List.mem_cons_of_mem _ hq, hqu⟩)]
      congr 1
      apply weave_congr
      intro u hu
      have huT := (hmem u).1 hu
      have hne : ¬ p.Identifier = u.Identifier := by
        have := List.find?_eq_none.1 hf u huT
        intro e
        exact this (by simpa using e.symm)
      simp [mergedOver, List.find?_cons, hne]
    | some t =>
      have htT : t ∈ T := List.mem_of_find?_eq_some hf
      have htid : t.Identifier = p.Identifier := by
        have := List.find?_some hf
        simpa using this
      obtain ⟨hFt, hAM⟩ := hV t htT ⟨p, List.mem_cons_self _ _, htid.symm⟩
      have hin := (hmem t).2 htT
      rw [replaceOne_weave T g0 segs F p t hf (hT t htT) hin hnd hFt hAM]
      have hnot : ∀ q ∈ ps, ∀ u ∈ T, q.Identifier = u.Identifier → u ≠ t := by
        intro q hq u _ hqu e
        subst e
        exact hpw.1 q hq (by rw [← htid, hqu])
      rw [ih hpw.2 hH2' _ (by
        intro u huT ⟨q, hq, hqu⟩
        have hut := hnot q hq u huT hqu
        obtain ⟨hFu, hAMu⟩ := hV u huT ⟨q, List.mem_cons_of_mem _ hq, hqu⟩
        refine ⟨by simp [hut, hFu], ?_⟩
        obtain ⟨l1, g, l2, hsplit, hn1, hn2⟩ := split_of_mem_nodup segs t hin hnd
        rw [hsplit] at hAMu ⊢
        exact atMostOnce_after_replace g0 l1 l2 g F t u p.Content hn1 hn2 (hT t htT)
          (hT u huT) hFt (hgap l1 t g l2 hsplit)
          (hH2 p (List.mem_cons_self _ _) u huT) hAMu)]
      congr 1
      apply weave_congr
      intro u hu
      have huT := (hmem u).1 hu
      by_cases hpu : p.Identifier = u.Identifier
      · have hut : u = t := hTid u huT t htT (by rw [← hpu, htid])
        subst hut
        have hnone : ps.find? (fun q => q.Identifier = u.Identifier) = none := by
          rw [List.find?_eq_none]
          intro q hq
          have := hpw.1 q hq
          simpa using fun e : q.Identifier = u.Identifier => this (by rw [e, htid])
        simp [mergedOver, List.find?_cons, hpu, hnone]
      · have hut : u ≠ t := fun e => hpu (by rw [e, htid])
        simp [mergedOver, List.find?_cons, hpu, hut]

end placeholder

namespace placeholder
open regexp

theorem countOcc_pos (w : List Char) :
    ∀ (s a b : List Char), s = a ++ (w ++ b) → 1 ≤ countOcc w s := by
  intro s
  induction s with
  | nil =>
    intro a b h
    have h1 : a = [] ∧ w ++ b = [] := List.append_eq_nil.1 h.symm
    have h2 : w = [] := (List.append_eq_nil.1 h1.2).1
    simp [countOcc, h2]
  | cons c cs ih =>
    intro a b h
    simp only [countOcc]
    cases a with
    | nil =>
      have : w.isPrefixOf (c :: cs) = true := by
        rw [List.isPrefixOf_iff_prefix]
        exact ⟨b, by simpa using h.symm⟩
      simp [this]
    | cons x a =>
      simp only [List.cons_append, List.cons.injEq] at h
      have := ih a b h.2
      omega

/-- A text that is counted at most once in a buffer occurs at most once in it. -/
theorem atMostOnce_of_count (w : List Char) :
    ∀ (s : List Char), countOcc w s ≤ 1 → AtMostOnce w s := by
  intro s
  induction s with
  | nil =>
    intro _ a b a1 b1 h h1
    rw [(List.append_eq_nil.1 h.symm).1, (List.append_eq_nil.1 h1.symm).1]
  | cons c cs ih =>
    intro hc a b a1 b1 h h1
    simp only [countOcc] at hc
    cases a with
    | nil =>
      cases a1 with
      | nil => rfl
      | cons y a1 =>
        exfalso
        have p1 : w.isPrefixOf (c :: cs) = true := by
          rw [List.isPrefixOf_iff_prefix]
          exact ⟨b, by simpa using h.symm⟩
        simp only [List.cons_append, List.cons.injEq] at h1
        have := countOcc_pos w cs a1 b1 h1.2
        rw [if_pos p1] at hc
        omega
    | cons x a =>
      simp only [List.cons_append, List.cons.injEq] at h
      cases a1 with
      | nil =>
        exfalso
        have p1 : w.isPrefixOf (c :: cs) = true := by
          rw [List.isPrefixOf_iff_prefix]
          exact ⟨b1, by simpa using h1.symm⟩
        have := countOcc_pos w cs a b h.2
        rw [if_pos p1] at hc
        omega
      | cons y a1 =>
        simp only [List.cons_append, List.cons.injEq] at h1
        have hcs : countOcc w cs ≤ 1 := by omega
        rw [ih hcs a b a1 b1 h.2 h1.2, ← h.1, ← h1.1]

/-- On text: for a destination without carriage return that is its regions, in document
order, between gaps, with pairwise distinct identifiers in the source and in the
destination, where the begin marker line of each destination region occurs only once in the
destination and in no content of a source region, `FindAndReplaceAll` writes the content of
the same-identifier source region between the marker lines of each destination region and
keeps the other regions and the gaps. -/
theorem findAndReplaceAll_merges_text (src dest g0 : List Char)
    (segs : List (Placeholder × List Char)) (hcr : '\r' ∉ dest)
    (hsrc : (FindAll src).Pairwise (fun a b => a.Identifier ≠ b.Identifier))
    (hdst : (FindAll dest).Pairwise (fun a b => a.Identifier ≠ b.Identifier))
    (hweave : dest = g0 ++ weave (fun t => t.Raw) segs)
    (hperm : (segs.map Prod.fst).Perm (FindAll dest))
    (hone : ∀ t ∈ FindAll dest, AtMostOnce t.Begin dest)
    (hfree : ∀ p ∈ FindAll src, ∀ t ∈ FindAll dest, ¬ t.Begin <:+: p.Content) :
    FindAndReplaceAll src dest = g0 ++ weave (merged (FindAll src)) segs := by
  have hT : ∀ t ∈ FindAll dest, Shaped t := fun t ht => shaped_of_mem_FindAll dest t ht
  have hnd : (segs.map Prod.fst).Nodup := by
    rw [hperm.nodup_iff]
    exact hdst.imp (fun {a b} h e => h (by rw [e]))
  have hgap : ∀ l1 t g l2, segs = l1 ++ (t, g) :: l2 →
      (g = [] ∧ l2 = []) ∨ ∃ g1, g = '\n' :: g1 := by
    intro l1 t g l2 hs
    have htT : t ∈ FindAll dest := hperm.mem_iff.1 (by rw [hs]; simp)
    obtain ⟨m, -, hp⟩ := (mem_FindAll dest t).1 htT
    obtain ⟨pre, b, ident, k, c, en, post, hd, -, heol, -, -, ht⟩ :=
      parsePlaceholders_shape m dest t hp
    rw [crRemover_of_noCR _ hcr] at hd
    have hb : t.Begin = b := by rw [ht]
    have hraw : t.Raw = b ++ (c ++ en) := by rw [ht]
    have q1 : dest = (g0 ++ weave (fun t => t.Raw) l1) ++
        (t.Begin ++ ((c ++ en) ++ (g ++ weave (fun t => t.Raw) l2))) := by
      conv => lhs; rw [hweave, hs, weave_split]
      simp only [hraw, hb]
      simp
    have q2 : dest = pre ++ (t.Begin ++ (c ++ (en ++ post))) := by rw [hb]; exact hd
    have hpre := hone t htT _ _ _ _ q1 q2
    have hpost : g ++ weave (fun t => t.Raw) l2 = post := by
      have q3 := q1.symm.trans q2
      rw [hpre] at q3
      have q4 := List.append_cancel_left (List.append_cancel_left q3)
      have q5 : c ++ (en ++ (g ++ weave (fun t => t.Raw) l2)) = c ++ (en ++ post) := by
        simpa using q4
      exact List.append_cancel_left (List.append_cancel_left q5)
    rw [← hpost] at heol
    cases g with
    | cons x g1 =>
      simp only [List.cons_append, atEol, beq_iff_eq] at heol
      exact Or.inr ⟨g1, by rw [heol]⟩
    | nil =>
      cases l2 with
      | nil => exact Or.inl ⟨rfl, rfl⟩
      | cons y l2 =>
        exfalso
        obtain ⟨v, gv⟩ := y
        have hvT : v ∈ FindAll dest := hperm.mem_iff.1 (by rw [hs]; simp)
        obtain ⟨x, rest, hx, hxn⟩ := shaped_head v (hT v hvT)
        simp only [weave, List.nil_append, hx, List.cons_append, atEol, beq_iff_eq] at heol
        exact hxn heol
  unfold FindAndReplaceAll
  rw [ReplaceAll_eq, crRemover_of_noCR _ hcr]
  have key := merge_fold (FindAll dest) g0 segs hT
    (eq_of_pairwise_identifier _ hdst) (fun t => hperm.mem_iff) hnd hgap (FindAll src) hsrc hfree
    (fun t => t.Raw) (fun u hu _ => ⟨rfl, by rw [← hweave]; exact hone u hu⟩)
  rw [← hweave] at key
  exact key

end placeholder

namespace placeholder
open regexp

/-- C3 (counterexample): `srcNest` and `destNest` hold no carriage return, their identifiers
are pairwise distinct, their regions lie one after the other, and the raw text of each
region of `destNest` occurs once in it; the second round of the merge replaces the text of
region `B` inside the content that the first round wrote into region `A`, and leaves the
region `B` of the destination as it was. -/
theorem findAndReplaceAll_misses_region :
    ('\r' ∉ samples.srcNest ∧ '\r' ∉ samples.destNest) ∧
      (FindAll samples.srcNest).Pairwise (fun a b => a.Identifier ≠ b.Identifier) ∧
      (FindAll samples.destNest).Pairwise (fun a b => a.Identifier ≠ b.Identifier) ∧
      (samples.srcNest = weave (fun t => t.Raw) samples.srcSegsNest ∧
        samples.srcSegsNest.map Prod.fst = FindAll samples.srcNest) ∧
      (samples.destNest = weave (fun t => t.Raw) samples.segsNest ∧
        samples.segsNest.map Prod.fst = FindAll samples.destNest) ∧
      (∀ t ∈ FindAll samples.destNest, countOcc t.Raw samples.destNest = 1) ∧
      FindAndReplaceAll samples.srcNest samples.destNest =
        ("// region CODE_REGION(A)\nx# region CODE_REGION(B)\nNEWB\n# endregion\n" ++
          "// endregion\n# region CODE_REGION(B)\nfoo\n# endregion").toList ∧
      FindAndReplaceAll samples.srcNest samples.destNest ≠
        weave (merged (FindAll samples.srcNest)) samples.segsNest := by
  decide

end placeholder


/-! ## Order of the placeholders, line endings -/

namespace placeholder
open regexp

/-- On text: `FindAll` lists the placeholders mark by mark; the spans of the matches of one
mark are not empty, lie in the buffer, do not overlap and come by increasing start offset. -/
theorem findAll_spans_text (data : List Char) :
    FindAll data = parsePlaceholders "//".toList data ++
        (parsePlaceholders "#".toList data ++ parsePlaceholders "#pragma ".toList data) ∧
      ∀ m, parsePlaceholders m data =
          ((findRegexp m).allMatches (crRemover data)).map (toPlaceholder m (crRemover data)) ∧
        (∀ c ∈ (findRegexp m).allMatches (crRemover data),
          (spanOf c).1 < (spanOf c).2 ∧ (spanOf c).2 ≤ (crRemover data).length ∧
            (toPlaceholder m (crRemover data) c).Raw =
              slice (crRemover data) (spanOf c).1 (spanOf c).2) ∧
        ((findRegexp m).allMatches (crRemover data)).Pairwise
          (fun c1 c2 => (spanOf c1).2 ≤ (spanOf c2).1 ∧ (spanOf c1).1 < (spanOf c2).1) := by
  have hspan : ∀ m, ∀ c ∈ (findRegexp m).allMatches (crRemover data),
      (spanOf c).1 < (spanOf c).2 ∧ (spanOf c).2 ≤ (crRemover data).length ∧
        (toPlaceholder m (crRemover data) c).Raw =
          slice (crRemover data) (spanOf c).1 (spanOf c).2 := by
    intro m c hc
    obtain ⟨pre, b, ident, k, cn, en, post, h1, -, -, h4, -, h6, -⟩ :=
      toPlaceholder_shape m (crRemover data) c hc
    have hb : 0 < b.length := by
      obtain ⟨s0, s1, s2, s3, s4, -, -, -, -, -, -, -, -, hb⟩ := h4
      rw [hb]; simp
    have hsp : spanOf c = (pre.length, pre.length + (b ++ (cn ++ en)).length) := by
      simp [spanOf, h6]
    refine ⟨?_, ?_, ?_⟩
    · rw [hsp]; simp only [List.length_append]; omega
    · rw [hsp]
      have := congrArg List.length h1
      simp only [List.length_append] at this ⊢
      omega
    · simp only [toPlaceholder, submatch, h6, hsp]
  refine ⟨FindAll_eq data, fun m => ⟨rfl, hspan m, ?_⟩⟩
  have hord := Re.allMatches_ordered (findRegexp m) (crRemover data)
  have hall := hspan m
  generalize (findRegexp m).allMatches (crRemover data) = L at hord hall
  induction L with
  | nil => exact List.Pairwise.nil
  | cons a L ih =>
    rw [List.pairwise_cons] at hord ⊢
    refine ⟨fun c hc => ⟨hord.1 c hc, ?_⟩, ih hord.2 (fun c hc => hall c (List.mem_cons_of_mem _ hc))⟩
    have h1 := (hall a (List.mem_cons_self _ _)).1
    have h2 := hord.1 c hc
    omega

end placeholder


namespace placeholder
open regexp

theorem crlfToLf_cons (c : Char) (rest : List Char) :
    crlfToLf (c :: rest) =
      if c = '\r' ∧ rest.head? = some '\n' then crlfToLf rest else c :: crlfToLf rest := rfl

theorem crRemover_cons (c : Char) (rest : List Char) :
    crRemover (c :: rest) = if c = '\r' then crRemover rest else c :: crRemover rest := by
  by_cases h : c = '\r' <;> simp [crRemover_filter, isCR, h, List.filter_cons]

/-- In a text whose carriage returns are all followed by a newline, removing the carriage
returns is replacing `"\r\n"` by `"\n"`. -/
theorem crRemover_eq_crlfToLf :
    ∀ data : List Char, loneCR data = false → crRemover data = crlfToLf data := by
  intro data
  induction data with
  | nil => intro _; rfl
  | cons c rest ih =>
    intro h
    simp only [loneCR, Bool.or_eq_false_iff, Bool.and_eq_false_imp, beq_iff_eq] at h
    rw [crRemover_cons, crlfToLf_cons, ih h.2]
    by_cases hc : c = '\r'
    · have := h.1 hc
      simp only [bne_eq_false_iff_eq] at this
      simp [hc, this]
    · simp [hc]

/-- On text: with no placeholder to put in, `ReplaceAll` returns the text without its
carriage returns; when each carriage return is followed by a newline, that is the text with
`"\r\n"` replaced by `"\n"`. -/
theorem replaceAll_nil_text (data : List Char) :
    ReplaceAll data [] = data.filter (fun c => c ≠ '\r') ∧
      (loneCR data = false → ReplaceAll data [] = crlfToLf data) := by
  have h0 : ReplaceAll data [] = crRemover data := rfl
  refine ⟨?_, fun h => by rw [h0, crRemover_eq_crlfToLf data h]⟩
  rw [h0]
  rw [crRemover_filter]
  congr 1
  funext r
  by_cases h : r = '\r' <;> simp [isCR, h]

/-- C12 (counterexample): the buffer `"a\rb"` holds no `"\r\n"`, so replacing every `"\r\n"`
by `"\n"` leaves it as it is, and `ReplaceAll` returns `"ab"`. -/
theorem replaceAll_nil_drops_lone_carriage_return :
    crlfToLf "a\rb".toList = "a\rb".toList ∧ ReplaceAll "a\rb".toList [] = "ab".toList ∧
      ReplaceAll "a\rb".toList [] ≠ crlfToLf "a\rb".toList := by
  decide

theorem crRemover_crlf : ∀ s : List Char, crRemover (crlf s) = crRemover s := by
  intro s
  induction s with
  | nil => rfl
  | cons c rest ih =>
    by_cases hc : c = '\n'
    · subst hc
      simp only [crlf, if_true, crRemover_cons, ih]
    · simp only [crlf, hc, if_false, crRemover_cons, ih]

theorem FindAll_crlf (src : List Char) : FindAll (crlf src) = FindAll src := by
  rw [← FindAll_crRemover (crlf src), crRemover_crlf, FindAll_crRemover]

/-- C13: a source with DOS line endings merges as the same source with UNIX line endings
does, for every source and destination, and the merge result holds no carriage return. -/
theorem findAndReplaceAll_crlf_source (src dest : List Char) :
    FindAndReplaceAll (crlf src) dest = FindAndReplaceAll src dest ∧
      '\r' ∉ FindAndReplaceAll src dest ∧ '\r' ∉ FindAndReplaceAll (crlf src) dest := by
  have h1 : FindAndReplaceAll (crlf src) dest = FindAndReplaceAll src dest := by
    unfold FindAndReplaceAll
    simp only [FindAll_crlf]
  have h2 : '\r' ∉ FindAndReplaceAll src dest :=
    noCR_replaceAll dest (FindAll src) (fun p hp => (noCR_of_mem_FindAll src p hp).2.1)
  exact ⟨h1, h2, h1 ▸ h2⟩

end placeholder


/-! ## The header parser -/

namespace templating
open regexp placeholder

theorem parseHeadersLoop_nil {Ctx : Type} (ev : Evaluator Ctx) (line : List Char) (n : Nat)
    (header : Header Ctx) : parseHeadersLoop ev [] line n header = (header, .ok line.reverse) :=
  rfl

theorem parseHeadersLoop_nl {Ctx : Type} (ev : Evaluator Ctx) (rest line : List Char) (n : Nat)
    (header : Header Ctx) :
    parseHeadersLoop ev ('\n' :: rest) line n header =
      match matchHeader ('\n' :: line).reverse with
      | none => (header, .ok (('\n' :: line).reverse ++ rest))
      | some (keyword, value) =>
        match applyDirective ev keyword value (n + 1) header with
        | .error err => (header, .error err)
        | .ok header => parseHeadersLoop ev rest [] (n + 1) header := by
  rw [parseHeadersLoop]
  simp only [if_true]

theorem parseHeadersLoop_other {Ctx : Type} (ev : Evaluator Ctx) (c : Char)
    (rest line : List Char) (n : Nat) (header : Header Ctx) (hc : c ≠ '\n') :
    parseHeadersLoop ev (c :: rest) line n header =
      parseHeadersLoop ev rest (c :: line) n header := by
  rw [parseHeadersLoop]
  simp only [hc, if_false]

/-- Reading a complete line: the loop reaches the newline with the line in its buffer. -/
theorem parseHeadersLoop_line {Ctx : Type} (ev : Evaluator Ctx) (rest : List Char) (n : Nat)
    (header : Header Ctx) :
    ∀ (l line : List Char), '\n' ∉ l →
      parseHeadersLoop ev (l ++ '\n' :: rest) line n header =
        match matchHeader (line.reverse ++ (l ++ ['\n'])) with
        | none => (header, .ok ((line.reverse ++ (l ++ ['\n'])) ++ rest))
        | some (keyword, value) =>
          match applyDirective ev keyword value (n + 1) header with
          | .error err => (header, .error err)
          | .ok header => parseHeadersLoop ev rest [] (n + 1) header := by
  intro l
  induction l with
  | nil =>
    intro line _
    rw [List.nil_append, parseHeadersLoop_nl]
    simp only [List.reverse_cons, List.nil_append]
  | cons c l ih =>
    intro line hl
    have hc : c ≠ '\n' := fun h => hl (h ▸ List.mem_cons_self _ _)
    rw [List.cons_append, parseHeadersLoop_other ev c _ _ _ _ hc,
      ih (c :: line) (fun h => hl (List.mem_cons_of_mem _ h))]
    simp only [List.reverse_cons, List.append_assoc, List.singleton_append, List.cons_append,
      List.nil_append]

/-- Reading an incomplete last line: it is returned as the body. -/
theorem parseHeadersLoop_eof {Ctx : Type} (ev : Evaluator Ctx) (n : Nat) (header : Header Ctx) :
    ∀ (l line : List Char), '\n' ∉ l →
      parseHeadersLoop ev l line n header = (header, .ok (line.reverse ++ l)) := by
  intro l
  induction l with
  | nil => intro line _; simp [parseHeadersLoop_nil]
  | cons c l ih =>
    intro line hl
    have hc : c ≠ '\n' := fun h => hl (h ▸ List.mem_cons_self _ _)
    rw [parseHeadersLoop_other ev c _ _ _ _ hc, ih (c :: line)
      (fun h => hl (List.mem_cons_of_mem _ h))]
    simp

/-- After a block of valid directive lines the loop goes on with what follows the block,
the header being the one the block leaves and the line count raised by its length. -/
theorem parseHeadersLoop_lines {Ctx : Type} (ev : Evaluator Ctx) (tail : List Char) :
    ∀ (lines : List (List Char)) (n : Nat) (header h1 : Header Ctx),
      (∀ l ∈ lines, '\n' ∉ l) → applyLines ev lines n header = some h1 →
      parseHeadersLoop ev (unlines lines ++ tail) [] n header =
        parseHeadersLoop ev tail [] (n + lines.length) h1 := by
  intro lines
  induction lines with
  | nil =>
    intro n header h1 _ h
    simp only [applyLines, Option.some.injEq] at h
    subst h
    rfl
  | cons l ls ih =>
    intro n header h1 hnl h
    have hl : '\n' ∉ l := hnl l (List.mem_cons_self _ _)
    simp only [applyLines] at h
    simp only [unlines, List.append_assoc, List.cons_append]
    rw [parseHeadersLoop_line ev _ n header l [] hl]
    simp only [List.reverse_nil, List.nil_append]
    cases hm : matchHeader (l ++ ['\n']) with
    | none => simp [hm] at h
    | some kv =>
      obtain ⟨keyword, value⟩ := kv
      simp only [hm] at h ⊢
      cases ha : applyDirective ev keyword value (n + 1) header with
      | error e => simp [ha] at h
      | ok h2 =>
        simp only [ha] at h ⊢
        rw [ih (n + 1) h2 h1 (fun x hx => hnl x (List.mem_cons_of_mem _ hx)) h]
        simp only [List.length_cons]
        congr 1
        omega

end templating


namespace templating
open regexp placeholder

/-- What the loop of the parser has consumed when it returns a body: a block of valid
directive lines, the first of which starts with the text read so far. -/
theorem parseHeadersLoop_body {Ctx : Type} (ev : Evaluator Ctx) (body : List Char) :
    ∀ (rest line : List Char) (n : Nat) (header : Header Ctx), '\n' ∉ line →
      (parseHeadersLoop ev rest line n header).2 = .ok body →
      ∃ lines : List (List Char), (∀ l ∈ lines, '\n' ∉ l) ∧
        applyLines ev lines n header = some (parseHeadersLoop ev rest line n header).1 ∧
        line.reverse ++ rest = unlines lines ++ body ∧
        ∀ l r, '\n' ∉ l → body = l ++ '\n' :: r → matchHeader (l ++ ['\n']) = none := by
  intro rest
  induction rest with
  | nil =>
    intro line n header hline h
    rw [parseHeadersLoop_nil] at h ⊢
    simp only [Except.ok.injEq] at h
    subst h
    refine ⟨[], by simp, rfl, by simp [unlines], ?_⟩
    intro l r _ hb
    exact absurd (by rw [hb]; simp) (fun hh : '\n' ∈ line.reverse => hline (List.mem_reverse.1 hh))
  | cons c rest ih =>
    intro line n header hline h
    by_cases hc : c = '\n'
    · subst hc
      rw [parseHeadersLoop_nl] at h ⊢
      have hrev : ('\n' :: line).reverse = line.reverse ++ ['\n'] := by simp
      rw [hrev] at h ⊢
      cases hm : matchHeader (line.reverse ++ ['\n']) with
      | none =>
        simp only [hm, Except.ok.injEq] at h ⊢
        subst h
        refine ⟨[], by simp, rfl, by simp [unlines], ?_⟩
        intro l r hl hb
        have := split_at_first '\n' line.reverse l rest r
          (fun hh => hline (List.mem_reverse.1 hh)) hl (by simpa using hb)
        rw [← this.1]
        exact hm
      | some kv =>
        obtain ⟨keyword, value⟩ := kv
        simp only [hm] at h ⊢
        cases ha : applyDirective ev keyword value (n + 1) header with
        | error e => simp [ha] at h
        | ok h2 =>
          simp only [ha] at h ⊢
          obtain ⟨lines, h1, h3, h4, h5⟩ := ih [] (n + 1) h2 (by simp) h
          refine ⟨line.reverse :: lines, ?_, ?_, ?_, h5⟩
          · intro l hl
            rcases List.mem_cons.1 hl with rfl | hl
            · exact fun hh => hline (List.mem_reverse.1 hh)
            · exact h1 l hl
          · simp only [applyLines, hm, ha]
            exact h3
          · simp only [List.reverse_nil, List.nil_append] at h4
            simp [unlines, h4]
    · rw [parseHeadersLoop_other ev c _ _ _ _ hc] at h ⊢
      obtain ⟨lines, h1, h3, h4, h5⟩ := ih (c :: line) n header
        (by
          intro hh
          rcases List.mem_cons.1 hh with e | e
          · exact hc e.symm
          · exact hline e) h
      exact ⟨lines, h1, h3, by simpa using h4, h5⟩

/-- C14: when `ParseHeaders` succeeds, the input is a block of lines followed by the body it
returns. Each line of the block is a directive line (a line that ends with a newline and
whose trimmed text matches the header pattern) that the parser has applied to the header,
and the body does not begin with a directive line: nothing is lost, added or reordered. -/
theorem parseHeaders_input_is_directives_then_body {Ctx : Type} (ev : Evaluator Ctx)
    (input body : List Char) (header : Header Ctx)
    (hok : (ParseHeaders ev input header).2 = .ok body) :
    ∃ lines : List (List Char), input = unlines lines ++ body ∧
      (∀ l ∈ lines, '\n' ∉ l ∧ (matchHeader (l ++ ['\n'])).isSome = true) ∧
      applyLines ev lines 0 header = some (ParseHeaders ev input header).1 ∧
      ∀ l r, '\n' ∉ l → body = l ++ '\n' :: r → matchHeader (l ++ ['\n']) = none := by
  obtain ⟨lines, h1, h3, h4, h5⟩ := parseHeadersLoop_body ev body input [] 0 header (by simp) hok
  refine ⟨lines, by simpa using h4, fun l hl => ⟨h1 l hl, ?_⟩, h3, h5⟩
  generalize (parseHeadersLoop ev input [] 0 header).1 = hres at h3
  clear h4 h5 hok
  generalize (0 : Nat) = n at h3
  induction lines generalizing n header with
  | nil => simp at hl
  | cons x xs ih =>
    simp only [applyLines] at h3
    cases hm : matchHeader (x ++ ['\n']) with
    | none => simp [hm] at h3
    | some kv =>
      obtain ⟨keyword, value⟩ := kv
      simp only [hm] at h3
      cases ha : applyDirective ev keyword value (n + 1) header with
      | error e => simp [ha] at h3
      | ok h2 =>
        simp only [ha] at h3
        rcases List.mem_cons.1 hl with rfl | hl
        · simp [hm]
        · exact ih h2 (fun y hy => h1 y (List.mem_cons_of_mem _ hy)) hl (n + 1) h3

theorem parseHeaders_input_is_directives_then_body_witness :
    ∃ lines : List (List Char), samples.headersInput = unlines lines ++ "Hello\nWorld".toList ∧
      (∀ l ∈ lines, '\n' ∉ l ∧ (matchHeader (l ++ ['\n'])).isSome = true) ∧
      applyLines samples.unitEvaluator lines 0 samples.zeroHeader =
        some (ParseHeaders samples.unitEvaluator samples.headersInput samples.zeroHeader).1 ∧
      ∀ l r, '\n' ∉ l → "Hello\nWorld".toList = l ++ '\n' :: r →
        matchHeader (l ++ ['\n']) = none :=
  parseHeaders_input_is_directives_then_body samples.unitEvaluator samples.headersInput
    "Hello\nWorld".toList samples.zeroHeader rfl

/-- C15: after a block of valid directive lines, a last line without a newline is returned
as the whole body, as it is, and is not read as a directive: the header is the one that
the block leaves. -/
theorem parseHeaders_incomplete_last_line {Ctx : Type} (ev : Evaluator Ctx)
    (lines : List (List Char)) (last : List Char) (header h1 : Header Ctx)
    (hnl : ∀ l ∈ lines, '\n' ∉ l) (hlines : applyLines ev lines 0 header = some h1)
    (hlast : '\n' ∉ last) :
    ParseHeaders ev (unlines lines ++ last) header = (h1, .ok last) := by
  unfold ParseHeaders
  rw [parseHeadersLoop_lines ev last lines 0 header h1 hnl hlines,
    parseHeadersLoop_eof ev _ h1 last [] hlast]
  simp

theorem parseHeaders_incomplete_last_line_witness :
    ParseHeaders samples.unitEvaluator
        (unlines ["!!if-not-exists".toList] ++ "!!filename coucou.txt".toList)
        samples.zeroHeader =
      ({ samples.zeroHeader with IfNotExists := true }, .ok "!!filename coucou.txt".toList) ∧
    ParseHeaders samples.unitEvaluator (unlines [] ++ "!!filename coucou.txt".toList)
        samples.zeroHeader = (samples.zeroHeader, .ok "!!filename coucou.txt".toList) :=
  ⟨parseHeaders_incomplete_last_line samples.unitEvaluator ["!!if-not-exists".toList]
      "!!filename coucou.txt".toList samples.zeroHeader
      { samples.zeroHeader with IfNotExists := true } (by decide) rfl (by decide),
    parseHeaders_incomplete_last_line samples.unitEvaluator []
      "!!filename coucou.txt".toList samples.zeroHeader samples.zeroHeader
      (by decide) rfl (by decide)⟩

end templating


namespace regexp

theorem Re.run_cls_cons {α : Type} (p : Char → Bool) (k : List Char → List Char → Caps → Option α)
    (c : Char) (cs pre : List Char) (caps : Caps) :
    (Re.cls p).run k pre (c :: cs) caps = if p c = true then k (c :: pre) cs caps else none :=
  rfl

theorem Re.run_bot_nil {α : Type} (k : List Char → List Char → Caps → Option α)
    (rest : List Char) (caps : Caps) : Re.bot.run k [] rest caps = k [] rest caps := rfl

theorem Re.run_bot_cons {α : Type} (k : List Char → List Char → Caps → Option α) (c : Char)
    (pre rest : List Char) (caps : Caps) : Re.bot.run k (c :: pre) rest caps = none := rfl

theorem Re.run_eot_nil {α : Type} (k : List Char → List Char → Caps → Option α)
    (pre : List Char) (caps : Caps) : Re.eot.run k pre [] caps = k pre [] caps := rfl

/-- A greedy repetition takes a run that reaches the end of the input. -/
theorem starGreedy_all {α : Type} (p : Char → Bool) (k : List Char → List Char → Option α)
    (w pre : List Char) (r : α) (hw : ∀ x ∈ w, p x = true)
    (hk : k (w.reverse ++ pre) [] = some r) : starGreedy p k pre w = some r := by
  have h := starGreedy_of_max p k [] r (by intro c cs h; cases h) w pre hw hk
  rwa [List.append_nil] at h

/-- The pattern `[p]+` takes a whole run of the class, and no more, when the continuation
succeeds after the run. -/
theorem run_plus_greedy {α : Type} (p : Char → Bool)
    (k : List Char → List Char → Caps → Option α) (c : Char) (w pre post : List Char)
    (caps : Caps) (r : α) (hc : p c = true) (hw : ∀ x ∈ w, p x = true)
    (hpost : ∀ x xs, post = x :: xs → p x = false)
    (hk : k (w.reverse ++ c :: pre) post caps = some r) :
    (Re.plus p true).run k pre (c :: (w ++ post)) caps = some r := by
  unfold Re.plus
  rw [Re.run_cat, Re.run_cls_cons, if_pos hc, Re.run_star_greedy]
  exact starGreedy_of_max p _ post r hpost w (c :: pre) hw hk

end regexp

namespace templating
open regexp placeholder

/-- The optional part of the header pattern, on blanks followed by an argument that runs to
the end of the text: group 2 is the argument. -/
theorem headerTail_run {α : Type} (k : List Char → List Char → Caps → Option α) (s0 : Char)
    (sep value pre : List Char) (caps : Caps) (r : α) (hs0 : blank s0 = true)
    (hsep : ∀ c ∈ sep, blank c = true) (hv : '\n' ∉ value)
    (hhead : ∀ x xs, value = x :: xs → blank x = false)
    (hk : k (value.reverse ++ (sep.reverse ++ s0 :: pre)) []
      ((2, ((sep.reverse ++ s0 :: pre).length,
        (value.reverse ++ (sep.reverse ++ s0 :: pre)).length)) :: caps) = some r) :
    (Re.opt (Re.seq [Re.plus blank true, .grp 2 (.star notNewline true)]) true).run k pre
      (s0 :: (sep ++ value)) caps = some r := by
  have hvall : ∀ x ∈ value, notNewline x = true := by
    intro x hx
    simp only [notNewline, bne_iff_ne, ne_eq]
    rintro rfl
    exact hv hx
  have inner : (Re.seq [Re.plus blank true, .grp 2 (.star notNewline true)]).run k pre
      (s0 :: (sep ++ value)) caps = some r := by
    simp only [Re.seq]
    rw [Re.run_cat]
    apply run_plus_greedy blank _ s0 sep pre value caps r hs0 hsep hhead
    rw [Re.run_grp, Re.run_star_greedy]
    exact starGreedy_all notNewline _ value _ r hvall hk
  rw [run_opt_greedy, inner]

/-- The header pattern on `!!`, a keyword and nothing more: group 1 is the keyword, group 2
takes no part. -/
theorem headerRegexp_matchAt_bare (c : Char) (w : List Char) (hc : keywordChar c = true)
    (hw : ∀ x ∈ w, keywordChar x = true) :
    headerRegexp.matchAt [] ('!' :: '!' :: c :: (w ++ [])) =
      some (w.length + 3, [(0, (0, w.length + 3)), (1, (2, w.length + 3))]) := by
  unfold Re.matchAt
  rw [Re.run_grp]
  simp only [headerRegexp, Re.seq]
  rw [Re.run_cat, Re.run_bot_nil, Re.run_cat, Re.run_str]
  have e : ('!' :: '!' :: c :: (w ++ [])) = "!!".toList ++ (c :: (w ++ [])) := rfl
  rw [e, matchStr_append, Re.run_cat, Re.run_grp]
  apply run_plus_greedy keywordChar _ c w _ [] _ _ hc hw (by intro x xs h; cases h)
  rw [Re.run_cat, run_opt_greedy]
  simp only [Re.seq, Re.plus, Re.run]
  simp

/-- The header pattern on `!!`, a keyword, blanks and an argument: group 1 is the keyword,
group 2 the argument. -/
theorem headerRegexp_matchAt_arg (c s0 : Char) (w sep value : List Char)
    (hc : keywordChar c = true) (hw : ∀ x ∈ w, keywordChar x = true) (hs0 : blank s0 = true)
    (hsep : ∀ x ∈ sep, blank x = true) (hv : '\n' ∉ value)
    (hhead : ∀ x xs, value = x :: xs → blank x = false) :
    headerRegexp.matchAt [] ('!' :: '!' :: c :: (w ++ (s0 :: (sep ++ value)))) =
      some (w.length + 3 + (sep.length + 1) + value.length,
        [(0, (0, w.length + 3 + (sep.length + 1) + value.length)),
         (2, (w.length + 3 + (sep.length + 1), w.length + 3 + (sep.length + 1) + value.length)),
         (1, (2, w.length + 3))]) := by
  unfold Re.matchAt
  rw [Re.run_grp]
  simp only [headerRegexp, Re.seq]
  rw [Re.run_cat, Re.run_bot_nil, Re.run_cat, Re.run_str]
  have e : ('!' :: '!' :: c :: (w ++ (s0 :: (sep ++ value)))) =
      "!!".toList ++ (c :: (w ++ (s0 :: (sep ++ value)))) := rfl
  rw [e, matchStr_append, Re.run_cat, Re.run_grp]
  apply run_plus_greedy keywordChar _ c w _ (s0 :: (sep ++ value)) _ _ hc hw
  · intro x xs h
    simp only [List.cons.injEq] at h
    rw [← h.1]
    revert hs0
    simp only [blank, keywordChar, Bool.or_eq_true, beq_iff_eq]
    rintro (rfl | rfl) <;> decide
  rw [Re.run_cat]
  apply headerTail_run _ s0 sep value _ _ _ hs0 hsep hv hhead
  rw [Re.run_eot_nil]
  simp
  omega

end templating


namespace strings

theorem dropWhile_pad (p : Char → Bool) (x : Char) (rest : List Char) (hx : p x = false) :
    ∀ a : List Char, (∀ c ∈ a, p c = true) → (a ++ x :: rest).dropWhile p = x :: rest := by
  intro a
  induction a with
  | nil => intro _; simp [List.dropWhile_cons, hx]
  | cons c a ih =>
    intro h
    rw [List.cons_append, List.dropWhile_cons_of_pos (h c (List.mem_cons_self _ _))]
    exact ih (fun y hy => h y (List.mem_cons_of_mem _ hy))

/-- Trimming removes the white space around a text that neither starts nor ends with
white space. -/
theorem TrimSpace_pad (a b u : List Char) (x y : Char) (t : List Char)
    (ha : ∀ c ∈ a, isSpace c = true) (hb : ∀ c ∈ b, isSpace c = true)
    (hx : isSpace x = false) (hy : isSpace y = false) (e : x :: t = u ++ [y]) :
    TrimSpace (a ++ ((x :: t) ++ b)) = x :: t := by
  unfold TrimSpace
  rw [List.cons_append, dropWhile_pad isSpace x (t ++ b) hx a ha, ← List.cons_append, e]
  have : (u ++ [y] ++ b).reverse = b.reverse ++ y :: u.reverse := by simp
  rw [this, dropWhile_pad isSpace y u.reverse hy b.reverse
    (fun c hc => hb c (List.mem_reverse.1 hc))]
  simp

end strings

namespace templating
open regexp placeholder

theorem isSpace_of_keywordChar (c : Char) (h : keywordChar c = true) :
    strings.isSpace c = false := by
  have hk : (97 ≤ c.toNat ∧ c.toNat ≤ 122) ∨ c = '-' ∨ c = '_' := by
    simpa [keywordChar, or_assoc] using h
  cases hs : strings.isSpace c with
  | false => rfl
  | true =>
    exfalso
    simp only [strings.isSpace, Bool.or_eq_true, beq_iff_eq, Bool.and_eq_true,
      decide_eq_true_eq] at hs
    rcases hk with hk | rfl | rfl
    · rcases hs with ((((((((((((((rfl | rfl) | h) | h) | rfl) | rfl) | h) | h) | h) | h) | h) |
        h) | h) | h) | h)
      all_goals first
        | omega
        | (simp at hk)
    · revert hs; decide
    · revert hs; decide

theorem keywordChar_not_nl (kw : List Char) (h : ∀ c ∈ kw, keywordChar c = true) :
    '\n' ∉ kw := fun hh => by
  have := h _ hh
  revert this
  decide

theorem nl_not_mem_directiveLine (ind kw sep value trail : List Char) (hind : Spaces ind)
    (htrail : Spaces trail) (hkw : Keyword kw) (harg : Argument sep value) :
    '\n' ∉ directiveLine ind kw sep value trail := by
  have h1 : '\n' ∉ ind := fun h => (hind _ h).2 rfl
  have h2 : '\n' ∉ trail := fun h => (htrail _ h).2 rfl
  have h3 := keywordChar_not_nl kw hkw.2
  have h4 : '\n' ∉ sep ∧ '\n' ∉ value := by
    rcases harg with ⟨rfl, rfl⟩ | ⟨-, hs, hv, -, -⟩
    · simp
    · exact ⟨blank_not_nl sep hs, hv⟩
  simp only [directiveLine, List.mem_append, not_or]
  exact ⟨h1, by decide, h3, h4.1, h4.2, h2⟩

end templating


namespace templating
open regexp placeholder

theorem getLast_of_map_eq (p : Char → Bool) (v : List Char)
    (h : v.getLast?.map p = some false) : ∃ u y, v = u ++ [y] ∧ p y = false := by
  rcases List.eq_nil_or_concat v with rfl | ⟨u, y, hv⟩
  · simp at h
  · rw [List.concat_eq_append] at hv
    subst hv
    refine ⟨u, y, rfl, ?_⟩
    simpa using h

theorem head_of_map_eq (p : Char → Bool) (v : List Char)
    (h : v.head?.map p = some false) : ∃ x t, v = x :: t ∧ p x = false := by
  cases v with
  | nil => simp at h
  | cons x t => exact ⟨x, t, rfl, by simpa using h⟩

theorem matchHeader_of_matchAt (line core : List Char) (c : Char) (t : List Char) (e : Nat)
    (caps : Caps) (htrim : strings.TrimSpace line = core) (hcore : core = c :: t)
    (hm : headerRegexp.matchAt [] core = some (e, caps)) :
    matchHeader line = some (submatch core caps 1, submatch core caps 2) := by
  unfold matchHeader
  simp only [htrim]
  have : headerRegexp.FindSubmatch core = some caps := by
    unfold Re.FindSubmatch
    rw [hcore] at hm ⊢
    rw [Re.findAux, hm]
  rw [this]
  rfl

/-- A directive-shaped line is a directive for the parser: its keyword and its argument are
the groups 1 and 2 of the header pattern on the trimmed line. -/
theorem matchHeader_directiveLine (ind kw sep value trail : List Char) (hind : Spaces ind)
    (htrail : Spaces trail) (hkw : Keyword kw) (harg : Argument sep value) :
    matchHeader (directiveLine ind kw sep value trail ++ ['\n']) = some (kw, value) := by
  obtain ⟨c, w, rfl⟩ : ∃ c w, kw = c :: w := by
    cases kw with
    | nil => exact absurd rfl hkw.1
    | cons c w => exact ⟨c, w, rfl⟩
  have hc : keywordChar c = true := hkw.2 c (List.mem_cons_self _ _)
  have hw : ∀ x ∈ w, keywordChar x = true := fun x hx => hkw.2 x (List.mem_cons_of_mem _ hx)
  have hbang : strings.isSpace '!' = false := by decide
  have hsp1 : ∀ x ∈ ind, strings.isSpace x = true := fun x hx => (hind x hx).1
  have hsp2 : ∀ x ∈ trail ++ ['\n'], strings.isSpace x = true := by
    intro x hx
    rcases List.mem_append.1 hx with h | h
    · exact (htrail x h).1
    · simp only [List.mem_singleton] at h
      subst h
      decide
  rcases harg with ⟨rfl, rfl⟩ | ⟨hne, hs, hv, hhead, hlast⟩
  · -- no argument
    have hline : directiveLine ind (c :: w) [] [] trail ++ ['\n'] =
        ind ++ (('!' :: '!' :: c :: (w ++ [])) ++ (trail ++ ['\n'])) := by
      simp [directiveLine]
    obtain ⟨u, y, huy, hy⟩ : ∃ u y, '!' :: '!' :: c :: (w ++ []) = u ++ [y] ∧
        strings.isSpace y = false := by
      rcases List.eq_nil_or_concat w with rfl | ⟨u, y, hwu⟩
      · exact ⟨['!', '!'], c, rfl, isSpace_of_keywordChar c hc⟩
      · rw [List.concat_eq_append] at hwu
        subst hwu
        exact ⟨'!' :: '!' :: c :: u, y, by simp,
          isSpace_of_keywordChar y (hw y (by simp))⟩
    have htrim := strings.TrimSpace_pad ind (trail ++ ['\n']) u '!' y
      ('!' :: c :: (w ++ [])) hsp1 hsp2 hbang hy huy
    rw [hline, matchHeader_of_matchAt _ _ '!' _ _ _ htrim rfl
      (headerRegexp_matchAt_bare c w hc hw)]
    have e1 : '!' :: '!' :: c :: (w ++ []) = ['!', '!'] ++ ((c :: w) ++ []) := by simp
    congr 1
    rw [Prod.mk.injEq]
    refine ⟨?_, rfl⟩
    simp only [submatch, List.lookup, show ((1 : Nat) == 0) = false from rfl,
      show ((1 : Nat) == 1) = true from rfl]
    rw [e1]
    exact slice_mid _ _ _ _ _ rfl (by simp; omega)
  · -- blanks and an argument
    obtain ⟨s0, sep, rfl⟩ : ∃ s0 s, sep = s0 :: s := by
      cases sep with
      | nil => exact absurd rfl hne
      | cons a s => exact ⟨a, s, rfl⟩
    have hs0 : blank s0 = true := hs s0 (List.mem_cons_self _ _)
    have hsep : ∀ x ∈ sep, blank x = true := fun x hx => hs x (List.mem_cons_of_mem _ hx)
    obtain ⟨x0, t0, hx0, hb0⟩ := head_of_map_eq blank value hhead
    obtain ⟨u0, y0, hy0, hl0⟩ := getLast_of_map_eq strings.isSpace value hlast
    have hline : directiveLine ind (c :: w) (s0 :: sep) value trail ++ ['\n'] =
        ind ++ (('!' :: '!' :: c :: (w ++ (s0 :: (sep ++ value)))) ++ (trail ++ ['\n'])) := by
      simp [directiveLine]
    have huy : '!' :: '!' :: c :: (w ++ (s0 :: (sep ++ value))) =
        ('!' :: '!' :: c :: (w ++ (s0 :: (sep ++ u0)))) ++ [y0] := by
      rw [hy0]; simp
    have htrim := strings.TrimSpace_pad ind (trail ++ ['\n']) _ '!' y0
      ('!' :: c :: (w ++ (s0 :: (sep ++ value)))) hsp1 hsp2 hbang hl0 huy
    rw [hline, matchHeader_of_matchAt _ _ '!' _ _ _ htrim rfl
      (headerRegexp_matchAt_arg c s0 w sep value hc hw hs0 hsep hv
        (by
          intro x xs hxs
          rw [hx0] at hxs
          simp only [List.cons.injEq] at hxs
          rw [← hxs.1]
          exact hb0))]
    congr 1
    rw [Prod.mk.injEq]
    constructor
    · simp only [submatch, List.lookup, show ((1 : Nat) == 0) = false from rfl,
        show ((1 : Nat) == 2) = false from rfl, show ((1 : Nat) == 1) = true from rfl]
      have e1 : '!' :: '!' :: c :: (w ++ (s0 :: (sep ++ value))) =
          ['!', '!'] ++ ((c :: w) ++ (s0 :: (sep ++ value))) := by simp
      rw [e1]
      exact slice_mid _ _ _ _ _ rfl (by simp; omega)
    · simp only [submatch, List.lookup, show ((2 : Nat) == 0) = false from rfl,
        show ((2 : Nat) == 2) = true from rfl]
      have e1 : '!' :: '!' :: c :: (w ++ (s0 :: (sep ++ value))) =
          ('!' :: '!' :: c :: (w ++ (s0 :: sep))) ++ (value ++ []) := by simp
      rw [e1]
      exact slice_mid _ _ _ _ _ (by simp; omega) (by simp; omega)

end templating


namespace templating
open regexp placeholder

/-- One more line after a block of valid directive lines: the loop body runs on it with the
header that the block leaves and the next line number. -/
theorem parseHeaders_after_lines {Ctx : Type} (ev : Evaluator Ctx) (lines : List (List Char))
    (l rest : List Char) (header h1 : Header Ctx) (hnl : ∀ x ∈ lines, '\n' ∉ x)
    (hlines : applyLines ev lines 0 header = some h1) (hl : '\n' ∉ l) :
    ParseHeaders ev (unlines lines ++ (l ++ '\n' :: rest)) header =
      match matchHeader (l ++ ['\n']) with
      | none => (h1, .ok ((l ++ ['\n']) ++ rest))
      | some (keyword, value) =>
        match applyDirective ev keyword value (lines.length + 1) h1 with
        | .error err => (h1, .error err)
        | .ok header => parseHeadersLoop ev rest [] (lines.length + 1) header := by
  unfold ParseHeaders
  rw [parseHeadersLoop_lines ev _ lines 0 header h1 hnl hlines,
    parseHeadersLoop_line ev rest _ h1 l [] hl]
  simp only [List.reverse_nil, List.nil_append, Nat.zero_add]

theorem applyDirective_unknown {Ctx : Type} (ev : Evaluator Ctx) (keyword value : List Char)
    (n : Nat) (header : Header Ctx) (h : keyword ∉ recognisedKeywords) :
    applyDirective ev keyword value n header = .error (.unknown keyword n) := by
  simp only [recognisedKeywords, List.mem_cons, List.mem_singleton, not_or, List.not_mem_nil,
    or_false] at h
  obtain ⟨h1, h2, h3, h4, h5, h6, h7, h8⟩ := h
  unfold applyDirective
  rw [if_neg h1, if_neg h2, if_neg h3, if_neg h4, if_neg h5, if_neg h6, if_neg h7, if_neg h8]

/-- C16: after `k - 1` valid directive lines, a directive-shaped line (white space, `!!`, a
keyword of lower-case letters, hyphens and underscores, then nothing or blanks and an
argument, white space, newline) whose keyword the parser has no case for stops the parser
with an error and no body; the message of the error holds the keyword and the line
number `k`. The header keeps what the lines before have set. -/
theorem parseHeaders_unknown_keyword {Ctx : Type} (ev : Evaluator Ctx)
    (lines : List (List Char)) (ind kw sep value trail rest : List Char)
    (header h1 : Header Ctx) (hnl : ∀ x ∈ lines, '\n' ∉ x)
    (hlines : applyLines ev lines 0 header = some h1) (hind : Spaces ind)
    (htrail : Spaces trail) (hkw : Keyword kw) (harg : Argument sep value)
    (hunk : kw ∉ recognisedKeywords) :
    ParseHeaders ev (unlines lines ++ (directiveLine ind kw sep value trail ++ '\n' :: rest))
        header = (h1, .error (.unknown kw (lines.length + 1))) ∧
      kw <:+: (HeaderError.unknown kw (lines.length + 1)).message ∧
      Nat.toDigits 10 (lines.length + 1) <:+:
        (HeaderError.unknown kw (lines.length + 1)).message := by
  refine ⟨?_, ?_, ?_⟩
  · rw [parseHeaders_after_lines ev lines _ rest header h1 hnl hlines
      (nl_not_mem_directiveLine ind kw sep value trail hind htrail hkw harg),
      matchHeader_directiveLine ind kw sep value trail hind htrail hkw harg]
    simp only [applyDirective_unknown ev kw value _ h1 hunk]
  · exact ⟨"unknown template meta-header `".toList,
      "` on line ".toList ++ Nat.toDigits 10 (lines.length + 1), by
        simp [HeaderError.message]⟩
  · exact ⟨"unknown template meta-header `".toList ++ kw ++ "` on line ".toList, [], by
        simp [HeaderError.message]⟩

theorem parseHeaders_unknown_keyword_witness :
    ParseHeaders samples.unitEvaluator
        (unlines ["!!filename coucou.txt".toList] ++
          (directiveLine [] "foo".toList " ".toList "bla bla bla".toList [] ++
            '\n' :: "Hello\nWorld".toList))
        samples.zeroHeader =
        ({ samples.zeroHeader with Filename := "coucou.txt".toList },
          .error (.unknown "foo".toList 2)) ∧
      "foo".toList <:+: (HeaderError.unknown "foo".toList 2).message ∧
      Nat.toDigits 10 2 <:+: (HeaderError.unknown "foo".toList 2).message :=
  parseHeaders_unknown_keyword samples.unitEvaluator ["!!filename coucou.txt".toList] []
    "foo".toList " ".toList "bla bla bla".toList [] "Hello\nWorld".toList samples.zeroHeader
    { samples.zeroHeader with Filename := "coucou.txt".toList } (by decide) rfl (by decide)
    (by decide) (by decide) (by decide) (by decide)

end templating


namespace strings

theorem Cut_of_not_mem (sep : Char) : ∀ s : List Char, sep ∉ s → Cut sep s = none := by
  intro s
  induction s with
  | nil => intro _; rfl
  | cons c s ih =>
    intro h
    have hc : c ≠ sep := fun e => h (e ▸ List.mem_cons_self _ _)
    simp [Cut, hc, ih (fun hh => h (List.mem_cons_of_mem _ hh))]

theorem Cut_first (sep : Char) (b : List Char) :
    ∀ a : List Char, sep ∉ a → Cut sep (a ++ sep :: b) = some (a, b) := by
  intro a
  induction a with
  | nil => intro _; simp [Cut]
  | cons c a ih =>
    intro h
    have hc : c ≠ sep := fun e => h (e ▸ List.mem_cons_self _ _)
    simp [Cut, hc, ih (fun hh => h (List.mem_cons_of_mem _ hh))]

theorem SplitN_two_of_not_mem (sep : Char) (s : List Char) (h : sep ∉ s) :
    SplitN sep 2 s = [s] := by
  simp [SplitN, Cut_of_not_mem sep s h]

theorem SplitN_two_first (sep : Char) (a b : List Char) (h : sep ∉ a) :
    SplitN sep 2 (a ++ sep :: b) = [a, b] := by
  simp [SplitN, Cut_first sep b a h]

end strings

namespace templating
open regexp placeholder

theorem applyDirective_pathreplace_none {Ctx : Type} (ev : Evaluator Ctx) (value : List Char)
    (n : Nat) (header : Header Ctx) (h : ' ' ∉ value) :
    applyDirective ev "pathreplace".toList value n header = .error .pathreplace := by
  unfold applyDirective
  rw [if_neg (by decide), if_pos rfl, strings.SplitN_two_of_not_mem ' ' value h]

theorem applyDirective_pathreplace_pair {Ctx : Type} (ev : Evaluator Ctx) (old new : List Char)
    (n : Nat) (header : Header Ctx) (h : ' ' ∉ old) :
    applyDirective ev "pathreplace".toList (old ++ ' ' :: new) n header =
      .ok { header with PathReplace := header.PathReplace ++ [{ old := old, new := new }] } := by
  unfold applyDirective
  rw [if_neg (by decide), if_pos rfl, strings.SplitN_two_first ' ' old new h]

/-- C17 (as amended): after a block of valid directive lines, a `!!pathreplace` line stops
the parser with an error exactly when its argument holds no space: no token, one token, or
tokens that tabs separate. When the argument holds a space, the line is accepted, and the
text before the first space and the whole text after it are appended as a pair: that
covers two tokens with one space between them, and three tokens and more as well. -/
theorem parseHeaders_pathreplace_splits_at_first_space {Ctx : Type} (ev : Evaluator Ctx)
    (lines : List (List Char)) (ind sep value trail : List Char) (header h1 : Header Ctx)
    (hnl : ∀ x ∈ lines, '\n' ∉ x) (hlines : applyLines ev lines 0 header = some h1)
    (hind : Spaces ind) (htrail : Spaces trail) (harg : Argument sep value) :
    (' ' ∉ value → ∀ rest,
        ParseHeaders ev
          (unlines lines ++
            (directiveLine ind "pathreplace".toList sep value trail ++ '\n' :: rest))
          header = (h1, .error .pathreplace)) ∧
      (∀ old new, value = old ++ ' ' :: new → ' ' ∉ old → ∀ last, '\n' ∉ last →
        ParseHeaders ev
          (unlines lines ++
            (directiveLine ind "pathreplace".toList sep value trail ++ '\n' :: last))
          header =
          ({ h1 with PathReplace := h1.PathReplace ++ [{ old := old, new := new }] },
            .ok last)) := by
  have hkw : Keyword "pathreplace".toList := by decide
  have hline := nl_not_mem_directiveLine ind "pathreplace".toList sep value trail hind htrail
    hkw harg
  have hm := matchHeader_directiveLine ind "pathreplace".toList sep value trail hind htrail
    hkw harg
  constructor
  · intro hsp rest
    rw [parseHeaders_after_lines ev lines _ rest header h1 hnl hlines hline, hm]
    simp only [applyDirective_pathreplace_none ev value _ h1 hsp]
  · intro old new hv hold last hlast
    rw [parseHeaders_after_lines ev lines _ last header h1 hnl hlines hline, hm]
    simp only [hv, applyDirective_pathreplace_pair ev old new _ h1 hold]
    rw [parseHeadersLoop_eof ev _ _ last [] hlast]
    simp

theorem parseHeaders_pathreplace_splits_at_first_space_witness :
    (∀ rest,
        ParseHeaders samples.unitEvaluator
          (unlines [] ++
            (directiveLine [] "pathreplace".toList " ".toList "a\tb".toList [] ++ '\n' :: rest))
          samples.zeroHeader = (samples.zeroHeader, .error .pathreplace)) ∧
      ParseHeaders samples.unitEvaluator
          (unlines [] ++
            (directiveLine [] "pathreplace".toList " ".toList "a b c".toList [] ++
              '\n' :: "body".toList))
          samples.zeroHeader =
        ({ samples.zeroHeader with
            PathReplace := samples.zeroHeader.PathReplace ++
              [{ old := "a".toList, new := "b c".toList }] },
          .ok "body".toList) :=
  ⟨(parseHeaders_pathreplace_splits_at_first_space samples.unitEvaluator [] []
      " ".toList "a\tb".toList [] samples.zeroHeader samples.zeroHeader (by decide) rfl
      (by decide) (by decide) (by decide)).1 (by decide),
    (parseHeaders_pathreplace_splits_at_first_space samples.unitEvaluator [] []
      " ".toList "a b c".toList [] samples.zeroHeader samples.zeroHeader (by decide) rfl
      (by decide) (by decide) (by decide)).2 "a".toList "b c".toList rfl (by decide)
      "body".toList (by decide)⟩

/-- C17 (counterexample): the argument `a b c` has three tokens and its line is accepted,
with `b c` as the new text; the argument `a<tab>b` has two tokens and its line is
refused. -/
theorem parseHeaders_pathreplace_token_count_is_not_checked :
    strings.Fields "a b c".toList = ["a".toList, "b".toList, "c".toList] ∧
      (ParseHeaders samples.unitEvaluator "!!pathreplace a b c\n".toList samples.zeroHeader).2 =
        .ok [] ∧
      (ParseHeaders samples.unitEvaluator "!!pathreplace a b c\n".toList
        samples.zeroHeader).1.PathReplace = [{ old := "a".toList, new := "b c".toList }] ∧
      strings.Fields "a\tb".toList = ["a".toList, "b".toList] ∧
      (ParseHeaders samples.unitEvaluator "!!pathreplace a\tb\n".toList samples.zeroHeader).2 =
        .error .pathreplace :=
  ⟨by decide, rfl, by decide, by decide, rfl⟩

end templating


namespace templating
open regexp placeholder

theorem keyword_of_directive (d : Directive) : Keyword d.keyword := by
  cases d <;> simp only [Directive.keyword] <;> decide

/-- The `switch` of the parser does to the header what the table says for the directive. -/
theorem applyDirective_directive {Ctx : Type} (ev : Evaluator Ctx) (d : Directive) (n : Nat)
    (header : Header Ctx) (h : ' ' ∉ d.firstToken) :
    applyDirective ev d.keyword d.argument n header = .ok (d.apply header) := by
  cases d with
  | filename value =>
    show applyDirective ev "filename".toList value n header = _
    unfold applyDirective
    rw [if_pos rfl]
    rfl
  | pathreplace old new => exact applyDirective_pathreplace_pair ev old new n header h
  | delimiters left right =>
    show applyDirective ev "delimiters".toList (left ++ ' ' :: right) n header = _
    unfold applyDirective
    rw [if_neg (by decide), if_neg (by decide), if_pos rfl]
    simp only [strings.SplitN_two_first ' ' left right h]
    rfl
  | ifNotExists =>
    show applyDirective ev "if-not-exists".toList [] n header = _
    unfold applyDirective
    rw [if_neg (by decide), if_neg (by decide), if_neg (by decide), if_neg (by decide),
      if_pos rfl]
    rfl
  | removeIfEmpty =>
    show applyDirective ev "remove-if-empty".toList [] n header = _
    unfold applyDirective
    rw [if_neg (by decide), if_neg (by decide), if_neg (by decide), if_neg (by decide),
      if_neg (by decide), if_neg (by decide), if_pos rfl]
    rfl
  | noGoGenerate =>
    show applyDirective ev "no-go-generate".toList [] n header = _
    unfold applyDirective
    rw [if_neg (by decide), if_neg (by decide), if_neg (by decide), if_neg (by decide),
      if_neg (by decide), if_neg (by decide), if_neg (by decide), if_pos rfl]
    rfl
  | generatorCommand value =>
    show applyDirective ev "generator-command".toList value n header = _
    unfold applyDirective
    rw [if_neg (by decide), if_neg (by decide), if_neg (by decide), if_neg (by decide),
      if_neg (by decide), if_pos rfl]
    rfl

theorem nl_not_mem_text (x : HeaderLine) (h : x.WellFormed) : '\n' ∉ x.text :=
  nl_not_mem_directiveLine _ _ _ _ _ h.1 h.2.1 (keyword_of_directive _) h.2.2.1

/-- A block of well-formed directive lines is a block of valid directive lines, and leaves
the header that the directives make, one after the other. -/
theorem applyLines_block {Ctx : Type} (ev : Evaluator Ctx) :
    ∀ (block : List HeaderLine) (n : Nat) (header : Header Ctx),
      (∀ x ∈ block, x.WellFormed) →
      applyLines ev (block.map HeaderLine.text) n header =
        some ((block.map HeaderLine.directive).foldl Directive.apply header) := by
  intro block
  induction block with
  | nil => intro n header _; rfl
  | cons x block ih =>
    intro n header h
    have hx := h x (List.mem_cons_self _ _)
    simp only [List.map_cons, applyLines, List.foldl_cons]
    have hm : matchHeader (x.text ++ ['\n']) = some (x.directive.keyword, x.directive.argument) :=
      matchHeader_directiveLine _ _ _ _ _ hx.1 hx.2.1 (keyword_of_directive _) hx.2.2.1
    rw [hm]
    simp only [applyDirective_directive ev x.directive (n + 1) header hx.2.2.2]
    exact ih (n + 1) _ (fun y hy => h y (List.mem_cons_of_mem _ hy))

theorem getLast_getD_cons {α : Type} (a x : α) (l : List α) :
    ((a :: l).getLast?).getD x = (l.getLast?).getD a := by
  cases l with
  | nil => rfl
  | cons b l =>
    rw [List.getLast?_cons_cons]
    cases h : (b :: l).getLast? with
    | none => simp at h
    | some y => rfl

/-- The header after a block of directives, field by field. -/
theorem foldl_apply_fields {Ctx : Type} :
    ∀ (ds : List Directive) (h0 : Header Ctx),
      (ds.foldl Directive.apply h0).Filename = ((filenamesOf ds).getLast?).getD h0.Filename ∧
      (ds.foldl Directive.apply h0).PathReplace = h0.PathReplace ++ pathReplacesOf ds ∧
      (ds.foldl Directive.apply h0).Delimiters =
        ((delimitersOf ds).getLast?).getD h0.Delimiters ∧
      (ds.foldl Directive.apply h0).GeneratorCommands =
        h0.GeneratorCommands ++ generatorCommandsOf ds ∧
      ((ds.foldl Directive.apply h0).IfNotExists = true ↔
        h0.IfNotExists = true ∨ Directive.ifNotExists ∈ ds) ∧
      ((ds.foldl Directive.apply h0).RemoveIfEmpty = true ↔
        h0.RemoveIfEmpty = true ∨ Directive.removeIfEmpty ∈ ds) ∧
      ((ds.foldl Directive.apply h0).NoGoGenerate = true ↔
        h0.NoGoGenerate = true ∨ Directive.noGoGenerate ∈ ds) := by
  intro ds
  induction ds with
  | nil =>
    intro h0
    simp [filenamesOf, pathReplacesOf, delimitersOf, generatorCommandsOf]
  | cons d ds ih =>
    intro h0
    obtain ⟨i1, i2, i3, i4, i5, i6, i7⟩ := ih (Directive.apply h0 d)
    rw [List.foldl_cons]
    refine ⟨?_, ?_, ?_, ?_, ?_, ?_, ?_⟩
    · rw [i1]
      cases d <;> simp [filenamesOf, Directive.apply, List.filterMap_cons, getLast_getD_cons]
    · rw [i2]
      cases d <;> simp [pathReplacesOf, Directive.apply, List.filterMap_cons]
    · rw [i3]
      cases d <;> simp [delimitersOf, Directive.apply, List.filterMap_cons, getLast_getD_cons]
    · rw [i4]
      cases d <;> simp [generatorCommandsOf, Directive.apply, List.filterMap_cons]
    · rw [i5]
      cases d <;> simp [Directive.apply]
    · rw [i6]
      cases d <;> simp [Directive.apply]
    · rw [i7]
      cases d <;> simp [Directive.apply]

/-- C18: a block of well-formed directive lines (filename, pathreplace, delimiters,
if-not-exists, remove-if-empty, no-go-generate, generator-command; two tokens separated by
one space) followed by a line that is not a directive. On a zero header `ParseHeaders`
returns the text from that line on as the body, and a header with the argument of the last
`filename` line, the pairs of the `pathreplace` lines in order, the tokens of the last
`delimiters` line, the arguments of the `generator-command` lines in order, and each flag
set exactly when its directive is in the block; the gates stay unset. -/
theorem parseHeaders_directive_block {Ctx : Type} (ev : Evaluator Ctx) (block : List HeaderLine)
    (l rest : List Char) (hwf : ∀ x ∈ block, x.WellFormed) (hl : '\n' ∉ l)
    (hnd : matchHeader (l ++ ['\n']) = none) :
    ∃ h : Header Ctx,
      ParseHeaders ev (unlines (block.map HeaderLine.text) ++ (l ++ '\n' :: rest))
        Header.zero = (h, .ok (l ++ '\n' :: rest)) ∧
      h.Filename = ((filenamesOf (block.map HeaderLine.directive)).getLast?).getD [] ∧
      h.PathReplace = pathReplacesOf (block.map HeaderLine.directive) ∧
      h.Delimiters = ((delimitersOf (block.map HeaderLine.directive)).getLast?).getD ([], []) ∧
      h.GeneratorCommands = generatorCommandsOf (block.map HeaderLine.directive) ∧
      (h.IfNotExists = true ↔ Directive.ifNotExists ∈ block.map HeaderLine.directive) ∧
      (h.RemoveIfEmpty = true ↔ Directive.removeIfEmpty ∈ block.map HeaderLine.directive) ∧
      (h.NoGoGenerate = true ↔ Directive.noGoGenerate ∈ block.map HeaderLine.directive) ∧
      h.If.isNone = true ∧ h.IfOr.isNone = true := by
  have hnl : ∀ x ∈ block.map HeaderLine.text, '\n' ∉ x := by
    intro x hx
    obtain ⟨y, hy, rfl⟩ := List.mem_map.1 hx
    exact nl_not_mem_text y (hwf y hy)
  have hlines := applyLines_block ev block 0 Header.zero hwf
  have hp := parseHeaders_after_lines ev (block.map HeaderLine.text) l rest Header.zero _ hnl
    hlines hl
  simp only [hnd] at hp
  obtain ⟨f1, f2, f3, f4, f5, f6, f7⟩ :=
    foldl_apply_fields (block.map HeaderLine.directive) (Header.zero : Header Ctx)
  refine ⟨_, by rw [hp]; simp, f1, by simpa [Header.zero] using f2, f3,
    by simpa [Header.zero] using f4, by simpa [Header.zero] using f5,
    by simpa [Header.zero] using f6, by simpa [Header.zero] using f7, ?_, ?_⟩
  · generalize (block.map HeaderLine.directive) = ds
    have : ∀ (ds : List Directive) (h0 : Header Ctx),
        (ds.foldl Directive.apply h0).If.isNone = h0.If.isNone := by
      intro ds
      induction ds with
      | nil => intro h0; rfl
      | cons d ds ih => intro h0; rw [List.foldl_cons, ih]; cases d <;> rfl
    rw [this]; rfl
  · generalize (block.map HeaderLine.directive) = ds
    have : ∀ (ds : List Directive) (h0 : Header Ctx),
        (ds.foldl Directive.apply h0).IfOr.isNone = h0.IfOr.isNone := by
      intro ds
      induction ds with
      | nil => intro h0; rfl
      | cons d ds ih => intro h0; rw [List.foldl_cons, ih]; cases d <;> rfl
    rw [this]; rfl

theorem parseHeaders_directive_block_witness :
    ∃ h : Header Unit,
      ParseHeaders samples.unitEvaluator
        (unlines (samples.headersBlock.map HeaderLine.text) ++
          ("Hello".toList ++ '\n' :: "World".toList))
        Header.zero = (h, .ok ("Hello".toList ++ '\n' :: "World".toList)) ∧
      h.Filename =
        ((filenamesOf (samples.headersBlock.map HeaderLine.directive)).getLast?).getD [] ∧
      h.PathReplace = pathReplacesOf (samples.headersBlock.map HeaderLine.directive) ∧
      h.Delimiters =
        ((delimitersOf (samples.headersBlock.map HeaderLine.directive)).getLast?).getD
          ([], []) ∧
      h.GeneratorCommands = generatorCommandsOf (samples.headersBlock.map HeaderLine.directive) ∧
      (h.IfNotExists = true ↔
        Directive.ifNotExists ∈ samples.headersBlock.map HeaderLine.directive) ∧
      (h.RemoveIfEmpty = true ↔
        Directive.removeIfEmpty ∈ samples.headersBlock.map HeaderLine.directive) ∧
      (h.NoGoGenerate = true ↔
        Directive.noGoGenerate ∈ samples.headersBlock.map HeaderLine.directive) ∧
      h.If.isNone = true ∧ h.IfOr.isNone = true :=
  parseHeaders_directive_block samples.unitEvaluator samples.headersBlock "Hello".toList
    "World".toList (by decide) (by decide) (by decide)

end templating


namespace templating
open regexp placeholder

/-- C19 (the code at the input of `TestParseHeadersIfOr`): the `switch` of `ParseHeaders` has
no case for `ifor`, so the line `!!ifor .Foo .Bar` is an unknown directive: the parser
returns the error `unknown template meta-header` for line 1, whatever the evaluator, and
leaves the header as it was, its `IfOr` gate unset. -/
theorem parseHeaders_ifor_is_unknown {Ctx : Type} (ev : Evaluator Ctx) (header : Header Ctx) :
    ParseHeaders ev "!!ifor .Foo .Bar\n".toList header =
        (header, .error (.unknown "ifor".toList 1)) ∧
      (HeaderError.unknown "ifor".toList 1).message =
        "unknown template meta-header `ifor` on line 1".toList ∧
      (ParseHeaders ev "!!ifor .Foo .Bar\n".toList (Header.zero : Header Ctx)).1.IfOr.isNone =
        true := by
  have key : ∀ h : Header Ctx, ParseHeaders ev "!!ifor .Foo .Bar\n".toList h =
      (h, .error (.unknown "ifor".toList 1)) := by
    intro h
    have hm : matchHeader ("!!ifor .Foo .Bar".toList ++ ['\n']) =
        some ("ifor".toList, ".Foo .Bar".toList) := by decide
    have := parseHeaders_after_lines ev [] "!!ifor .Foo .Bar".toList [] h h (by simp) rfl
      (by decide)
    rw [hm] at this
    simp only [applyDirective_unknown ev "ifor".toList _ _ h (by decide)] at this
    exact this
  refine ⟨key header, by decide, ?_⟩
  rw [key]
  rfl

theorem applyDirective_if {Ctx : Type} (ev : Evaluator Ctx) (expr : List Char) (n : Nat)
    (header : Header Ctx) (tmpl : Tmpl Ctx)
    (hev : ev ("\x7b\x7b if ".toList ++ expr ++ " \x7d\x7dX\x7b\x7b end \x7d\x7d".toList) =
      .ok tmpl) :
    applyDirective ev "if".toList expr n header =
      .ok { header with
            If := some (fun ctx => (decide ((tmpl ctx).1.length > 0), (tmpl ctx).2)) } := by
  unfold applyDirective
  rw [if_neg (by decide), if_neg (by decide), if_neg (by decide), if_pos rfl]
  simp only [hev]

/-- C20: after a block of valid directive lines, a line `!!if` with the expression `expr`
that the evaluator accepts sets the gate `If` of the header. The gate runs the template
that the evaluator has parsed from the condition `if expr` around the text `X`: it is true
exactly when the template renders to a non-empty output, and its error is the error of the
rendering. So it returns true without error when the rendering is `X`, false without error
when the rendering is empty, and an error when the rendering fails. -/
theorem parseHeaders_if_gate {Ctx : Type} (ev : Evaluator Ctx) (lines : List (List Char))
    (ind sep expr trail last : List Char) (header h1 : Header Ctx) (tmpl : Tmpl Ctx)
    (hnl : ∀ x ∈ lines, '\n' ∉ x) (hlines : applyLines ev lines 0 header = some h1)
    (hind : Spaces ind) (htrail : Spaces trail) (harg : Argument sep expr)
    (hev : ev ("\x7b\x7b if ".toList ++ expr ++ " \x7d\x7dX\x7b\x7b end \x7d\x7d".toList) =
      .ok tmpl)
    (hlast : '\n' ∉ last) :
    ∃ g : Gate Ctx,
      ParseHeaders ev
        (unlines lines ++ (directiveLine ind "if".toList sep expr trail ++ '\n' :: last))
        header = ({ h1 with If := some g }, .ok last) ∧
      ∀ ctx, ((g ctx).1 = true ↔ (tmpl ctx).1 ≠ []) ∧ (g ctx).2 = (tmpl ctx).2 ∧
        (tmpl ctx = (['X'], none) → g ctx = (true, none)) ∧
        (tmpl ctx = ([], none) → g ctx = (false, none)) ∧
        (∀ out err, tmpl ctx = (out, some err) → (g ctx).2 = some err) := by
  have hkw : Keyword "if".toList := by decide
  refine ⟨fun ctx => (decide ((tmpl ctx).1.length > 0), (tmpl ctx).2), ?_, ?_⟩
  · rw [parseHeaders_after_lines ev lines _ last header h1 hnl hlines
        (nl_not_mem_directiveLine ind _ sep expr trail hind htrail hkw harg),
      matchHeader_directiveLine ind _ sep expr trail hind htrail hkw harg]
    simp only [applyDirective_if ev expr _ h1 tmpl hev]
    rw [parseHeadersLoop_eof ev _ _ last [] hlast]
    simp
  · intro ctx
    refine ⟨?_, rfl, ?_, ?_, ?_⟩
    · simp [List.length_pos]
    · intro h; simp [h]
    · intro h; simp [h]
    · intro out err h; simp [h]

theorem parseHeaders_if_gate_witness :
    (∃ g : Gate samples.FooCtx,
      ParseHeaders samples.fooEvaluator
        (unlines [] ++ (directiveLine [] "if".toList " ".toList ".Foo".toList [] ++ '\n' :: []))
        Header.zero = ({ (Header.zero : Header samples.FooCtx) with If := some g }, .ok []) ∧
      ∀ ctx, ((g ctx).1 = true ↔ (samples.fooTemplate ctx).1 ≠ []) ∧
        (g ctx).2 = (samples.fooTemplate ctx).2 ∧
        (samples.fooTemplate ctx = (['X'], none) → g ctx = (true, none)) ∧
        (samples.fooTemplate ctx = ([], none) → g ctx = (false, none)) ∧
        (∀ out err, samples.fooTemplate ctx = (out, some err) → (g ctx).2 = some err)) ∧
      (ParseHeaders samples.fooEvaluator "!!if .Foo\n".toList Header.zero).1.If.map
        (fun g => [g (some "1".toList), g (some []), g none]) =
        some [(true, none), (false, none), (false, some "cannot evaluate field Foo")] :=
  ⟨parseHeaders_if_gate samples.fooEvaluator [] [] " ".toList ".Foo".toList [] []
      Header.zero Header.zero samples.fooTemplate (by decide) rfl (by decide) (by decide)
      (by decide) rfl (by decide), rfl⟩

end templating

/-! ## Gates, existing files and commands of the render pass -/

namespace templating
open placeholder

theorem renderGates_of_no_if {Ctx : Type} (os : Os) (root : List Char) (ctx : Ctx)
    (tmpl : Template Ctx) (relPath : List Char) (s : RenderState)
    (h : tmpl.GetHeader.If = none) :
    renderGates os root ctx tmpl relPath s = renderWrite os root ctx tmpl relPath s := by
  unfold renderGates
  simp only [h]

theorem renderGates_of_if_alone {Ctx : Type} (os : Os) (root : List Char) (ctx : Ctx)
    (tmpl : Template Ctx) (relPath : List Char) (s : RenderState) (g : Gate Ctx)
    (h : tmpl.GetHeader.If = some g) (hg : g ctx = (true, none))
    (h2 : tmpl.GetHeader.IfOr = none) :
    renderGates os root ctx tmpl relPath s = .panic s.files := by
  unfold renderGates
  simp [h, hg, h2]

/-- C21 (the code at the two inputs of the claim): the second test of the gating step reads
`If` where it means `IfOr`. A template that has only an `ifor` gate, returning false, is not
skipped: the pass goes on to the writing step, and `Render` writes its file and records its
path. A template that has only an `if` gate, returning true, makes `Render` call the nil
function `IfOr`: the pass panics and nothing is rendered. -/
theorem render_gating_reads_if_for_ifor {Ctx : Type} (os : Os) (root : List Char) (ctx : Ctx)
    (tmpl : Template Ctx) (header : Header Ctx) (relPath : List Char) (s : RenderState) :
    renderGates os root ctx
        { tmpl with GetHeader := { header with If := none, IfOr := some (fun _ => (false, none)) } }
        relPath s =
      renderWrite os root ctx
        { tmpl with GetHeader := { header with If := none, IfOr := some (fun _ => (false, none)) } }
        relPath s ∧
    renderGates os root ctx
        { tmpl with GetHeader := { header with If := some (fun _ => (true, none)), IfOr := none } }
        relPath s = .panic s.files ∧
    (Render samples.plainOs samples.noFiles [samples.templateIfOrOnly] "out".toList () []).files
        "out/d.txt".toList = some samples.renderedD ∧
    (Render samples.plainOs samples.noFiles [samples.templateIfOrOnly] "out".toList ()
        []).generated = ["out/d.txt".toList] ∧
    (Render samples.plainOs samples.noFiles [samples.templateIfOnly] "out".toList ()
        []).panics = true ∧
    (Render samples.plainOs samples.noFiles [samples.templateIfOnly] "out".toList () []).files
        "out/d.txt".toList = none := by
  refine ⟨renderGates_of_no_if _ _ _ _ _ _ rfl,
    renderGates_of_if_alone _ _ _ _ _ _ (fun _ => (true, none)) rfl rfl rfl, ?_, ?_, ?_, ?_⟩ <;>
  decide

end templating

namespace templating
open placeholder

theorem renderTemplate_of_gates {Ctx : Type} (os : Os) (root : List Char) (ctx : Ctx)
    (patterns : List (List Char)) (tmpl : Template Ctx) (s : RenderState) (relPath : List Char)
    (hname : tmpl.GetName ctx = .ok relPath)
    (hpat : patterns.length > 0 → matchPatterns os relPath patterns = .ok true) :
    renderTemplate os root ctx patterns tmpl s = renderGates os root ctx tmpl relPath s := by
  unfold renderTemplate
  simp only [hname]
  split
  · next hp => simp [hpat hp]
  · rfl

theorem renderWrite_if_not_exists {Ctx : Type} (os : Os) (root : List Char) (ctx : Ctx)
    (tmpl : Template Ctx) (s : RenderState) (relPath existing : List Char)
    (hmk : os.MkdirAll (os.Dir (os.Join root relPath)) = none)
    (hrd : os.ReadFileErr (os.Join root relPath) = none)
    (hex : s.files (os.Join root relPath) = some existing)
    (hine : tmpl.GetHeader.IfNotExists = true) :
    renderWrite os root ctx tmpl relPath s =
      .next { files := s.files, generated := s.generated ++ [os.Join root relPath],
              cmds := s.cmds } := by
  unfold renderWrite
  simp [hmk, hrd, hex, hine]

/-- C22: a template that passes the gating step, whose header sets `if-not-exists` and whose
output path (the root joined with the rendered relative path) holds a file: the round of
the loop leaves the file system as it is, records the output path, queues no command and
does not end the pass, whatever the content stage of the template is: the content stage
is not rendered. -/
theorem render_if_not_exists_keeps_file {Ctx : Type} (os : Os) (root : List Char) (ctx : Ctx)
    (patterns : List (List Char)) (tmpl : Template Ctx) (s : RenderState)
    (relPath existing : List Char)
    (hname : tmpl.GetName ctx = .ok relPath)
    (hpat : patterns.length > 0 → matchPatterns os relPath patterns = .ok true)
    (hif : ∀ g, tmpl.GetHeader.If = some g → g ctx = (true, none))
    (hifor : tmpl.GetHeader.If ≠ none → ∃ g, tmpl.GetHeader.IfOr = some g ∧ g ctx = (true, none))
    (hmk : os.MkdirAll (os.Dir (os.Join root relPath)) = none)
    (hrd : os.ReadFileErr (os.Join root relPath) = none)
    (hex : s.files (os.Join root relPath) = some existing)
    (hine : tmpl.GetHeader.IfNotExists = true) :
    renderTemplate os root ctx patterns tmpl s =
        .next { files := s.files, generated := s.generated ++ [os.Join root relPath],
                cmds := s.cmds } ∧
      ∀ content : Ctx → Except String (List Char),
        renderTemplate os root ctx patterns { tmpl with GetContent := content } s =
          .next { files := s.files, generated := s.generated ++ [os.Join root relPath],
                  cmds := s.cmds } := by
  have key : ∀ t : Template Ctx, t.GetName = tmpl.GetName → t.GetHeader = tmpl.GetHeader →
      renderTemplate os root ctx patterns t s =
        .next { files := s.files, generated := s.generated ++ [os.Join root relPath],
                cmds := s.cmds } := by
    intro t h1 h2
    rw [renderTemplate_of_pass os root ctx patterns t s relPath (by rw [h1]; exact hname) hpat
      (by rw [h2]; exact hif) (by rw [h2]; exact hifor)]
    exact renderWrite_if_not_exists os root ctx t s relPath existing hmk hrd hex
      (by rw [h2]; exact hine)
  exact ⟨key tmpl rfl rfl, fun content => key _ rfl rfl⟩

theorem render_if_not_exists_keeps_file_witness :
    renderTemplate samples.plainOs "out".toList () [] samples.templateKeep samples.stateD =
        .next { files := samples.stateD.files,
                generated := samples.stateD.generated ++
                  [samples.plainOs.Join "out".toList "d.txt".toList],
                cmds := samples.stateD.cmds } ∧
      ∀ content : Unit → Except String (List Char),
        renderTemplate samples.plainOs "out".toList () []
            { samples.templateKeep with GetContent := content } samples.stateD =
          .next { files := samples.stateD.files,
                  generated := samples.stateD.generated ++
                    [samples.plainOs.Join "out".toList "d.txt".toList],
                  cmds := samples.stateD.cmds } :=
  render_if_not_exists_keeps_file samples.plainOs "out".toList () [] samples.templateKeep
    samples.stateD "d.txt".toList samples.existingD rfl (fun h => absurd h (by decide))
    (fun _ h => Option.noConfusion h) (fun h => absurd rfl h) rfl rfl rfl rfl

theorem renderWrite_removed {Ctx : Type} (os : Os) (root : List Char) (ctx : Ctx)
    (tmpl : Template Ctx) (s : RenderState) (relPath rendered : List Char)
    (hmk : os.MkdirAll (os.Dir (os.Join root relPath)) = none)
    (hrd : os.ReadFileErr (os.Join root relPath) = none)
    (hine : s.files (os.Join root relPath) = none ∨ tmpl.GetHeader.IfNotExists = false)
    (hc : tmpl.GetContent ctx = .ok rendered)
    (h0 : mergedOutput (s.files (os.Join root relPath)) rendered = [])
    (hrm : tmpl.GetHeader.RemoveIfEmpty = true) :
    renderWrite os root ctx tmpl relPath s =
      .next { files := s.files.remove (os.Join root relPath), generated := s.generated,
              cmds := s.cmds } := by
  unfold renderWrite
  cases hx : s.files (os.Join root relPath) with
  | none =>
    simp only [hx, mergedOutput] at h0
    simp [hmk, hrd, hx, hc, h0, hrm]
  | some existing =>
    have hi : tmpl.GetHeader.IfNotExists = false := by
      rcases hine with h | h
      · rw [hx] at h; cases h
      · exact h
    simp only [hx, mergedOutput] at h0
    simp [hmk, hrd, hx, hc, h0, hrm, hi]

/-- The writing step of a template whose final bytes are written: what it leaves when the
write or the follow-up commands of the template fail, and the state it reaches when they
do not. -/
theorem renderWrite_written {Ctx : Type} (os : Os) (root : List Char) (ctx : Ctx)
    (tmpl : Template Ctx) (s : RenderState) (relPath rendered : List Char)
    (hmk : os.MkdirAll (os.Dir (os.Join root relPath)) = none)
    (hrd : os.ReadFileErr (os.Join root relPath) = none)
    (hine : s.files (os.Join root relPath) = none ∨ tmpl.GetHeader.IfNotExists = false)
    (hc : tmpl.GetContent ctx = .ok rendered)
    (hrm : ¬ (mergedOutput (s.files (os.Join root relPath)) rendered = [] ∧
      tmpl.GetHeader.RemoveIfEmpty = true)) :
    (∀ err, os.WriteFileErr (os.Join root relPath) = some err →
      renderWrite os root ctx tmpl relPath s = .ret s.files s.generated s.cmds (.write err)) ∧
    (∀ err, os.WriteFileErr (os.Join root relPath) = none →
      tmpl.RenderGeneratorCommands ctx = .error err →
      renderWrite os root ctx tmpl relPath s =
        .ret (s.files.write (os.Join root relPath)
            (mergedOutput (s.files (os.Join root relPath)) rendered))
          (s.generated ++ [os.Join root relPath]) s.cmds (.generatorCommands err)) ∧
    (∀ generatorCmds, os.WriteFileErr (os.Join root relPath) = none →
      tmpl.RenderGeneratorCommands ctx = .ok generatorCmds →
      renderWrite os root ctx tmpl relPath s =
        .next
          { files := s.files.write (os.Join root relPath)
              (mergedOutput (s.files (os.Join root relPath)) rendered)
            generated := s.generated ++ [os.Join root relPath]
            cmds :=
              if ".go".toList.isSuffixOf (os.Rel root (os.Join root relPath)) = true then
                if tmpl.GetHeader.NoGoGenerate = true then
                  s.cmds ++ generatorCmds ++
                    [["goimports".toList, "-l".toList, "-w".toList,
                      "./".toList ++ os.Rel root (os.Join root relPath)]]
                else
                  s.cmds ++ generatorCmds ++
                    [["goimports".toList, "-l".toList, "-w".toList,
                        "./".toList ++ os.Rel root (os.Join root relPath)],
                      ["go".toList, "generate".toList,
                        "./".toList ++ os.Rel root (os.Join root relPath)]]
              else s.cmds ++ generatorCmds }) := by
  have hlen : ∀ out : List Char,
      mergedOutput (s.files (os.Join root relPath)) rendered = out →
      (decide (out.length = 0) && tmpl.GetHeader.RemoveIfEmpty) = false := by
    intro out ho
    cases h1 : tmpl.GetHeader.RemoveIfEmpty
    · simp
    · simp only [Bool.and_true, decide_eq_false_iff_not]
      exact fun h0 => hrm ⟨by rw [ho]; exact List.length_eq_zero.1 h0, h1⟩
  unfold renderWrite
  cases hx : s.files (os.Join root relPath) with
  | none =>
    have hl := hlen rendered (by rw [hx]; rfl)
    refine ⟨?_, ?_, ?_⟩
    · intro err hwr
      simp only [hmk, hrd, hx, hc, hl, hwr, Option.isSome_none, Bool.false_and,
        Bool.false_eq_true, if_false]
    · intro err hwr hgc
      simp only [hmk, hrd, hx, hc, hl, hwr, hgc, mergedOutput, Option.isSome_none,
        Bool.false_and, Bool.false_eq_true, if_false]
    · intro generatorCmds hwr hgc
      simp only [hmk, hrd, hx, hc, hl, hwr, hgc, mergedOutput, Option.isSome_none,
        Bool.false_and, Bool.false_eq_true, if_false]
      cases tmpl.GetHeader.NoGoGenerate <;>
        cases ".go".toList.isSuffixOf (os.Rel root (os.Join root relPath)) <;> simp
  | some existing =>
    have hi : tmpl.GetHeader.IfNotExists = false := by
      rcases hine with h | h
      · rw [hx] at h; cases h
      · exact h
    have hl := hlen (ReplaceAll existing (FindAll rendered)) (by rw [hx]; rfl)
    refine ⟨?_, ?_, ?_⟩
    · intro err hwr
      simp only [hmk, hrd, hx, hc, hl, hwr, hi, Option.isSome_some, Bool.and_false,
        Bool.false_eq_true, if_false]
    · intro err hwr hgc
      simp only [hmk, hrd, hx, hc, hl, hwr, hgc, mergedOutput, hi, Option.isSome_some,
        Bool.and_false, Bool.false_eq_true, if_false]
    · intro generatorCmds hwr hgc
      simp only [hmk, hrd, hx, hc, hl, hwr, hgc, mergedOutput, hi, Option.isSome_some,
        Bool.and_false, Bool.false_eq_true, if_false]
      cases tmpl.GetHeader.NoGoGenerate <;>
        cases ".go".toList.isSuffixOf (os.Rel root (os.Join root relPath)) <;> simp

end templating

namespace templating
open placeholder

/-- C24: a template that is written, `p` being its output path relative to the root, and
`generatorCmds` its own follow-up commands. When `p` ends in `.go`, the queue gains, after
those commands, the command `goimports -l -w ./p`, followed by `go generate ./p` exactly
when the header does not set `no-go-generate`; when `p` does not end in `.go`, the queue
gains the commands of the template only. -/
theorem render_queues_go_commands {Ctx : Type} (os : Os) (root : List Char) (ctx : Ctx)
    (patterns : List (List Char)) (tmpl : Template Ctx) (s : RenderState)
    (relPath rendered : List Char) (generatorCmds : List (List (List Char)))
    (hname : tmpl.GetName ctx = .ok relPath)
    (hpat : patterns.length > 0 → matchPatterns os relPath patterns = .ok true)
    (hif : ∀ g, tmpl.GetHeader.If = some g → g ctx = (true, none))
    (hifor : tmpl.GetHeader.If ≠ none → ∃ g, tmpl.GetHeader.IfOr = some g ∧ g ctx = (true, none))
    (hmk : os.MkdirAll (os.Dir (os.Join root relPath)) = none)
    (hrd : os.ReadFileErr (os.Join root relPath) = none)
    (hine : s.files (os.Join root relPath) = none ∨ tmpl.GetHeader.IfNotExists = false)
    (hc : tmpl.GetContent ctx = .ok rendered)
    (hrm : ¬ (mergedOutput (s.files (os.Join root relPath)) rendered = [] ∧ tmpl.GetHeader.RemoveIfEmpty = true))
    (hwr : os.WriteFileErr (os.Join root relPath) = none)
    (hgc : tmpl.RenderGeneratorCommands ctx = .ok generatorCmds) :
    ∃ s1, renderTemplate os root ctx patterns tmpl s = .next s1 ∧
      (".go".toList.isSuffixOf (os.Rel root (os.Join root relPath)) = true →
        tmpl.GetHeader.NoGoGenerate = false →
        s1.cmds = s.cmds ++ generatorCmds ++
          [["goimports".toList, "-l".toList, "-w".toList,
              "./".toList ++ os.Rel root (os.Join root relPath)],
            ["go".toList, "generate".toList,
              "./".toList ++ os.Rel root (os.Join root relPath)]]) ∧
      (".go".toList.isSuffixOf (os.Rel root (os.Join root relPath)) = true →
        tmpl.GetHeader.NoGoGenerate = true →
        s1.cmds = s.cmds ++ generatorCmds ++
          [["goimports".toList, "-l".toList, "-w".toList,
              "./".toList ++ os.Rel root (os.Join root relPath)]]) ∧
      (".go".toList.isSuffixOf (os.Rel root (os.Join root relPath)) = false →
        s1.cmds = s.cmds ++ generatorCmds) := by
  have hstep := renderTemplate_of_pass os root ctx patterns tmpl s relPath hname hpat hif hifor
  have hw := (renderWrite_written os root ctx tmpl s relPath rendered hmk hrd hine hc hrm).2.2
    generatorCmds hwr hgc
  rw [hstep, hw]
  refine ⟨_, rfl, ?_, ?_, ?_⟩
  · intro h1 h2
    simp only [h1, h2, if_true, Bool.false_eq_true, if_false]
  · intro h1 h2
    simp only [h1, h2, if_true]
  · intro h1
    simp only [h1, Bool.false_eq_true, if_false]

theorem render_queues_go_commands_witness :
    ∃ s1, renderTemplate samples.plainOs "out".toList () [] samples.templateGo
        samples.emptyState = .next s1 ∧
      (".go".toList.isSuffixOf
          (samples.plainOs.Rel "out".toList (samples.plainOs.Join "out".toList "a.go".toList)) =
            true →
        samples.templateGo.GetHeader.NoGoGenerate = false →
        s1.cmds = samples.emptyState.cmds ++ [["echo".toList]] ++
          [["goimports".toList, "-l".toList, "-w".toList,
              "./".toList ++ samples.plainOs.Rel "out".toList
                (samples.plainOs.Join "out".toList "a.go".toList)],
            ["go".toList, "generate".toList,
              "./".toList ++ samples.plainOs.Rel "out".toList
                (samples.plainOs.Join "out".toList "a.go".toList)]]) ∧
      (".go".toList.isSuffixOf
          (samples.plainOs.Rel "out".toList (samples.plainOs.Join "out".toList "a.go".toList)) =
            true →
        samples.templateGo.GetHeader.NoGoGenerate = true →
        s1.cmds = samples.emptyState.cmds ++ [["echo".toList]] ++
          [["goimports".toList, "-l".toList, "-w".toList,
              "./".toList ++ samples.plainOs.Rel "out".toList
                (samples.plainOs.Join "out".toList "a.go".toList)]]) ∧
      (".go".toList.isSuffixOf
          (samples.plainOs.Rel "out".toList (samples.plainOs.Join "out".toList "a.go".toList)) =
            false →
        s1.cmds = samples.emptyState.cmds ++ [["echo".toList]]) :=
  render_queues_go_commands samples.plainOs "out".toList () [] samples.templateGo
    samples.emptyState "a.go".toList "package a\n".toList [["echo".toList]] rfl
    (fun h => absurd h (by decide)) (fun _ h => Option.noConfusion h)
    (fun h => absurd rfl h) rfl rfl (Or.inl rfl) rfl (by decide) rfl rfl

end templating

/-! ## Follow-up commands of a template -/

namespace templating
open placeholder

theorem renderGeneratorCommandsLoop_ok {Ctx : Type} (tv : DelimEvaluator Ctx) (ctx : Ctx)
    (commands : List (List (List Char))) :
    ∀ cmds : List (List Char),
      (∀ cmd ∈ cmds, ∃ tmpl, tv [] [] cmd = .ok tmpl ∧ (tmpl ctx).2 = none) →
      renderGeneratorCommandsLoop tv ctx commands cmds = .ok commands := by
  intro cmds
  induction cmds with
  | nil => intro _; rfl
  | cons cmd rest ih =>
    intro h
    obtain ⟨tmpl, h1, h2⟩ := h cmd (List.mem_cons_self _ _)
    have h3 : tmpl ctx = ((tmpl ctx).1, none) := by rw [← h2]
    rw [renderGeneratorCommandsLoop]
    simp only [h1]
    rw [h3]
    exact ih (fun c hc => h c (List.mem_cons_of_mem _ hc))

theorem renderGeneratorCommandsLoop_result {Ctx : Type} (tv : DelimEvaluator Ctx) (ctx : Ctx)
    (commands : List (List (List Char))) :
    ∀ (cmds : List (List Char)) (res : List (List (List Char))),
      renderGeneratorCommandsLoop tv ctx commands cmds = .ok res → res = commands := by
  intro cmds
  induction cmds with
  | nil =>
    intro res h
    simp only [renderGeneratorCommandsLoop, Except.ok.injEq] at h
    exact h.symm
  | cons cmd rest ih =>
    intro res h
    rw [renderGeneratorCommandsLoop] at h
    cases h1 : tv [] [] cmd with
    | error err => simp [h1] at h
    | ok tmpl =>
      simp only [h1] at h
      rcases h2 : tmpl ctx with ⟨out, _ | err⟩
      · rw [h2] at h
        exact ih res h
      · rw [h2] at h
        simp at h

theorem renderGeneratorCommandsLoop_fails {Ctx : Type} (tv : DelimEvaluator Ctx) (ctx : Ctx)
    (commands : List (List (List Char))) (cmd : List Char) (post : List (List Char))
    (hfail : (∃ err, tv [] [] cmd = .error err) ∨
      ∃ tmpl err, tv [] [] cmd = .ok tmpl ∧ (tmpl ctx).2 = some err) :
    ∀ pre : List (List Char),
      (∀ c ∈ pre, ∃ tmpl, tv [] [] c = .ok tmpl ∧ (tmpl ctx).2 = none) →
      ∃ e, renderGeneratorCommandsLoop tv ctx commands (pre ++ cmd :: post) = .error e ∧
        cmd <:+: e.message := by
  intro pre
  induction pre with
  | nil =>
    intro _
    rw [List.nil_append, renderGeneratorCommandsLoop]
    rcases hfail with ⟨err, h1⟩ | ⟨tmpl, err, h1, h2⟩
    · refine ⟨.parse cmd err, by simp [h1], ?_⟩
      exact ⟨"failed to initialize rendering of generator command (".toList,
        "): ".toList ++ err.toList, by simp [GeneratorError.message]⟩
    · have h3 : tmpl ctx = ((tmpl ctx).1, some err) := by rw [← h2]
      refine ⟨.render cmd err, ?_, ?_⟩
      · simp only [h1]
        rw [h3]
      · exact ⟨"failed to render generator command (".toList, "): ".toList ++ err.toList, by
          simp [GeneratorError.message]⟩
  | cons c pre ih =>
    intro h
    obtain ⟨tmpl, h1, h2⟩ := h c (List.mem_cons_self _ _)
    have h3 : tmpl ctx = ((tmpl ctx).1, none) := by rw [← h2]
    obtain ⟨e, he, hm⟩ := ih (fun x hx => h x (List.mem_cons_of_mem _ hx))
    refine ⟨e, ?_, hm⟩
    rw [List.cons_append, renderGeneratorCommandsLoop]
    simp only [h1]
    rw [h3]
    exact he

/-- C25: `RenderGeneratorCommands` returns no command. When every generator command of the
header parses and renders without error, the result is the empty list and no error,
whatever the commands are; a list that is returned is always empty; and when a command
fails to parse or to render, the commands before it being fine, the result is an error
whose message holds the text of that command. -/
theorem renderGeneratorCommands_returns_no_command {Ctx : Type} (tv : DelimEvaluator Ctx)
    (t : templateImpl Ctx) (ctx : Ctx) :
    ((∀ cmd ∈ t.Header.GeneratorCommands, ∃ tmpl, tv [] [] cmd = .ok tmpl ∧ (tmpl ctx).2 = none) →
        t.RenderGeneratorCommands tv ctx = .ok []) ∧
      (∀ commands, t.RenderGeneratorCommands tv ctx = .ok commands → commands = []) ∧
      (∀ pre cmd post, t.Header.GeneratorCommands = pre ++ cmd :: post →
        (∀ c ∈ pre, ∃ tmpl, tv [] [] c = .ok tmpl ∧ (tmpl ctx).2 = none) →
        ((∃ err, tv [] [] cmd = .error err) ∨
          ∃ tmpl err, tv [] [] cmd = .ok tmpl ∧ (tmpl ctx).2 = some err) →
        ∃ e, t.RenderGeneratorCommands tv ctx = .error e ∧ cmd <:+: e.message) := by
  unfold templateImpl.RenderGeneratorCommands
  refine ⟨renderGeneratorCommandsLoop_ok tv ctx [] _,
    renderGeneratorCommandsLoop_result tv ctx [] _, ?_⟩
  intro pre cmd post hsplit hpre hfail
  rw [hsplit]
  exact renderGeneratorCommandsLoop_fails tv ctx [] cmd post hfail pre hpre

theorem renderGeneratorCommands_returns_no_command_witness :
    samples.implTwoCommands.RenderGeneratorCommands samples.cmdEvaluator () = .ok [] ∧
      ∃ e, samples.implBadCommand.RenderGeneratorCommands samples.cmdEvaluator () = .error e ∧
        "bad".toList <:+: e.message :=
  ⟨(renderGeneratorCommands_returns_no_command samples.cmdEvaluator samples.implTwoCommands
      ()).1 (by
        intro cmd h
        have h2 : cmd = "echo a".toList ∨ cmd = "echo b".toList := by
          simpa [samples.implTwoCommands] using h
        rcases h2 with rfl | rfl <;> exact ⟨_, rfl, rfl⟩),
    (renderGeneratorCommands_returns_no_command samples.cmdEvaluator samples.implBadCommand
      ()).2.2 ["echo a".toList] "bad".toList ["echo b".toList] rfl (by
        intro c h
        have h2 : c = "echo a".toList := by simpa using h
        subst h2
        exact ⟨_, rfl, rfl⟩)
      (Or.inl ⟨"parse error", rfl⟩)⟩

end templating

/-! ## Outcomes of a round of the render loop -/

namespace templating
open placeholder

/-- The ways the writing step of a template can end. -/
theorem renderWrite_cases {Ctx : Type} (os : Os) (root : List Char) (ctx : Ctx)
    (tmpl : Template Ctx) (relPath : List Char) (s : RenderState) :
    (∃ err, renderWrite os root ctx tmpl relPath s = .ret s.files s.generated s.cmds err ∧
      ((∃ e, err = .mkdir e) ∨ (∃ e, err = .read e) ∨ (∃ e, err = .content tmpl.GetPath e) ∨
        ∃ e, err = .write e)) ∨
    (∃ e out, renderWrite os root ctx tmpl relPath s =
      .ret (s.files.write (os.Join root relPath) out) (s.generated ++ [os.Join root relPath])
        s.cmds (.generatorCommands e)) ∨
    (renderWrite os root ctx tmpl relPath s =
      .next { files := s.files.remove (os.Join root relPath), generated := s.generated,
              cmds := s.cmds }) ∨
    (∃ existing, s.files (os.Join root relPath) = some existing ∧
      tmpl.GetHeader.IfNotExists = true ∧
      renderWrite os root ctx tmpl relPath s =
        .next { files := s.files, generated := s.generated ++ [os.Join root relPath],
                cmds := s.cmds }) ∨
    (∃ out cmds1, renderWrite os root ctx tmpl relPath s =
      .next { files := s.files.write (os.Join root relPath) out,
              generated := s.generated ++ [os.Join root relPath], cmds := cmds1 }) := by
  cases hmk : os.MkdirAll (os.Dir (os.Join root relPath)) with
  | some err =>
    refine Or.inl ⟨.mkdir err, ?_, Or.inl ⟨err, rfl⟩⟩
    unfold renderWrite
    simp only [hmk]
  | none =>
    cases hrd : os.ReadFileErr (os.Join root relPath) with
    | some err =>
      refine Or.inl ⟨.read err, ?_, Or.inr (Or.inl ⟨err, rfl⟩)⟩
      unfold renderWrite
      simp only [hmk, hrd]
    | none =>
      by_cases hex : ∃ existing, s.files (os.Join root relPath) = some existing ∧
          tmpl.GetHeader.IfNotExists = true
      · obtain ⟨existing, h1, h2⟩ := hex
        exact Or.inr (Or.inr (Or.inr (Or.inl ⟨existing, h1, h2,
          renderWrite_if_not_exists os root ctx tmpl s relPath existing hmk hrd h1 h2⟩)))
      · have hine : s.files (os.Join root relPath) = none ∨
            tmpl.GetHeader.IfNotExists = false := by
          cases hx : s.files (os.Join root relPath) with
          | none => exact Or.inl rfl
          | some existing =>
            right
            cases hi : tmpl.GetHeader.IfNotExists with
            | false => rfl
            | true => exact absurd ⟨existing, hx, hi⟩ hex
        have h1 : ((s.files (os.Join root relPath)).isSome && tmpl.GetHeader.IfNotExists) =
            false := by
          rcases hine with h | h <;> simp [h]
        cases hc : tmpl.GetContent ctx with
        | error err =>
          refine Or.inl ⟨.content tmpl.GetPath err, ?_, Or.inr (Or.inr (Or.inl ⟨err, rfl⟩))⟩
          unfold renderWrite
          simp only [hmk, hrd, h1, hc, Bool.false_eq_true, if_false]
        | ok rendered =>
          by_cases hrm : mergedOutput (s.files (os.Join root relPath)) rendered = [] ∧
              tmpl.GetHeader.RemoveIfEmpty = true
          · exact Or.inr (Or.inr (Or.inl
              (renderWrite_removed os root ctx tmpl s relPath rendered hmk hrd hine hc
                hrm.1 hrm.2)))
          · have hw := renderWrite_written os root ctx tmpl s relPath rendered hmk hrd hine hc
              hrm
            cases hwr : os.WriteFileErr (os.Join root relPath) with
            | some err =>
              exact Or.inl ⟨.write err, hw.1 err hwr, Or.inr (Or.inr (Or.inr ⟨err, rfl⟩))⟩
            | none =>
              cases hgc : tmpl.RenderGeneratorCommands ctx with
              | error err => exact Or.inr (Or.inl ⟨err, _, hw.2.1 err hwr hgc⟩)
              | ok gcs => exact Or.inr (Or.inr (Or.inr (Or.inr ⟨_, _, hw.2.2 gcs hwr hgc⟩)))

/-- The ways the gating step of a template can end: it hands over to the writing step,
skips the template, returns the error of a gate with nil lists, or panics. -/
theorem renderGates_cases {Ctx : Type} (os : Os) (root : List Char) (ctx : Ctx)
    (tmpl : Template Ctx) (relPath : List Char) (s : RenderState) :
    renderGates os root ctx tmpl relPath s = renderWrite os root ctx tmpl relPath s ∨
      renderGates os root ctx tmpl relPath s = .next s ∨
      (∃ e, renderGates os root ctx tmpl relPath s =
        .ret s.files [] [] (.ifCondition tmpl.GetPath e)) ∨
      (∃ e, renderGates os root ctx tmpl relPath s =
        .ret s.files [] [] (.iforCondition tmpl.GetPath e)) ∨
      renderGates os root ctx tmpl relPath s = .panic s.files := by
  unfold renderGates
  cases hI : tmpl.GetHeader.If with
  | none => exact Or.inl rfl
  | some cond =>
    rcases hc : cond ctx with ⟨ok, _ | err⟩
    · cases ok with
      | false => exact Or.inr (Or.inl (by simp [hc]))
      | true =>
        cases hO : tmpl.GetHeader.IfOr with
        | none => exact Or.inr (Or.inr (Or.inr (Or.inr (by simp [hc]))))
        | some ifor =>
          rcases hd : ifor ctx with ⟨ok2, _ | err2⟩
          · cases ok2 with
            | false => exact Or.inr (Or.inl (by simp [hc, hd]))
            | true => exact Or.inl (by simp [hc, hd])
          · exact Or.inr (Or.inr (Or.inr (Or.inl ⟨err2, by simp [hc, hd]⟩)))
    · exact Or.inr (Or.inr (Or.inl ⟨err, by simp [hc]⟩))

theorem matchPatterns_true (os : Os) (relPath : List Char) :
    ∀ patterns : List (List Char), matchPatterns os relPath patterns = .ok true →
      ∃ pattern ∈ patterns, os.Match pattern relPath = .ok true := by
  intro patterns
  induction patterns with
  | nil => intro h; simp [matchPatterns] at h
  | cons p rest ih =>
    intro h
    rw [matchPatterns] at h
    cases hm : os.Match p relPath with
    | error e => simp [hm] at h
    | ok b =>
      cases b with
      | true => exact ⟨p, List.mem_cons_self _ _, hm⟩
      | false =>
        simp only [hm] at h
        obtain ⟨q, hq, hq2⟩ := ih h
        exact ⟨q, List.mem_cons_of_mem _ hq, hq2⟩

theorem matchPatterns_false (os : Os) (relPath : List Char) :
    ∀ patterns : List (List Char), (∀ p ∈ patterns, os.Match p relPath = .ok false) →
      matchPatterns os relPath patterns = .ok false := by
  intro patterns
  induction patterns with
  | nil => intro _; rfl
  | cons p rest ih =>
    intro h
    rw [matchPatterns]
    simp only [h p (List.mem_cons_self _ _)]
    exact ih (fun q hq => h q (List.mem_cons_of_mem _ hq))

theorem matchPatterns_error (os : Os) (relPath : List Char) :
    ∀ (patterns : List (List Char)) (e : RenderError),
      matchPatterns os relPath patterns = .error e → ∃ p err, e = .pattern p err := by
  intro patterns
  induction patterns with
  | nil => intro e h; simp [matchPatterns] at h
  | cons q rest ih =>
    intro e h
    rw [matchPatterns] at h
    cases hq : os.Match q relPath with
    | error err =>
      simp only [hq, Except.error.injEq] at h
      exact ⟨q, err, h.symm⟩
    | ok b =>
      cases b with
      | true => simp [hq] at h
      | false =>
        simp only [hq] at h
        exact ih e h

/-- The ways a round of the loop of `Render` can end, before the gating step or at it. -/
theorem renderTemplate_cases {Ctx : Type} (os : Os) (root : List Char) (ctx : Ctx)
    (patterns : List (List Char)) (tmpl : Template Ctx) (s : RenderState) :
    (∃ e, tmpl.GetName ctx = .error e ∧
      renderTemplate os root ctx patterns tmpl s =
        .ret s.files s.generated s.cmds (.name tmpl.GetPath e)) ∨
    (∃ relPath p e, tmpl.GetName ctx = .ok relPath ∧
      renderTemplate os root ctx patterns tmpl s = .ret s.files [] [] (.pattern p e)) ∨
    (∃ relPath, tmpl.GetName ctx = .ok relPath ∧ patterns.length > 0 ∧
      matchPatterns os relPath patterns = .ok false ∧
      renderTemplate os root ctx patterns tmpl s = .next s) ∨
    (∃ relPath, tmpl.GetName ctx = .ok relPath ∧
      (patterns.length > 0 → matchPatterns os relPath patterns = .ok true) ∧
      renderTemplate os root ctx patterns tmpl s = renderGates os root ctx tmpl relPath s) := by
  cases hn : tmpl.GetName ctx with
  | error e =>
    refine Or.inl ⟨e, rfl, ?_⟩
    unfold renderTemplate
    simp only [hn]
  | ok relPath =>
    right
    by_cases hp : patterns.length > 0
    · cases hm : matchPatterns os relPath patterns with
      | error e =>
        obtain ⟨p, e1, rfl⟩ := matchPatterns_error os relPath patterns e hm
        refine Or.inl ⟨relPath, p, e1, rfl, ?_⟩
        unfold renderTemplate
        simp only [hn, hp, if_true, hm]
      | ok b =>
        cases b with
        | false =>
          refine Or.inr (Or.inl ⟨relPath, rfl, hp, hm, ?_⟩)
          unfold renderTemplate
          simp only [hn, hp, if_true, hm]
        | true =>
          exact Or.inr (Or.inr ⟨relPath, rfl, fun _ => hm,
            renderTemplate_of_gates os root ctx patterns tmpl s relPath hn (fun _ => hm)⟩)
    · exact Or.inr (Or.inr ⟨relPath, rfl, fun h => absurd h hp,
        renderTemplate_of_gates os root ctx patterns tmpl s relPath hn (fun h => absurd h hp)⟩)

end templating

/-! ## The produced-path list -/

namespace templating
open placeholder

theorem strLe_cons (a b : Char) (as bs : List Char) :
    strLe (a :: as) (b :: bs) =
      if a < b then true else if b < a then false else strLe as bs := rfl

theorem strLe_total : ∀ a b : List Char, strLe a b = true ∨ strLe b a = true := by
  intro a
  induction a with
  | nil => intro b; exact Or.inl (by cases b <;> rfl)
  | cons x xs ih =>
    intro b
    cases b with
    | nil => exact Or.inr rfl
    | cons y ys =>
      rw [strLe_cons, strLe_cons]
      rcases lt_trichotomy x y with h | h | h
      · simp [h]
      · subst h
        simpa using ih ys
      · simp [h]

theorem strLe_trans : ∀ a b c : List Char, strLe a b = true → strLe b c = true →
    strLe a c = true := by
  intro a
  induction a with
  | nil => intro b c _ _; cases c <;> rfl
  | cons x xs ih =>
    intro b c hab hbc
    cases b with
    | nil => simp [strLe] at hab
    | cons y ys =>
      cases c with
      | nil => simp [strLe] at hbc
      | cons z zs =>
        rw [strLe_cons] at hab hbc ⊢
        rcases lt_trichotomy x y with h1 | h1 | h1
        · rcases lt_trichotomy y z with h2 | h2 | h2
          · simp [lt_trans h1 h2]
          · subst h2; simp [h1]
          · simp [h2, not_lt_of_gt h2] at hbc
        · subst h1
          rcases lt_trichotomy x z with h2 | h2 | h2
          · simp [h2]
          · subst h2
            simp only [lt_self_iff_false, if_false] at hab hbc ⊢
            exact ih ys zs hab hbc
          · simp [h2, not_lt_of_gt h2] at hbc
        · simp [h1, not_lt_of_gt h1] at hab

theorem strLe_antisymm : ∀ a b : List Char, strLe a b = true → strLe b a = true → a = b := by
  intro a
  induction a with
  | nil =>
    intro b _ hba
    cases b with
    | nil => rfl
    | cons y ys => simp [strLe] at hba
  | cons x xs ih =>
    intro b hab hba
    cases b with
    | nil => simp [strLe] at hab
    | cons y ys =>
      rw [strLe_cons] at hab hba
      rcases lt_trichotomy x y with h | h | h
      · simp [h, not_lt_of_gt h] at hba
      · subst h
        simp only [lt_self_iff_false, if_false] at hab hba
        rw [ih ys hab hba]
      · simp [h, not_lt_of_gt h] at hab

/-- The result of `sort.Strings`: sorted, a permutation of the input, and the same for all
the orders in which the input can come. -/
theorem sortStrings_spec (l : List (List Char)) :
    (sortStrings l).Sorted (fun a b => strLe a b = true) ∧ (sortStrings l).Perm l ∧
      ∀ l1 : List (List Char), l1.Perm l → sortStrings l1 = sortStrings l := by
  haveI : IsTotal (List Char) (fun a b => strLe a b = true) := ⟨strLe_total⟩
  haveI : IsTrans (List Char) (fun a b => strLe a b = true) := ⟨strLe_trans⟩
  haveI : IsAntisymm (List Char) (fun a b => strLe a b = true) := ⟨strLe_antisymm⟩
  refine ⟨List.sorted_insertionSort _ l, List.perm_insertionSort _ l, ?_⟩
  intro l1 h
  exact List.eq_of_perm_of_sorted
    (((List.perm_insertionSort _ l1).trans h).trans (List.perm_insertionSort _ l).symm)
    (List.sorted_insertionSort _ l1) (List.sorted_insertionSort _ l)

/-- A round of the loop that does not end the pass either records nothing and queues
nothing, or records the output path of the template: for a file that `if-not-exists`
keeps, or for a file that it writes. The template has then passed the patterns. -/
theorem renderTemplate_next {Ctx : Type} (os : Os) (root : List Char) (ctx : Ctx)
    (patterns : List (List Char)) (tmpl : Template Ctx) (s s1 : RenderState)
    (h : renderTemplate os root ctx patterns tmpl s = .next s1) :
    (s1.generated = s.generated ∧ s1.cmds = s.cmds ∧
      (s1.files = s.files ∨ ∃ relPath, tmpl.GetName ctx = .ok relPath ∧
        s1.files = s.files.remove (os.Join root relPath))) ∨
    (∃ relPath, tmpl.GetName ctx = .ok relPath ∧
      (patterns.length > 0 → matchPatterns os relPath patterns = .ok true) ∧
      s1.generated = s.generated ++ [os.Join root relPath] ∧
      ((∃ existing, s.files (os.Join root relPath) = some existing ∧
          tmpl.GetHeader.IfNotExists = true ∧ s1.files = s.files ∧ s1.cmds = s.cmds) ∨
        ∃ out, s1.files = s.files.write (os.Join root relPath) out)) := by
  have hskip : Flow.next s = Flow.next s1 → (s1.generated = s.generated ∧ s1.cmds = s.cmds ∧
      (s1.files = s.files ∨ ∃ relPath, tmpl.GetName ctx = .ok relPath ∧
        s1.files = s.files.remove (os.Join root relPath))) := by
    intro e
    simp only [Flow.next.injEq] at e
    subst e
    exact ⟨rfl, rfl, Or.inl rfl⟩
  rcases renderTemplate_cases os root ctx patterns tmpl s with
    ⟨e, -, h1⟩ | ⟨relPath, p, e, -, h1⟩ | ⟨relPath, -, -, -, h1⟩ | ⟨relPath, hn, hp, h1⟩
  · rw [h1] at h; cases h
  · rw [h1] at h; cases h
  · rw [h1] at h; exact Or.inl (hskip h)
  · rw [h1] at h
    rcases renderGates_cases os root ctx tmpl relPath s with
      h2 | h2 | ⟨e, h2⟩ | ⟨e, h2⟩ | h2
    · rw [h2] at h
      rcases renderWrite_cases os root ctx tmpl relPath s with
        ⟨err, h3, -⟩ | ⟨e, out, h3⟩ | h3 | ⟨existing, hx, hi, h3⟩ | ⟨out, cmds1, h3⟩
      · rw [h3] at h; cases h
      · rw [h3] at h; cases h
      · rw [h3] at h
        simp only [Flow.next.injEq] at h
        subst h
        exact Or.inl ⟨rfl, rfl, Or.inr ⟨relPath, hn, rfl⟩⟩
      · rw [h3] at h
        simp only [Flow.next.injEq] at h
        subst h
        exact Or.inr ⟨relPath, hn, hp, rfl, Or.inl ⟨existing, hx, hi, rfl, rfl⟩⟩
      · rw [h3] at h
        simp only [Flow.next.injEq] at h
        subst h
        exact Or.inr ⟨relPath, hn, hp, rfl, Or.inr ⟨out, rfl⟩⟩
    · rw [h2] at h; exact Or.inl (hskip h)
    · rw [h2] at h; cases h
    · rw [h2] at h; cases h
    · rw [h2] at h; cases h

/-- A pass that returns without error has gone through all the templates, and returns
the state it has reached, the recorded paths sorted. -/
theorem renderLoop_success {Ctx : Type} (os : Os) (root : List Char) (ctx : Ctx)
    (patterns : List (List Char)) (files1 : Files) (generated : List (List Char))
    (cmds : List (List (List Char))) :
    ∀ (templates : List (Template Ctx)) (s : RenderState),
      renderLoop os root ctx patterns templates s = .returned files1 generated cmds none →
      ∃ s1, renderSteps os root ctx patterns templates s = some s1 ∧ files1 = s1.files ∧
        generated = sortStrings s1.generated ∧ cmds = s1.cmds := by
  intro templates
  induction templates with
  | nil =>
    intro s h
    simp only [renderLoop, Outcome.returned.injEq] at h
    exact ⟨s, rfl, h.1.symm, h.2.1.symm, h.2.2.1.symm⟩
  | cons t rest ih =>
    intro s h
    rw [renderLoop] at h
    rw [renderSteps]
    cases hr : renderTemplate os root ctx patterns t s with
    | next s2 =>
      simp only [hr] at h ⊢
      exact ih s2 h
    | ret f g c e => simp [hr] at h
    | panic f => simp [hr] at h

/-- C26: a pass that returns without error returns the paths recorded during the pass,
sorted by `sort.Strings`: the list is in ascending order, it is a permutation of the
recorded paths, and it is the same for every order in which the same paths are recorded.
Each round of the pass records the output path of its template when it writes the file or
when `if-not-exists` keeps an existing file, and nothing otherwise. -/
theorem render_returns_sorted_recorded_paths {Ctx : Type} (os : Os) (files : Files)
    (templates : List (Template Ctx)) (root : List Char) (ctx : Ctx)
    (patterns : List (List Char)) (files1 : Files) (generated : List (List Char))
    (cmds : List (List (List Char)))
    (h : Render os files templates root ctx patterns = .returned files1 generated cmds none) :
    (∃ s, renderSteps os root ctx patterns templates
          { files := files, generated := [], cmds := [] } = some s ∧
        generated = sortStrings s.generated ∧
        generated.Sorted (fun a b => strLe a b = true) ∧ generated.Perm s.generated ∧
        ∀ l : List (List Char), l.Perm s.generated → sortStrings l = generated) ∧
      ∀ (tmpl : Template Ctx) (s s1 : RenderState),
        renderTemplate os root ctx patterns tmpl s = .next s1 →
        (s1.generated = s.generated ∧ s1.cmds = s.cmds ∧
          (s1.files = s.files ∨ ∃ relPath, tmpl.GetName ctx = .ok relPath ∧
            s1.files = s.files.remove (os.Join root relPath))) ∨
        (∃ relPath, tmpl.GetName ctx = .ok relPath ∧
          (patterns.length > 0 → matchPatterns os relPath patterns = .ok true) ∧
          s1.generated = s.generated ++ [os.Join root relPath] ∧
          ((∃ existing, s.files (os.Join root relPath) = some existing ∧
              tmpl.GetHeader.IfNotExists = true ∧ s1.files = s.files ∧ s1.cmds = s.cmds) ∨
            ∃ out, s1.files = s.files.write (os.Join root relPath) out)) := by
  obtain ⟨s1, h1, -, h3, -⟩ := renderLoop_success os root ctx patterns files1 generated cmds
    templates _ h
  obtain ⟨k1, k2, k3⟩ := sortStrings_spec s1.generated
  refine ⟨⟨s1, h1, h3, by rw [h3]; exact k1, by rw [h3]; exact k2, ?_⟩,
    fun tmpl s s2 hn => renderTemplate_next os root ctx patterns tmpl s s2 hn⟩
  intro l hl
  rw [h3]
  exact k3 l hl

end templating

namespace templating
open placeholder

theorem render_returns_sorted_recorded_paths_witness :
    ∃ s, renderSteps samples.plainOs "out".toList () []
          [samples.templateB, samples.templateA]
          { files := samples.noFiles, generated := [], cmds := [] } = some s ∧
        ["out/a.txt".toList, "out/b.txt".toList] = sortStrings s.generated ∧
        ["out/a.txt".toList, "out/b.txt".toList].Sorted (fun a b => strLe a b = true) ∧
        ["out/a.txt".toList, "out/b.txt".toList].Perm s.generated ∧
        ∀ l : List (List Char), l.Perm s.generated →
          sortStrings l = ["out/a.txt".toList, "out/b.txt".toList] :=
  (render_returns_sorted_recorded_paths samples.plainOs samples.noFiles
    [samples.templateB, samples.templateA] "out".toList () []
    (Render samples.plainOs samples.noFiles [samples.templateB, samples.templateA]
      "out".toList () []).files
    ["out/a.txt".toList, "out/b.txt".toList] [] rfl).1

end templating

/-! ## Patterns and errors of the render pass -/

namespace templating
open placeholder

/-- The ways a round of the loop can end the pass: with the lists as they are, with nil
lists, or with the path of the template recorded after its file has been written. -/
theorem renderTemplate_ret {Ctx : Type} (os : Os) (root : List Char) (ctx : Ctx)
    (patterns : List (List Char)) (tmpl : Template Ctx) (s : RenderState) (f : Files)
    (g : List (List Char)) (c : List (List (List Char))) (e : RenderError)
    (h : renderTemplate os root ctx patterns tmpl s = .ret f g c e) :
    (f = s.files ∧ g = s.generated ∧ c = s.cmds ∧
      ((∃ p x, e = .name p x) ∨ (∃ x, e = .mkdir x) ∨ (∃ x, e = .read x) ∨
        (∃ p x, e = .content p x) ∨ ∃ x, e = .write x)) ∨
    (f = s.files ∧ g = [] ∧ c = [] ∧
      ((∃ p x, e = .pattern p x) ∨ (∃ p x, e = .ifCondition p x) ∨
        ∃ p x, e = .iforCondition p x)) ∨
    (∃ relPath out x, tmpl.GetName ctx = .ok relPath ∧
      (patterns.length > 0 → matchPatterns os relPath patterns = .ok true) ∧
      f = s.files.write (os.Join root relPath) out ∧
      g = s.generated ++ [os.Join root relPath] ∧ c = s.cmds ∧ e = .generatorCommands x) := by
  rcases renderTemplate_cases os root ctx patterns tmpl s with
    ⟨x, -, h1⟩ | ⟨relPath, p, x, -, h1⟩ | ⟨relPath, -, -, -, h1⟩ | ⟨relPath, hn, hp, h1⟩
  · rw [h1] at h
    simp only [Flow.ret.injEq] at h
    obtain ⟨rfl, rfl, rfl, rfl⟩ := h
    exact Or.inl ⟨rfl, rfl, rfl, Or.inl ⟨_, _, rfl⟩⟩
  · rw [h1] at h
    simp only [Flow.ret.injEq] at h
    obtain ⟨rfl, rfl, rfl, rfl⟩ := h
    exact Or.inr (Or.inl ⟨rfl, rfl, rfl, Or.inl ⟨_, _, rfl⟩⟩)
  · rw [h1] at h; cases h
  · rw [h1] at h
    rcases renderGates_cases os root ctx tmpl relPath s with
      h2 | h2 | ⟨x, h2⟩ | ⟨x, h2⟩ | h2
    · rw [h2] at h
      rcases renderWrite_cases os root ctx tmpl relPath s with
        ⟨err, h3, h4⟩ | ⟨x, out, h3⟩ | h3 | ⟨existing, hx, hi, h3⟩ | ⟨out, cmds1, h3⟩
      · rw [h3] at h
        simp only [Flow.ret.injEq] at h
        obtain ⟨rfl, rfl, rfl, rfl⟩ := h
        refine Or.inl ⟨rfl, rfl, rfl, ?_⟩
        rcases h4 with ⟨x, rfl⟩ | ⟨x, rfl⟩ | ⟨x, rfl⟩ | ⟨x, rfl⟩
        · exact Or.inr (Or.inl ⟨x, rfl⟩)
        · exact Or.inr (Or.inr (Or.inl ⟨x, rfl⟩))
        · exact Or.inr (Or.inr (Or.inr (Or.inl ⟨_, x, rfl⟩)))
        · exact Or.inr (Or.inr (Or.inr (Or.inr ⟨x, rfl⟩)))
      · rw [h3] at h
        simp only [Flow.ret.injEq] at h
        obtain ⟨rfl, rfl, rfl, rfl⟩ := h
        exact Or.inr (Or.inr ⟨relPath, out, x, hn, hp, rfl, rfl, rfl, rfl⟩)
      · rw [h3] at h; cases h
      · rw [h3] at h; cases h
      · rw [h3] at h; cases h
    · rw [h2] at h; cases h
    · rw [h2] at h
      simp only [Flow.ret.injEq] at h
      obtain ⟨rfl, rfl, rfl, rfl⟩ := h
      exact Or.inr (Or.inl ⟨rfl, rfl, rfl, Or.inr (Or.inl ⟨_, _, rfl⟩)⟩)
    · rw [h2] at h
      simp only [Flow.ret.injEq] at h
      obtain ⟨rfl, rfl, rfl, rfl⟩ := h
      exact Or.inr (Or.inl ⟨rfl, rfl, rfl, Or.inr (Or.inr ⟨_, _, rfl⟩)⟩)
    · rw [h2] at h; cases h

/-- A pass that returns an error has gone through the templates before one of them, and
returns what the round of that template returns. -/
theorem renderLoop_failure {Ctx : Type} (os : Os) (root : List Char) (ctx : Ctx)
    (patterns : List (List Char)) (f : Files) (g : List (List Char))
    (c : List (List (List Char))) (e : RenderError) :
    ∀ (templates : List (Template Ctx)) (s : RenderState),
      renderLoop os root ctx patterns templates s = .returned f g c (some e) →
      ∃ pre tmpl post s1, templates = pre ++ tmpl :: post ∧
        renderSteps os root ctx patterns pre s = some s1 ∧
        renderTemplate os root ctx patterns tmpl s1 = .ret f g c e := by
  intro templates
  induction templates with
  | nil => intro s h; simp [renderLoop] at h
  | cons t rest ih =>
    intro s h
    rw [renderLoop] at h
    cases hr : renderTemplate os root ctx patterns t s with
    | next s2 =>
      simp only [hr] at h
      obtain ⟨pre, tmpl, post, s1, h1, h2, h3⟩ := ih s2 h
      refine ⟨t :: pre, tmpl, post, s1, by rw [h1]; rfl, ?_, h3⟩
      rw [renderSteps]
      simp only [hr]
      exact h2
    | ret f2 g2 c2 e2 =>
      simp only [hr, Outcome.returned.injEq, Option.some.injEq] at h
      obtain ⟨rfl, rfl, rfl, rfl⟩ := h
      exact ⟨[], t, rest, s, rfl, rfl, hr⟩
    | panic f2 => simp [hr] at h

/-- A property of the output paths of the templates that pass the patterns holds for all
the paths recorded by rounds of the loop. -/
theorem renderSteps_generated {Ctx : Type} (os : Os) (root : List Char) (ctx : Ctx)
    (patterns : List (List Char)) (P : List Char → Prop) :
    ∀ (templates : List (Template Ctx)) (s s1 : RenderState),
      (∀ tmpl ∈ templates, ∀ relPath, tmpl.GetName ctx = .ok relPath →
        (patterns.length > 0 → matchPatterns os relPath patterns = .ok true) →
        P (os.Join root relPath)) →
      renderSteps os root ctx patterns templates s = some s1 →
      (∀ p ∈ s.generated, P p) → ∀ p ∈ s1.generated, P p := by
  intro templates
  induction templates with
  | nil =>
    intro s s1 _ h hs
    simp only [renderSteps, Option.some.injEq] at h
    subst h
    exact hs
  | cons t rest ih =>
    intro s s1 hP h hs
    rw [renderSteps] at h
    cases hr : renderTemplate os root ctx patterns t s with
    | next s2 =>
      simp only [hr] at h
      apply ih s2 s1 (fun tmpl ht => hP tmpl (List.mem_cons_of_mem _ ht)) h
      rcases renderTemplate_next os root ctx patterns t s s2 hr with
        ⟨h1, -, -⟩ | ⟨relPath, hn, hp, h1, -⟩
      · rw [h1]; exact hs
      · rw [h1]
        intro p hp2
        rcases List.mem_append.1 hp2 with h3 | h3
        · exact hs p h3
        · simp only [List.mem_singleton] at h3
          subst h3
          exact hP t (List.mem_cons_self _ _) relPath hn hp
    | ret f2 g2 c2 e2 => simp [hr] at h
    | panic f2 => simp [hr] at h

end templating

namespace templating
open placeholder

/-- C27: with a non-empty pattern list, every path of the list that `Render` returns is the
root joined with the rendered relative path of a template that matches one of the
patterns, and a template whose rendered relative path matches none of the patterns is
skipped: its round leaves the files, the recorded paths and the command queue as they
are. With an empty pattern list every template whose name renders goes on to the gating
step. -/
theorem render_filters_by_patterns {Ctx : Type} (os : Os) (files : Files)
    (templates : List (Template Ctx)) (root : List Char) (ctx : Ctx)
    (patterns : List (List Char)) :
    (∀ files1 generated cmds err, patterns ≠ [] →
      Render os files templates root ctx patterns = .returned files1 generated cmds err →
      ∀ p ∈ generated, ∃ tmpl ∈ templates, ∃ relPath, tmpl.GetName ctx = .ok relPath ∧
        p = os.Join root relPath ∧ ∃ pattern ∈ patterns, os.Match pattern relPath = .ok true) ∧
    (∀ (tmpl : Template Ctx) (s : RenderState) (relPath : List Char), patterns ≠ [] →
      tmpl.GetName ctx = .ok relPath →
      (∀ pattern ∈ patterns, os.Match pattern relPath = .ok false) →
      renderTemplate os root ctx patterns tmpl s = .next s) ∧
    (∀ (tmpl : Template Ctx) (s : RenderState) (relPath : List Char),
      tmpl.GetName ctx = .ok relPath →
      renderTemplate os root ctx [] tmpl s = renderGates os root ctx tmpl relPath s) := by
  refine ⟨?_, ?_, ?_⟩
  · intro files1 generated cmds err hne h
    have hlen : patterns.length > 0 := List.length_pos.2 hne
    have hP : ∀ ts : List (Template Ctx), (∀ t ∈ ts, t ∈ templates) →
        ∀ tmpl ∈ ts, ∀ relPath, tmpl.GetName ctx = .ok relPath →
        (patterns.length > 0 → matchPatterns os relPath patterns = .ok true) →
        ∃ t ∈ templates, ∃ r, t.GetName ctx = .ok r ∧ os.Join root relPath = os.Join root r ∧
          ∃ pattern ∈ patterns, os.Match pattern r = .ok true := by
      intro ts hts tmpl ht relPath hn hm
      exact ⟨tmpl, hts tmpl ht, relPath, hn, rfl, matchPatterns_true os relPath patterns (hm hlen)⟩
    cases err with
    | none =>
      obtain ⟨s1, h1, -, h3, -⟩ := renderLoop_success os root ctx patterns files1 generated cmds
        templates _ h
      intro p hp
      have hp2 : p ∈ s1.generated := by
        rw [h3] at hp
        exact (sortStrings_spec s1.generated).2.1.mem_iff.1 hp
      exact renderSteps_generated os root ctx patterns
        (fun q => ∃ t ∈ templates, ∃ r, t.GetName ctx = .ok r ∧ q = os.Join root r ∧
          ∃ pattern ∈ patterns, os.Match pattern r = .ok true) templates _ s1
        (hP templates (fun t ht => ht)) h1 (by simp) p hp2
    | some e =>
      obtain ⟨pre, tmpl, post, s1, h1, h2, h3⟩ := renderLoop_failure os root ctx patterns
        files1 generated cmds e templates _ h
      have hpre : ∀ t ∈ pre, t ∈ templates := by
        intro t ht
        rw [h1]
        exact List.mem_append_left _ ht
      have hinv := renderSteps_generated os root ctx patterns
        (fun q => ∃ t ∈ templates, ∃ r, t.GetName ctx = .ok r ∧ q = os.Join root r ∧
          ∃ pattern ∈ patterns, os.Match pattern r = .ok true) pre _ s1 (hP pre hpre) h2
        (by simp)
      rcases renderTemplate_ret os root ctx patterns tmpl s1 _ _ _ _ h3 with
        ⟨-, hg, -, -⟩ | ⟨-, hg, -, -⟩ | ⟨relPath, out, x, hn, hm, -, hg, -, -⟩
      · rw [hg]; exact hinv
      · rw [hg]; simp
      · rw [hg]
        intro p hp
        rcases List.mem_append.1 hp with h4 | h4
        · exact hinv p h4
        · simp only [List.mem_singleton] at h4
          subst h4
          exact ⟨tmpl, by rw [h1]; simp, relPath, hn, rfl,
            matchPatterns_true os relPath patterns (hm hlen)⟩
  · intro tmpl s relPath hne hn hm
    have hlen : patterns.length > 0 := List.length_pos.2 hne
    unfold renderTemplate
    simp only [hn, hlen, if_true, matchPatterns_false os relPath patterns hm]
  · intro tmpl s relPath hn
    exact renderTemplate_of_gates os root ctx [] tmpl s relPath hn (fun h => absurd h (by simp))

theorem render_filters_by_patterns_witness :
    (∀ p ∈ ["out/a.txt".toList, "out/c-world.txt".toList],
      ∃ tmpl ∈ samples.packFoo, ∃ relPath, tmpl.GetName "world".toList = .ok relPath ∧
        p = samples.exactOs.Join "out".toList relPath ∧
        ∃ pattern ∈ ["a.txt".toList, "c-world.txt".toList],
          samples.exactOs.Match pattern relPath = .ok true) ∧
    renderTemplate samples.exactOs "out".toList () ["a.txt".toList, "c-world.txt".toList]
        samples.templateB samples.emptyState = .next samples.emptyState ∧
    (Render samples.exactOs samples.noFiles samples.packFoo "out".toList "world".toList
        ["a.txt".toList, "c-world.txt".toList]).generated =
      ["out/a.txt".toList, "out/c-world.txt".toList] :=
  ⟨(render_filters_by_patterns samples.exactOs samples.noFiles samples.packFoo "out".toList
      "world".toList ["a.txt".toList, "c-world.txt".toList]).1
      (Render samples.exactOs samples.noFiles samples.packFoo "out".toList "world".toList
        ["a.txt".toList, "c-world.txt".toList]).files
      ["out/a.txt".toList, "out/c-world.txt".toList] [] none (by decide) rfl,
    (render_filters_by_patterns samples.exactOs samples.noFiles [] "out".toList ()
      ["a.txt".toList, "c-world.txt".toList]).2.1 samples.templateB samples.emptyState
      "b.txt".toList (by decide) rfl (by
        intro pattern h
        have h2 : pattern = "a.txt".toList ∨ pattern = "c-world.txt".toList := by
          simpa using h
        rcases h2 with rfl | rfl <;> rfl),
    by decide⟩

/-- C28 (as amended): when `Render` returns an error, the error comes from the round of one
template, the templates before it having been gone through. For an error of the name
stage, directory creation, file read, content stage or file write, the paths returned are
the paths recorded for the templates before, in the order of recording. For an error of
pattern matching or of a gate, the path list and the command queue returned are nil,
whatever has been recorded. For an error of the follow-up commands, the file of the
template has been written and its path comes after the paths recorded before. -/
theorem render_abort_returns {Ctx : Type} (os : Os) (files : Files)
    (templates : List (Template Ctx)) (root : List Char) (ctx : Ctx)
    (patterns : List (List Char)) (f : Files) (g : List (List Char))
    (c : List (List (List Char))) (e : RenderError)
    (h : Render os files templates root ctx patterns = .returned f g c (some e)) :
    ∃ pre tmpl post s, templates = pre ++ tmpl :: post ∧
      renderSteps os root ctx patterns pre { files := files, generated := [], cmds := [] } =
        some s ∧
      ((f = s.files ∧ g = s.generated ∧ c = s.cmds ∧
          ((∃ p x, e = .name p x) ∨ (∃ x, e = .mkdir x) ∨ (∃ x, e = .read x) ∨
            (∃ p x, e = .content p x) ∨ ∃ x, e = .write x)) ∨
        (f = s.files ∧ g = [] ∧ c = [] ∧
          ((∃ p x, e = .pattern p x) ∨ (∃ p x, e = .ifCondition p x) ∨
            ∃ p x, e = .iforCondition p x)) ∨
        ∃ relPath out x, tmpl.GetName ctx = .ok relPath ∧
          f = s.files.write (os.Join root relPath) out ∧
          g = s.generated ++ [os.Join root relPath] ∧ c = s.cmds ∧
          e = .generatorCommands x) := by
  obtain ⟨pre, tmpl, post, s1, h1, h2, h3⟩ := renderLoop_failure os root ctx patterns f g c e
    templates _ h
  refine ⟨pre, tmpl, post, s1, h1, h2, ?_⟩
  rcases renderTemplate_ret os root ctx patterns tmpl s1 _ _ _ _ h3 with
    h4 | h4 | ⟨relPath, out, x, hn, -, hf, hg, hc, he⟩
  · exact Or.inl h4
  · exact Or.inr (Or.inl h4)
  · exact Or.inr (Or.inr ⟨relPath, out, x, hn, hf, hg, hc, he⟩)

theorem render_abort_returns_witness :
    ∃ pre tmpl post s, [samples.templateA, samples.templateNameErr] = pre ++ tmpl :: post ∧
      renderSteps samples.plainOs "out".toList () [] pre
          { files := samples.noFiles, generated := [], cmds := [] } = some s ∧
      (((Render samples.plainOs samples.noFiles [samples.templateA, samples.templateNameErr]
              "out".toList () []).files = s.files ∧
          ["out/a.txt".toList] = s.generated ∧ [] = s.cmds ∧
          ((∃ p x, RenderError.name "n.txt".toList "name error" = .name p x) ∨
            (∃ x, RenderError.name "n.txt".toList "name error" = .mkdir x) ∨
            (∃ x, RenderError.name "n.txt".toList "name error" = .read x) ∨
            (∃ p x, RenderError.name "n.txt".toList "name error" = .content p x) ∨
            ∃ x, RenderError.name "n.txt".toList "name error" = .write x)) ∨
        ((Render samples.plainOs samples.noFiles [samples.templateA, samples.templateNameErr]
              "out".toList () []).files = s.files ∧
          ["out/a.txt".toList] = [] ∧ ([] : List (List (List Char))) = [] ∧
          ((∃ p x, RenderError.name "n.txt".toList "name error" = .pattern p x) ∨
            (∃ p x, RenderError.name "n.txt".toList "name error" = .ifCondition p x) ∨
            ∃ p x, RenderError.name "n.txt".toList "name error" = .iforCondition p x)) ∨
        ∃ relPath out x, tmpl.GetName () = .ok relPath ∧
          (Render samples.plainOs samples.noFiles [samples.templateA, samples.templateNameErr]
              "out".toList () []).files =
            s.files.write (samples.plainOs.Join "out".toList relPath) out ∧
          ["out/a.txt".toList] = s.generated ++ [samples.plainOs.Join "out".toList relPath] ∧
          [] = s.cmds ∧
          RenderError.name "n.txt".toList "name error" = .generatorCommands x) :=
  render_abort_returns samples.plainOs samples.noFiles
    [samples.templateA, samples.templateNameErr] "out".toList () []
    (Render samples.plainOs samples.noFiles [samples.templateA, samples.templateNameErr]
      "out".toList () []).files
    ["out/a.txt".toList] [] (.name "n.txt".toList "name error") rfl

/-- C28 (counterexample): the template `a.txt` is written, then the gate of the next template
fails: `Render` returns the error with a nil path list, not with the path of `a.txt`. And
when the follow-up commands of the first template fail, nothing having been produced
before, `Render` returns the error with the path of that template. -/
theorem render_abort_drops_or_adds_paths :
    (renderSteps samples.plainOs "out".toList () [] [samples.templateA]
        { files := samples.noFiles, generated := [], cmds := [] }).map
          (fun s => s.generated) = some ["out/a.txt".toList] ∧
      (Render samples.plainOs samples.noFiles [samples.templateA, samples.templateGateErr]
        "out".toList () []).err = some (.ifCondition "e.txt".toList "gate error") ∧
      (Render samples.plainOs samples.noFiles [samples.templateA, samples.templateGateErr]
        "out".toList () []).generated = [] ∧
      (Render samples.plainOs samples.noFiles [samples.templateA, samples.templateGateErr]
        "out".toList () []).files "out/a.txt".toList = some "A\n".toList ∧
      (Render samples.plainOs samples.noFiles [samples.templateCmdErr] "out".toList ()
        []).err = some (.generatorCommands "command error") ∧
      (Render samples.plainOs samples.noFiles [samples.templateCmdErr] "out".toList ()
        []).generated = ["out/g.txt".toList] := by
  decide

end templating

/-! ## Loading a template -/

namespace filepath

theorem extAux_letters (cs ext : List Char) :
    extAux ("etalpmet.".toList ++ cs) ext = ".template".toList ++ ext := by
  simp [extAux]

/-- A path that ends in `.template` has the extension `.template`. -/
theorem Ext_template (stem : List Char) :
    Ext (stem ++ ".template".toList) = ".template".toList := by
  unfold Ext
  have : (stem ++ ".template".toList).reverse = "etalpmet.".toList ++ stem.reverse := by
    simp
  rw [this, extAux_letters]
  simp

theorem take_stem (stem : List Char) :
    (stem ++ ".template".toList).take ((stem ++ ".template".toList).length - 9) = stem := by
  have : (stem ++ ".template".toList).length - 9 = stem.length := by simp
  rw [this, List.take_left']
  rfl

end filepath

namespace templating
open placeholder

/-- A directive other than `filename` and `pathreplace` leaves the file name expression and
the path rewrites of the header as they are. -/
theorem applyDirective_keeps_name {Ctx : Type} (ev : Evaluator Ctx) (keyword value : List Char)
    (n : Nat) (header h1 : Header Ctx) (hf : keyword ≠ "filename".toList)
    (hp : keyword ≠ "pathreplace".toList)
    (h : applyDirective ev keyword value n header = .ok h1) :
    h1.Filename = header.Filename ∧ h1.PathReplace = header.PathReplace := by
  unfold applyDirective at h
  rw [if_neg hf, if_neg hp] at h
  split at h
  · split at h <;>
      (simp only [Except.ok.injEq] at h; subst h; exact ⟨rfl, rfl⟩)
  · split at h
    · simp only at h
      split at h
      · cases h
      · simp only [Except.ok.injEq] at h
        subst h
        exact ⟨rfl, rfl⟩
    · split at h
      · simp only [Except.ok.injEq] at h; subst h; exact ⟨rfl, rfl⟩
      · split at h
        · simp only [Except.ok.injEq] at h; subst h; exact ⟨rfl, rfl⟩
        · split at h
          · simp only [Except.ok.injEq] at h; subst h; exact ⟨rfl, rfl⟩
          · split at h
            · simp only [Except.ok.injEq] at h; subst h; exact ⟨rfl, rfl⟩
            · cases h

theorem applyLines_keeps_name {Ctx : Type} (ev : Evaluator Ctx) :
    ∀ (lines : List (List Char)) (n : Nat) (header h1 : Header Ctx),
      (∀ l ∈ lines, ∀ kw v, matchHeader (l ++ ['\n']) = some (kw, v) →
        kw ≠ "filename".toList ∧ kw ≠ "pathreplace".toList) →
      applyLines ev lines n header = some h1 →
      h1.Filename = header.Filename ∧ h1.PathReplace = header.PathReplace := by
  intro lines
  induction lines with
  | nil =>
    intro n header h1 _ h
    simp only [applyLines, Option.some.injEq] at h
    subst h
    exact ⟨rfl, rfl⟩
  | cons l ls ih =>
    intro n header h1 hkw h
    rw [applyLines] at h
    cases hm : matchHeader (l ++ ['\n']) with
    | none => simp [hm] at h
    | some kv =>
      obtain ⟨kw, v⟩ := kv
      simp only [hm] at h
      cases ha : applyDirective ev kw v (n + 1) header with
      | error e => simp [ha] at h
      | ok h2 =>
        simp only [ha] at h
        obtain ⟨k1, k2⟩ := hkw l (List.mem_cons_self _ _) kw v hm
        obtain ⟨a1, a2⟩ := applyDirective_keeps_name ev kw v (n + 1) header h2 k1 k2 ha
        obtain ⟨b1, b2⟩ := ih (n + 1) h2 h1
          (fun x hx => hkw x (List.mem_cons_of_mem _ hx)) h
        exact ⟨b1.trans a1, b2.trans a2⟩

/-- The parser on a block of valid directive lines followed by a body: an incomplete line,
or a text that starts with a line that is not a directive. -/
theorem parseHeaders_block_then_body {Ctx : Type} (ev : Evaluator Ctx)
    (lines : List (List Char)) (rest : List Char) (header h1 : Header Ctx)
    (hnl : ∀ l ∈ lines, '\n' ∉ l) (hlines : applyLines ev lines 0 header = some h1)
    (hrest : '\n' ∉ rest ∨
      ∃ l r, rest = l ++ '\n' :: r ∧ '\n' ∉ l ∧ matchHeader (l ++ ['\n']) = none) :
    ParseHeaders ev (unlines lines ++ rest) header = (h1, .ok rest) := by
  rcases hrest with h | ⟨l, r, rfl, hl, hm⟩
  · unfold ParseHeaders
    rw [parseHeadersLoop_lines ev rest lines 0 header h1 hnl hlines,
      parseHeadersLoop_eof ev _ h1 rest [] h]
    simp
  · rw [parseHeaders_after_lines ev lines l r header h1 hnl hlines hl, hm]
    simp

/-- C29: for a path whose extension is not `.template`, `LoadTemplate` succeeds whatever
the bytes are, and yields a template with the zero header, a name stage that returns the
path for every context, and a content stage that emits the bytes as they are: they are
neither parsed for directives nor evaluated. The content is a reader: rendering it reads
it to its end. -/
theorem loadTemplate_passthrough {Ctx : Type} (ev : Evaluator Ctx) (path data : List Char)
    (hext : filepath.Ext path ≠ ".template".toList) :
    LoadTemplate ev path data =
        .ok { Path := path, Name := .raw { RelPath := path }, Content := .raw data,
              Header := Header.zero } ∧
      (∀ (os : Os) (tv : DelimEvaluator Ctx) (ctx : Ctx),
        (TemplateName.raw { RelPath := path }).Render os tv ctx = .ok path) ∧
      ∀ (tv : DelimEvaluator Ctx) (ctx : Ctx),
        (TemplateContent.raw data).Render tv ctx = (.ok data, .raw []) := by
  refine ⟨?_, fun _ _ _ => rfl, fun _ _ => rfl⟩
  unfold LoadTemplate
  simp only [if_neg hext]

theorem loadTemplate_passthrough_witness :
    LoadTemplate samples.unitEvaluator "dir/readme.txt".toList
        "!!foo\n\x7b\x7b .X \x7d\x7d\n".toList =
        .ok { Path := "dir/readme.txt".toList,
              Name := .raw { RelPath := "dir/readme.txt".toList },
              Content := .raw "!!foo\n\x7b\x7b .X \x7d\x7d\n".toList,
              Header := Header.zero } ∧
      (∀ (os : Os) (tv : DelimEvaluator Unit) (ctx : Unit),
        (TemplateName.raw { RelPath := "dir/readme.txt".toList }).Render os tv ctx =
          .ok "dir/readme.txt".toList) ∧
      ∀ (tv : DelimEvaluator Unit) (ctx : Unit),
        (TemplateContent.raw "!!foo\n\x7b\x7b .X \x7d\x7d\n".toList).Render tv ctx =
          (.ok "!!foo\n\x7b\x7b .X \x7d\x7d\n".toList, .raw []) :=
  loadTemplate_passthrough samples.unitEvaluator "dir/readme.txt".toList
    "!!foo\n\x7b\x7b .X \x7d\x7d\n".toList (by decide)

/-- C30: for a path that ends in `.template` and a header block of valid directive lines, none
of which has the keyword `filename` or `pathreplace`, followed by the body, `LoadTemplate`
succeeds and the name stage of the template is a raw name on the path without its
suffix `.template`: it returns that path for every context, and never an error. -/
theorem loadTemplate_template_raw_name {Ctx : Type} (ev : Evaluator Ctx) (stem : List Char)
    (lines : List (List Char)) (rest : List Char) (header : Header Ctx)
    (hnl : ∀ l ∈ lines, '\n' ∉ l)
    (hlines : applyLines ev lines 0 Header.zero = some header)
    (hkw : ∀ l ∈ lines, ∀ kw v, matchHeader (l ++ ['\n']) = some (kw, v) →
      kw ≠ "filename".toList ∧ kw ≠ "pathreplace".toList)
    (hrest : '\n' ∉ rest ∨
      ∃ l r, rest = l ++ '\n' :: r ∧ '\n' ∉ l ∧ matchHeader (l ++ ['\n']) = none) :
    LoadTemplate ev (stem ++ ".template".toList) (unlines lines ++ rest) =
        .ok { Path := stem ++ ".template".toList, Name := .raw { RelPath := stem },
              Content := .templated (.raw rest) header.Delimiters.1 header.Delimiters.2,
              Header := header } ∧
      ∀ (os : Os) (tv : DelimEvaluator Ctx) (ctx : Ctx),
        (TemplateName.raw { RelPath := stem }).Render os tv ctx = .ok stem := by
  refine ⟨?_, fun _ _ _ => rfl⟩
  obtain ⟨k1, k2⟩ := applyLines_keeps_name ev lines 0 Header.zero header hkw hlines
  have hp := parseHeaders_block_then_body ev lines rest Header.zero header hnl hlines hrest
  unfold LoadTemplate
  simp only [filepath.Ext_template, if_true, hp, filepath.take_stem]
  have hcond : ¬ (header.Filename ≠ [] ∨ header.PathReplace.length > 0) := by
    rw [k1, k2]
    simp [Header.zero]
  simp only [if_neg hcond]

end templating

namespace templating
open placeholder

theorem loadTemplate_template_raw_name_witness :
    LoadTemplate samples.unitEvaluator ("dir/a.txt".toList ++ ".template".toList)
        (unlines ["!!if-not-exists".toList, "!!delimiters << >>".toList] ++ "body\n".toList) =
        .ok { Path := "dir/a.txt".toList ++ ".template".toList,
              Name := .raw { RelPath := "dir/a.txt".toList },
              Content := .templated (.raw "body\n".toList)
                ({ samples.zeroHeader with
                    IfNotExists := true,
                    Delimiters := ("<<".toList, ">>".toList) }).Delimiters.1
                ({ samples.zeroHeader with
                    IfNotExists := true,
                    Delimiters := ("<<".toList, ">>".toList) }).Delimiters.2,
              Header := { samples.zeroHeader with
                          IfNotExists := true,
                          Delimiters := ("<<".toList, ">>".toList) } } ∧
      ∀ (os : Os) (tv : DelimEvaluator Unit) (ctx : Unit),
        (TemplateName.raw { RelPath := "dir/a.txt".toList }).Render os tv ctx =
          .ok "dir/a.txt".toList :=
  loadTemplate_template_raw_name samples.unitEvaluator "dir/a.txt".toList
    ["!!if-not-exists".toList, "!!delimiters << >>".toList] "body\n".toList
    { samples.zeroHeader with IfNotExists := true, Delimiters := ("<<".toList, ">>".toList) }
    (by decide) rfl
    (by
      intro l hl kw v hm
      have h2 : l = "!!if-not-exists".toList ∨ l = "!!delimiters << >>".toList := by
        simpa using hl
      rcases h2 with rfl | rfl
      · have e : matchHeader ("!!if-not-exists".toList ++ ['\n']) =
            some ("if-not-exists".toList, []) := by decide
        rw [e] at hm
        simp only [Option.some.injEq, Prod.mk.injEq] at hm
        rw [← hm.1]
        decide
      · have e : matchHeader ("!!delimiters << >>".toList ++ ['\n']) =
            some ("delimiters".toList, "<< >>".toList) := by decide
        rw [e] at hm
        simp only [Option.some.injEq, Prod.mk.injEq] at hm
        rw [← hm.1]
        decide)
    (Or.inr ⟨"body".toList, [], rfl, by decide, by decide⟩)

end templating

/-! ## Priorities of the matcher: what a greedy and a lazy repetition leave behind -/

namespace regexp

/-- A greedy repetition that fails has tried the continuation after every run. -/
theorem starGreedy_none {α : Type} (p : Char → Bool) (k : List Char → List Char → Option α) :
    ∀ (rest pre : List Char), starGreedy p k pre rest = none →
      ∀ w post, rest = w ++ post → (∀ x ∈ w, p x = true) → k (w.reverse ++ pre) post = none := by
  intro rest
  induction rest with
  | nil =>
    intro pre h w post hw _
    have hw1 : w = [] := (List.append_eq_nil.1 hw.symm).1
    have hw2 : post = [] := (List.append_eq_nil.1 hw.symm).2
    subst hw1 hw2
    simpa [starGreedy] using h
  | cons c cs ih =>
    intro pre h w post hw hp
    simp only [starGreedy] at h
    cases w with
    | nil =>
      simp only [List.nil_append] at hw
      subst hw
      simp only [List.reverse_nil, List.nil_append]
      split at h
      · split at h
        · cases h
        · exact h
      · exact h
    | cons x w =>
      simp only [List.cons_append, List.cons.injEq] at hw
      obtain ⟨rfl, rfl⟩ := hw
      have hx : p c = true := hp c (List.mem_cons_self _ _)
      rw [if_pos hx] at h
      split at h
      · cases h
      · next hn =>
        have := ih (c :: pre) hn w post rfl (fun y hy => hp y (List.mem_cons_of_mem _ hy))
        simpa using this

/-- A greedy repetition that succeeds took a run after which the continuation succeeds, and
the continuation fails after every longer run. -/
theorem starGreedy_some_max {α : Type} (p : Char → Bool)
    (k : List Char → List Char → Option α) :
    ∀ (rest pre : List Char) (res : α), starGreedy p k pre rest = some res →
      ∃ w post, rest = w ++ post ∧ (∀ x ∈ w, p x = true) ∧
        k (w.reverse ++ pre) post = some res ∧
        ∀ w1 post1, post = w1 ++ post1 → w1 ≠ [] → (∀ x ∈ w1, p x = true) →
          k ((w ++ w1).reverse ++ pre) post1 = none := by
  intro rest
  induction rest with
  | nil =>
    intro pre res h
    refine ⟨[], [], rfl, by simp, by simpa [starGreedy] using h, ?_⟩
    intro w1 post1 hw hne
    exact absurd (List.append_eq_nil.1 hw.symm).1 hne
  | cons c cs ih =>
    intro pre res h
    simp only [starGreedy] at h
    by_cases hc : p c = true
    · rw [if_pos hc] at h
      cases hs : starGreedy p k (c :: pre) cs with
      | some r =>
        rw [hs] at h
        simp only [Option.some.injEq] at h
        subst h
        obtain ⟨w, post, h1, h2, h3, h4⟩ := ih (c :: pre) r hs
        refine ⟨c :: w, post, by rw [h1]; rfl, ?_, by simpa using h3, ?_⟩
        · intro x hx
          rcases List.mem_cons.1 hx with rfl | hx
          · exact hc
          · exact h2 x hx
        · intro w1 post1 e1 e2 e3
          have := h4 w1 post1 e1 e2 e3
          simpa using this
      | none =>
        rw [hs] at h
        refine ⟨[], c :: cs, rfl, by simp, by simpa using h, ?_⟩
        intro w1 post1 e1 e2 e3
        cases w1 with
        | nil => exact absurd rfl e2
        | cons x w1 =>
          simp only [List.cons_append, List.cons.injEq] at e1
          obtain ⟨rfl, rfl⟩ := e1
          have := starGreedy_none p k _ _ hs w1 post1 rfl
            (fun y hy => e3 y (List.mem_cons_of_mem _ hy))
          simpa using this
    · rw [if_neg hc] at h
      refine ⟨[], c :: cs, rfl, by simp, by simpa using h, ?_⟩
      intro w1 post1 e1 e2 e3
      cases w1 with
      | nil => exact absurd rfl e2
      | cons x w1 =>
        simp only [List.cons_append, List.cons.injEq] at e1
        obtain ⟨rfl, rfl⟩ := e1
        exact absurd (e3 c (List.mem_cons_self _ _)) hc

/-- A lazy repetition that succeeds took a run after which the continuation succeeds, and
the continuation fails after every shorter run. -/
theorem starLazy_some_min {α : Type} (p : Char → Bool)
    (k : List Char → List Char → Option α) :
    ∀ (rest pre : List Char) (res : α), starLazy p k pre rest = some res →
      ∃ w post, rest = w ++ post ∧ (∀ x ∈ w, p x = true) ∧
        k (w.reverse ++ pre) post = some res ∧
        ∀ w0 w1, w = w0 ++ w1 → w1 ≠ [] → k (w0.reverse ++ pre) (w1 ++ post) = none := by
  intro rest
  induction rest with
  | nil =>
    intro pre res h
    refine ⟨[], [], rfl, by simp, by simpa [starLazy] using h, ?_⟩
    intro w0 w1 hw hne
    exact absurd (List.append_eq_nil.1 hw.symm).2 hne
  | cons c cs ih =>
    intro pre res h
    simp only [starLazy] at h
    cases hk : k pre (c :: cs) with
    | some r =>
      rw [hk] at h
      simp only [Option.some.injEq] at h
      subst h
      refine ⟨[], c :: cs, rfl, by simp, by simpa using hk, ?_⟩
      intro w0 w1 hw hne
      exact absurd (List.append_eq_nil.1 hw.symm).2 hne
    | none =>
      rw [hk] at h
      by_cases hc : p c = true
      · rw [if_pos hc] at h
        obtain ⟨w, post, h1, h2, h3, h4⟩ := ih (c :: pre) res h
        refine ⟨c :: w, post, by rw [h1]; rfl, ?_, by simpa using h3, ?_⟩
        · intro x hx
          rcases List.mem_cons.1 hx with rfl | hx
          · exact hc
          · exact h2 x hx
        · intro w0 w1 e1 e2
          cases w0 with
          | nil =>
            simp only [List.nil_append] at e1
            subst e1
            simpa [h1] using hk
          | cons x w0 =>
            simp only [List.cons_append, List.cons.injEq] at e1
            obtain ⟨rfl, rfl⟩ := e1
            have := h4 w0 w1 rfl e2
            simpa using this
      · rw [if_neg hc] at h
        cases h

/-- A lazy repetition succeeds when the continuation succeeds after some run. -/
theorem starLazy_isSome {α : Type} (p : Char → Bool) (k : List Char → List Char → Option α)
    (post : List Char) :
    ∀ (w pre : List Char), (∀ x ∈ w, p x = true) → (k (w.reverse ++ pre) post).isSome = true →
      (starLazy p k pre (w ++ post)).isSome = true := by
  intro w
  induction w with
  | nil =>
    intro pre _ h
    simp only [List.reverse_nil, List.nil_append] at h ⊢
    obtain ⟨r, hr⟩ := Option.isSome_iff_exists.1 h
    rw [starLazy_here p k pre post r hr]
    rfl
  | cons x w ih =>
    intro pre hw h
    simp only [List.cons_append, starLazy]
    cases hk : k pre (x :: (w ++ post)) with
    | some r => rfl
    | none =>
      simp only [hw x (List.mem_cons_self _ _), if_true]
      apply ih (x :: pre) (fun y hy => hw y (List.mem_cons_of_mem _ hy))
      simpa using h

theorem matchStr_isSome_congr {α : Type} (k1 k2 : List Char → List Char → Option α)
    (h : ∀ a b, (k1 a b).isSome = (k2 a b).isSome) (s : List Char) :
    ∀ (pre rest : List Char), (matchStr k1 s pre rest).isSome = (matchStr k2 s pre rest).isSome := by
  induction s with
  | nil => intro pre rest; simp only [matchStr]; exact h _ _
  | cons c s ih =>
    intro pre rest
    cases rest with
    | nil => simp [matchStr]
    | cons x rest =>
      simp only [matchStr]
      split
      · exact ih _ _
      · rfl

theorem starGreedy_isSome_congr {α : Type} (p : Char → Bool)
    (k1 k2 : List Char → List Char → Option α)
    (h : ∀ a b, (k1 a b).isSome = (k2 a b).isSome) :
    ∀ (rest pre : List Char),
      (starGreedy p k1 pre rest).isSome = (starGreedy p k2 pre rest).isSome := by
  intro rest
  induction rest with
  | nil => intro pre; simp only [starGreedy]; exact h _ _
  | cons c cs ih =>
    intro pre
    simp only [starGreedy]
    split
    · have := ih (c :: pre)
      cases h1 : starGreedy p k1 (c :: pre) cs with
      | some r1 =>
        cases h2 : starGreedy p k2 (c :: pre) cs with
        | some r2 => rfl
        | none => rw [h1, h2] at this; cases this
      | none =>
        cases h2 : starGreedy p k2 (c :: pre) cs with
        | some r2 => rw [h1, h2] at this; cases this
        | none => exact h _ _
    · exact h _ _

theorem starLazy_isSome_congr {α : Type} (p : Char → Bool)
    (k1 k2 : List Char → List Char → Option α)
    (h : ∀ a b, (k1 a b).isSome = (k2 a b).isSome) :
    ∀ (rest pre : List Char),
      (starLazy p k1 pre rest).isSome = (starLazy p k2 pre rest).isSome := by
  intro rest
  induction rest with
  | nil => intro pre; simp only [starLazy]; exact h _ _
  | cons c cs ih =>
    intro pre
    simp only [starLazy]
    have := h pre (c :: cs)
    cases h1 : k1 pre (c :: cs) with
    | some r1 =>
      cases h2 : k2 pre (c :: cs) with
      | some r2 => rfl
      | none => rw [h1, h2] at this; cases this
    | none =>
      cases h2 : k2 pre (c :: cs) with
      | some r2 => rw [h1, h2] at this; cases this
      | none =>
        dsimp only
        split
        · exact ih _
        · rfl

/-- Whether the matcher succeeds does not depend on the capture table it starts with, as
long as the same holds for its continuation. -/
theorem Re.run_isSome_congr {α : Type} (r : Re) :
    ∀ (k1 k2 : List Char → List Char → Caps → Option α),
      (∀ a b c1 c2, (k1 a b c1).isSome = (k2 a b c2).isSome) →
      ∀ (pre rest : List Char) (c1 c2 : Caps),
        (r.run k1 pre rest c1).isSome = (r.run k2 pre rest c2).isSome := by
  induction r with
  | str s =>
    intro k1 k2 h pre rest c1 c2
    exact matchStr_isSome_congr _ _ (fun a b => h a b c1 c2) s pre rest
  | cls p =>
    intro k1 k2 h pre rest c1 c2
    cases rest with
    | nil => rfl
    | cons c cs =>
      rw [Re.run_cls_cons, Re.run_cls_cons]
      split
      · exact h _ _ _ _
      · rfl
  | bol =>
    intro k1 k2 h pre rest c1 c2
    simp only [Re.run]
    split
    · exact h _ _ _ _
    · rfl
  | eol =>
    intro k1 k2 h pre rest c1 c2
    simp only [Re.run]
    split
    · exact h _ _ _ _
    · rfl
  | bot =>
    intro k1 k2 h pre rest c1 c2
    simp only [Re.run]
    split
    · exact h _ _ _ _
    · rfl
  | eot =>
    intro k1 k2 h pre rest c1 c2
    simp only [Re.run]
    split
    · exact h _ _ _ _
    · rfl
  | cat a b iha ihb =>
    intro k1 k2 h pre rest c1 c2
    rw [Re.run_cat, Re.run_cat]
    exact iha _ _ (fun x y d1 d2 => ihb k1 k2 h x y d1 d2) pre rest c1 c2
  | star p g =>
    intro k1 k2 h pre rest c1 c2
    cases g with
    | true => exact starGreedy_isSome_congr p _ _ (fun a b => h a b c1 c2) rest pre
    | false => exact starLazy_isSome_congr p _ _ (fun a b => h a b c1 c2) rest pre
  | opt r g ih =>
    intro k1 k2 h pre rest c1 c2
    have h1 := ih k1 k2 h pre rest c1 c2
    have h2 := h pre rest c1 c2
    cases g with
    | true =>
      simp only [Re.run]
      cases e1 : r.run k1 pre rest c1 with
      | some x1 =>
        cases e2 : r.run k2 pre rest c2 with
        | some x2 => rfl
        | none => rw [e1, e2] at h1; cases h1
      | none =>
        cases e2 : r.run k2 pre rest c2 with
        | some x2 => rw [e1, e2] at h1; cases h1
        | none => exact h2
    | false =>
      simp only [Re.run]
      cases e1 : k1 pre rest c1 with
      | some x1 =>
        cases e2 : k2 pre rest c2 with
        | some x2 => rfl
        | none => rw [e1, e2] at h2; cases h2
      | none =>
        cases e2 : k2 pre rest c2 with
        | some x2 => rw [e1, e2] at h2; cases h2
        | none => exact h1
  | grp i r ih =>
    intro k1 k2 h pre rest c1 c2
    rw [Re.run_grp, Re.run_grp]
    exact ih _ _ (fun a b d1 d2 => h a b _ _) pre rest c1 c2

end regexp

namespace placeholder
open regexp

/-- The identifier group between its two greedy runs of blanks: when the pattern
`[\t ]*([^\n\)]+?)[\t ]*` and what follows match, the group took one character, or a text
that neither starts nor ends with a blank. -/
theorem identPart_priority {α : Type} (Y1 : Re) (k : List Char → List Char → Caps → Option α)
    (hk : ∀ a b c1 c2, (k a b c1).isSome = (k a b c2).isSome)
    (P R : List Char) (C : Caps) (res : α)
    (h : (Re.cat (.star blank true) (.cat (.grp 2 (.cat (.cls identChar) (.star identChar false)))
      (.cat (.star blank true) Y1))).run k P R C = some res) :
    ∃ s2 c w post, R = s2 ++ (c :: w ++ post) ∧ identChar c = true ∧
      (∀ x ∈ w, identChar x = true) ∧
      (w ≠ [] → blank c = false ∧ ∀ u y, w = u ++ [y] → blank y = false) ∧
      (Re.cat (.star blank true) Y1).run k (w.reverse ++ (c :: (s2.reverse ++ P))) post
        ((2, ((s2.reverse ++ P).length, (w.reverse ++ (c :: (s2.reverse ++ P))).length)) :: C) =
          some res := by
  rw [Re.run_cat, Re.run_star_greedy] at h
  obtain ⟨s2, post1, rfl, -, hK, hmax⟩ := starGreedy_some_max _ _ _ _ _ h
  rw [Re.run_cat, Re.run_grp, Re.run_cat] at hK
  cases post1 with
  | nil => cases hK
  | cons c cs =>
    rw [Re.run_cls_cons] at hK
    by_cases hc : identChar c = true
    · rw [if_pos hc, Re.run_star_lazy] at hK
      obtain ⟨w, post, rfl, hw, hY, hmin⟩ := starLazy_some_min _ _ _ _ _ hK
      refine ⟨s2, c, w, post, by simp, hc, hw, ?_, hY⟩
      intro hwne
      constructor
      · cases hb : blank c with
        | false => rfl
        | true =>
          exfalso
          have hn := hmax [c] (w ++ post) rfl (by simp) (by simpa using hb)
          obtain ⟨c2, w2, rfl⟩ := List.exists_cons_of_ne_nil hwne
          rw [Re.run_cat, Re.run_grp, Re.run_cat, List.cons_append, Re.run_cls_cons,
            if_pos (hw c2 (List.mem_cons_self _ _)), Re.run_star_lazy] at hn
          have hs := starLazy_isSome identChar _ post w2 _
            (fun x hx => hw x (List.mem_cons_of_mem _ hx))
            (?_ : Option.isSome _ = true) |>.symm.trans (congrArg Option.isSome hn)
          · cases hs
          · dsimp only
            rw [Re.run_isSome_congr _ k k hk _ _ _
              ((2, ((s2.reverse ++ P).length,
                ((c2 :: w2).reverse ++ (c :: (s2.reverse ++ P))).length)) :: C)]
            have e : w2.reverse ++ c2 :: ((s2 ++ [c]).reverse ++ P) =
                (c2 :: w2).reverse ++ (c :: (s2.reverse ++ P)) := by simp
            rw [e, hY]
            rfl
      · intro u y hwy
        cases hb : blank y with
        | false => rfl
        | true =>
          exfalso
          subst hwy
          have hn := hmin u [y] rfl (by simp)
          rw [Re.run_cat, Re.run_star_greedy] at hn hY
          obtain ⟨s3, post3, rfl, hs3, hY1⟩ := starGreedy_some _ _ _ _ _ hY
          have hn2 := starGreedy_none _ _ _ _ hn (y :: s3) post3 (by simp)
            (by
              intro x hx
              rcases List.mem_cons.1 hx with rfl | hx
              · exact hb
              · exact hs3 x hx)
          have hs := Re.run_isSome_congr Y1 k k hk
            ((y :: s3).reverse ++ (u.reverse ++ c :: (s2.reverse ++ P))) post3
            ((2, ((s2.reverse ++ P).length, (u.reverse ++ c :: (s2.reverse ++ P)).length)) :: C)
            ((2, ((s2.reverse ++ P).length,
              ((u ++ [y]).reverse ++ c :: (s2.reverse ++ P)).length)) :: C)
          have e : (y :: s3).reverse ++ (u.reverse ++ c :: (s2.reverse ++ P)) =
              s3.reverse ++ ((u ++ [y]).reverse ++ c :: (s2.reverse ++ P)) := by simp
          rw [hn2, e, hY1] at hs
          cases hs
    · rw [if_neg hc] at hK
      cases hK

end placeholder

namespace placeholder
open regexp

/-- The identifier group of a begin marker line that the matcher accepts: it is not empty,
holds neither a newline nor a closing parenthesis, and neither starts nor ends with a blank
unless it is one character. -/
theorem beginLine_priority {α : Type} (m : List Char)
    (k : List Char → List Char → Caps → Option α)
    (hk : ∀ a b c1 c2, (k a b c1).isSome = (k a b c2).isSome)
    (pre rest : List Char) (caps : Caps) (res : α)
    (h : (beginLine m).run k pre rest caps = some res) :
    ∃ a ident z post, rest = a ++ (ident ++ (z ++ post)) ∧ ident ≠ [] ∧
      (∀ x ∈ ident, identChar x = true) ∧
      ((ident.head?.map blank = some false ∧ ident.getLast?.map blank = some false) ∨
        ∃ c, ident = [c]) ∧
      k ((a ++ (ident ++ z)).reverse ++ pre) post
        ((2, (pre.length + a.length, pre.length + a.length + ident.length)) :: caps) =
          some res := by
  have e : beginLine m = .cat (.star blank true) (.cat (.str m) (.cat (.star blank true)
      (.cat (.str "region CODE_REGION(".toList) (.cat (.star blank true)
        (.cat (.grp 2 (.cat (.cls identChar) (.star identChar false)))
          (.cat (.star blank true) (.cat (.str [')']) (.cat (.star blank true)
            (.str ['\n']))))))))) := rfl
  rw [e, Re.run_cat] at h
  obtain ⟨s0, r0, c0, rfl, hD0, h1⟩ := Re.run_sound _ _ _ _ _ _ h
  simp only [Re.Den] at hD0
  obtain ⟨-, rfl⟩ := hD0
  rw [Re.run_cat] at h1
  obtain ⟨w1, r1, c1, rfl, hD1, h2⟩ := Re.run_sound _ _ _ _ _ _ h1
  simp only [Re.Den] at hD1
  obtain ⟨rfl, rfl⟩ := hD1
  rw [Re.run_cat] at h2
  obtain ⟨s1, r2, c2, rfl, hD2, h3⟩ := Re.run_sound _ _ _ _ _ _ h2
  simp only [Re.Den] at hD2
  obtain ⟨-, rfl⟩ := hD2
  rw [Re.run_cat] at h3
  obtain ⟨w3, r3, c3, rfl, hD3, h4⟩ := Re.run_sound _ _ _ _ _ _ h3
  simp only [Re.Den] at hD3
  obtain ⟨rfl, rfl⟩ := hD3
  obtain ⟨s2, c, w, post, rfl, hc, hw, hpri, hY⟩ := identPart_priority _ k hk _ _ _ _ h4
  obtain ⟨z, post1, cz, rfl, hDz, hk1⟩ := Re.run_sound _ _ _ _ _ _ hY
  simp only [Re.Den] at hDz
  obtain ⟨_, _, _, _, ⟨_, rfl⟩, _, _, _, _, ⟨_, rfl⟩, _, _, _, _, ⟨_, rfl⟩, _, rfl⟩ := hDz
  refine ⟨s0 ++ (w1 ++ (s1 ++ ("region CODE_REGION(".toList ++ s2))), c :: w, z, post1,
    by simp, by simp, ?_, ?_, ?_⟩
  · intro x hx
    rcases List.mem_cons.1 hx with rfl | hx
    · exact hc
    · exact hw x hx
  · by_cases hwe : w = []
    · exact Or.inr ⟨c, by rw [hwe]⟩
    · obtain ⟨hb, hlast⟩ := hpri hwe
      left
      refine ⟨by simp [hb], ?_⟩
      rcases List.eq_nil_or_concat' w with rfl | ⟨u, y, rfl⟩
      · exact absurd rfl hwe
      · have hy := hlast u y rfl
        have : (c :: (u ++ [y])).getLast? = some y := by
          rw [← List.cons_append, List.getLast?_append]
          simp
        rw [this]
        simp [hy]
  · convert hk1 using 2
    · simp
    · simp
      omega

/-- The identifier group of a match of the region pattern at the cursor, with its span. -/
theorem findRegexp_matchAt_ident (m pre rest : List Char) (e : Nat) (caps : Caps)
    (h : (findRegexp m).matchAt pre rest = some (e, caps)) :
    ∃ a ident z, rest = a ++ (ident ++ z) ∧
      caps.lookup 2 = some (pre.length + a.length, pre.length + a.length + ident.length) ∧
      ident ≠ [] ∧ (∀ x ∈ ident, identChar x = true) ∧
      ((ident.head?.map blank = some false ∧ ident.getLast?.map blank = some false) ∨
        ∃ c, ident = [c]) := by
  unfold Re.matchAt at h
  rw [Re.run_grp] at h
  have e1 : findRegexp m = .cat .bol (.cat (.grp 1 (beginLine m)) (.cat (.grp 3 contentRe)
      (.cat (.grp 4 (endLine m)) .eol))) := by
    simp only [findRegexp, Re.seq]
  rw [e1, Re.run_cat] at h
  obtain ⟨_, r0, c0, rfl, hD, h1⟩ := Re.run_sound _ _ _ _ _ _ h
  simp only [Re.Den] at hD
  obtain ⟨-, rfl, rfl⟩ := hD
  simp only [List.reverse_nil, List.nil_append] at h1
  rw [Re.run_cat, Re.run_grp] at h1
  have key := fun hk => beginLine_priority m _ hk _ _ _ _ h1
  obtain ⟨a, ident, z, post, rfl, hne, hid, hpri, hk⟩ := key (by
    intro a b c1 c2
    exact Re.run_isSome_congr _
      (fun p1 _ c1 => some (p1.length, (0, (pre.length, p1.length)) :: c1))
      (fun p1 _ c1 => some (p1.length, (0, (pre.length, p1.length)) :: c1))
      (fun _ _ _ _ => rfl) _ _ _ _)
  obtain ⟨w, post2, cz, rfl, hD, hk0⟩ := Re.run_sound _ _ _ _ _ _ hk
  simp only [Re.den_cat, Re.den_grp, Re.den_eol] at hD
  obtain ⟨c, _, _, rfl, ⟨_, hc, rfl⟩, en, _, _, rfl, ⟨_, he, rfl⟩, heol, rfl, rfl⟩ := hD
  have hc := contentRe_den _ _ _ _ _ hc
  obtain ⟨-, he⟩ := endLine_den _ _ _ _ _ _ he
  subst hc he
  simp only [Option.some.injEq, Prod.mk.injEq] at hk0
  obtain ⟨-, rfl⟩ := hk0
  exact ⟨a, ident, z ++ (c ++ (en ++ []) ++ post2), by simp, by simp [List.lookup], hne, hid,
    hpri⟩

/-- C32 (counterexample): in `blankIdentifier` the parentheses hold one space; `FindAll`
returns the region with the identifier made of that space, whose first and last character
is a space. -/
theorem findAll_identifier_single_blank :
    samples.blankIdentifier = "// region CODE_REGION(".toList ++
        (" ".toList ++ ")\nx\n// endregion".toList) ∧
      (FindAll samples.blankIdentifier).map (fun p => p.Identifier) = [" ".toList] ∧
      ¬ ∀ p ∈ FindAll samples.blankIdentifier,
        p.Identifier.head?.map blank = some false ∧
          p.Identifier.getLast?.map blank = some false := by
  decide

/-- C32 (as amended): for every buffer and every placeholder `p` that `FindAll` returns, the
identifier is not empty and holds neither a newline nor a closing parenthesis; and its first
and last characters are neither a space nor a tab, unless the identifier is a single space or
a single tab. -/
theorem findAll_identifier_shape (data : List Char) (p : Placeholder)
    (h : p ∈ FindAll data) :
    p.Identifier ≠ [] ∧ '\n' ∉ p.Identifier ∧ ')' ∉ p.Identifier ∧
      ((p.Identifier.head?.map blank = some false ∧
          p.Identifier.getLast?.map blank = some false) ∨
        p.Identifier = [' '] ∨ p.Identifier = ['\t']) := by
  obtain ⟨m, -, hm⟩ := (mem_FindAll data p).1 h
  simp only [parsePlaceholders, List.mem_map] at hm
  obtain ⟨caps, hcaps, rfl⟩ := hm
  obtain ⟨pre1, rest1, e, hd, hmatch⟩ := Re.allMatchesAux_mem _ _ _ _ _ _ hcaps
  simp only [List.reverse_nil, List.nil_append] at hd
  obtain ⟨a, ident, z, rfl, hl, hne, hid, hpri⟩ := findRegexp_matchAt_ident _ _ _ _ _ hmatch
  have e2 : (toPlaceholder m (crRemover data) caps).Identifier = ident := by
    simp only [toPlaceholder, submatch, hl, ← hd]
    have := slice_mid (pre1.reverse ++ a) ident z (pre1.length + a.length)
      (pre1.length + a.length + ident.length) (by simp) (by simp)
    simpa using this
  rw [e2]
  refine ⟨hne, ?_, ?_, ?_⟩
  · intro hx
    have := hid _ hx
    simp [identChar] at this
  · intro hx
    have := hid _ hx
    simp [identChar] at this
  · rcases hpri with hp | ⟨c, rfl⟩
    · exact Or.inl hp
    · cases hb : blank c with
      | false => exact Or.inl (by simp [hb])
      | true =>
        right
        have : c = '\t' ∨ c = ' ' := by simpa [blank] using hb
        rcases this with rfl | rfl
        · exact Or.inr rfl
        · exact Or.inl rfl

theorem findAll_identifier_shape_witness :
    samples.fooPlaceholder ∈ FindAll samples.fooRegion ∧
      (samples.fooPlaceholder.Identifier ≠ [] ∧ '\n' ∉ samples.fooPlaceholder.Identifier ∧
        ')' ∉ samples.fooPlaceholder.Identifier ∧
        ((samples.fooPlaceholder.Identifier.head?.map blank = some false ∧
            samples.fooPlaceholder.Identifier.getLast?.map blank = some false) ∨
          samples.fooPlaceholder.Identifier = [' '] ∨
          samples.fooPlaceholder.Identifier = ['\t'])) :=
  ⟨by decide, findAll_identifier_shape samples.fooRegion samples.fooPlaceholder (by decide)⟩

end placeholder

/-! ## The end marker and the end of the content -/

namespace placeholder
open regexp

theorem getLast_concat_char (u : List Char) (y : Char) : (u ++ [y]).getLast? = some y := by
  simp

theorem atBol_reverse_concat (u : List Char) (y : Char) :
    atBol (u ++ [y]).reverse = (y == '\n') := by
  simp [atBol]

/-- C31 (counterexample): in `endAfterText` the end marker follows the text `foo` on the
same line; `FindAll` returns the region with the content `foo`, which is neither empty nor
ends with a newline, and the end marker `// endregion` starts in the middle of a line. -/
theorem findAll_end_marker_after_text :
    samples.endAfterText = "// region CODE_REGION(A)\n".toList ++
        ("foo".toList ++ "// endregion".toList) ∧
      FindAll samples.endAfterText = [samples.endAfterTextPlaceholder] ∧
      ¬ ∀ p ∈ FindAll samples.endAfterText,
        p.Content = [] ∨ p.Content.getLast? = some '\n' := by
  decide

/-- C31 (as amended): for every buffer and every placeholder `p` that `FindAll` returns,
the end marker consists only of optional indentation, the mark, optional blanks, the word
`endregion` and optional trailing blanks, and it runs to the end of a line of the buffer
without its carriage returns. It starts at the beginning of a line exactly when the content
is empty or ends with a newline; otherwise it follows text on the same line. -/
theorem findAll_end_marker_shape (data : List Char) (p : Placeholder)
    (h : p ∈ FindAll data) :
    IsEnd p.Mark p.End ∧
      ∃ pre post, crRemover data = pre ++ (p.Begin ++ (p.Content ++ (p.End ++ post))) ∧
        atEol post = true ∧
        (atBol (pre ++ (p.Begin ++ p.Content)).reverse = true ↔
          (p.Content = [] ∨ p.Content.getLast? = some '\n')) := by
  obtain ⟨m, -, hm⟩ := (mem_FindAll data p).1 h
  obtain ⟨pre, b, ident, k, c, en, post, hd, -, heol, hB, hE, rfl⟩ :=
    parsePlaceholders_shape m data p hm
  refine ⟨hE, pre, post, hd, heol, ?_⟩
  obtain ⟨s0, s1, s2, s3, s4, -, -, -, -, -, -, -, -, hb⟩ := hB
  show atBol (pre ++ (b ++ c)).reverse = true ↔ (c = [] ∨ c.getLast? = some '\n')
  rcases List.eq_nil_or_concat c with rfl | ⟨u, y, rfl⟩
  · have hb2 : pre ++ (b ++ []) = (pre ++ ((s0 ++ (m ++ (s1 ++ ("region CODE_REGION(".toList
        ++ s2)))) ++ (ident ++ (s3 ++ (')' :: s4))))) ++ ['\n'] := by
      rw [hb]; simp
    rw [hb2, atBol_reverse_concat]
    simp
  · rw [List.concat_eq_append]
    have hc2 : pre ++ (b ++ (u ++ [y])) = (pre ++ (b ++ u)) ++ [y] := by simp
    rw [hc2, atBol_reverse_concat, getLast_concat_char]
    simp

theorem findAll_end_marker_shape_witness :
    samples.fooPlaceholder ∈ FindAll samples.fooRegion ∧
      (IsEnd samples.fooPlaceholder.Mark samples.fooPlaceholder.End ∧
        ∃ pre post, crRemover samples.fooRegion = pre ++ (samples.fooPlaceholder.Begin ++
            (samples.fooPlaceholder.Content ++ (samples.fooPlaceholder.End ++ post))) ∧
          atEol post = true ∧
          (atBol (pre ++ (samples.fooPlaceholder.Begin ++
              samples.fooPlaceholder.Content)).reverse = true ↔
            (samples.fooPlaceholder.Content = [] ∨
              samples.fooPlaceholder.Content.getLast? = some '\n'))) :=
  ⟨by decide, findAll_end_marker_shape samples.fooRegion samples.fooPlaceholder (by decide)⟩

end placeholder

/-! ## The name stage of a templated name -/

namespace filepath

theorem Split_append (d f : List Char) (hf : '/' ∉ f) (hd : d = [] ∨ d.getLast? = some '/') :
    Split (d ++ f) = (d, f) := by
  have hall : ∀ a ∈ f.reverse, (fun c : Char => c != '/') a = true := by
    intro a ha
    have : a ≠ '/' := fun e => hf (e ▸ List.mem_reverse.1 ha)
    simpa using this
  have hdrop : d.reverse.dropWhile (fun c : Char => c != '/') = d.reverse ∧
      d.reverse.takeWhile (fun c : Char => c != '/') = [] := by
    rcases hd with rfl | hd
    · simp
    · rcases List.eq_nil_or_concat d with rfl | ⟨u, y, rfl⟩
      · simp at hd
      · rw [List.concat_eq_append] at hd ⊢
        have hy : y = '/' := by simpa using hd
        subst hy
        simp [List.dropWhile, List.takeWhile]
  unfold Split
  rw [List.reverse_append, List.dropWhile_append_of_pos hall, List.takeWhile_append_of_pos hall,
    hdrop.1, hdrop.2]
  simp

end filepath

namespace templating
open placeholder

/-- C33: a templated name with the relative path `d ++ f` (the directory portion `d` is
empty or ends with the separator, the file name `f` holds no separator), no file-name
expression and the rewrite pairs `pairs` renders the directory portion after the literal
replacements `old -> new` of the pairs, applied in declaration order, each one to the result
of the one before, and joins the result with `f` as it stands: the rewrites do not touch the
file name. A failure to parse or to execute the rewritten directory is the result. -/
theorem templatedName_rewrites_directory_only {Ctx : Type} (os : Os) (tv : DelimEvaluator Ctx)
    (d f : List Char) (pairs : List pathReplace) (ctx : Ctx)
    (hf : '/' ∉ f) (hd : d = [] ∨ d.getLast? = some '/') :
    filepath.Split (d ++ f) = (d, f) ∧
      (∀ tmpl out,
        tv [] [] (pairs.foldl (fun acc r => strings.ReplaceAll acc r.old r.new) d) = .ok tmpl →
        tmpl ctx = (out, none) →
        templatedTemplateName.Render os tv
          { RelPath := d ++ f, Source := [], PathReplace := pairs } ctx = .ok (os.Join out f)) ∧
      (∀ err,
        tv [] [] (pairs.foldl (fun acc r => strings.ReplaceAll acc r.old r.new) d) =
          .error err →
        templatedTemplateName.Render os tv
          { RelPath := d ++ f, Source := [], PathReplace := pairs } ctx = .error err) ∧
      (∀ tmpl out err,
        tv [] [] (pairs.foldl (fun acc r => strings.ReplaceAll acc r.old r.new) d) = .ok tmpl →
        tmpl ctx = (out, some err) →
        templatedTemplateName.Render os tv
          { RelPath := d ++ f, Source := [], PathReplace := pairs } ctx = .error err) := by
  have hs := filepath.Split_append d f hf hd
  refine ⟨hs, ?_, ?_, ?_⟩
  · intro tmpl out h1 h2
    simp only [templatedTemplateName.Render, hs, List.length_nil, gt_iff_lt, Nat.lt_irrefl,
      if_false, h1, h2]
  · intro err h1
    simp only [templatedTemplateName.Render, hs, List.length_nil, gt_iff_lt, Nat.lt_irrefl,
      if_false, h1]
  · intro tmpl out err h1 h2
    simp only [templatedTemplateName.Render, hs, List.length_nil, gt_iff_lt, Nat.lt_irrefl,
      if_false, h1, h2]

theorem templatedName_rewrites_directory_only_witness :
    '/' ∉ "a.txt".toList ∧ ("a/x/".toList = [] ∨ "a/x/".toList.getLast? = some '/') ∧
      samples.nameRewritten.PathReplace.foldl
        (fun acc r => strings.ReplaceAll acc r.old r.new) "a/x/".toList = "c/x/".toList ∧
      templatedTemplateName.Render samples.slashOs samples.cmdEvaluator
        samples.nameRewritten () = .ok "c/x/a.txt".toList :=
  ⟨by decide, by decide, by decide,
    (templatedName_rewrites_directory_only samples.slashOs samples.cmdEvaluator "a/x/".toList
      "a.txt".toList samples.nameRewritten.PathReplace () (by decide) (by decide)).2.1
      (fun _ => ("c/x/".toList, none)) "c/x/".toList rfl rfl⟩

end templating

/-! ## White space around the lines of a header block -/

namespace strings

theorem dropWhile_trail (p : Char → Bool) (b : List Char) (hb : ∀ c ∈ b, p c = true) :
    ∀ l : List Char, ((l ++ b).dropWhile p).reverse.dropWhile p =
      (l.dropWhile p).reverse.dropWhile p := by
  intro l
  induction l with
  | nil =>
    have : b.dropWhile p = [] := List.dropWhile_eq_nil_iff.2 hb
    simp [this]
  | cons c l ih =>
    cases hc : p c with
    | true =>
      rw [List.cons_append, List.dropWhile_cons_of_pos hc, List.dropWhile_cons_of_pos hc]
      exact ih
    | false =>
      have hc2 : ¬ (p c = true) := by simp [hc]
      rw [List.cons_append, List.dropWhile_cons_of_neg hc2, List.dropWhile_cons_of_neg hc2,
        ← List.cons_append, List.reverse_append,
        List.dropWhile_append_of_pos (fun x hx => hb x (List.mem_reverse.1 hx))]

/-- White space around a text does not change what trimming leaves of it. -/
theorem TrimSpace_surround (a l b : List Char) (ha : ∀ c ∈ a, isSpace c = true)
    (hb : ∀ c ∈ b, isSpace c = true) : TrimSpace (a ++ (l ++ b)) = TrimSpace l := by
  unfold TrimSpace
  rw [List.dropWhile_append_of_pos ha, dropWhile_trail isSpace b hb l]

end strings

namespace templating
open regexp placeholder

theorem matchHeader_padded (l : PaddedLine) (h : l.Admissible) :
    matchHeader (l.padded ++ ['\n']) = matchHeader (l.text ++ ['\n']) := by
  obtain ⟨h1, h2, -⟩ := h
  have e1 : strings.TrimSpace (l.padded ++ ['\n']) = strings.TrimSpace l.text := by
    have : l.padded ++ ['\n'] = l.indent ++ (l.text ++ (l.trail ++ ['\n'])) := by
      simp [PaddedLine.padded]
    rw [this]
    apply strings.TrimSpace_surround _ _ _ (fun c hc => (h1 c hc).1)
    intro c hc
    rcases List.mem_append.1 hc with hc | hc
    · exact (h2 c hc).1
    · have : c = '\n' := by simpa using hc
      subst this
      decide
  have e2 : strings.TrimSpace (l.text ++ ['\n']) = strings.TrimSpace l.text := by
    have := strings.TrimSpace_surround [] l.text ['\n'] (by simp) (by decide)
    simpa using this
  unfold matchHeader
  simp only [e1, e2]

theorem nl_not_mem_padded (l : PaddedLine) (h : l.Admissible) : '\n' ∉ l.padded := by
  obtain ⟨h1, h2, h3⟩ := h
  simp only [PaddedLine.padded, List.mem_append, not_or]
  exact ⟨fun hm => (h1 _ hm).2 rfl, h3, fun hm => (h2 _ hm).2 rfl⟩

theorem sameOutcome_refl {Ctx : Type} (a : Header Ctx × Except HeaderError (List Char)) :
    SameOutcome a a :=
  ⟨rfl, fun _ => Iff.rfl, Iff.rfl⟩

theorem sameOutcome_ok {Ctx : Type} (header : Header Ctx) (b1 b2 : List Char) :
    SameOutcome (header, (.ok b1 : Except HeaderError (List Char))) (header, .ok b2) :=
  ⟨rfl, fun _ => ⟨fun h => (by cases h), fun h => (by cases h)⟩,
    ⟨fun _ => ⟨b2, rfl⟩, fun _ => ⟨b1, rfl⟩⟩⟩

/-- The loop of the parser on a block of lines, laid out with and without their surrounding
white space. -/
theorem parseHeadersLoop_padded {Ctx : Type} (ev : Evaluator Ctx) (last1 last2 : List Char)
    (h1 : '\n' ∉ last1) (h2 : '\n' ∉ last2) :
    ∀ (ls : List PaddedLine) (n : Nat) (header : Header Ctx),
      (∀ l ∈ ls, l.Admissible) →
      SameOutcome
        (parseHeadersLoop ev (unlines (ls.map PaddedLine.padded) ++ last1) [] n header)
        (parseHeadersLoop ev (unlines (ls.map (fun l => l.text)) ++ last2) [] n header) := by
  intro ls
  induction ls with
  | nil =>
    intro n header _
    simp only [List.map_nil, unlines, List.nil_append]
    rw [parseHeadersLoop_eof ev n header last1 [] h1, parseHeadersLoop_eof ev n header last2 [] h2]
    exact sameOutcome_ok header _ _
  | cons l ls ih =>
    intro n header hls
    have hl := hls l (List.mem_cons_self _ _)
    simp only [List.map_cons, unlines, List.append_assoc, List.cons_append]
    rw [parseHeadersLoop_line ev _ n header l.padded [] (nl_not_mem_padded l hl),
      parseHeadersLoop_line ev _ n header l.text [] hl.2.2]
    simp only [List.reverse_nil, List.nil_append, matchHeader_padded l hl]
    cases hm : matchHeader (l.text ++ ['\n']) with
    | none => exact sameOutcome_ok header _ _
    | some kv =>
      obtain ⟨keyword, value⟩ := kv
      dsimp only
      cases ha : applyDirective ev keyword value (n + 1) header with
      | error err => exact sameOutcome_refl _
      | ok header1 => exact ih (n + 1) header1 (fun x hx => hls x (List.mem_cons_of_mem _ hx))

/-- Every text is a block of complete lines followed by an incomplete one. -/
theorem exists_unlines : ∀ s : List Char, ∃ (lines : List (List Char)) (last : List Char),
    (∀ l ∈ lines, '\n' ∉ l) ∧ '\n' ∉ last ∧ s = unlines lines ++ last := by
  intro s
  induction s with
  | nil => exact ⟨[], [], by simp, by simp, rfl⟩
  | cons c s ih =>
    obtain ⟨lines, last, h1, h2, h3⟩ := ih
    by_cases hc : c = '\n'
    · subst hc
      refine ⟨[] :: lines, last, ?_, h2, ?_⟩
      · intro l hl
        rcases List.mem_cons.1 hl with rfl | hl
        · simp
        · exact h1 l hl
      · rw [h3]; rfl
    · cases lines with
      | nil =>
        refine ⟨[], c :: last, by simp, ?_, ?_⟩
        · simp only [List.mem_cons, not_or]
          exact ⟨fun e => hc e.symm, h2⟩
        · rw [h3]; rfl
      | cons l ls =>
        refine ⟨(c :: l) :: ls, last, ?_, h2, ?_⟩
        · intro x hx
          rcases List.mem_cons.1 hx with rfl | hx
          · simp only [List.mem_cons, not_or]
            exact ⟨fun e => hc e.symm, h1 l (List.mem_cons_self _ _)⟩
          · exact h1 x (List.mem_cons_of_mem _ hx)
        · rw [h3]; rfl

theorem crlf_append_of_not_mem : ∀ (l rest : List Char), '\n' ∉ l →
    crlf (l ++ rest) = l ++ crlf rest := by
  intro l
  induction l with
  | nil => intro rest _; rfl
  | cons c l ih =>
    intro rest h
    have hc : c ≠ '\n' := fun e => h (e ▸ List.mem_cons_self _ _)
    rw [List.cons_append, crlf, if_neg hc, ih rest (fun hm => h (List.mem_cons_of_mem _ hm))]
    rfl

theorem crlf_of_not_mem (l : List Char) (h : '\n' ∉ l) : crlf l = l := by
  have := crlf_append_of_not_mem l [] h
  simpa [crlf] using this

theorem crlf_unlines (last : List Char) (hlast : '\n' ∉ last) :
    ∀ lines : List (List Char), (∀ l ∈ lines, '\n' ∉ l) →
      crlf (unlines lines ++ last) =
        unlines ((lines.map (fun l => ({ indent := [], text := l, trail := ['\r'] } :
          PaddedLine))).map PaddedLine.padded) ++ last := by
  intro lines
  induction lines with
  | nil => intro _; simpa [unlines] using crlf_of_not_mem last hlast
  | cons l ls ih =>
    intro h
    have hl := h l (List.mem_cons_self _ _)
    simp only [unlines, List.map_cons, List.append_assoc, List.cons_append]
    rw [crlf_append_of_not_mem l _ hl, crlf, if_pos rfl,
      ih (fun x hx => h x (List.mem_cons_of_mem _ hx))]
    simp [PaddedLine.padded]

/-- C35: the header that `ParseHeaders` produces does not depend on the white space around
the lines of its input. For every block of lines, written with white space before and
after each line (carriage returns, spaces, tabs) or without it, and whatever incomplete last
line follows, the two calls leave the same header fields and have the same error status;
and for every input, the input with DOS line endings gives the same header fields and the
same error status as the input itself. -/
theorem parseHeaders_ignores_line_padding {Ctx : Type} (ev : Evaluator Ctx)
    (header : Header Ctx) (ls : List PaddedLine) (last1 last2 : List Char)
    (hls : ∀ l ∈ ls, l.Admissible) (h1 : '\n' ∉ last1) (h2 : '\n' ∉ last2) :
    SameOutcome (ParseHeaders ev (unlines (ls.map PaddedLine.padded) ++ last1) header)
        (ParseHeaders ev (unlines (ls.map (fun l => l.text)) ++ last2) header) ∧
      ∀ input : List Char,
        SameOutcome (ParseHeaders ev (crlf input) header) (ParseHeaders ev input header) := by
  refine ⟨parseHeadersLoop_padded ev last1 last2 h1 h2 ls 0 header hls, ?_⟩
  intro input
  obtain ⟨lines, last, hl, hlast, rfl⟩ := exists_unlines input
  rw [crlf_unlines last hlast lines hl]
  have := parseHeadersLoop_padded ev last last hlast hlast
    (lines.map (fun l => ({ indent := [], text := l, trail := ['\r'] } : PaddedLine))) 0 header
    (by
      intro x hx
      obtain ⟨l, hlm, rfl⟩ := List.mem_map.1 hx
      exact ⟨by simp [Spaces], by simp [Spaces]; decide, hl l hlm⟩)
  have e : (lines.map (fun l => ({ indent := [], text := l, trail := ['\r'] } :
      PaddedLine))).map (fun l => l.text) = lines := by
    simp [List.map_map, Function.comp_def]
  rw [e] at this
  exact this

theorem parseHeaders_ignores_line_padding_witness :
    (∀ l ∈ samples.paddedLines, l.Admissible) ∧
      unlines (samples.paddedLines.map PaddedLine.padded) ++ "World".toList =
        "  !!filename coucou.txt\r\n\t!!if-not-exists \t\r\nHello\r\nWorld".toList ∧
      unlines (samples.paddedLines.map (fun l => l.text)) ++ "World".toList =
        "!!filename coucou.txt\n!!if-not-exists\nHello\nWorld".toList ∧
      SameOutcome
        (ParseHeaders samples.unitEvaluator
          (unlines (samples.paddedLines.map PaddedLine.padded) ++ "World".toList)
          samples.zeroHeader)
        (ParseHeaders samples.unitEvaluator
          (unlines (samples.paddedLines.map (fun l => l.text)) ++ "World".toList)
          samples.zeroHeader) ∧
      (ParseHeaders samples.unitEvaluator
          (unlines (samples.paddedLines.map PaddedLine.padded) ++ "World".toList)
          samples.zeroHeader).1.Filename = "coucou.txt".toList :=
  ⟨by decide, by decide, by decide,
    (parseHeaders_ignores_line_padding samples.unitEvaluator samples.zeroHeader
      samples.paddedLines "World".toList "World".toList (by decide) (by decide) (by decide)).1,
    by rfl⟩

end templating

/-! ## Byte buffers -/

namespace placeholder
open regexp

theorem crRemoverBytes_eq : ∀ data : Buffer,
    crRemover.Bytes data = crRemover (data.map utf8.Decoded.read) := by
  intro data
  induction data with
  | nil => rfl
  | cons x rest ih =>
    cases x with
    | rune r =>
      simp only [crRemover.Bytes, List.map_cons, utf8.Decoded.read, crRemover_cons, ih]
      by_cases hr : r = '\r' <;> simp [isCR, hr]
    | invalid b =>
      have h : isCR utf8.RuneError = false := by decide
      have hne : ¬ utf8.RuneError = '\r' := by decide
      simp only [crRemover.Bytes, List.map_cons, utf8.Decoded.read, crRemover_cons, ih, h, hne,
        Bool.false_eq_true, if_false]

theorem crRemoverBytes_filter (data : Buffer) :
    crRemover.Bytes data = (data.map utf8.Decoded.read).filter (fun c => c ≠ '\r') := by
  rw [crRemoverBytes_eq]
  rw [crRemover_filter]
  congr 1
  funext r
  by_cases h : r = '\r' <;> simp [isCR, h]

theorem map_read_ofText (s : List Char) : (Buffer.ofText s).map utf8.Decoded.read = s := by
  induction s with
  | nil => rfl
  | cons c s ih =>
    simp only [Buffer.ofText, List.map_cons, utf8.Decoded.read, List.cons.injEq, true_and] at ih ⊢
    exact ih

theorem crRemoverBytes_ofText (s : List Char) : crRemover.Bytes (Buffer.ofText s) = crRemover s := by
  rw [crRemoverBytes_eq, map_read_ofText]

theorem noCR_crRemoverBytes (data : Buffer) : '\r' ∉ crRemover.Bytes data := by
  rw [crRemoverBytes_eq]
  exact noCR_crRemover _

theorem crRemover_crRemoverBytes (data : Buffer) :
    crRemover (crRemover.Bytes data) = crRemover.Bytes data :=
  crRemover_of_noCR _ (noCR_crRemoverBytes data)

theorem crRemoverBytes_of_text (s : List Char) (h : '\r' ∉ s) :
    crRemover.Bytes (Buffer.ofText s) = s := by
  rw [crRemoverBytes_ofText, crRemover_of_noCR _ h]

theorem bufferParse_eq (m : CodeSectionMark) (data : Buffer) :
    Buffer.parsePlaceholders m data = parsePlaceholders m (crRemover.Bytes data) := by
  unfold Buffer.parsePlaceholders parsePlaceholders
  simp only [crRemover_crRemoverBytes]

theorem bufferFindAll_eq (data : Buffer) :
    Buffer.FindAll data = FindAll (crRemover.Bytes data) := by
  unfold Buffer.FindAll FindAll
  simp only [bufferParse_eq]

theorem bufferReplaceAll_eq (data : Buffer) (placeholders : List Placeholder) :
    Buffer.ReplaceAll data placeholders = ReplaceAll (crRemover.Bytes data) placeholders := by
  unfold Buffer.ReplaceAll ReplaceAll
  simp only [crRemover_crRemoverBytes]

theorem bufferFindAndReplaceAll_eq (src dest : Buffer) :
    Buffer.FindAndReplaceAll src dest =
      FindAndReplaceAll (crRemover.Bytes src) (crRemover.Bytes dest) := by
  unfold Buffer.FindAndReplaceAll FindAndReplaceAll
  rw [bufferFindAll_eq, bufferReplaceAll_eq]

theorem bufferFindAll_ofText (s : List Char) : Buffer.FindAll (Buffer.ofText s) = FindAll s := by
  rw [bufferFindAll_eq, crRemoverBytes_ofText, FindAll_crRemover]

theorem bufferReplaceAll_ofText (s : List Char) (placeholders : List Placeholder) :
    Buffer.ReplaceAll (Buffer.ofText s) placeholders = ReplaceAll s placeholders := by
  rw [bufferReplaceAll_eq, crRemoverBytes_ofText]
  unfold ReplaceAll
  simp only [crRemover_idem]

theorem bufferReplaceAll_nil (data : Buffer) : Buffer.ReplaceAll data [] = crRemover.Bytes data :=
  rfl

theorem bufferFindAndReplaceAll_ofText (src dest : List Char) :
    Buffer.FindAndReplaceAll (Buffer.ofText src) (Buffer.ofText dest) =
      FindAndReplaceAll src dest := by
  unfold Buffer.FindAndReplaceAll FindAndReplaceAll
  rw [bufferFindAll_ofText, bufferReplaceAll_ofText]

/-- C5 (as amended): placeholders whose identifiers have no counterpart among the
placeholders of the destination leave the destination as `ReplaceAll` with no placeholder
leaves it: the destination with its carriage returns removed and each byte that is not
valid UTF-8 replaced by U+FFFD, which is the destination itself when it is valid UTF-8
without carriage return. -/
theorem replaceAll_unmatched_is_noop (dest : Buffer) (placeholders : List Placeholder)
    (h : ∀ p ∈ placeholders, ∀ t ∈ Buffer.FindAll dest, t.Identifier ≠ p.Identifier) :
    Buffer.ReplaceAll dest placeholders = Buffer.ReplaceAll dest [] ∧
      Buffer.ReplaceAll dest [] =
        (dest.map utf8.Decoded.read).filter (fun c => c ≠ '\r') ∧
      ∀ s, dest = Buffer.ofText s → '\r' ∉ s → Buffer.ReplaceAll dest placeholders = s := by
  have hD : ∀ p ∈ placeholders, ∀ t ∈ FindAll (crRemover.Bytes dest),
      t.Identifier ≠ p.Identifier := by
    intro p hp t ht
    exact h p hp t (by rw [bufferFindAll_eq]; exact ht)
  have key := replaceAll_unmatched_text (crRemover.Bytes dest) placeholders hD
  have k2 : Buffer.ReplaceAll dest placeholders = crRemover.Bytes dest := by
    rw [bufferReplaceAll_eq]
    exact key.2 (noCR_crRemoverBytes dest)
  refine ⟨by rw [k2, bufferReplaceAll_nil], by rw [bufferReplaceAll_nil, crRemoverBytes_filter],
    ?_⟩
  intro s hs hcr
  rw [k2, hs, crRemoverBytes_of_text s hcr]

theorem replaceAll_unmatched_is_noop_witness :
    (∀ p ∈ [samples.barInput], ∀ t ∈ Buffer.FindAll (Buffer.ofText samples.fooRegion),
        t.Identifier ≠ p.Identifier) ∧
      '\r' ∉ samples.fooRegion ∧ (Buffer.FindAll (Buffer.ofText samples.fooRegion)).length = 1 ∧
      Buffer.ReplaceAll (Buffer.ofText samples.fooRegion) [samples.barInput] =
        samples.fooRegion :=
  ⟨by decide, by decide, by decide,
    (replaceAll_unmatched_is_noop (Buffer.ofText samples.fooRegion) [samples.barInput]
      (by decide)).2.2 samples.fooRegion rfl (by decide)⟩

/-- C5 (counterexample): the buffer `"a\xffb"` holds no carriage return and no region, so no
input placeholder has a counterpart in it; `ReplaceAll` returns `a`, U+FFFD and `b`, which is not
the buffer itself. -/
theorem replaceAll_unmatched_rewrites_invalid_byte :
    utf8.Decoded.rune '\r' ∉ samples.invalidByte ∧
      Buffer.FindAll samples.invalidByte = [] ∧
      Buffer.ReplaceAll samples.invalidByte [samples.barInput] =
        ['a', Char.ofNat 0xFFFD, 'b'] ∧
      Buffer.ReplaceAll samples.invalidByte [samples.barInput] =
        Buffer.ReplaceAll samples.invalidByte [] ∧
      Buffer.ofText (Buffer.ReplaceAll samples.invalidByte [samples.barInput]) ≠
        samples.invalidByte := by
  decide

/-- C12 (as amended): with no placeholder to put in, `ReplaceAll` returns the buffer with its
carriage returns removed and each byte that is not valid UTF-8 replaced by U+FFFD, every
other character kept in place; when the buffer is valid UTF-8 and each of its carriage
returns is followed by a newline, that is the buffer with `"\r\n"` replaced by `"\n"`. -/
theorem replaceAll_nil_removes_carriage_returns (data : Buffer) :
    Buffer.ReplaceAll data [] = (data.map utf8.Decoded.read).filter (fun c => c ≠ '\r') ∧
      ∀ s, data = Buffer.ofText s →
        Buffer.ReplaceAll data [] = s.filter (fun c => c ≠ '\r') ∧
          (loneCR s = false → Buffer.ReplaceAll data [] = crlfToLf s) := by
  refine ⟨by rw [bufferReplaceAll_nil, crRemoverBytes_filter], ?_⟩
  intro s hs
  rw [hs, bufferReplaceAll_ofText]
  exact replaceAll_nil_text s

theorem replaceAll_nil_removes_carriage_returns_witness :
    Buffer.ReplaceAll (Buffer.ofText "a\r\nb\r\n".toList) [] = "a\nb\n".toList ∧
      Buffer.ReplaceAll (Buffer.ofText "a\r\nb\r\n".toList) [] = crlfToLf "a\r\nb\r\n".toList ∧
      Buffer.ReplaceAll samples.invalidByte [] = ['a', Char.ofNat 0xFFFD, 'b'] :=
  ⟨((replaceAll_nil_removes_carriage_returns (Buffer.ofText "a\r\nb\r\n".toList)).2
      "a\r\nb\r\n".toList rfl).1,
    ((replaceAll_nil_removes_carriage_returns (Buffer.ofText "a\r\nb\r\n".toList)).2
      "a\r\nb\r\n".toList rfl).2 (by decide),
    (replaceAll_nil_removes_carriage_returns samples.invalidByte).1⟩

/-- C34 (as amended): for every buffer in which the identifiers of the placeholders that
`FindAll` returns are pairwise distinct, merging the buffer with itself gives the buffer
with its carriage returns removed and each byte that is not valid UTF-8 replaced by U+FFFD;
for a buffer of valid UTF-8 without carriage return that is the buffer itself. -/
theorem self_merge_is_identity (R : Buffer)
    (hpw : (Buffer.FindAll R).Pairwise (fun a b => a.Identifier ≠ b.Identifier)) :
    Buffer.ReplaceAll R (Buffer.FindAll R) =
        (R.map utf8.Decoded.read).filter (fun c => c ≠ '\r') ∧
      Buffer.FindAndReplaceAll R R = Buffer.ReplaceAll R (Buffer.FindAll R) ∧
      ∀ s, R = Buffer.ofText s → '\r' ∉ s →
        Buffer.ReplaceAll R (Buffer.FindAll R) = s ∧ Buffer.FindAndReplaceAll R R = s := by
  have key : Buffer.ReplaceAll R (Buffer.FindAll R) = crRemover.Bytes R := by
    rw [bufferReplaceAll_eq, bufferFindAll_eq]
    rw [bufferFindAll_eq] at hpw
    apply replaceAll_fixed _ _ (noCR_crRemoverBytes R)
    intro p hp t ht
    have hmem := List.mem_of_find?_eq_some ht
    have hid : t.Identifier = p.Identifier := by
      have := List.find?_some ht
      simpa using this
    rw [eq_of_pairwise_identifier _ hpw t hmem p hp hid]
  refine ⟨by rw [key, crRemoverBytes_filter], rfl, ?_⟩
  intro s hs hcr
  have e : Buffer.ReplaceAll R (Buffer.FindAll R) = s := by
    rw [key, hs, crRemoverBytes_of_text s hcr]
  exact ⟨e, e⟩

theorem self_merge_is_identity_witness :
    '\r' ∉ samples.twoRegions ∧
      (Buffer.FindAll (Buffer.ofText samples.twoRegions)).Pairwise
        (fun a b => a.Identifier ≠ b.Identifier) ∧
      (Buffer.FindAll (Buffer.ofText samples.twoRegions)).length = 2 ∧
      Buffer.ReplaceAll (Buffer.ofText samples.twoRegions)
        (Buffer.FindAll (Buffer.ofText samples.twoRegions)) = samples.twoRegions ∧
      Buffer.FindAndReplaceAll (Buffer.ofText samples.twoRegions)
        (Buffer.ofText samples.twoRegions) = samples.twoRegions :=
  ⟨by decide, by decide, by decide,
    (self_merge_is_identity (Buffer.ofText samples.twoRegions) (by decide)).2.2
      samples.twoRegions rfl (by decide)⟩

/-- C34 (counterexample): the buffer `"\xff\n"` holds no carriage return and no region;
merging it with itself gives U+FFFD and the newline, which is not the buffer itself. -/
theorem self_merge_rewrites_invalid_byte :
    utf8.Decoded.rune '\r' ∉ samples.invalidLine ∧
      (Buffer.FindAll samples.invalidLine).Pairwise (fun a b => a.Identifier ≠ b.Identifier) ∧
      Buffer.ReplaceAll samples.invalidLine (Buffer.FindAll samples.invalidLine) =
        [Char.ofNat 0xFFFD, '\n'] ∧
      Buffer.FindAndReplaceAll samples.invalidLine samples.invalidLine =
        [Char.ofNat 0xFFFD, '\n'] ∧
      Buffer.ofText (Buffer.FindAndReplaceAll samples.invalidLine samples.invalidLine) ≠
        samples.invalidLine := by
  decide

end placeholder

/-! ## The merge on byte buffers -/

namespace placeholder
open regexp

/-- The text `w` does not occur in `D` before the offset `s` when it is a prefix of none of
the suffixes of `D` that start before `s`. -/
theorem first_occurrence_check (w D : List Char) (s : Nat)
    (h : ∀ i < s, w.isPrefixOf (D.drop i) = false) :
    ∀ a b, D = a ++ (w ++ b) → s ≤ a.length := by
  intro a b hD
  by_contra hlt
  have h1 := h a.length (by omega)
  rw [hD, List.drop_left] at h1
  have h2 : w.isPrefixOf (w ++ b) = true := by
    rw [List.isPrefixOf_iff_prefix]
    exact List.prefix_append w b
  rw [h2] at h1
  cases h1

/-- C2 (as amended): `ReplaceAll` works on the destination after its cleaning (carriage
returns removed, each byte that is not valid UTF-8 replaced by U+FFFD), which is the
destination itself when it is valid UTF-8 without carriage return. For an input placeholder
`p` and the first same-identifier placeholder `t` of `FindAll(dest)`, matched at the offsets
`s` to `e` of the cleaned destination: when the raw text of `t` does not occur in the
cleaned destination before `s`, `ReplaceAll(dest, [p])` is the cleaned destination with
exactly the span from `s` to `e` replaced by `t.Begin ++ p.Content ++ t.End`, everything
outside the span unchanged. -/
theorem replaceAll_replaces_matched_span (dest : Buffer) (p t : Placeholder) (s e : Nat)
    (ht : (Buffer.FindAll dest).find? (fun t => t.Identifier = p.Identifier) = some t)
    (hspan : MatchedAt (crRemover.Bytes dest) t s e)
    (hfirst : ∀ a b, crRemover.Bytes dest = a ++ (t.Raw ++ b) → s ≤ a.length) :
    Buffer.ReplaceAll dest [p] =
        (crRemover.Bytes dest).take s ++
          ((t.Begin ++ p.Content ++ t.End) ++ (crRemover.Bytes dest).drop e) ∧
      crRemover.Bytes dest = (dest.map utf8.Decoded.read).filter (fun c => c ≠ '\r') ∧
      ∀ d, dest = Buffer.ofText d → '\r' ∉ d →
        Buffer.ReplaceAll dest [p] =
          d.take s ++ ((t.Begin ++ p.Content ++ t.End) ++ d.drop e) := by
  have key : Buffer.ReplaceAll dest [p] =
      (crRemover.Bytes dest).take s ++
        ((t.Begin ++ p.Content ++ t.End) ++ (crRemover.Bytes dest).drop e) := by
    rw [bufferReplaceAll_eq]
    rw [bufferFindAll_eq] at ht
    exact replaceAll_matched_span_text (crRemover.Bytes dest) p t s e
      (noCR_crRemoverBytes dest) ht hspan hfirst
  refine ⟨key, crRemoverBytes_filter dest, ?_⟩
  intro d hd hcr
  rw [key, hd, crRemoverBytes_of_text d hcr]

theorem replaceAll_replaces_matched_span_witness :
    (Buffer.FindAll samples.invalidHead).find?
        (fun t => t.Identifier = samples.inputFoo.Identifier) = some samples.existingFoo ∧
      MatchedAt (crRemover.Bytes samples.invalidHead) samples.existingFoo 16 59 ∧
      crRemover.Bytes samples.invalidHead =
        [Char.ofNat 0xFFFD, '\n'] ++ samples.existingD ∧
      Buffer.ReplaceAll samples.invalidHead [samples.inputFoo] =
        [Char.ofNat 0xFFFD, '\n'] ++
          "Updated text.\n// region CODE_REGION(Foo)\nNEW\n// endregion\nThere too.\n".toList :=
  have hm : MatchedAt (crRemover.Bytes samples.invalidHead) samples.existingFoo 16 59 :=
    ⟨"//".toList, by decide,
      [(0, (16, 59)), (4, (47, 59)), (3, (43, 47)), (1, (16, 43)), (2, (38, 41))],
      by decide, by decide, by decide⟩
  ⟨by decide, hm, by decide,
    (replaceAll_replaces_matched_span samples.invalidHead samples.inputFoo samples.existingFoo
      16 59 (by decide) hm
      (first_occurrence_check _ _ 16 (by decide))).1.trans (by decide)⟩

/-- C6 (as amended): `ReplaceAll` works on the destination after its cleaning (carriage
returns removed, each byte that is not valid UTF-8 replaced by U+FFFD), which is the
destination itself when it is valid UTF-8 without carriage return. For one input
placeholder `p`, the region that `ReplaceAll` works on is the same-identifier placeholder
that `FindAll` lists first: the placeholders under `//` come before those under `#` and
those before the ones under `#pragma `, whatever their order in the document, and the
placeholders of one mark come in document order, their spans not overlapping. The first
occurrence of the raw text of that placeholder in the cleaned destination is replaced by its
begin marker, the content of `p` and its end marker, and everything before and after that
occurrence is as in the cleaned destination. -/
theorem replaceAll_duplicate_first_in_mark_order (dest : Buffer) (p : Placeholder) :
    (Buffer.FindAll dest).find? (fun t => t.Identifier = p.Identifier) =
        ((Buffer.parsePlaceholders "//".toList dest).find?
            (fun t => t.Identifier = p.Identifier)).or
          (((Buffer.parsePlaceholders "#".toList dest).find?
              (fun t => t.Identifier = p.Identifier)).or
            ((Buffer.parsePlaceholders "#pragma ".toList dest).find?
              (fun t => t.Identifier = p.Identifier))) ∧
      (∀ m, Buffer.parsePlaceholders m dest =
          ((findRegexp m).allMatches (crRemover.Bytes dest)).map
            (toPlaceholder m (crRemover.Bytes dest)) ∧
        ((findRegexp m).allMatches (crRemover.Bytes dest)).Pairwise
          (fun c1 c2 => (spanOf c1).2 ≤ (spanOf c2).1)) ∧
      (∀ t, (Buffer.FindAll dest).find? (fun t => t.Identifier = p.Identifier) = some t →
        ∃ pre post, crRemover.Bytes dest = pre ++ (t.Raw ++ post) ∧
          (∀ a b, crRemover.Bytes dest = a ++ (t.Raw ++ b) → pre.length ≤ a.length) ∧
          Buffer.ReplaceAll dest [p] = pre ++ ((t.Begin ++ p.Content ++ t.End) ++ post)) ∧
      crRemover.Bytes dest = (dest.map utf8.Decoded.read).filter (fun c => c ≠ '\r') ∧
      ∀ d, dest = Buffer.ofText d → '\r' ∉ d → crRemover.Bytes dest = d := by
  have key := replaceAll_first_in_mark_order_text (crRemover.Bytes dest) p
    (noCR_crRemoverBytes dest)
  refine ⟨?_, fun m => ⟨rfl, Re.allMatches_ordered _ _⟩, ?_, crRemoverBytes_filter dest, ?_⟩
  · simp only [bufferFindAll_eq, bufferParse_eq]
    exact key.1
  · intro t ht
    rw [bufferFindAll_eq] at ht
    rw [bufferReplaceAll_eq]
    exact key.2.2 t ht
  · intro d hd hcr
    rw [hd, crRemoverBytes_of_text d hcr]

theorem replaceAll_duplicate_first_in_mark_order_witness :
    '\r' ∉ samples.twoMarks ∧
      (Buffer.parsePlaceholders "//".toList (Buffer.ofText samples.twoMarks)).map
        (fun t => t.Raw) = ["// region CODE_REGION(X)\nb\n// endregion".toList] ∧
      (Buffer.parsePlaceholders "#".toList (Buffer.ofText samples.twoMarks)).map
        (fun t => t.Raw) = ["# region CODE_REGION(X)\na\n# endregion".toList] ∧
      ((Buffer.FindAll (Buffer.ofText samples.twoMarks)).find?
        (fun t => t.Identifier = samples.inputX.Identifier)).map (fun t => t.Raw) =
          some "// region CODE_REGION(X)\nb\n// endregion".toList ∧
      crRemover.Bytes (Buffer.ofText samples.twoMarks) = samples.twoMarks ∧
      Buffer.ReplaceAll (Buffer.ofText samples.twoMarks) [samples.inputX] =
        ("# region CODE_REGION(X)\na\n# endregion\n" ++
          "// region CODE_REGION(X)\nNEW\n// endregion\n").toList :=
  ⟨by decide, by decide, by decide, by decide,
    (replaceAll_duplicate_first_in_mark_order (Buffer.ofText samples.twoMarks)
      samples.inputX).2.2.2.2 samples.twoMarks rfl (by decide),
    by decide⟩

/-- C3 (as amended): `FindAndReplaceAll(src, dest)` works on the destination after its
cleaning (carriage returns removed, each byte that is not valid UTF-8 replaced by U+FFFD),
which is the destination itself when it is valid UTF-8 without carriage return. When the
cleaned destination is its regions, in document order, between gaps
(`g0 ++ weave Raw segs`, the regions of `segs` being those of `FindAll(dest)`), with
pairwise distinct identifiers in the source and in the destination, and the begin marker
line of each destination region occurs only once in the cleaned destination and in no
content of a source region: the result is the cleaned destination in which each region
whose identifier occurs in the source has its content replaced by the content of the source
region, between its own marker lines, the other regions and the gaps being unchanged. -/
theorem findAndReplaceAll_merges_regions (src dest : Buffer) (g0 : List Char)
    (segs : List (Placeholder × List Char))
    (hsrc : (Buffer.FindAll src).Pairwise (fun a b => a.Identifier ≠ b.Identifier))
    (hdst : (Buffer.FindAll dest).Pairwise (fun a b => a.Identifier ≠ b.Identifier))
    (hweave : crRemover.Bytes dest = g0 ++ weave (fun t => t.Raw) segs)
    (hperm : (segs.map Prod.fst).Perm (Buffer.FindAll dest))
    (hone : ∀ t ∈ Buffer.FindAll dest, AtMostOnce t.Begin (crRemover.Bytes dest))
    (hfree : ∀ p ∈ Buffer.FindAll src, ∀ t ∈ Buffer.FindAll dest, ¬ t.Begin <:+: p.Content) :
    Buffer.FindAndReplaceAll src dest = g0 ++ weave (merged (Buffer.FindAll src)) segs ∧
      crRemover.Bytes dest = (dest.map utf8.Decoded.read).filter (fun c => c ≠ '\r') ∧
      ∀ d, dest = Buffer.ofText d → '\r' ∉ d → crRemover.Bytes dest = d := by
  refine ⟨?_, crRemoverBytes_filter dest, ?_⟩
  · rw [bufferFindAndReplaceAll_eq]
    rw [bufferFindAll_eq] at hsrc hdst hperm hone hfree ⊢
    rw [bufferFindAll_eq] at hfree
    exact findAndReplaceAll_merges_text (crRemover.Bytes src) (crRemover.Bytes dest) g0 segs
      (noCR_crRemoverBytes dest) hsrc hdst hweave hperm hone hfree
  · intro d hd hcr
    rw [hd, crRemoverBytes_of_text d hcr]

theorem findAndReplaceAll_merges_regions_witness :
    crRemover.Bytes (Buffer.ofText samples.destAB) = samples.destAB ∧
      Buffer.FindAndReplaceAll (Buffer.ofText samples.srcAB) (Buffer.ofText samples.destAB) =
        "head\n".toList ++
          weave (merged (Buffer.FindAll (Buffer.ofText samples.srcAB))) samples.segsAB ∧
      "head\n".toList ++
          weave (merged (Buffer.FindAll (Buffer.ofText samples.srcAB))) samples.segsAB =
        ("head\n// region CODE_REGION(A)\nnew a\n// endregion\nmid\n" ++
          "# region CODE_REGION(B)\nnew b\n# endregion\ntail\n").toList :=
  ⟨by decide,
   (findAndReplaceAll_merges_regions (Buffer.ofText samples.srcAB)
      (Buffer.ofText samples.destAB) "head\n".toList samples.segsAB
      (by decide) (by decide) (by decide)
      ((by decide : samples.segsAB.map Prod.fst =
        Buffer.FindAll (Buffer.ofText samples.destAB)) ▸ List.Perm.refl _)
      (fun t ht => atMostOnce_of_count t.Begin _
        ((by decide : ∀ t ∈ Buffer.FindAll (Buffer.ofText samples.destAB),
          countOcc t.Begin (crRemover.Bytes (Buffer.ofText samples.destAB)) ≤ 1) t ht))
      (by decide)).1,
   by decide⟩

end placeholder

/-! ## The scan delivers every match -/

namespace regexp

/-- The walk over the buffer leaves no match out: when the matches of the pattern are not
empty, every offset at or after the cursor (the characters to skip apart) at which the
pattern matches lies in the span of a delivered match. -/
theorem Re.allMatchesAux_cover (re : Re)
    (hne : ∀ pre rest e caps, re.matchAt pre rest = some (e, caps) → pre.length < e) :
    ∀ (rest : List Char) (skip : Nat) (pe : Bool) (pre w1 w2 : List Char),
      rest = w1 ++ w2 → skip ≤ w1.length → (re.matchAt (w1.reverse ++ pre) w2).isSome = true →
      ∃ c ∈ re.allMatchesAux rest skip pe pre,
        (spanOf c).1 ≤ pre.length + w1.length ∧ pre.length + w1.length < (spanOf c).2 := by
  intro rest
  induction rest with
  | nil =>
    intro skip pe pre w1 w2 hw _ hm
    exfalso
    have hw1 : w1 = [] := (List.append_eq_nil.1 hw.symm).1
    have hw2 : w2 = [] := (List.append_eq_nil.1 hw.symm).2
    subst hw1 hw2
    obtain ⟨⟨e, caps⟩, hr⟩ := Option.isSome_iff_exists.1 hm
    have h1 := hne _ _ _ _ hr
    obtain ⟨w, post, c1, h2, -, -, h4⟩ := Re.matchAt_sound re _ _ e caps hr
    have : w = [] := (List.append_eq_nil.1 h2.symm).1
    subst this
    simp only [List.length_nil, Nat.add_zero] at h4
    omega
  | cons c cs ih =>
    intro skip pe pre w1 w2 hw hskip hm
    have step : ∀ (sk : Nat) (b : Bool) (w : List Char), w1 = c :: w → sk ≤ w.length →
        ∃ x ∈ re.allMatchesAux cs sk b (c :: pre),
          (spanOf x).1 ≤ pre.length + w1.length ∧ pre.length + w1.length < (spanOf x).2 := by
      intro sk b w hw1 hsk
      subst hw1
      simp only [List.cons_append, List.cons.injEq, true_and] at hw
      obtain ⟨x, hx, h1, h2⟩ := ih sk b (c :: pre) w w2 hw hsk (by simpa using hm)
      refine ⟨x, hx, ?_, ?_⟩
      · simp only [List.length_cons] at h1 ⊢; omega
      · simp only [List.length_cons] at h2 ⊢; omega
    cases skip with
    | succ sk =>
      cases w1 with
      | nil => simp at hskip
      | cons x w =>
        have hx : x = c := by
          simp only [List.cons_append, List.cons.injEq] at hw
          exact hw.1.symm
        subst hx
        obtain ⟨y, hy, h1, h2⟩ := step sk pe w rfl (by simpa using hskip)
        exact ⟨y, by simpa [Re.allMatchesAux] using hy, h1, h2⟩
    | zero =>
      simp only [Re.allMatchesAux]
      cases hr : re.matchAt pre (c :: cs) with
      | none =>
        cases w1 with
        | nil =>
          simp only [List.nil_append] at hw
          subst hw
          simp only [List.reverse_nil, List.nil_append, hr] at hm
          cases hm
        | cons x w =>
          have hx : x = c := by
            simp only [List.cons_append, List.cons.injEq] at hw
            exact hw.1.symm
          subst hx
          exact step 0 false w rfl (Nat.zero_le _)
      | some ec =>
        obtain ⟨e, caps⟩ := ec
        have h1 := hne _ _ _ _ hr
        have hsp := (Re.matchAt_span re _ _ _ _ hr).1
        have hne2 : ¬ e = pre.length := by omega
        simp only [hne2, if_false]
        by_cases hin : pre.length + w1.length < e
        · exact ⟨caps, List.mem_cons_self _ _, by rw [hsp]; simp, by rw [hsp]; exact hin⟩
        · cases w1 with
          | nil => simp only [List.length_nil] at hin; omega
          | cons x w =>
            have hx : x = c := by
              simp only [List.cons_append, List.cons.injEq] at hw
              exact hw.1.symm
            subst hx
            obtain ⟨y, hy, h3, h4⟩ := step (e - pre.length - 1) true w rfl
              (by simp only [List.length_cons] at hin; omega)
            exact ⟨y, List.mem_cons_of_mem _ hy, h3, h4⟩

/-- Every offset of the buffer at which the pattern matches lies in the span of a match
that `allMatches` delivers, when the matches of the pattern are not empty. -/
theorem Re.allMatches_cover (re : Re)
    (hne : ∀ pre rest e caps, re.matchAt pre rest = some (e, caps) → pre.length < e)
    (data : List Char) (i : Nat) (hi : i ≤ data.length)
    (hm : (re.matchAt (data.take i).reverse (data.drop i)).isSome = true) :
    ∃ c ∈ re.allMatches data, (spanOf c).1 ≤ i ∧ i < (spanOf c).2 := by
  have := Re.allMatchesAux_cover re hne data 0 false [] (data.take i) (data.drop i)
    (List.take_append_drop i data).symm (Nat.zero_le _) (by simpa using hm)
  simpa [Re.allMatches, List.length_take, Nat.min_eq_left hi] using this

/-- Each match that `allMatches` delivers is the match that the pattern prefers at the start
of its span. -/
theorem Re.allMatches_matchAt (re : Re) (data : List Char) (c : Caps)
    (hc : c ∈ re.allMatches data) :
    re.matchAt (data.take (spanOf c).1).reverse (data.drop (spanOf c).1) =
      some ((spanOf c).2, c) := by
  obtain ⟨pre1, rest1, e, hd, hm⟩ := Re.allMatchesAux_mem _ _ _ _ _ _ hc
  simp only [List.reverse_nil, List.nil_append] at hd
  have hsp := (Re.matchAt_span re _ _ _ _ hm).1
  rw [hsp, ← hd]
  have h1 : (pre1.reverse ++ rest1).take pre1.length = pre1.reverse := by
    rw [List.take_left' (by simp)]
  have h2 : (pre1.reverse ++ rest1).drop pre1.length = rest1 := by
    rw [List.drop_left' (by simp)]
  simp only [h1, h2, List.reverse_reverse]
  exact hm

end regexp

namespace placeholder
open regexp

theorem findRegexp_matchAt_nonempty (m pre rest : List Char) (e : Nat) (caps : Caps)
    (h : (findRegexp m).matchAt pre rest = some (e, caps)) : pre.length < e := by
  obtain ⟨b, ident, k, c, en, post, -, -, -, hB, -, he, -⟩ := findRegexp_matchAt _ _ _ _ _ h
  obtain ⟨s0, s1, s2, s3, s4, -, -, -, -, -, -, -, -, hb⟩ := hB
  rw [he, hb]
  simp only [List.length_append, List.length_cons]
  omega

/-- C11: `FindAll` lists the placeholders of the mark `//`, then those of `#`, then those of
`#pragma `. The placeholders of one mark are the matches of its pattern in the buffer, as
cleaned (carriage returns removed, each byte that is not valid UTF-8 replaced by U+FFFD),
each with the text of its span as raw text. Each listed match is the match that the pattern
prefers at the start of its span; the spans are not empty, lie in the buffer, do not overlap
and come by increasing start offset; and no match is left out: every offset at which the
pattern matches lies in the span of a listed match. -/
theorem findAll_by_mark_then_document_order (data : Buffer) :
    Buffer.FindAll data = Buffer.parsePlaceholders "//".toList data ++
        (Buffer.parsePlaceholders "#".toList data ++
          Buffer.parsePlaceholders "#pragma ".toList data) ∧
      ∀ m, Buffer.parsePlaceholders m data =
          ((findRegexp m).allMatches (crRemover.Bytes data)).map
            (toPlaceholder m (crRemover.Bytes data)) ∧
        (∀ c ∈ (findRegexp m).allMatches (crRemover.Bytes data),
          (spanOf c).1 < (spanOf c).2 ∧ (spanOf c).2 ≤ (crRemover.Bytes data).length ∧
            (toPlaceholder m (crRemover.Bytes data) c).Raw =
              slice (crRemover.Bytes data) (spanOf c).1 (spanOf c).2 ∧
            (findRegexp m).matchAt ((crRemover.Bytes data).take (spanOf c).1).reverse
              ((crRemover.Bytes data).drop (spanOf c).1) = some ((spanOf c).2, c)) ∧
        ((findRegexp m).allMatches (crRemover.Bytes data)).Pairwise
          (fun c1 c2 => (spanOf c1).2 ≤ (spanOf c2).1 ∧ (spanOf c1).1 < (spanOf c2).1) ∧
        ∀ i, i ≤ (crRemover.Bytes data).length →
          ((findRegexp m).matchAt ((crRemover.Bytes data).take i).reverse
            ((crRemover.Bytes data).drop i)).isSome = true →
          ∃ c ∈ (findRegexp m).allMatches (crRemover.Bytes data),
            (spanOf c).1 ≤ i ∧ i < (spanOf c).2 := by
  have key := findAll_spans_text (crRemover.Bytes data)
  simp only [crRemover_crRemoverBytes] at key
  refine ⟨?_, fun m => ⟨rfl, ?_, (key.2 m).2.2, ?_⟩⟩
  · simp only [bufferFindAll_eq, bufferParse_eq]
    exact key.1
  · intro c hc
    obtain ⟨h1, h2, h3⟩ := (key.2 m).2.1 c hc
    exact ⟨h1, h2, h3, Re.allMatches_matchAt _ _ c hc⟩
  · intro i hi hm
    exact Re.allMatches_cover _ (findRegexp_matchAt_nonempty m) _ i hi hm

theorem findAll_by_mark_then_document_order_witness :
    (Buffer.FindAll (Buffer.ofText samples.twoMarks)).map (fun t => (t.Mark, t.Raw)) =
        [("//".toList, "// region CODE_REGION(X)\nb\n// endregion".toList),
          ("#".toList, "# region CODE_REGION(X)\na\n# endregion".toList)] ∧
      (Buffer.FindAll (Buffer.ofText samples.twoMarks) =
        Buffer.parsePlaceholders "//".toList (Buffer.ofText samples.twoMarks) ++
          (Buffer.parsePlaceholders "#".toList (Buffer.ofText samples.twoMarks) ++
            Buffer.parsePlaceholders "#pragma ".toList (Buffer.ofText samples.twoMarks))) ∧
      ((findRegexp "//".toList).allMatches (crRemover.Bytes (Buffer.ofText
        samples.threeRegions))).map spanOf = [(0, 39), (82, 121)] ∧
      ((findRegexp "#".toList).allMatches (crRemover.Bytes (Buffer.ofText
        samples.threeRegions))).map spanOf = [(44, 81)] :=
  ⟨by decide, (findAll_by_mark_then_document_order (Buffer.ofText samples.twoMarks)).1,
    by decide, by decide⟩

end placeholder

/-! ## What the render pass writes over an existing file -/

namespace templating
open placeholder

/-- C1 (as amended): when the output path of a template already holds a file, the header does
not set if-not-exists and the file is written, the bytes written are
`FindAndReplaceAll(rendered, existing)`, that is `ReplaceAll(existing, FindAll(rendered))`:
the regions of the fresh render are merged into the existing file. The render pass is
modelled on files and renders of valid UTF-8, on which the merge is the merge of their
bytes. When the existing file holds no carriage return and is its regions, in document
order, between gaps, with pairwise distinct identifiers in the file and in the render, and
the begin marker line of each of its regions occurs only once in the file and in no region
content of the render, the bytes written are the existing file in which each region whose
identifier occurs in the render has the content of the region of the render, between its
own marker lines; the other regions and the gaps are those of the existing file. -/
theorem render_merges_rendered_regions_into_existing {Ctx : Type} (os : Os) (root : List Char)
    (ctx : Ctx) (patterns : List (List Char)) (tmpl : Template Ctx) (s : RenderState)
    (relPath existing rendered : List Char)
    (hname : tmpl.GetName ctx = .ok relPath)
    (hpat : patterns.length > 0 → matchPatterns os relPath patterns = .ok true)
    (hif : ∀ g, tmpl.GetHeader.If = some g → g ctx = (true, none))
    (hifor : tmpl.GetHeader.If ≠ none → ∃ g, tmpl.GetHeader.IfOr = some g ∧ g ctx = (true, none))
    (hmk : os.MkdirAll (os.Dir (os.Join root relPath)) = none)
    (hrd : os.ReadFileErr (os.Join root relPath) = none)
    (hwr : os.WriteFileErr (os.Join root relPath) = none)
    (hex : s.files (os.Join root relPath) = some existing)
    (hine : tmpl.GetHeader.IfNotExists = false)
    (hc : tmpl.GetContent ctx = .ok rendered)
    (hrm : ¬ ((FindAndReplaceAll rendered existing).length = 0 ∧
      tmpl.GetHeader.RemoveIfEmpty = true)) :
    (renderTemplate os root ctx patterns tmpl s).files (os.Join root relPath) =
        some (FindAndReplaceAll rendered existing) ∧
      FindAndReplaceAll rendered existing = ReplaceAll existing (FindAll rendered) ∧
      FindAndReplaceAll rendered existing =
        Buffer.FindAndReplaceAll (Buffer.ofText rendered) (Buffer.ofText existing) ∧
      ∀ (g0 : List Char) (segs : List (Placeholder × List Char)), '\r' ∉ existing →
        (FindAll rendered).Pairwise (fun a b => a.Identifier ≠ b.Identifier) →
        (FindAll existing).Pairwise (fun a b => a.Identifier ≠ b.Identifier) →
        existing = g0 ++ weave (fun t => t.Raw) segs →
        (segs.map Prod.fst).Perm (FindAll existing) →
        (∀ t ∈ FindAll existing, AtMostOnce t.Begin existing) →
        (∀ p ∈ FindAll rendered, ∀ t ∈ FindAll existing, ¬ t.Begin <:+: p.Content) →
        (renderTemplate os root ctx patterns tmpl s).files (os.Join root relPath) =
          some (g0 ++ weave (merged (FindAll rendered)) segs) := by
  have key := renderTemplate_files_of_existing os root ctx patterns tmpl s relPath existing
    rendered hname hpat hif hifor hmk hrd hwr hex hine hc hrm
  refine ⟨key, rfl, (bufferFindAndReplaceAll_ofText rendered existing).symm, ?_⟩
  intro g0 segs hcr hsrc hdst hweave hperm hone hfree
  rw [key, findAndReplaceAll_merges_text rendered existing g0 segs hcr hsrc hdst hweave hperm
    hone hfree]

theorem render_merges_rendered_regions_into_existing_witness :
    samples.existingD = "Updated text.\n".toList ++ weave (fun t => t.Raw) samples.segsD ∧
      (renderTemplate samples.plainOs "out".toList () [] samples.templateD samples.stateD).files
          (samples.plainOs.Join "out".toList "d.txt".toList) =
        some ("Updated text.\n".toList ++
          weave (merged (FindAll samples.renderedD)) samples.segsD) ∧
      "Updated text.\n".toList ++ weave (merged (FindAll samples.renderedD)) samples.segsD =
        "Updated text.\n// region CODE_REGION(Foo)\nNEW\n// endregion\nThere too.\n".toList :=
  ⟨by decide,
    (render_merges_rendered_regions_into_existing samples.plainOs "out".toList () []
      samples.templateD samples.stateD "d.txt".toList samples.existingD samples.renderedD
      rfl (fun h => absurd h (by decide)) (fun _ h => Option.noConfusion h)
      (fun h => absurd rfl h) rfl rfl rfl (by decide) rfl rfl (by decide)).2.2.2
      "Updated text.\n".toList samples.segsD (by decide) (by decide) (by decide) (by decide)
      ((by decide : samples.segsD.map Prod.fst = FindAll samples.existingD) ▸ List.Perm.refl _)
      (fun t ht => atMostOnce_of_count t.Begin samples.existingD
        ((by decide : ∀ t ∈ FindAll samples.existingD,
          countOcc t.Begin samples.existingD ≤ 1) t ht))
      (by decide),
    by decide⟩

end templating

/-! ## The scan over a document of several regions -/

namespace regexp

theorem Re.allMatchesAux_cons_succ (re : Re) (c : Char) (cs : List Char) (skip : Nat)
    (pe : Bool) (pre : List Char) :
    re.allMatchesAux (c :: cs) (skip + 1) pe pre = re.allMatchesAux cs skip pe (c :: pre) := rfl

theorem Re.allMatchesAux_cons_none (re : Re) (c : Char) (cs : List Char) (pe : Bool)
    (pre : List Char) (h : re.matchAt pre (c :: cs) = none) :
    re.allMatchesAux (c :: cs) 0 pe pre = re.allMatchesAux cs 0 false (c :: pre) := by
  simp only [Re.allMatchesAux, h]

/-- The walk skips the characters that a match has covered. -/
theorem Re.allMatchesAux_skip (re : Re) :
    ∀ (w rest pre : List Char) (pe : Bool),
      re.allMatchesAux (w ++ rest) w.length pe pre =
        re.allMatchesAux rest 0 pe (w.reverse ++ pre) := by
  intro w
  induction w with
  | nil => intro rest pre pe; rfl
  | cons c w ih =>
    intro rest pre pe
    rw [List.cons_append, List.length_cons, Re.allMatchesAux_cons_succ, ih]
    simp

/-- At a position where the pattern matches the text `w`, the walk delivers the match and
goes on after `w`. -/
theorem Re.allMatchesAux_take (re : Re) (w post pre : List Char) (pe : Bool) (caps : Caps)
    (hne : w ≠ []) (h : re.matchAt pre (w ++ post) = some (pre.length + w.length, caps)) :
    re.allMatchesAux (w ++ post) 0 pe pre =
      caps :: re.allMatchesAux post 0 true (w.reverse ++ pre) := by
  cases w with
  | nil => exact absurd rfl hne
  | cons c w =>
    simp only [List.cons_append] at h ⊢
    simp only [Re.allMatchesAux, h]
    have h1 : ¬ (pre.length + (c :: w).length = pre.length) := by simp
    rw [if_neg h1]
    have h2 : pre.length + (c :: w).length - pre.length - 1 = w.length := by simp
    rw [h2, Re.allMatchesAux_skip]
    simp

/-- The walk passes over a text at no position of which the pattern matches. -/
theorem Re.allMatchesAux_pass (re : Re) :
    ∀ (g rest pre : List Char) (pe : Bool),
      (∀ w1 w2, g = w1 ++ w2 → w2 ≠ [] → re.matchAt (w1.reverse ++ pre) (w2 ++ rest) = none) →
      ∃ pe1, re.allMatchesAux (g ++ rest) 0 pe pre =
        re.allMatchesAux rest 0 pe1 (g.reverse ++ pre) := by
  intro g
  induction g with
  | nil => intro rest pre pe _; exact ⟨pe, rfl⟩
  | cons c g ih =>
    intro rest pre pe h
    have h0 : re.matchAt pre (c :: (g ++ rest)) = none := by
      simpa using h [] (c :: g) rfl (by simp)
    obtain ⟨pe1, h1⟩ := ih rest (c :: pre) false (by
      intro w1 w2 hw hne
      have := h (c :: w1) w2 (by rw [hw]; rfl) hne
      simpa using this)
    refine ⟨pe1, ?_⟩
    rw [List.cons_append, Re.allMatchesAux_cons_none re c _ pe pre h0, h1]
    simp

end regexp

namespace placeholder
open regexp

theorem paren_not_mem_endText (m e0 e1 e2 : List Char) (hm : m ∈ DefaultCodeSectionMarks)
    (h0 : Blank e0) (h1 : Blank e1) (h2 : Blank e2) : '(' ∉ endText m e0 e1 e2 := by
  have hb : ∀ s : List Char, Blank s → '(' ∉ s := by
    intro s hs h
    have := hs _ h
    exact absurd this (by decide)
  intro h
  simp only [endText, List.mem_append] at h
  rcases h with h | h | h | h | h
  · exact hb _ h0 h
  · rcases (mem_defaultMarks m).1 hm with rfl | rfl | rfl <;> simp at h
  · exact hb _ h1 h
  · revert h; decide
  · exact hb _ h2 h

theorem regionWord_not_in_endText (m e0 e1 e2 : List Char) (hm : m ∈ DefaultCodeSectionMarks)
    (h0 : Blank e0) (h1 : Blank e1) (h2 : Blank e2) :
    ¬ "region CODE_REGION(".toList <:+: endText m e0 e1 e2 := by
  intro h
  apply paren_not_mem_endText m e0 e1 e2 hm h0 h1 h2
  obtain ⟨a, b, hab⟩ := h
  rw [← hab]
  simp [regionWord_eq]

/-- Where the region pattern of a default mark matches, a line starts, and the text from
there on opens with blanks, the mark, blanks and the text `region CODE_REGION(`, all before
the first newline. -/
theorem matchAt_begin_line (m pre rest : List Char) (e : Nat) (caps : Caps)
    (hm : m ∈ DefaultCodeSectionMarks)
    (h : (findRegexp m).matchAt pre rest = some (e, caps)) :
    atBol pre = true ∧
      (∃ t0 t1 Z, Blank t0 ∧ Blank t1 ∧
        rest = t0 ++ (m ++ (t1 ++ ("region CODE_REGION(".toList ++ Z)))) ∧
      '\n' ∈ rest ∧
      ∀ u z, rest = u ++ '\n' :: z → "region CODE_REGION(".toList <:+: u := by
  obtain ⟨b1, ident1, k1, c1, en1, post1, hrest, hbol, -, hB1, -, -, -⟩ :=
    findRegexp_matchAt _ _ _ _ _ h
  obtain ⟨t0, t1, t2, t3, t4, k0, k1, k2, k3, k4, -, hid1, -, hb1⟩ := hB1
  have gm := goodMark_of_default m hm
  have hP : '\n' ∉ t0 ++ (m ++ (t1 ++ "region CODE_REGION(".toList)) := by
    intro h
    simp only [List.mem_append] at h
    rcases h with h | h | h | h
    · exact blank_not_nl _ k0 h
    · exact gm.2 h
    · exact blank_not_nl _ k1 h
    · revert h; decide
  have hform : rest = (t0 ++ (m ++ (t1 ++ "region CODE_REGION(".toList))) ++
      (t2 ++ (ident1 ++ (t3 ++ (')' :: (t4 ++ ['\n']))) ++ (c1 ++ (en1 ++ post1)))) := by
    rw [hrest, hb1]
    simp
  refine ⟨hbol, ⟨t0, t1, t2 ++ (ident1 ++ (t3 ++ (')' :: (t4 ++ ['\n']))) ++
    (c1 ++ (en1 ++ post1))), k0, k1, by rw [hform]; simp⟩, by rw [hrest, hb1]; simp, ?_⟩
  intro u z hu
  obtain ⟨v, hv⟩ := prefix_before_nl _ _ _ _ hP (hform.symm.trans hu)
  rw [hv]
  exact ⟨t0 ++ (m ++ t1), v, by simp⟩

/-- In a text that does not hold `region CODE_REGION(` and ends with a newline, or after
which the buffer ends, the region pattern matches at no position. -/
theorem gap_matchAt_none (m w2 post pre : List Char) (hm : m ∈ DefaultCodeSectionMarks)
    (hw : ¬ "region CODE_REGION(".toList <:+: w2)
    (hcase : (∃ u, w2 = u ++ ['\n']) ∨ post = []) :
    (findRegexp m).matchAt pre (w2 ++ post) = none := by
  cases hr : (findRegexp m).matchAt pre (w2 ++ post) with
  | none => rfl
  | some x =>
    exfalso
    obtain ⟨e, caps⟩ := x
    obtain ⟨-, -, hnl, hline⟩ := matchAt_begin_line m _ _ e caps hm hr
    rcases hcase with ⟨u, hu⟩ | hp
    · apply hw
      have := hline u post (by rw [hu]; simp)
      rw [hu]
      exact this.trans (List.prefix_append u ['\n']).isInfix
    · subst hp
      rw [List.append_nil] at hnl hline
      obtain ⟨u, z, huz⟩ := List.append_of_mem hnl
      apply hw
      have := hline u z huz
      rw [huz]
      exact this.trans (List.prefix_append u ('\n' :: z)).isInfix

end placeholder

namespace placeholder
open regexp

/-- The placeholder that `toPlaceholder` builds from a capture table whose groups span a
begin marker line, an identifier in it, a content and an end marker line of the buffer. -/
theorem toPlaceholder_at (m data a b x ident y c en post : List Char) (caps : Caps)
    (hd : data = a ++ (b ++ (c ++ (en ++ post)))) (hb : b = x ++ (ident ++ y))
    (h0 : caps.lookup 0 = some (a.length, a.length + (b ++ (c ++ en)).length))
    (h1 : caps.lookup 1 = some (a.length, a.length + b.length))
    (h2 : caps.lookup 2 = some (a.length + x.length, a.length + x.length + ident.length))
    (h3 : caps.lookup 3 = some (a.length + b.length, a.length + b.length + c.length))
    (h4 : caps.lookup 4 =
      some (a.length + (b ++ c).length, a.length + (b ++ c).length + en.length)) :
    toPlaceholder m data caps =
      { Raw := b ++ (c ++ en), Begin := b, Identifier := ident, Content := c, End := en,
        Mark := m } := by
  have e0 : submatch data caps 0 = b ++ (c ++ en) := by
    simp only [submatch, h0]
    rw [hd]
    have := slice_mid a (b ++ (c ++ en)) post a.length (a.length + (b ++ (c ++ en)).length)
      rfl rfl
    simpa using this
  have e1 : submatch data caps 1 = b := by
    simp only [submatch, h1]
    rw [hd]
    exact slice_mid a b _ _ _ rfl rfl
  have e3 : submatch data caps 3 = c := by
    simp only [submatch, h3]
    rw [hd]
    have := slice_mid (a ++ b) c (en ++ post) (a.length + b.length)
      (a.length + b.length + c.length) (by simp) (by simp)
    simpa using this
  have e4 : submatch data caps 4 = en := by
    simp only [submatch, h4]
    rw [hd]
    have := slice_mid (a ++ (b ++ c)) en post (a.length + (b ++ c).length)
      (a.length + (b ++ c).length + en.length) (by simp [Nat.add_assoc]) (by simp [Nat.add_assoc])
    simpa using this
  have e2 : submatch data caps 2 = ident := by
    simp only [submatch, h2]
    rw [hd, hb]
    have := slice_mid (a ++ x) ident (y ++ (c ++ (en ++ post))) (a.length + x.length)
      (a.length + x.length + ident.length) (by simp) (by simp)
    simpa using this
  simp only [toPlaceholder, e0, e1, e2, e3, e4]

/-- The content pattern takes nothing when the rest of the pattern succeeds right away and
no newline stands there. -/
theorem contentRe_run_empty {α : Type} (k : List Char → List Char → Caps → Option α)
    (pre rest : List Char) (caps : Caps) (r : α) (hrest : ∀ cs, rest ≠ '\n' :: cs)
    (hk : k pre rest caps = some r) : contentRe.run k pre rest caps = some r := by
  simp only [contentRe, Re.seq]
  rw [Re.run_cat, Re.run_star_lazy]
  apply starLazy_here
  rw [run_opt_greedy]
  cases rest with
  | nil =>
    have : (Re.str ['\n']).run k pre [] caps = none := by simp [Re.run, matchStr]
    rw [this]
    exact hk
  | cons x cs =>
    have hx : ¬ x = '\n' := fun e => hrest cs (by rw [e])
    rw [run_nl_ne _ _ _ _ _ hx]
    exact hk

/-- On a region without content (a begin marker line with a trimmed identifier and an end
marker line right after it, from a line start to a line end) the region pattern matches the
whole region, with an empty group 3. -/
theorem findRegexp_matchAt_empty (m s0 s1 s2 ident s3 s4 e0 e1 e2 pre post : List Char)
    (hm : GoodMark m) (h0 : Blank s0) (h1 : Blank s1) (h2 : Blank s2) (h3 : Blank s3)
    (h4 : Blank s4) (hid : Trimmed ident) (g0 : Blank e0) (g1 : Blank e1) (g2 : Blank e2)
    (hbol : atBol pre = true) (heol : atEol post = true) :
    (findRegexp m).matchAt pre (beginText m s0 s1 s2 ident s3 s4 ++
        (endText m e0 e1 e2 ++ post)) =
      some (pre.length + (beginText m s0 s1 s2 ident s3 s4 ++ endText m e0 e1 e2).length,
        [(0, (pre.length, pre.length + (beginText m s0 s1 s2 ident s3 s4 ++
            endText m e0 e1 e2).length)),
         (4, (pre.length + (beginText m s0 s1 s2 ident s3 s4).length,
            pre.length + (beginText m s0 s1 s2 ident s3 s4).length +
              (endText m e0 e1 e2).length)),
         (3, (pre.length + (beginText m s0 s1 s2 ident s3 s4).length,
            pre.length + (beginText m s0 s1 s2 ident s3 s4).length)),
         (1, (pre.length, pre.length + (beginText m s0 s1 s2 ident s3 s4).length)),
         (2, (pre.length + (s0 ++ (m ++ (s1 ++ ("region CODE_REGION(".toList ++ s2)))).length,
            pre.length + (s0 ++ (m ++ (s1 ++ ("region CODE_REGION(".toList ++ s2)))).length +
              ident.length))]) := by
  have hpost : ∀ c cs, post = c :: cs → blank c = false := by
    intro c cs hc
    subst hc
    simp only [atEol, beq_iff_eq] at heol
    subst heol
    rfl
  have hE := endText_no_nl m e0 e1 e2 hm.2 g0 g1 g2
  have hrest : ∀ cs, endText m e0 e1 e2 ++ post ≠ '\n' :: cs := by
    intro cs h
    obtain ⟨⟨a, t, hmk, -⟩, -⟩ := hm
    cases he : endText m e0 e1 e2 with
    | nil =>
      have : m = [] := by
        have h5 := congrArg List.length he
        simp [endText] at h5
      rw [hmk] at this
      exact absurd this (by simp)
    | cons x xs =>
      rw [he] at h hE
      simp only [List.cons_append, List.cons.injEq] at h
      exact hE (by rw [h.1]; exact List.mem_cons_self _ _)
  unfold Re.matchAt
  rw [Re.run_grp]
  simp only [findRegexp, Re.seq]
  rw [Re.run_cat, run_bol, if_pos hbol, Re.run_cat, Re.run_grp]
  apply beginLine_run _ m s0 s1 s2 ident s3 s4 pre _ _ _ hm h0 h1 h2 h3 h4 hid
  intro pre1 i j hp1 hi hj
  have l1 := length_of_reverse_eq _ _ _ hp1
  rw [Re.run_cat, Re.run_grp]
  apply contentRe_run_empty _ _ _ _ _ hrest
  rw [Re.run_cat, Re.run_grp]
  apply endLine_run _ m e0 e1 e2 pre1 post _ _ hm g0 g1 g2 hpost
  intro pre3 hp3
  have l3 := length_of_reverse_eq _ _ _ hp3
  rw [run_eol, if_pos heol]
  simp only [Option.some.injEq, Prod.mk.injEq, List.cons.injEq,
    and_true]
  simp only [List.length_append] at l1 l3 hi hj ⊢
  refine ⟨?_, ⟨trivial, trivial, ?_⟩, ⟨trivial, ?_, ?_⟩, ⟨trivial, ?_, ?_⟩,
    ⟨trivial, trivial, ?_⟩, trivial, ?_, ?_⟩ <;> omega

/-- At the start of a well-formed region, between a line start and a line end, the pattern
of its mark matches the region, and the placeholder built from the match is the region. -/
theorem region_matchAt (r : Region) (hr : r.WellFormed) (pre post : List Char)
    (hbol : atBol pre = true) (heol : atEol post = true) :
    ∃ caps, (findRegexp r.mark).matchAt pre (r.toPlaceholder.Raw ++ post) =
        some (pre.length + r.toPlaceholder.Raw.length, caps) ∧
      ∀ data, data = pre.reverse ++ (r.toPlaceholder.Raw ++ post) →
        toPlaceholder r.mark data caps = r.toPlaceholder := by
  obtain ⟨hm, h0, h1, h2, h3, h4, hid, g0, g1, g2, hshape, -, hB⟩ := hr
  have hcontent : r.content = [] ∨ ∃ B, r.content = B ++ ['\n'] := by
    rcases hshape with h | h
    · exact Or.inl h
    · rcases List.eq_nil_or_concat' r.content with e | ⟨q, y, e⟩
      · exact Or.inl e
      · rw [e] at h
        simp only [List.getLast?_append, List.getLast?_singleton, Option.or_some,
          Option.some.injEq] at h
        exact Or.inr ⟨q, by rw [e, h]⟩
  rcases hcontent with hc | ⟨B, hc⟩
  · have h := findRegexp_matchAt_empty r.mark r.s0 r.s1 r.s2 r.ident r.s3 r.s4 r.e0 r.e1
      r.e2 pre post (goodMark_of_default _ hm) h0 h1 h2 h3 h4 hid g0 g1 g2 hbol heol
    refine ⟨[(0, (pre.length, pre.length + (beginText r.mark r.s0 r.s1 r.s2 r.ident r.s3 r.s4 ++
            endText r.mark r.e0 r.e1 r.e2).length)),
         (4, (pre.length + (beginText r.mark r.s0 r.s1 r.s2 r.ident r.s3 r.s4).length,
            pre.length + (beginText r.mark r.s0 r.s1 r.s2 r.ident r.s3 r.s4).length +
              (endText r.mark r.e0 r.e1 r.e2).length)),
         (3, (pre.length + (beginText r.mark r.s0 r.s1 r.s2 r.ident r.s3 r.s4).length,
            pre.length + (beginText r.mark r.s0 r.s1 r.s2 r.ident r.s3 r.s4).length)),
         (1, (pre.length, pre.length + (beginText r.mark r.s0 r.s1 r.s2 r.ident r.s3 r.s4).length)),
         (2, (pre.length + (r.s0 ++ (r.mark ++ (r.s1 ++
              ("region CODE_REGION(".toList ++ r.s2)))).length,
            pre.length + (r.s0 ++ (r.mark ++ (r.s1 ++
                ("region CODE_REGION(".toList ++ r.s2)))).length +
              r.ident.length))], ?_, ?_⟩
    · have e : r.toPlaceholder.Raw ++ post =
          beginText r.mark r.s0 r.s1 r.s2 r.ident r.s3 r.s4 ++
            (endText r.mark r.e0 r.e1 r.e2 ++ post) := by
        simp [Region.toPlaceholder, Region.Begin, Region.End, hc]
      rw [e, h]
      simp [Region.toPlaceholder, Region.Begin, Region.End, hc]
    · intro data hd
      refine (toPlaceholder_at r.mark data pre.reverse r.Begin
        (r.s0 ++ (r.mark ++ (r.s1 ++ ("region CODE_REGION(".toList ++ r.s2)))) r.ident
        (r.s3 ++ (')' :: (r.s4 ++ ['\n']))) [] r.End post _
        ?_ ?_ ?_ ?_ ?_ ?_ ?_).trans ?_
      · rw [hd]; simp [Region.toPlaceholder, hc]
      · simp [Region.Begin, beginText]
      · simp [List.lookup, Region.Begin, Region.End]
      · simp [List.lookup, Region.Begin, Region.End]
      · simp [List.lookup, Region.Begin, Region.End]
      · simp [List.lookup, Region.Begin, Region.End]
      · simp [List.lookup, Region.Begin, Region.End]
      · simp [Region.toPlaceholder, hc]
  · have hB1 : ¬ "endregion".toList <:+: B := by
      intro h
      apply hB
      rw [hc]
      exact h.trans (List.prefix_append B ['\n']).isInfix
    have h := findRegexp_matchAt_region r.mark r.s0 r.s1 r.s2 r.ident r.s3 r.s4 B r.e0 r.e1
      r.e2 pre post (goodMark_of_default _ hm) h0 h1 h2 h3 h4 hid g0 g1 g2 hB1 hbol heol
    refine ⟨[(0, (pre.length, pre.length + (beginText r.mark r.s0 r.s1 r.s2 r.ident r.s3 r.s4 ++
            ((B ++ ['\n']) ++ endText r.mark r.e0 r.e1 r.e2)).length)),
         (4, (pre.length + (beginText r.mark r.s0 r.s1 r.s2 r.ident r.s3 r.s4 ++
              (B ++ ['\n'])).length,
            pre.length + (beginText r.mark r.s0 r.s1 r.s2 r.ident r.s3 r.s4 ++
                (B ++ ['\n'])).length +
              (endText r.mark r.e0 r.e1 r.e2).length)),
         (3, (pre.length + (beginText r.mark r.s0 r.s1 r.s2 r.ident r.s3 r.s4).length,
            pre.length + (beginText r.mark r.s0 r.s1 r.s2 r.ident r.s3 r.s4).length +
              (B ++ ['\n']).length)),
         (1, (pre.length, pre.length + (beginText r.mark r.s0 r.s1 r.s2 r.ident r.s3 r.s4).length)),
         (2, (pre.length + (r.s0 ++ (r.mark ++ (r.s1 ++
              ("region CODE_REGION(".toList ++ r.s2)))).length,
            pre.length + (r.s0 ++ (r.mark ++ (r.s1 ++
                ("region CODE_REGION(".toList ++ r.s2)))).length +
              r.ident.length))], ?_, ?_⟩
    · have e : r.toPlaceholder.Raw ++ post =
          beginText r.mark r.s0 r.s1 r.s2 r.ident r.s3 r.s4 ++
            (B ++ '\n' :: (endText r.mark r.e0 r.e1 r.e2 ++ post)) := by
        simp [Region.toPlaceholder, Region.Begin, Region.End, hc]
      rw [e, h]
      simp [Region.toPlaceholder, Region.Begin, Region.End, hc]
    · intro data hd
      refine (toPlaceholder_at r.mark data pre.reverse r.Begin
        (r.s0 ++ (r.mark ++ (r.s1 ++ ("region CODE_REGION(".toList ++ r.s2)))) r.ident
        (r.s3 ++ (')' :: (r.s4 ++ ['\n']))) (B ++ ['\n']) r.End post _
        ?_ ?_ ?_ ?_ ?_ ?_ ?_).trans ?_
      · rw [hd]; simp [Region.toPlaceholder, hc]
      · simp [Region.Begin, beginText]
      · simp [List.lookup, Region.Begin, Region.End]
      · simp [List.lookup, Region.Begin, Region.End]
      · simp [List.lookup, Region.Begin, Region.End]
      · simp [List.lookup, Region.Begin, Region.End]
      · simp [List.lookup, Region.Begin, Region.End]
      · simp [Region.toPlaceholder, hc]

/-- Inside a well-formed region of another default mark, followed by the end of the buffer
or by a newline, the region pattern matches at no position. -/
theorem other_region_matchAt_none (m : List Char) (r : Region)
    (hm : m ∈ DefaultCodeSectionMarks) (hr : r.WellFormed) (hne : r.mark ≠ m)
    (w1 w2 post pre : List Char) (hsplit : r.toPlaceholder.Raw = w1 ++ w2)
    (hpost : post = [] ∨ ∃ p, post = '\n' :: p) :
    (findRegexp m).matchAt (w1.reverse ++ pre) (w2 ++ post) = none := by
  cases hmatch : (findRegexp m).matchAt (w1.reverse ++ pre) (w2 ++ post) with
  | none => rfl
  | some x =>
    exfalso
    obtain ⟨e, caps⟩ := x
    obtain ⟨hbol, ⟨t0, t1, Z, k0, k1, hform⟩, hnl, hline⟩ :=
      matchAt_begin_line m _ _ e caps hm hmatch
    obtain ⟨hm1, h0, h1, h2, h3, h4, hid, g0, g1, g2, hshape, hB, -⟩ := hr
    have gm := goodMark_of_default m hm
    have gm1 := goodMark_of_default r.mark hm1
    have hE := endText_no_nl r.mark r.e0 r.e1 r.e2 gm1.2 g0 g1 g2
    have hraw : r.toPlaceholder.Raw =
        beginText r.mark r.s0 r.s1 r.s2 r.ident r.s3 r.s4 ++
          (r.content ++ endText r.mark r.e0 r.e1 r.e2) := rfl
    rcases List.eq_nil_or_concat' w1 with rfl | ⟨q, y, rfl⟩
    · simp only [List.nil_append] at hsplit
      obtain ⟨⟨a, t, hmk, ha⟩, -⟩ := gm
      obtain ⟨⟨a1, u1, hmk1, ha1⟩, -⟩ := gm1
      have q1 : r.s0 ++ a1 :: (u1 ++ (r.s1 ++ ("region CODE_REGION(".toList ++ (r.s2 ++
            (r.ident ++ (r.s3 ++ (')' :: (r.s4 ++ ['\n']))) ++
              (r.content ++ endText r.mark r.e0 r.e1 r.e2 ++ post)))))) =
          t0 ++ a :: (t ++ (t1 ++ ("region CODE_REGION(".toList ++ Z))) := by
        have e1 : w2 ++ post = t0 ++ a :: (t ++ (t1 ++ ("region CODE_REGION(".toList ++ Z))) := by
          rw [hform, hmk]; simp
        rw [← e1, ← hsplit, hraw]
        simp only [beginText]
        rw [hmk1]
        simp
      obtain ⟨-, q2, q3⟩ := blank_split_unique _ _ _ _ _ _ h0 k0 ha1 ha q1
      subst q2
      have q4 : r.mark ++ (r.s1 ++ ("region CODE_REGION(".toList ++ (r.s2 ++
            (r.ident ++ (r.s3 ++ (')' :: (r.s4 ++ ['\n']))) ++
              (r.content ++ endText r.mark r.e0 r.e1 r.e2 ++ post))))) =
          m ++ (t1 ++ ("region CODE_REGION(".toList ++ Z)) := by
        rw [hmk]
        nth_rewrite 1 [hmk1]
        exact congrArg (List.cons a1) q3
      exact default_marks_clash r.mark m hm1 hm (fun e => hne e.symm) r.s1 t1 _ _ h1 k1 q4
    · have hy : y = '\n' := by
        simpa [atBol] using hbol
      subst hy
      obtain ⟨b0, hb0, hnl0⟩ := beginText_split r.mark r.s0 r.s1 r.s2 r.ident r.s3 r.s4 gm1.2
        h0 h1 h2 h3 h4 hid.1
      have hd2 : q ++ '\n' :: w2 =
          b0 ++ '\n' :: (r.content ++ endText r.mark r.e0 r.e1 r.e2) := by
        have := hsplit.symm.trans hraw
        rw [hb0] at this
        simpa using this
      have key : ∀ u v, u <:+: r.content → w2 = u ++ '\n' :: v → False := by
        intro u v hBu hru
        apply hB
        exact (hline u (v ++ post) (by rw [hru]; simp)).trans hBu
      have last : w2 = endText r.mark r.e0 r.e1 r.e2 → False := by
        intro hre
        rcases hpost with hp | ⟨p, hp⟩
        · apply hE
          rw [← hre]
          simpa [hp] using hnl
        · apply regionWord_not_in_endText r.mark r.e0 r.e1 r.e2 hm1 g0 g1 g2
          rw [← hre]
          exact hline w2 p (by rw [hp])
      have hcontent : r.content = [] ∨ ∃ B, r.content = B ++ ['\n'] := by
        rcases hshape with h | h
        · exact Or.inl h
        · rcases List.eq_nil_or_concat' r.content with e | ⟨q, y, e⟩
          · exact Or.inl e
          · rw [e] at h
            simp only [List.getLast?_append, List.getLast?_singleton, Option.or_some,
              Option.some.injEq] at h
            exact Or.inr ⟨q, by rw [e, h]⟩
      rcases hcontent with hc | ⟨B, hc⟩
      · rw [hc, List.nil_append] at hd2
        rcases first_nl_cases _ _ _ _ hnl0 hd2 with h | ⟨q1, h⟩
        · exact last h
        · exact hE (by rw [h]; simp)
      · have hd3 : q ++ '\n' :: w2 = b0 ++ '\n' :: (B ++ '\n' :: endText r.mark r.e0 r.e1 r.e2) := by
          rw [hd2, hc]; simp
        rcases first_nl_cases _ _ _ _ hnl0 hd3 with h | ⟨q1, h⟩
        · exact key B _ (by rw [hc]; exact (List.prefix_append B ['\n']).isInfix) h
        · rcases line_start_cases _ _ _ _ hE h.symm with h | ⟨a, u, ha, hu⟩
          · exact last h
          · exact key u _ (by
              rw [hc, ha]
              exact ⟨a, ['\n'], by simp⟩) hu

end placeholder

namespace placeholder
open regexp

theorem atBol_reverse_of_getLast (g pre : List Char) (h : g.getLast? = some '\n') :
    atBol (g.reverse ++ pre) = true := by
  rcases List.eq_nil_or_concat' g with rfl | ⟨q, y, rfl⟩
  · simp at h
  · simp only [List.getLast?_append, List.getLast?_singleton, Option.or_some,
      Option.some.injEq] at h
    subst h
    simp [atBol]

theorem atEol_of_head (g post : List Char) (h : g.head? = some '\n') :
    atEol (g ++ post) = true := by
  cases g with
  | nil => simp at h
  | cons c g =>
    simp only [List.head?_cons, Option.some.injEq] at h
    subst h
    simp [atEol]

theorem gap_ends_nl (g w1 w2 : List Char) (h : g.getLast? = some '\n') (hs : g = w1 ++ w2)
    (hw : w2 ≠ []) : ∃ u, w2 = u ++ ['\n'] := by
  rcases List.eq_nil_or_concat' w2 with rfl | ⟨q, y, rfl⟩
  · exact absurd rfl hw
  · subst hs
    rw [← List.append_assoc] at h
    simp only [List.getLast?_append, List.getLast?_singleton, Option.or_some,
      Option.some.injEq] at h
    exact ⟨q, by rw [h]⟩

/-- The scan steps over a gap that does not hold the text `region CODE_REGION(` and that ends
with a newline or ends the buffer. -/
theorem scan_gap (m : List Char) (hm : m ∈ DefaultCodeSectionMarks) (g rest pre : List Char)
    (pe : Bool) (hw : ¬ "region CODE_REGION(".toList <:+: g)
    (hcase : g.getLast? = some '\n' ∨ rest = []) :
    ∃ pe1, (findRegexp m).allMatchesAux (g ++ rest) 0 pe pre =
      (findRegexp m).allMatchesAux rest 0 pe1 (g.reverse ++ pre) := by
  apply Re.allMatchesAux_pass
  intro w1 w2 hs hne
  apply gap_matchAt_none m w2 rest _ hm
  · intro h
    apply hw
    rw [hs]
    exact h.trans (List.suffix_append w1 w2).isInfix
  · rcases hcase with h | h
    · exact Or.inl (gap_ends_nl g w1 w2 h hs hne)
    · exact Or.inr h

/-- The scan of the regions of a document for the mark `m` delivers the regions of that
mark, in the order of the document. -/
theorem scan_segments (m : List Char) (hm : m ∈ DefaultCodeSectionMarks) :
    ∀ (segs : List (Region × List Char)) (pre : List Char) (pe : Bool) (data : List Char),
      (∀ x ∈ segs, x.1.WellFormed) → TailOk segs → (segs ≠ [] → atBol pre = true) →
      data = pre.reverse ++ weave (fun t => t.Raw) (segments segs) →
      ((findRegexp m).allMatchesAux (weave (fun t => t.Raw) (segments segs)) 0 pe pre).map
          (toPlaceholder m data) =
        (segs.filter (fun x => x.1.mark = m)).map (fun x => x.1.toPlaceholder) := by
  intro segs
  induction segs with
  | nil =>
    intro pre pe data _ _ _ _
    have h := gap_matchAt_none m [] [] pre hm (by simp [regionWord_eq]) (Or.inr rfl)
    simp only [List.append_nil] at h
    simp [segments, weave, Re.allMatchesAux, h]
  | cons x rest ih =>
    obtain ⟨r, g⟩ := x
    intro pre pe data hwf htail hbol hdata
    have hr : r.WellFormed := hwf (r, g) (List.mem_cons_self _ _)
    have hwf1 : ∀ x ∈ rest, x.1.WellFormed := fun x hx => hwf x (List.mem_cons_of_mem _ hx)
    obtain ⟨hgW, hghead, hglast, htail1⟩ := htail
    have hbol0 := hbol (List.cons_ne_nil _ _)
    have hw : weave (fun t => t.Raw) (segments ((r, g) :: rest)) =
        r.toPlaceholder.Raw ++ (g ++ weave (fun t => t.Raw) (segments rest)) := rfl
    have heol : atEol (g ++ weave (fun t => t.Raw) (segments rest)) = true := by
      rcases hghead with ⟨h1, h2⟩ | h
      · subst h1; subst h2; rfl
      · exact atEol_of_head _ _ h
    have hcase : g.getLast? = some '\n' ∨ weave (fun t => t.Raw) (segments rest) = [] := by
      cases rest with
      | nil => exact Or.inr rfl
      | cons y ys => exact Or.inl (hglast (List.cons_ne_nil _ _))
    have hbol1 : rest ≠ [] → atBol (g.reverse ++ (r.toPlaceholder.Raw.reverse ++ pre)) = true :=
      fun h => atBol_reverse_of_getLast _ _ (hglast h)
    have hdata1 : data = (g.reverse ++ (r.toPlaceholder.Raw.reverse ++ pre)).reverse ++
        weave (fun t => t.Raw) (segments rest) := by
      rw [hdata, hw]; simp
    rw [hw]
    by_cases hmk : r.mark = m
    · obtain ⟨caps, hmatch, hph⟩ := region_matchAt r hr pre
        (g ++ weave (fun t => t.Raw) (segments rest)) hbol0 heol
      rw [hmk] at hmatch hph
      have hne : r.toPlaceholder.Raw ≠ [] := by
        simp [Region.toPlaceholder, Region.Begin, beginText]
      rw [Re.allMatchesAux_take _ _ _ _ _ caps hne hmatch]
      obtain ⟨pe1, hpass⟩ := scan_gap m hm g (weave (fun t => t.Raw) (segments rest))
        (r.toPlaceholder.Raw.reverse ++ pre) true hgW hcase
      rw [hpass, List.map_cons, ih _ pe1 data hwf1 htail1 hbol1 hdata1, hph data (by rw [hdata, hw])]
      simp [List.filter_cons, hmk]
    · obtain ⟨pe0, hpass0⟩ := Re.allMatchesAux_pass (findRegexp m) r.toPlaceholder.Raw
        (g ++ weave (fun t => t.Raw) (segments rest)) pre pe
        (fun w1 w2 hs _ => other_region_matchAt_none m r hm hr hmk w1 w2 _ pre hs (by
          cases hp : g ++ weave (fun t => t.Raw) (segments rest) with
          | nil => exact Or.inl rfl
          | cons c cs =>
            rw [hp] at heol
            have : c = '\n' := by simpa [atEol] using heol
            exact Or.inr ⟨cs, by rw [this]⟩))
      obtain ⟨pe1, hpass⟩ := scan_gap m hm g (weave (fun t => t.Raw) (segments rest))
        (r.toPlaceholder.Raw.reverse ++ pre) pe0 hgW hcase
      rw [hpass0, hpass, ih _ pe1 data hwf1 htail1 hbol1 hdata1]
      simp [List.filter_cons, hmk]

/-- The placeholders of the mark `m` in a document of well-formed regions: its regions of
that mark, in the order of the document. -/
theorem parsePlaceholders_docText (m : List Char) (hm : m ∈ DefaultCodeSectionMarks)
    (g0 : List Char) (segs : List (Region × List Char)) (hwf : ∀ x ∈ segs, x.1.WellFormed)
    (hhead : HeadOk g0 segs) (htail : TailOk segs) (hcr : '\r' ∉ docText g0 segs) :
    parsePlaceholders m (docText g0 segs) =
      (segs.filter (fun x => x.1.mark = m)).map (fun x => x.1.toPlaceholder) := by
  have e : crRemover (docText g0 segs) = docText g0 segs := crRemover_of_noCR _ hcr
  simp only [parsePlaceholders, e, Re.allMatches]
  have hcase : g0.getLast? = some '\n' ∨ weave (fun t => t.Raw) (segments segs) = [] ∨
      g0 = [] := by
    cases segs with
    | nil => exact Or.inr (Or.inl rfl)
    | cons y ys =>
      rcases hhead.2 (List.cons_ne_nil _ _) with h | h
      · exact Or.inr (Or.inr h)
      · exact Or.inl h
  have hbol : segs ≠ [] → atBol (g0.reverse ++ []) = true := by
    intro h
    rcases hhead.2 h with h1 | h1
    · subst h1; rfl
    · exact atBol_reverse_of_getLast _ _ h1
  have hstep : ∃ pe1, (findRegexp m).allMatchesAux (docText g0 segs) 0 false [] =
      (findRegexp m).allMatchesAux (weave (fun t => t.Raw) (segments segs)) 0 pe1
        (g0.reverse ++ []) := by
    rcases hcase with h | h | h
    · exact scan_gap m hm g0 _ [] false hhead.1 (Or.inl h)
    · exact scan_gap m hm g0 _ [] false hhead.1 (Or.inr h)
    · subst h; exact ⟨false, rfl⟩
  obtain ⟨pe1, hpass⟩ := hstep
  rw [hpass]
  exact scan_segments m hm segs _ pe1 _ hwf htail hbol (by simp [docText])

end placeholder

namespace placeholder
open regexp

/-- The placeholders of a document of well-formed regions: its regions, mark by mark. -/
theorem findAll_docText (g0 : List Char) (segs : List (Region × List Char))
    (hwf : ∀ x ∈ segs, x.1.WellFormed) (hhead : HeadOk g0 segs) (htail : TailOk segs)
    (hcr : '\r' ∉ docText g0 segs) :
    FindAll (docText g0 segs) =
      (segs.filter (fun x => x.1.mark = "//".toList)).map (fun x => x.1.toPlaceholder) ++
        ((segs.filter (fun x => x.1.mark = "#".toList)).map (fun x => x.1.toPlaceholder) ++
          (segs.filter (fun x => x.1.mark = "#pragma ".toList)).map
            (fun x => x.1.toPlaceholder)) := by
  rw [FindAll_eq, parsePlaceholders_docText _ (by decide) g0 segs hwf hhead htail hcr,
    parsePlaceholders_docText _ (by decide) g0 segs hwf hhead htail hcr,
    parsePlaceholders_docText _ (by decide) g0 segs hwf hhead htail hcr]

theorem mem_findAll_docText (g0 : List Char) (segs : List (Region × List Char))
    (hwf : ∀ x ∈ segs, x.1.WellFormed) (hhead : HeadOk g0 segs) (htail : TailOk segs)
    (hcr : '\r' ∉ docText g0 segs) (t : Placeholder) :
    t ∈ FindAll (docText g0 segs) ↔ ∃ x ∈ segs, x.1.toPlaceholder = t := by
  rw [findAll_docText g0 segs hwf hhead htail hcr]
  simp only [List.mem_append, List.mem_map, List.mem_filter, decide_eq_true_eq]
  constructor
  · rintro (⟨x, ⟨hx, -⟩, e⟩ | ⟨x, ⟨hx, -⟩, e⟩ | ⟨x, ⟨hx, -⟩, e⟩) <;> exact ⟨x, hx, e⟩
  · rintro ⟨x, hx, e⟩
    rcases (mem_defaultMarks x.1.mark).1 (hwf x hx).1 with h | h | h
    · exact Or.inl ⟨x, ⟨hx, h⟩, e⟩
    · exact Or.inr (Or.inl ⟨x, ⟨hx, h⟩, e⟩)
    · exact Or.inr (Or.inr ⟨x, ⟨hx, h⟩, e⟩)

theorem merge_ident (P : List Placeholder) (r : Region) : (r.merge P).ident = r.ident := by
  unfold Region.merge
  cases P.find? (fun p => p.Identifier = r.ident) <;> rfl

theorem merge_wellFormed (P : List Placeholder) (hP : ∀ p ∈ P, PlainContent p.Content)
    (r : Region) (hr : r.WellFormed) : (r.merge P).WellFormed := by
  unfold Region.merge
  cases hf : P.find? (fun p => p.Identifier = r.ident) with
  | none => exact hr
  | some p =>
    obtain ⟨hm, h0, h1, h2, h3, h4, hid, g0, g1, g2, -⟩ := hr
    exact ⟨hm, h0, h1, h2, h3, h4, hid, g0, g1, g2, hP p (List.mem_of_find?_eq_some hf)⟩

theorem merged_toPlaceholder (P : List Placeholder) (r : Region) :
    merged P r.toPlaceholder = (r.merge P).toPlaceholder.Raw := by
  unfold merged mergedOver Region.merge
  have e : r.toPlaceholder.Identifier = r.ident := rfl
  rw [e]
  cases P.find? (fun p => p.Identifier = r.ident) with
  | none => rfl
  | some p => simp [Region.toPlaceholder, Region.Begin, Region.End]

theorem tailOk_map (f : Region → Region) :
    ∀ (segs : List (Region × List Char)), TailOk segs →
      TailOk (segs.map (fun x => (f x.1, x.2))) := by
  intro segs
  induction segs with
  | nil => intro _; trivial
  | cons x rest ih =>
    obtain ⟨r, g⟩ := x
    intro h
    obtain ⟨a, b, c, d⟩ := h
    refine ⟨a, ?_, ?_, ih d⟩
    · rcases b with ⟨b1, b2⟩ | b
      · exact Or.inl ⟨b1, by rw [b2]; rfl⟩
      · exact Or.inr b
    · intro hne
      apply c
      intro e
      apply hne
      rw [e]
      rfl

theorem headOk_map (f : Region → Region) (g0 : List Char) (segs : List (Region × List Char))
    (h : HeadOk g0 segs) : HeadOk g0 (segs.map (fun x => (f x.1, x.2))) := by
  refine ⟨h.1, fun hne => h.2 ?_⟩
  intro e
  apply hne
  rw [e]
  rfl

theorem tailOk_gap :
    ∀ (segs : List (Region × List Char)), TailOk segs →
      ∀ l1 t g l2, segments segs = l1 ++ (t, g) :: l2 →
        (g = [] ∧ l2 = []) ∨ ∃ g1, g = '\n' :: g1 := by
  intro segs
  induction segs with
  | nil =>
    intro _ l1 t g l2 h
    simp [segments] at h
  | cons x rest ih =>
    obtain ⟨r, g⟩ := x
    intro htail l1 t g1 l2 h
    obtain ⟨-, b, -, d⟩ := htail
    cases l1 with
    | nil =>
      simp only [segments, List.map_cons, List.nil_append, List.cons.injEq, Prod.mk.injEq] at h
      obtain ⟨⟨-, hg⟩, hl⟩ := h
      subst hg
      rcases b with ⟨b1, b2⟩ | b
      · left
        refine ⟨b1, ?_⟩
        rw [← hl, b2]
        rfl
      · right
        cases g with
        | nil => simp at b
        | cons c cs =>
          simp only [List.head?_cons, Option.some.injEq] at b
          exact ⟨cs, by rw [b]⟩
    | cons y l1 =>
      simp only [segments, List.map_cons, List.cons_append, List.cons.injEq] at h
      exact ih d l1 t g1 l2 h.2

theorem regionWord_in_begin (r : Region) : "region CODE_REGION(".toList <:+: r.Begin :=
  ⟨r.s0 ++ (r.mark ++ r.s1), r.s2 ++ (r.ident ++ (r.s3 ++ (')' :: (r.s4 ++ ['\n'])))), by
    simp [Region.Begin, beginText]⟩

end placeholder

/-! ## Regeneration -/

namespace placeholder
open regexp

/-- The loop of `ReplaceAll` on a buffer of gaps and regions, the identifiers of the regions
not being distinct: each input placeholder rewrites the first region of the targets with its
identifier and nothing else. -/
theorem merge_fold_first (T : List Placeholder) (g0 : List Char)
    (segs : List (Placeholder × List Char)) (hT : ∀ t ∈ T, Shaped t)
    (hmem : ∀ t, t ∈ segs.map Prod.fst ↔ t ∈ T) (hnd : (segs.map Prod.fst).Nodup)
    (hgap : ∀ l1 t g l2, segs = l1 ++ (t, g) :: l2 → (g = [] ∧ l2 = []) ∨ ∃ g1, g = '\n' :: g1) :
    ∀ (ps : List Placeholder), ps.Pairwise (fun a b => a.Identifier ≠ b.Identifier) →
      (∀ p ∈ ps, ∀ u ∈ T, ¬ u.Begin <:+: p.Content) →
      ∀ (F : Placeholder → List Char),
        (∀ u ∈ T, (∃ p ∈ ps, p.Identifier = u.Identifier) →
          F u = u.Raw ∧ AtMostOnce u.Begin (g0 ++ weave F segs)) →
        ps.foldl (replaceOne T) (g0 ++ weave F segs) =
          g0 ++ weave (mergedFirst T ps F) segs := by
  intro ps
  induction ps with
  | nil =>
    intro _ _ F _
    rw [List.foldl_nil]
    congr 1
    apply weave_congr
    intro u _
    simp [mergedFirst, mergedOver]
  | cons p ps ih =>
    intro hpw hH2 F hV
    rw [List.pairwise_cons] at hpw
    rw [List.foldl_cons]
    have hH2' : ∀ q ∈ ps, ∀ u ∈ T, ¬ u.Begin <:+: q.Content :=
      fun q hq => hH2 q (List.mem_cons_of_mem _ hq)
    cases hf : T.find? (fun t => t.Identifier = p.Identifier) with
    | none =>
      have hstep : replaceOne T (g0 ++ weave F segs) p = g0 ++ weave F segs := by
        simp [replaceOne, hf]
      rw [hstep, ih hpw.2 hH2' F (fun u hu ⟨q, hq, hqu⟩ =>
        hV u hu ⟨q, List.mem_cons_of_mem _ hq, hqu⟩)]
      congr 1
      apply weave_congr
      intro u hu
      have huT := (hmem u).1 hu
      have hne : ¬ p.Identifier = u.Identifier := by
        have := List.find?_eq_none.1 hf u huT
        intro e
        exact this (by simpa using e.symm)
      simp [mergedFirst, mergedOver, List.find?_cons, hne]
    | some t =>
      have htT : t ∈ T := List.mem_of_find?_eq_some hf
      have htid : t.Identifier = p.Identifier := by
        have := List.find?_some hf
        simpa using this
      obtain ⟨hFt, hAM⟩ := hV t htT ⟨p, List.mem_cons_self _ _, htid.symm⟩
      have hin := (hmem t).2 htT
      rw [replaceOne_weave T g0 segs F p t hf (hT t htT) hin hnd hFt hAM]
      have hnot : ∀ q ∈ ps, ∀ u ∈ T, q.Identifier = u.Identifier → u ≠ t := by
        intro q hq u _ hqu e
        subst e
        exact hpw.1 q hq (by rw [← htid, hqu])
      rw [ih hpw.2 hH2' _ (by
        intro u huT ⟨q, hq, hqu⟩
        have hut := hnot q hq u huT hqu
        obtain ⟨hFu, hAMu⟩ := hV u huT ⟨q, List.mem_cons_of_mem _ hq, hqu⟩
        refine ⟨by simp [hut, hFu], ?_⟩
        obtain ⟨l1, g, l2, hsplit, hn1, hn2⟩ := split_of_mem_nodup segs t hin hnd
        rw [hsplit] at hAMu ⊢
        exact atMostOnce_after_replace g0 l1 l2 g F t u p.Content hn1 hn2 (hT t htT)
          (hT u huT) hFt (hgap l1 t g l2 hsplit)
          (hH2 p (List.mem_cons_self _ _) u huT) hAMu)]
      congr 1
      apply weave_congr
      intro u hu
      have huT := (hmem u).1 hu
      have hpred : ∀ v : Placeholder, v.Identifier = t.Identifier ↔
          v.Identifier = p.Identifier := fun v => by rw [htid]
      by_cases hfirst : T.find? (fun v => v.Identifier = u.Identifier) = some u
      · by_cases hpu : p.Identifier = u.Identifier
        · have hut : u = t := by
            have e : (fun v : Placeholder => decide (v.Identifier = u.Identifier)) =
                (fun v : Placeholder => decide (v.Identifier = p.Identifier)) := by
              funext v
              rw [hpu]
            rw [e, hf] at hfirst
            exact (Option.some.inj hfirst).symm
          subst hut
          have hnone : ps.find? (fun q => q.Identifier = u.Identifier) = none := by
            rw [List.find?_eq_none]
            intro q hq
            have := hpw.1 q hq
            simpa using fun e : q.Identifier = u.Identifier => this (by rw [e, htid])
          simp [mergedFirst, hfirst, mergedOver, List.find?_cons, hpu, hnone]
        · have hut : u ≠ t := fun e => hpu (by rw [e, htid])
          simp [mergedFirst, hfirst, mergedOver, List.find?_cons, hpu, hut]
      · have hut : u ≠ t := by
          intro e
          apply hfirst
          have e2 : (fun v : Placeholder => decide (v.Identifier = u.Identifier)) =
              (fun v : Placeholder => decide (v.Identifier = p.Identifier)) := by
            funext v
            rw [e, htid]
          rw [e2, hf, e]
        simp [mergedFirst, hfirst, hut]

theorem findAll_docText_byMark (g0 : List Char) (segs : List (Region × List Char))
    (hwf : ∀ x ∈ segs, x.1.WellFormed) (hhead : HeadOk g0 segs) (htail : TailOk segs)
    (hcr : '\r' ∉ docText g0 segs) :
    FindAll (docText g0 segs) = (byMark segs).map (fun x => x.1.toPlaceholder) := by
  rw [findAll_docText g0 segs hwf hhead htail hcr]
  simp [byMark]

theorem byMark_map (f : Region → Region) (hf : ∀ r, (f r).mark = r.mark)
    (segs : List (Region × List Char)) :
    byMark (segs.map (fun x => (f x.1, x.2))) = (byMark segs).map (fun x => (f x.1, x.2)) := by
  simp only [byMark, List.filter_map, List.map_append]
  have e : ∀ m : List Char, ((fun x : Region × List Char => decide (x.1.mark = m)) ∘
      fun x : Region × List Char => (f x.1, x.2)) =
      fun x : Region × List Char => decide (x.1.mark = m) := by
    intro m
    funext x
    simp [hf]
  simp only [e]

theorem merge_mark (P : List Placeholder) (r : Region) : (r.merge P).mark = r.mark := by
  unfold Region.merge
  cases P.find? (fun p => p.Identifier = r.ident) <;> rfl

theorem mergeFirst_mark (T P : List Placeholder) (r : Region) :
    (r.mergeFirst T P).mark = r.mark := by
  unfold Region.mergeFirst
  split
  · exact merge_mark P r
  · rfl

theorem mergeFirst_ident (T P : List Placeholder) (r : Region) :
    (r.mergeFirst T P).ident = r.ident := by
  unfold Region.mergeFirst
  split
  · exact merge_ident P r
  · rfl

theorem mergeFirst_wellFormed (T P : List Placeholder) (hP : ∀ p ∈ P, PlainContent p.Content)
    (r : Region) (hr : r.WellFormed) : (r.mergeFirst T P).WellFormed := by
  unfold Region.mergeFirst
  split
  · exact merge_wellFormed P hP r hr
  · exact hr

theorem mergedFirst_toPlaceholder (T P : List Placeholder) (r : Region) :
    mergedFirst T P (fun t => t.Raw) r.toPlaceholder = (r.mergeFirst T P).toPlaceholder.Raw := by
  unfold mergedFirst Region.mergeFirst
  have e : r.toPlaceholder.Identifier = r.ident := rfl
  rw [e]
  split
  · exact merged_toPlaceholder P r
  · rfl

theorem weave_mergedFirst (T P : List Placeholder) :
    ∀ (segs : List (Region × List Char)),
      weave (mergedFirst T P (fun t => t.Raw)) (segments segs) =
        weave (fun t => t.Raw) (segments (segs.map (fun x => (x.1.mergeFirst T P, x.2)))) := by
  intro segs
  induction segs with
  | nil => rfl
  | cons x rest ih =>
    obtain ⟨r, g⟩ := x
    simp only [segments, List.map_cons, weave] at ih ⊢
    rw [ih, mergedFirst_toPlaceholder]

/-- In a document in which the begin marker line of each region occurs once, no two regions
are the same placeholder. -/
theorem segments_nodup_of_once :
    ∀ (segs : List (Region × List Char)) (g0 : List Char),
      (∀ x ∈ segs, AtMostOnce x.1.Begin (docText g0 segs)) →
      ((segments segs).map Prod.fst).Nodup := by
  intro segs
  induction segs with
  | nil => intro _ _; exact List.nodup_nil
  | cons x rest ih =>
    obtain ⟨r, g⟩ := x
    intro g0 hone
    have hdoc : docText g0 ((r, g) :: rest) =
        docText (g0 ++ (r.toPlaceholder.Raw ++ g)) rest := by
      simp [docText, segments, weave]
    simp only [segments, List.map_cons, List.nodup_cons]
    constructor
    · intro hin
      obtain ⟨y, hy, hye⟩ := List.mem_map.1 hin
      obtain ⟨z, hz, rfl⟩ := List.mem_map.1 hy
      simp only at hye
      obtain ⟨l2, l3, hsplit⟩ := List.append_of_mem hz
      have hB : z.1.Begin = r.Begin := congrArg Placeholder.Begin hye
      have h1 : docText g0 ((r, g) :: rest) =
          g0 ++ (r.Begin ++ (r.content ++ (r.End ++ (g ++
            weave (fun t => t.Raw) (segments rest))))) := by
        simp [docText, segments, weave, Region.toPlaceholder]
      have h2 : docText g0 ((r, g) :: rest) =
          (g0 ++ (r.toPlaceholder.Raw ++ (g ++ weave (fun t => t.Raw) (segments l2)))) ++
            (r.Begin ++ (z.1.content ++ (z.1.End ++ (z.2 ++
              weave (fun t => t.Raw) (segments l3))))) := by
        rw [hsplit, ← hB]
        simp [docText, segments, weave, weave_append, Region.toPlaceholder]
      have hlen := congrArg List.length
        (hone (r, g) (List.mem_cons_self _ _) _ _ _ _ h1 h2)
      simp [Region.toPlaceholder, Region.Begin, beginText] at hlen
    · have := ih (g0 ++ (r.toPlaceholder.Raw ++ g)) (by
        intro x hx
        rw [← hdoc]
        exact hone x (List.mem_cons_of_mem _ hx))
      simpa [segments] using this

/-- The first pass over a document of well-formed regions rewrites, for each input
placeholder, the first region that `FindAll` lists with its identifier, and the second pass
leaves what the first pass wrote as it is. -/
theorem regeneration_first_text (g0 : List Char) (segs : List (Region × List Char))
    (P : List Placeholder) (hwf : ∀ x ∈ segs, x.1.WellFormed) (hhead : HeadOk g0 segs)
    (htail : TailOk segs) (hcr : '\r' ∉ docText g0 segs)
    (hone : ∀ x ∈ segs, AtMostOnce x.1.Begin (docText g0 segs))
    (hpw : P.Pairwise (fun a b => a.Identifier ≠ b.Identifier))
    (hplain : ∀ p ∈ P, PlainContent p.Content) (hPcr : ∀ p ∈ P, '\r' ∉ p.Content) :
    ReplaceAll (docText g0 segs) P =
        docText g0 (segs.map (fun x =>
          (x.1.mergeFirst (FindAll (docText g0 segs)) P, x.2))) ∧
      ReplaceAll (docText g0 (segs.map (fun x =>
          (x.1.mergeFirst (FindAll (docText g0 segs)) P, x.2)))) P =
        docText g0 (segs.map (fun x =>
          (x.1.mergeFirst (FindAll (docText g0 segs)) P, x.2))) := by
  have hmemT := mem_findAll_docText g0 segs hwf hhead htail hcr
  have hT := findAll_docText_byMark g0 segs hwf hhead htail hcr
  generalize hTdef : FindAll (docText g0 segs) = T at hmemT hT ⊢
  have pass1 : ReplaceAll (docText g0 segs) P =
      docText g0 (segs.map (fun x => (x.1.mergeFirst T P, x.2))) := by
    rw [ReplaceAll_eq, crRemover_of_noCR _ hcr, hTdef]
    have hfold := merge_fold_first T g0 (segments segs)
      (fun t ht => shaped_of_mem_FindAll (docText g0 segs) t (hTdef ▸ ht))
      (by
        intro t
        rw [hmemT t]
        simp [segments])
      (segments_nodup_of_once segs g0 hone)
      (tailOk_gap segs htail) P hpw
      (by
        intro p hp u hu hin
        obtain ⟨x, -, rfl⟩ := (hmemT u).1 hu
        exact (hplain p hp).2.1 ((regionWord_in_begin x.1).trans hin))
      (fun t => t.Raw)
      (by
        intro u hu _
        obtain ⟨x, hx, rfl⟩ := (hmemT u).1 hu
        exact ⟨rfl, hone x hx⟩)
    rw [weave_mergedFirst] at hfold
    exact hfold
  refine ⟨pass1, ?_⟩
  have hcrM : '\r' ∉ docText g0 (segs.map (fun x => (x.1.mergeFirst T P, x.2))) := by
    rw [← pass1]
    exact noCR_replaceAll _ _ hPcr
  have hwfM : ∀ x ∈ segs.map (fun x => (x.1.mergeFirst T P, x.2)), x.1.WellFormed := by
    intro x hx
    obtain ⟨y, hy, rfl⟩ := List.mem_map.1 hx
    exact mergeFirst_wellFormed T P hplain y.1 (hwf y hy)
  have hM := findAll_docText_byMark g0 _ hwfM (headOk_map _ g0 segs hhead)
    (tailOk_map _ segs htail) hcrM
  rw [byMark_map _ (mergeFirst_mark T P)] at hM
  apply replaceAll_fixed _ _ hcrM
  intro p hp t ht
  rw [hM, List.map_map, List.find?_map] at ht
  obtain ⟨x0, hx0, rfl⟩ := Option.map_eq_some'.1 ht
  have hid0 : x0.1.ident = p.Identifier := by
    have := List.find?_some hx0
    simpa [Region.toPlaceholder, mergeFirst_ident] using this
  have hfirst : T.find? (fun u => u.Identifier = x0.1.ident) = some x0.1.toPlaceholder := by
    rw [hT, List.find?_map, Option.map_eq_some']
    refine ⟨x0, ?_, rfl⟩
    have e : ((fun u : Placeholder => decide (u.Identifier = x0.1.ident)) ∘
        fun x : Region × List Char => x.1.toPlaceholder) =
        ((fun u : Placeholder => decide (u.Identifier = p.Identifier)) ∘
          ((fun x : Region × List Char => x.1.toPlaceholder) ∘
            fun x => (x.1.mergeFirst T P, x.2))) := by
      funext x
      simp [Region.toPlaceholder, mergeFirst_ident, hid0]
    rw [e]
    exact hx0
  show (x0.1.mergeFirst T P).content = p.Content
  unfold Region.mergeFirst
  rw [if_pos hfirst]
  unfold Region.merge
  cases hf : P.find? (fun q => q.Identifier = x0.1.ident) with
  | none =>
    exfalso
    have := List.find?_eq_none.1 hf p hp
    simp [hid0] at this
  | some q =>
    have hq := List.mem_of_find?_eq_some hf
    have hqid : q.Identifier = x0.1.ident := by
      have := List.find?_some hf
      simpa using this
    rw [eq_of_pairwise_identifier P hpw q hq p hp (by rw [hqid, hid0])]

/-- C4 (as amended): with the placeholders of a fresh render `R` whose identifiers are
pairwise distinct, a second render pass writes what the first pass wrote, in two cases.
When the file was absent and `R` is valid UTF-8 without carriage return, the first pass
writes `R` and `ReplaceAll(R, FindAll(R)) = R`. When the file existed with the bytes `E`,
and `E` (its carriage returns removed and each byte that is not valid UTF-8 replaced by
U+FFFD) is a head followed by well-formed regions with the gaps after them, where the head
and the gaps do not hold `region CODE_REGION(`, every region starts a line and ends a line,
the begin marker line of each region occurs once in `E`, and the contents of the regions and
of the placeholders of `R` are made of whole lines and hold neither `region CODE_REGION(`
nor `endregion`: the first pass writes `M = ReplaceAll(E, FindAll(R))`, which is `E` in which,
for each placeholder of `R`, the region that `FindAll(E)` lists first with its identifier has
the content of the placeholder, and `ReplaceAll(M, FindAll(R)) = M`. -/
theorem regeneration_idempotent (R : Buffer)
    (hpw : (Buffer.FindAll R).Pairwise (fun a b => a.Identifier ≠ b.Identifier)) :
    (∀ s, R = Buffer.ofText s → '\r' ∉ s → Buffer.ReplaceAll R (Buffer.FindAll R) = s) ∧
      ∀ (E : Buffer) (g0 : List Char) (segs : List (Region × List Char)),
        crRemover.Bytes E = docText g0 segs →
        (∀ x ∈ segs, x.1.WellFormed) → HeadOk g0 segs → TailOk segs →
        (∀ x ∈ segs, AtMostOnce x.1.Begin (docText g0 segs)) →
        (∀ p ∈ Buffer.FindAll R, PlainContent p.Content) →
        Buffer.ReplaceAll E (Buffer.FindAll R) =
            docText g0 (segs.map (fun x =>
              (x.1.mergeFirst (Buffer.FindAll E) (Buffer.FindAll R), x.2))) ∧
          Buffer.ReplaceAll (Buffer.ofText (Buffer.ReplaceAll E (Buffer.FindAll R)))
              (Buffer.FindAll R) =
            Buffer.ReplaceAll E (Buffer.FindAll R) := by
  constructor
  · intro s hs hcr
    rw [bufferReplaceAll_eq, bufferFindAll_eq, hs, crRemoverBytes_of_text s hcr]
    rw [bufferFindAll_eq, hs, crRemoverBytes_of_text s hcr] at hpw
    apply replaceAll_fixed _ _ hcr
    intro p hp t ht
    have hmem := List.mem_of_find?_eq_some ht
    have hid : t.Identifier = p.Identifier := by
      have := List.find?_some ht
      simpa using this
    rw [eq_of_pairwise_identifier _ hpw t hmem p hp hid]
  · intro E g0 segs hE hwf hhead htail hone hplain
    have hcr : '\r' ∉ docText g0 segs := by
      rw [← hE]
      exact noCR_crRemoverBytes E
    have hPcr : ∀ p ∈ Buffer.FindAll R, '\r' ∉ p.Content := by
      intro p hp
      rw [bufferFindAll_eq] at hp
      exact (noCR_of_mem_FindAll _ p hp).2.1
    obtain ⟨p1, p2⟩ := regeneration_first_text g0 segs (Buffer.FindAll R) hwf hhead htail hcr
      hone hpw hplain hPcr
    have hTE : Buffer.FindAll E = FindAll (docText g0 segs) := by
      rw [bufferFindAll_eq, hE]
    have e1 : Buffer.ReplaceAll E (Buffer.FindAll R) =
        docText g0 (segs.map (fun x =>
          (x.1.mergeFirst (Buffer.FindAll E) (Buffer.FindAll R), x.2))) := by
      rw [bufferReplaceAll_eq, hE, p1, hTE]
    refine ⟨e1, ?_⟩
    rw [e1, bufferReplaceAll_ofText, hTE, p2]

set_option maxRecDepth 4000 in
theorem regeneration_idempotent_witness :
    crRemover.Bytes samples.existingE = docText "h\n".toList samples.segsE ∧
      Buffer.ReplaceAll samples.existingE (Buffer.FindAll samples.renderedAC) =
        ("h\n# region CODE_REGION(A)\nk\n# endregion\n" ++
          "// region CODE_REGION(A)\nnew a\nmore\n// endregion\n\uFFFD\n" ++
          "  # region CODE_REGION(B)\n  # endregion\nt").toList ∧
      Buffer.ReplaceAll
          (Buffer.ofText (Buffer.ReplaceAll samples.existingE (Buffer.FindAll samples.renderedAC)))
          (Buffer.FindAll samples.renderedAC) =
        Buffer.ReplaceAll samples.existingE (Buffer.FindAll samples.renderedAC) :=
  have h := (regeneration_idempotent samples.renderedAC (by decide)).2 samples.existingE
    "h\n".toList samples.segsE (by decide)
    (by
      intro x hx
      simp only [samples.segsE, List.mem_cons, List.mem_singleton, List.not_mem_nil,
        or_false] at hx
      rcases hx with rfl | rfl | rfl
      · exact ⟨by decide, by decide, by decide, by decide, by decide, by decide,
          ⟨by decide, ⟨'A', [], rfl, rfl⟩, ⟨[], 'A', rfl, rfl⟩⟩, by decide, by decide,
          by decide, by decide⟩
      · exact ⟨by decide, by decide, by decide, by decide, by decide, by decide,
          ⟨by decide, ⟨'A', [], rfl, rfl⟩, ⟨[], 'A', rfl, rfl⟩⟩, by decide, by decide,
          by decide, by decide⟩
      · exact ⟨by decide, by decide, by decide, by decide, by decide, by decide,
          ⟨by decide, ⟨'B', [], rfl, rfl⟩, ⟨[], 'B', rfl, rfl⟩⟩, by decide, by decide,
          by decide, by decide⟩)
    ⟨by decide, fun _ => Or.inr (by decide)⟩
    ⟨by decide, Or.inr (by decide), fun _ => by decide,
      by decide, Or.inr (by decide), fun _ => by decide,
      by decide, Or.inr (by decide), fun h => absurd rfl h, trivial⟩
    (by
      intro x hx
      simp only [samples.segsE, List.mem_cons, List.mem_singleton, List.not_mem_nil,
        or_false] at hx
      rcases hx with rfl | rfl | rfl <;>
        exact atMostOnce_of_count _ _ (by decide))
    (by decide)
  ⟨by decide, h.1.trans (by decide), h.2⟩

end placeholder
